import Mathlib

/-!
# valve_utils: the KeyValues parser and tree (`src/kv.hpp`)

A shallow embedding of `valve::key_value` and `valve::kv_file`.

* A `std::string_view` is the list of its bytes (`Str`).
* A `const char*` into the NUL-terminated buffer `m_data.c_str()` is the list of bytes from
  that position up to the end of `m_data`; the terminating NUL is the empty list. Reading
  one position further is outside the buffer and is reported as `Outcome.undefined`.
* `std::unordered_map` with the case-insensitive hash and equality is an association list
  searched with `case_insensitive_equal`; `try_emplace` appends when no equal key is stored.
  The iteration order of the real container is unspecified; the model iterates in insertion
  order.
* A `key_value*` is the path of keys leading from `m_root` to the node.
* `m_line`, `m_start` and `m_text` only feed diagnostics and the bounds of the slice that
  `string()` returns; the model returns the slice itself and keeps no line counter.
-/

namespace valve

/-- The bytes of a `std::string_view`. -/
abbrev Str := List Char

/-- Branchless ascii tolower: `c + ( c >= 'A' && c <= 'Z' ) * 32`. -/
def tolower (c : Char) : Char :=
  if 'A' ≤ c ∧ c ≤ 'Z' then Char.ofNat (c.toNat + 32) else c

/-- ASCII upper-casing, the counterpart of `tolower` (not in the source; used to state the
lookup properties for `upper(K)`). -/
def toupper (c : Char) : Char :=
  if 'a' ≤ c ∧ c ≤ 'z' then Char.ofNat (c.toNat - 32) else c

/-- The loop of `case_insensitive_hash::operator()` (FNV-1a over the lowered bytes, in a
64-bit `size_t`). The byte enters the XOR as its code; where `char` is signed, a byte above
0x7f is sign-extended first, which leaves equal lowered keys with equal hashes all the same. -/
def case_insensitive_hash_loop : Nat → Str → Nat
  | hash, [] => hash
  | hash, c :: s =>
    case_insensitive_hash_loop (((hash ^^^ (tolower c).toNat) * 0x01000193) % 2 ^ 64) s

/-- The functor `case_insensitive_hash`. -/
def case_insensitive_hash (s : Str) : Nat :=
  case_insensitive_hash_loop 0x811c9dc5 s

/-- The functor `case_insensitive_equal`: equal sizes and equal bytes after `tolower`. -/
def case_insensitive_equal : Str → Str → Bool
  | [], [] => true
  | a :: as, b :: bs => if tolower a ≠ tolower b then false else case_insensitive_equal as bs
  | _, _ => false

mutual
/-- The class `key_value`: `m_key` and the variant `m_var`, whose alternative is `m_type`. -/
inductive key_value where
  | value (m_key : Str) (m_value : Str)
  | block (m_key : Str) (m_map : kv_map_t)
/-- The container `kv_map_t`, as the sequence of its `(key, key_value)` pairs. -/
inductive kv_map_t where
  | nil
  | cons (key : Str) (kv : key_value) (tail : kv_map_t)
end

/-- The enum `value_type`. -/
inductive value_type where
  | VALUE
  | BLOCK
deriving DecidableEq, Repr

namespace kv_map_t

/-- Builds a map from a list of pairs. -/
def ofList : List (Str × key_value) → kv_map_t
  | [] => nil
  | (k, v) :: t => cons k v (ofList t)

/-- The pairs of a map, in order. -/
def toList : kv_map_t → List (Str × key_value)
  | nil => []
  | cons k v t => (k, v) :: toList t

/-- The stored keys, in order. -/
def keys : kv_map_t → List Str
  | nil => []
  | cons k _ t => k :: keys t

/-- Lookup `kv_map_t::find`: the node stored under a key equal to `key`, if any. -/
def find : kv_map_t → Str → Option key_value
  | nil, _ => none
  | cons k v t, key => if case_insensitive_equal k key then some v else find t key

/-- Insertion `kv_map_t::try_emplace`: nothing changes when an equal key is stored. -/
def try_emplace : kv_map_t → Str → key_value → kv_map_t
  | nil, key, kv => cons key kv nil
  | cons k v t, key, kv =>
    if case_insensitive_equal k key then cons k v t else cons k v (try_emplace t key kv)

/-- Writes through the reference that `find` returns: the node stored under `key` becomes
`f` of itself. -/
def update : kv_map_t → Str → (key_value → key_value) → kv_map_t
  | nil, _, _ => nil
  | cons k v t, key, f =>
    if case_insensitive_equal k key then cons k (f v) t else cons k v (update t key f)

/-- Concatenation of two sequences of pairs. -/
def append : kv_map_t → kv_map_t → kv_map_t
  | nil, m => m
  | cons k v t, m => cons k v (append t m)

end kv_map_t

/-- A `key_value*`: the keys to follow from the root. -/
abbrev Ptr := List Str

namespace key_value

/-- The method `type()`. -/
def type : key_value → value_type
  | value _ _ => value_type.VALUE
  | block _ _ => value_type.BLOCK

/-- The stored `m_key`. -/
def key : key_value → Str
  | value k _ => k
  | block k _ => k

/-- The method `map()`: `std::get<kv_map_t>`, which throws on a scalar (`none`). -/
def map : key_value → Option kv_map_t
  | value _ _ => none
  | block _ m => some m

/-- The method `find`. -/
def find : key_value → Str → Option key_value
  | value _ _, _ => none
  | block _ m, key => m.find key

/-- The method `find_block`. -/
def find_block (kv : key_value) (key : Str) : Option key_value :=
  match kv.find key with
  | some (block k m) => some (block k m)
  | _ => none

/-- The method `find_value`. -/
def find_value (kv : key_value) (key : Str) : Option key_value :=
  match kv.find key with
  | some (value k v) => some (value k v)
  | _ => none

/-- The node a pointer designates. -/
def deref : key_value → Ptr → Option key_value
  | kv, [] => some kv
  | value _ _, _ :: _ => none
  | block _ m, seg :: p =>
    match m.find seg with
    | some c => deref c p
    | none => none

/-- Writes through a pointer: the designated node becomes `f` of itself. -/
def modify_at : key_value → Ptr → (key_value → key_value) → key_value
  | kv, [], f => f kv
  | value k v, _ :: _, _ => value k v
  | block k m, seg :: p, f => block k (m.update seg (fun c => modify_at c p f))

/-- The call `map( ).try_emplace( key, kv )` on a block. -/
def emplace : key_value → Str → key_value → key_value
  | value k v, _, _ => value k v
  | block k m, key, kv => block k (m.try_emplace key kv)

/-- The call `map( ).clear( )` on a block. -/
def clear : key_value → key_value
  | value k v => value k v
  | block k _ => block k kv_map_t.nil

end key_value

/-! ## `key_value::find_recursive` -/

/-- How a call of `find_recursive` ends. -/
inductive Lookup where
  /-- A pointer to a node was returned: the pointer and the node it designates. -/
  | found (p : Ptr) (kv : key_value)
  /-- The call returned `nullptr`. -/
  | not_found
  /-- `std::bad_variant_access`: `map()` was called on a scalar. -/
  | bad_variant_access
  /-- The iteration bound of the model was reached (never the case, see
  `find_recursive_total`). -/
  | out_of_fuel

mutual
/-- The number of blocks in a node, the node included. -/
def key_value.blocks : key_value → Nat
  | key_value.value _ _ => 0
  | key_value.block _ m => kv_map_t.blocks m + 1
/-- The number of blocks in the nodes of a map. -/
def kv_map_t.blocks : kv_map_t → Nat
  | kv_map_t.nil => 0
  | kv_map_t.cons _ v t => key_value.blocks v + kv_map_t.blocks t
end

/-- The `for` loop of `find_recursive` over the pairs of `map`, the map of the block at `p`:
the map of every child block is pushed on the stack (the head of the list is the top), each
with the pointer to its block. -/
def push_blocks (p : Ptr) : kv_map_t → List (Ptr × kv_map_t) → List (Ptr × kv_map_t)
  | kv_map_t.nil, stack => stack
  | kv_map_t.cons _ (key_value.value _ _) t, stack => push_blocks p t stack
  | kv_map_t.cons k (key_value.block _ m) t, stack => push_blocks p t ((p ++ [k], m) :: stack)

/-- The `while` loop of `find_recursive`, at most `fuel` iterations: the top map is popped
and searched; without a match its child blocks are pushed. -/
def find_recursive_loop : Nat → List (Ptr × kv_map_t) → Str → Lookup
  | 0, _, _ => Lookup.out_of_fuel
  | _ + 1, [], _ => Lookup.not_found
  | fuel + 1, (p, map) :: stack, key =>
    match map.find key with
    | some kv => Lookup.found (p ++ [key]) kv
    | none => find_recursive_loop fuel (push_blocks p map stack) key

/-- The method `find_recursive`. Every iteration pops one block and every block is pushed at
most once, so one more iteration than there are blocks is enough. -/
def key_value.find_recursive : key_value → Str → Lookup
  | key_value.value _ _, _ => Lookup.bad_variant_access
  | key_value.block _ m, key => find_recursive_loop (kv_map_t.blocks m + 2) [([], m)] key

/-! ## `kv_file::parser_t` -/

/-- The NUL byte. -/
def NUL : Char := Char.ofNat 0

/-- The method `peek`: `*m_current`. -/
def peek : List Char → Char
  | [] => NUL
  | c :: _ => c

/-- The method `is_end`. -/
def is_end (cur : List Char) : Bool := peek cur = NUL

/-- The method `advance`, at a position that is not the terminating NUL. -/
def advance : List Char → List Char
  | [] => []
  | _ :: t => t

/-- The method `peek_next`. -/
def peek_next (cur : List Char) : Char :=
  if is_end cur then NUL else peek (advance cur)

/-- The method `skip_whitespace`. -/
def skip_whitespace : List Char → List Char
  | [] => []
  | c :: t =>
    if c = ' ' ∨ c = '\r' ∨ c = '\t' ∨ c = '\n' then skip_whitespace t else c :: t

/-- The loop of `string()`: advances while not (`prev( ) != '\\'` and `peek( ) == '"'`) and
not `is_end( )`; returns the bytes passed and the position reached. -/
def string_loop : Char → List Char → Str × List Char
  | _, [] => ([], [])
  | prev, c :: t =>
    if (prev ≠ '\\' ∧ c = '"') ∨ c = NUL then ([], c :: t)
    else ((c :: (string_loop c t).1), (string_loop c t).2)

/-- The method `string()`, called with the cursor on the opening quote: the slice between
the quotes and the position after the closing quote, or `none` (unterminated). -/
def string (cur : List Char) : Option (Str × List Char) :=
  let r := string_loop (peek cur) (advance cur)
  if is_end r.2 then none
  else if peek r.2 = '"' then some (r.1, advance r.2)
  else none

/-- The loop `while ( m_parser.peek( ) != '\n' ) m_parser.advance( );` after a scalar
entry. It has no end test: without a newline ahead the cursor leaves the buffer (`none`). -/
def skip_conditional : List Char → Option (List Char)
  | [] => none
  | c :: t => if c = '\n' then some (c :: t) else skip_conditional t

/-- The loop `while ( peek( ) != '\n' && !is_end( ) ) advance( );` of a comment. -/
def skip_comment : List Char → List Char
  | [] => []
  | c :: t => if c = '\n' ∨ c = NUL then c :: t else skip_comment t

/-! ## `kv_file::parse` -/

/-- How a call of `parse` ends. -/
inductive Outcome where
  /-- Returned `ok`, leaving `m_root` as given. -/
  | returned (ok : Bool) (m_root : key_value)
  /-- `std::bad_variant_access` left `parse`: `map()` was called on a scalar. -/
  | bad_variant_access
  /-- Undefined behaviour: a read outside the buffer, or `top`/`pop` on an empty stack. -/
  | undefined
  /-- The iteration bound of the model was reached (never the case, see
  `parse_from_not_fuel`). -/
  | out_of_fuel

/-- The variables of `parse` between two iterations of its loop. -/
structure parse_state where
  m_current : List Char
  m_root : key_value
  scope : List Ptr

/-- One iteration either goes on or leaves `parse`. -/
inductive Step where
  | next (st : parse_state)
  | done (o : Outcome)

/-- The statements `key_value* parent = scope.top( ); parent->map( ).try_emplace( *key,
key_value{ *key, *value } );` that end the branch of a scalar entry; the loop goes on at
`cur`. -/
def emplace_value (key value : Str) (cur : List Char) (root : key_value) (scope : List Ptr) :
    Step :=
  match scope with
  | [] => Step.done Outcome.undefined
  | parent :: _ =>
    match root.deref parent with
    | none => Step.done Outcome.undefined
    | some (key_value.value _ _) => Step.done Outcome.bad_variant_access
    | some (key_value.block _ _) =>
      Step.next ⟨cur,
        root.modify_at parent (fun b => b.emplace key (key_value.value key value)), scope⟩

/-- The branch of a scalar entry: `key` has been read and the cursor is on the opening quote
of the value. A failed `string()` returns `false` and leaves `m_root` as it is. -/
def parse_value (key : Str) (cur : List Char) (root : key_value) (scope : List Ptr) : Step :=
  match string cur with
  | none => Step.done (Outcome.returned false root)
  | some (value, cur1) =>
    match skip_conditional cur1 with
    | none => Step.done Outcome.undefined
    | some cur2 => emplace_value key value cur2 root scope

/-- The branch of a block entry: `key` has been read and the cursor is on the brace. -/
def parse_block (key : Str) (cur : List Char) (root : key_value) (scope : List Ptr) : Step :=
  match scope with
  | [] => Step.done Outcome.undefined
  | parent :: _ =>
    match root.deref parent with
    | none => Step.done Outcome.undefined
    | some (key_value.value _ _) => Step.done Outcome.bad_variant_access
    | some (key_value.block _ m) =>
      match m.find key with
      | some _ => Step.next ⟨advance cur, root, (parent ++ [key]) :: scope⟩
      | none =>
        Step.next ⟨advance cur,
          root.modify_at parent (fun b => b.emplace key (key_value.block key kv_map_t.nil)),
          (parent ++ [key]) :: scope⟩

/-- One evaluation of the loop condition and, when it holds, of the loop body. -/
def parse_iter (st : parse_state) : Step :=
  let cur := skip_whitespace st.m_current
  if is_end cur then Step.done (Outcome.returned true st.m_root)
  else if peek cur = '"' then
    match string cur with
    | none => Step.done (Outcome.returned false st.m_root)
    | some (key, cur1) =>
      let cur2 := skip_whitespace cur1
      if peek cur2 = '"' then parse_value key cur2 st.m_root st.scope
      else if peek cur2 = '{' then parse_block key cur2 st.m_root st.scope
      else Step.next ⟨cur2, st.m_root, st.scope⟩
  else if peek cur = '/' ∧ peek_next cur = '/' then
    Step.next ⟨skip_comment cur, st.m_root, st.scope⟩
  else if peek cur = '}' then
    match st.scope with
    | [] => Step.done Outcome.undefined
    | _ :: scope => Step.next ⟨advance cur, st.m_root, scope⟩
  else Step.done (Outcome.returned false st.m_root.clear)

/-- The loop of `parse`, at most `fuel` iterations. -/
def parse_loop : Nat → parse_state → Outcome
  | 0, _ => Outcome.out_of_fuel
  | fuel + 1, st =>
    match parse_iter st with
    | Step.done o => o
    | Step.next st1 => parse_loop fuel st1

/-- The loop of `parse` from a given state. Every iteration that goes on moves the cursor
forward, so one more iteration than there are bytes ahead is enough. -/
def parse_from (st : parse_state) : Outcome :=
  parse_loop (st.m_current.length + 1) st

/-- The node `m_root{ "root" }` of a fresh `kv_file`. -/
def m_root_init : key_value := key_value.block "root".toList kv_map_t.nil

/-- The method `kv_file::parse` on the buffer `m_data` with the tree `m_root`: the map of the
root is cleared and the scope stack holds the root. -/
def kv_file.parse (m_data : List Char) (m_root : key_value) : Outcome :=
  parse_from ⟨m_data, m_root.clear, [[]]⟩

/-- Parsing with a fresh `kv_file`. -/
def parse (m_data : List Char) : Outcome :=
  kv_file.parse m_data m_root_init

/-! ## `kv_file::write` -/

/-- A quoted string, as `fmt::print` writes `\"{}\"`. -/
def quoted (s : Str) : Str := '"' :: (s ++ ['"'])

mutual
/-- The method `write_block`: the text written for the children of `block`. -/
def write_block : key_value → Nat → Str
  | key_value.value _ _, _ => []
  | key_value.block _ m, depth => write_map m depth
/-- The `for` loop of `write_block` over the pairs of the map. -/
def write_map : kv_map_t → Nat → Str
  | kv_map_t.nil, _ => []
  | kv_map_t.cons key (key_value.value _ v) t, depth =>
    List.replicate depth '\t' ++ quoted key ++ [' '] ++ quoted v ++ ['\n']
      ++ write_map t depth
  | kv_map_t.cons key (key_value.block k m) t, depth =>
    List.replicate depth '\t' ++ quoted key ++ ['\n'] ++ List.replicate depth '\t' ++ ['{', '\n']
      ++ write_block (key_value.block k m) (depth + 1)
      ++ List.replicate depth '\t' ++ ['}', '\n']
      ++ write_map t depth
end

/-- The method `kv_file::write`: the bytes written to the file. -/
def kv_file.write (m_root : key_value) : Str := write_block m_root 0

/-! ## `vpk.hpp`

* A `u8` is a natural number; the buffer `m_buffer` is the list of the bytes of the file.
* The pointer `i` into `m_buffer` is its offset; a read at or past the end of the buffer is
  outside it and is reported as undefined.
* The fields of the packed structs are read as little-endian integers (the layout on the
  hosts the code is written for).
* The file system is a function from paths to the bytes of the files that can be opened.
* `file_map_t` is an association list searched with `case_insensitive_equal`, which
  `vpk_file` defines with the same code as `key_value`; `try_emplace` appends.
* The `std::string_view` argument of `vpk_file::find` is a `string_view`: the bytes of the
  array from `data( )` on, with the length of the view, since `find` reads the C string at
  `data( )`.
-/

/-- A little-endian `u16` at the head of `l`. -/
def le16 (l : List Nat) : Nat := l.getD 0 0 + 256 * l.getD 1 0

/-- A little-endian `u32` at the head of `l`. -/
def le32 (l : List Nat) : Nat :=
  l.getD 0 0 + 256 * l.getD 1 0 + 65536 * l.getD 2 0 + 16777216 * l.getD 3 0

/-- The chars of a `std::string_view` over bytes of the buffer. -/
def to_chars (l : List Nat) : Str := l.map Char.ofNat

/-- The struct `vpk_entry_t`; `m_preload_bytes` holds the bytes that the view covers. -/
structure vpk_entry_t where
  m_pak_path : Str
  m_filename : Str
  m_archive_index : Nat
  m_data_offset : Nat
  m_data_size : Nat
  m_preload_bytes : List Nat
  m_preload_fullfile : Bool
deriving DecidableEq

/-- The container `file_map_t`, as the sequence of its pairs. -/
abbrev file_map_t := List (Str × vpk_entry_t)

/-- Lookup `file_map_t::find`. -/
def file_map_t.find : file_map_t → Str → Option vpk_entry_t
  | [], _ => none
  | (k, e) :: t, key => if case_insensitive_equal k key then some e else file_map_t.find t key

/-- The struct `vpk_dir_entry_t` (packed, 18 bytes). -/
structure vpk_dir_entry_t where
  CRC : Nat
  PreloadBytes : Nat
  ArchiveIndex : Nat
  EntryOffset : Nat
  EntryLength : Nat
  Terminator : Nat
deriving DecidableEq

/-- The fields of the `vpk_dir_entry_t` at the head of `l`, or `none` when fewer than
`sizeof( vpk_dir_entry_t )` bytes are left in the buffer. -/
def read_dir_entry (l : List Nat) : Option vpk_dir_entry_t :=
  if 18 ≤ l.length then
    some ⟨le32 l, le16 (l.drop 4), le16 (l.drop 6), le32 (l.drop 8), le32 (l.drop 12),
      le16 (l.drop 16)⟩
  else none

/-- The call `std::strlen` on the bytes from the pointer on; `none` when no NUL stands
before the end of the buffer. -/
def strlen : List Nat → Option Nat
  | [] => none
  | b :: t => if b = 0 then some 0 else (strlen t).map (fun n => n + 1)

/-- The lambda `read_string` of `load`: the string at `i` and the new value of `i`. -/
def read_string (buf : List Nat) (i : Nat) : Option (List Nat × Nat) :=
  match strlen (buf.drop i) with
  | none => none
  | some length => some ((buf.drop i).take length, i + length + 1)

/-- Where the control stands in the three nested loops of `load`: before an extension,
before a path of `file_ext`, or before a file name of `file_path` and `file_ext`. -/
inductive load_level where
  | ext
  | path (file_ext : List Nat)
  | name (file_ext file_path : List Nat)

/-- The variables of `load` between two reads of a string. -/
structure load_state where
  i : Nat
  level : load_level
  m_files : file_map_t

/-- How the loops of `load` end. -/
inductive LoopOutcome where
  /-- The outer loop ended, with the map as given. -/
  | finished (m_files : file_map_t)
  /-- A read outside the buffer. -/
  | undefined
  /-- The iteration bound of the model was reached (never the case, see `load_loop_fuel`). -/
  | out_of_fuel

/-- One read of a string either goes on or ends the loops. -/
inductive LoadStep where
  | next (st : load_state)
  | done (o : LoopOutcome)

/-- The body of the innermost loop after a non-empty `file_name` was read: `i` stands on the
`vpk_dir_entry_t`. A path that is already in the map is left (`continue`) right after
`i += sizeof( vpk_dir_entry_t )`. -/
def load_entry (buf : List Nat) (m_pak_path : Str) (file_ext file_path file_name : List Nat)
    (i : Nat) (m_files : file_map_t) : LoadStep :=
  let path : Str := to_chars file_path ++ ['/'] ++ to_chars file_name ++ ['.'] ++ to_chars file_ext
  match m_files.find path with
  | some _ => LoadStep.next ⟨i + 18, load_level.name file_ext file_path, m_files⟩
  | none =>
    match read_dir_entry (buf.drop i) with
    | none => LoadStep.done LoopOutcome.undefined
    | some vpk_entry =>
      if vpk_entry.PreloadBytes ≠ 0 then
        if i + 18 + vpk_entry.PreloadBytes ≤ buf.length then
          LoadStep.next ⟨i + 18 + vpk_entry.PreloadBytes, load_level.name file_ext file_path,
            m_files ++ [(path, ⟨m_pak_path, path, vpk_entry.ArchiveIndex, vpk_entry.EntryOffset,
              vpk_entry.EntryLength, (buf.drop (i + 18)).take vpk_entry.PreloadBytes,
              vpk_entry.EntryLength == 0⟩)]⟩
        else LoadStep.done LoopOutcome.undefined
      else
        LoadStep.next ⟨i + 18, load_level.name file_ext file_path,
          m_files ++ [(path, ⟨m_pak_path, path, vpk_entry.ArchiveIndex, vpk_entry.EntryOffset,
            vpk_entry.EntryLength, [], vpk_entry.EntryLength == 0⟩)]⟩

/-- One read of a string in the loops of `load`, with what follows it up to the next read.
Only the outer loop tests `i < tree_end`. -/
def load_step (buf : List Nat) (tree_end : Nat) (m_pak_path : Str) (st : load_state) :
    LoadStep :=
  match st.level with
  | load_level.ext =>
    if st.i < tree_end then
      match read_string buf st.i with
      | none => LoadStep.done LoopOutcome.undefined
      | some (file_ext, i1) =>
        if file_ext = [] then LoadStep.next ⟨i1, load_level.ext, st.m_files⟩
        else LoadStep.next ⟨i1, load_level.path file_ext, st.m_files⟩
    else LoadStep.done (LoopOutcome.finished st.m_files)
  | load_level.path file_ext =>
    match read_string buf st.i with
    | none => LoadStep.done LoopOutcome.undefined
    | some (file_path, i1) =>
      if file_path = [] then LoadStep.next ⟨i1, load_level.ext, st.m_files⟩
      else LoadStep.next ⟨i1, load_level.name file_ext file_path, st.m_files⟩
  | load_level.name file_ext file_path =>
    match read_string buf st.i with
    | none => LoadStep.done LoopOutcome.undefined
    | some (file_name, i1) =>
      if file_name = [] then LoadStep.next ⟨i1, load_level.path file_ext, st.m_files⟩
      else load_entry buf m_pak_path file_ext file_path file_name i1 st.m_files

/-- The loops of `load`, at most `fuel` reads of a string. -/
def load_loop (buf : List Nat) (tree_end : Nat) (m_pak_path : Str) :
    Nat → load_state → LoopOutcome
  | 0, _ => LoopOutcome.out_of_fuel
  | fuel + 1, st =>
    match load_step buf tree_end m_pak_path st with
    | LoadStep.done o => o
    | LoadStep.next st1 => load_loop buf tree_end m_pak_path fuel st1

/-- The loops of `load` from a given state. Every read that goes on starts inside the buffer
and moves `i` forward, so one more read than there are bytes ahead is enough. -/
def load_from (buf : List Nat) (tree_end : Nat) (m_pak_path : Str) (st : load_state) :
    LoopOutcome :=
  load_loop buf tree_end m_pak_path (buf.length - st.i + 1) st

/-- The class `vpk_file`. -/
structure vpk_file where
  m_pak_path : Str
  m_buffer : List Nat
  m_files : file_map_t

/-- A `vpk_file` on which nothing was loaded. -/
def vpk_file.fresh : vpk_file := ⟨[], [], []⟩

/-- How a call of `vpk_file::load` ends. -/
inductive LoadOutcome where
  /-- Returned `ok`, leaving the object as given. -/
  | returned (ok : Bool) (self : vpk_file)
  /-- A read outside the buffer. -/
  | undefined
  /-- The iteration bound of the model was reached (never the case). -/
  | out_of_fuel

/-- The method `vpk_file::load`. The header is read into a zeroed struct, so the fields that
a short file does not reach are 0; when the file is shorter than the header the stream has
failed and the second read leaves the resized buffer zeroed. -/
def vpk_file.load (fs : Str → Option (List Nat)) (file : Str) (self : vpk_file) :
    LoadOutcome :=
  match fs file with
  | none => LoadOutcome.returned false self
  | some content =>
    if le32 content ≠ 0x55aa1234 ∨ le32 (content.drop 4) ≠ 2 then
      LoadOutcome.returned false self
    else
      let m_buffer := if 28 ≤ content.length then content else List.replicate content.length 0
      match load_from m_buffer (28 + le32 (content.drop 8)) file
          ⟨28, load_level.ext, self.m_files⟩ with
      | LoopOutcome.finished m_files => LoadOutcome.returned true ⟨file, m_buffer, m_files⟩
      | LoopOutcome.undefined => LoadOutcome.undefined
      | LoopOutcome.out_of_fuel => LoadOutcome.out_of_fuel

/-- The argument `std::string_view file` of `vpk_file::find`: `memory` holds the bytes from
`file.data( )` to the end of the array that the view points into, `size` is the length of
the view. -/
structure string_view where
  memory : Str
  size : Nat

/-- The `std::string` that the constructor `std::string( const char* )` builds from a
pointer: the bytes before the first NUL, or `none` when the array ends before a NUL is met
(a read outside the array). -/
def c_str : Str → Option Str
  | [] => none
  | c :: t => if c = Char.ofNat 0 then some [] else (c_str t).map (fun s => c :: s)

/-- How a call of `vpk_file::find` ends. -/
inductive FindOutcome where
  /-- Returned the entry found, or `std::nullopt`. -/
  | returned (entry : Option vpk_entry_t)
  /-- A read outside the array of the view. -/
  | undefined

/-- The method `vpk_file::find`. The call `m_files.find( file.data( ) )` passes the pointer
`file.data( )`, from which the key is built as a C string: the key is the bytes from the
start of the view to the first NUL, whatever the length of the view. -/
def vpk_file.find (self : vpk_file) (file : string_view) : FindOutcome :=
  match c_str file.memory with
  | none => FindOutcome.undefined
  | some key => FindOutcome.returned (self.m_files.find key)

/-- The value `std::string::npos` of a 64-bit `size_t`. -/
def npos : Nat := 2 ^ 64 - 1

/-- The loop behind `find_last_of( c )`: the index of the last `c` met so far. -/
def find_last_of_loop (c : Char) : Str → Nat → Nat → Nat
  | [], _, last => last
  | x :: t, i, last => find_last_of_loop c t (i + 1) (if x = c then i else last)

/-- The call `std::string_view::find_last_of( c )`: the index of the last `c`, or `npos`. -/
def find_last_of (s : Str) (c : Char) : Nat := find_last_of_loop c s 0 npos

/-- The format `{:03}` of `fmt`: the decimal digits, left-padded with zeros to width 3. -/
def format_03 (n : Nat) : Str :=
  List.replicate (3 - (Nat.toDigits 10 n).length) '0' ++ Nat.toDigits 10 n

/-- The path of the archive file that `get_data` opens: `m_pak_path` up to three bytes
before its last dot (in `size_t` arithmetic), then `{:03}` of the index and `.vpk`. -/
def vpk_entry_t.archive_path (e : vpk_entry_t) : Str :=
  e.m_pak_path.take ((find_last_of e.m_pak_path '.' + 2 ^ 64 - 3) % 2 ^ 64)
    ++ format_03 e.m_archive_index ++ ".vpk".toList

/-- The calls `in.seekg( offset ); in.read( dst, size )` into zeroed bytes: the bytes of the
file from `offset` on, at most `size`, then the zeros that a short read leaves. -/
def read_at (content : List Nat) (offset size : Nat) : List Nat :=
  (content.drop offset).take size ++
    List.replicate (size - ((content.drop offset).take size).length) 0

/-- The method `vpk_entry_t::get_data`; `none` is `std::nullopt`. -/
def vpk_entry_t.get_data (e : vpk_entry_t) (fs : Str → Option (List Nat)) :
    Option (List Nat) :=
  if e.m_preload_fullfile then some e.m_preload_bytes
  else
    match fs e.archive_path with
    | none => none
    | some content => some (e.m_preload_bytes ++ read_at content e.m_data_offset e.m_data_size)

/-! ## `csgo.hpp`

The classes `language` and `items_game` work on a parsed tree. The tree is not changed after
`language::load`, so the pointer `m_tokens` is held as the node it designates.
`items_game::flatten_item_prefabs` changes the maps of the items of `m_block` only, and is a
function of the node `m_block`. A call may throw `std::bad_variant_access`, leave defined
behaviour (a `nullptr` is dereferenced) or never return. -/

/-- How a call ends. -/
inductive Run (α : Type) where
  /-- The call returned. -/
  | returned (a : α)
  /-- `std::bad_variant_access` left the call: `map()` was called on a scalar, or `value()`
  on a block. -/
  | bad_variant_access
  /-- Undefined behaviour: a `nullptr` was dereferenced. -/
  | undefined
  /-- The iteration bound of the model was reached. -/
  | out_of_fuel

/-- What follows a call that returned; every other end is passed on. -/
def Run.bind {α β : Type} : Run α → (α → Run β) → Run β
  | Run.returned a, f => f a
  | Run.bad_variant_access, _ => Run.bad_variant_access
  | Run.undefined, _ => Run.undefined
  | Run.out_of_fuel, _ => Run.out_of_fuel

/-- The method `value()`: `std::get<std::string_view>`, which throws on a block (`none`). -/
def key_value.get_value : key_value → Option Str
  | key_value.value _ v => some v
  | key_value.block _ _ => none

/-- The members of `language`; `m_tokens` is `none` for `nullptr`. -/
structure language where
  m_kv_file : key_value
  m_tokens : Option key_value

/-- The call `get_token( key )`, whose `fallback` is `nullptr`. -/
def language.get_token_nullptr (self : language) (key : Str) : Run Str :=
  if key = [] then Run.returned []
  else
    match self.m_tokens with
    | none => Run.undefined
    | some m_tokens =>
      match m_tokens.find_value (if key.head? = some '#' then key.drop 1 else key) with
      | some result =>
        match result.get_value with
        | some v => Run.returned v
        | none => Run.bad_variant_access
      | none => Run.returned []

/-- The method `language::get_token( key, fallback )`; `none` is `nullptr`. The call
`fallback->get_token( key )` is made with the key as it is then, after the `#` was cut. -/
def language.get_token (self : language) (key : Str) (fallback : Option language) : Run Str :=
  if key = [] then Run.returned []
  else
    match self.m_tokens with
    | none => Run.undefined
    | some m_tokens =>
      match m_tokens.find_value (if key.head? = some '#' then key.drop 1 else key),
        fallback with
      | none, some fallback =>
        fallback.get_token_nullptr (if key.head? = some '#' then key.drop 1 else key)
      | some result, _ =>
        match result.get_value with
        | some v => Run.returned v
        | none => Run.bad_variant_access
      | none, none => Run.returned []

/-- The lambda `fix_prefab_value`: `value.find( "valve " ) == 0` holds exactly when `value`
starts with `valve `. -/
def fix_prefab_value (value : Str) : Str :=
  if "valve ".toList.isPrefixOf value then value.drop 6 else value

/-- The call `dst.insert( src.begin( ), src.end( ) )`: the pairs of `src` are inserted one
after the other, each unless an equal key is stored. -/
def kv_map_t.insert_range : kv_map_t → kv_map_t → kv_map_t
  | dst, kv_map_t.nil => dst
  | dst, kv_map_t.cons k v t => kv_map_t.insert_range (dst.try_emplace k v) t

/-- The body of the loop over the pairs `[k, v]` of `prefab_block->map( )`: a block that
`find_recursive` finds in `temp_kv` takes the pairs of `v.map( )`; otherwise the pair is
inserted in the map of `temp_kv`. -/
def flatten_field (temp_kv : key_value) (k : Str) (v : key_value) : Run key_value :=
  match temp_kv.find_recursive k with
  | Lookup.found result (key_value.block _ _) =>
    match v.map with
    | none => Run.bad_variant_access
    | some vm =>
      Run.returned (temp_kv.modify_at result (fun r =>
        match r with
        | key_value.block rk rm => key_value.block rk (rm.insert_range vm)
        | key_value.value rk rv => key_value.value rk rv))
  | Lookup.found _ (key_value.value _ _) => Run.returned (temp_kv.emplace k v)
  | Lookup.not_found => Run.returned (temp_kv.emplace k v)
  | Lookup.bad_variant_access => Run.bad_variant_access
  | Lookup.out_of_fuel => Run.out_of_fuel

/-- The loop over the pairs of `prefab_block->map( )`. -/
def flatten_fields : key_value → kv_map_t → Run key_value
  | temp_kv, kv_map_t.nil => Run.returned temp_kv
  | temp_kv, kv_map_t.cons k v t => (flatten_field temp_kv k v).bind (fun temp1 =>
      flatten_fields temp1 t)

/-- The loop over the chain of prefabs, at most `fuel` of them: the loop ends when
`prefab_block` is `nullptr` (`none`) and after a block without a scalar `prefab`. -/
def flatten_chain (prefabs : key_value) : Nat → Option key_value → key_value → Run key_value
  | _, none, temp_kv => Run.returned temp_kv
  | 0, some _, _ => Run.out_of_fuel
  | fuel + 1, some prefab_block, temp_kv =>
    match prefab_block.map with
    | none => Run.bad_variant_access
    | some m =>
      (flatten_fields temp_kv m).bind (fun temp1 =>
        match prefab_block.find_value "prefab".toList with
        | none => Run.returned temp1
        | some prefab_value =>
          match prefab_value.get_value with
          | none => Run.bad_variant_access
          | some value =>
            flatten_chain prefabs fuel (prefabs.find_block (fix_prefab_value value)) temp1)

/-- The body of the loop over the items, for the item `block`: with a scalar `prefab`, the
map of `temp_kv` becomes a copy of the map of the item, the chain is followed, and the maps
of the item and of `temp_kv` are swapped. `prefabs` is `none` for `nullptr`. -/
def flatten_item (prefabs : Option key_value) (fuel : Nat) (block : key_value) :
    Run key_value :=
  match block.find_value "prefab".toList with
  | none => Run.returned block
  | some prefab_value =>
    match block with
    | key_value.value _ _ => Run.bad_variant_access
    | key_value.block bk bm =>
      match prefabs with
      | none => Run.undefined
      | some prefabs =>
        match prefab_value.get_value with
        | none => Run.bad_variant_access
        | some value =>
          (flatten_chain prefabs fuel (prefabs.find_block (fix_prefab_value value))
            (key_value.block "temp_kv".toList (kv_map_t.nil.insert_range bm))).bind
            (fun temp_kv =>
              match temp_kv.map with
              | none => Run.bad_variant_access
              | some tm => Run.returned (key_value.block bk tm))

/-- The loop over the items, in the order of the map of `items`. -/
def flatten_items (prefabs : Option key_value) (fuel : Nat) : kv_map_t → Run kv_map_t
  | kv_map_t.nil => Run.returned kv_map_t.nil
  | kv_map_t.cons k i t => (flatten_item prefabs fuel i).bind (fun i1 =>
      (flatten_items prefabs fuel t).bind (fun t1 => Run.returned (kv_map_t.cons k i1 t1)))

/-- The method `items_game::flatten_item_prefabs` on the node `m_block`, each chain followed
for at most `fuel` prefabs. `items( )` wraps `m_block->find( "items" )` and the loop starts
with `map( ).begin( )` of that node, whatever it is. -/
def items_game.flatten_item_prefabs (fuel : Nat) (m_block : key_value) : Run key_value :=
  match m_block.find "items".toList with
  | none => Run.undefined
  | some (key_value.value _ _) => Run.bad_variant_access
  | some (key_value.block _ im) =>
    (flatten_items (m_block.find "prefabs".toList) fuel im).bind (fun im1 =>
      Run.returned (m_block.modify_at ["items".toList] (fun items =>
        match items with
        | key_value.block ik _ => key_value.block ik im1
        | key_value.value ik iv => key_value.value ik iv)))

/-! ## `csgo.hpp`: `text_file`

The bytes of `m_buffer` are numbers below 256, a `char16_t` is a number below `2 ^ 16` and a
`char32_t` a number below `2 ^ 32`. -/

/-- The method `utf16_le_bom`: at least two bytes, and the `u16` at the start of the buffer
(little-endian) is `0xFEFF`. -/
def utf16_le_bom (m_buffer : List Nat) : Bool :=
  decide (2 ≤ m_buffer.length) && decide (le16 m_buffer = 0xFEFF)

/-- The `char16_t` units that the bytes hold, two bytes each, little-endian. -/
def u16_units : List Nat → List Nat
  | a :: b :: t => (a + 256 * b) :: u16_units t
  | _ => []

/-- The loop of `convert_utf16_to_utf32` from the unit at hand on, with the value of
`high_surrogate`. -/
def convert_utf16_to_utf32_loop : Nat → List Nat → List Nat
  | _, [] => []
  | high_surrogate, u :: t =>
    if u < 0xD800 ∨ u > 0xDFFF then u :: convert_utf16_to_utf32_loop high_surrogate t
    else if u &&& 0xFC00 = 0xD800 then convert_utf16_to_utf32_loop u t
    else if high_surrogate ≠ 0 then
      if u &&& 0xFC00 = 0xDC00 then
        (((high_surrogate &&& 0x3FF) <<< 10) + (u &&& 0x3FF) + 0x10000) ::
          convert_utf16_to_utf32_loop 0 t
      else convert_utf16_to_utf32_loop 0 t
    else convert_utf16_to_utf32_loop high_surrogate t

/-- The method `convert_utf16_to_utf32`. -/
def convert_utf16_to_utf32 (utf16 : List Nat) : List Nat :=
  convert_utf16_to_utf32_loop 0 utf16

/-- The bytes that one iteration of the loop of `convert_utf32_to_utf8` appends for the
`char32_t` `c`; `% 256` is the cast to `char`. -/
def utf8_push (c : Nat) : List Nat :=
  if c ≤ 0x7F then [c % 256]
  else if c ≤ 0x7FF then
    [(0xC0 ||| ((c >>> 6) &&& 0x1F)) % 256, (0x80 ||| (c &&& 0x3F)) % 256]
  else if c ≤ 0xFFFF then
    [(0xE0 ||| ((c >>> 12) &&& 0xF)) % 256, (0x80 ||| ((c >>> 6) &&& 0x3F)) % 256,
      (0x80 ||| (c &&& 0x3F)) % 256]
  else if c ≤ 0x10FFFF then
    [(0xF0 ||| ((c >>> 18) &&& 0x7)) % 256, (0x80 ||| ((c >>> 12) &&& 0x3F)) % 256,
      (0x80 ||| ((c >>> 6) &&& 0x3F)) % 256, (0x80 ||| (c &&& 0x3F)) % 256]
  else []

/-- The method `convert_utf32_to_utf8`. -/
def convert_utf32_to_utf8 : List Nat → List Nat
  | [] => []
  | c :: t => utf8_push c ++ convert_utf32_to_utf8 t

/-- The method `convert_utf16_to_utf8`: the new value of `m_buffer`. The view starts after
the byte order mark, if there is one, and has `( size - skip_amount ) / 2` units. -/
def convert_utf16_to_utf8 (m_buffer : List Nat) : List Nat :=
  convert_utf32_to_utf8 (convert_utf16_to_utf32
    ((u16_units (m_buffer.drop (if utf16_le_bom m_buffer then 2 else 0))).take
      ((m_buffer.length - (if utf16_le_bom m_buffer then 2 else 0)) / 2)))

/-! ## `csgo.hpp`: `load` -/

/-- The text that `load_impl` hands to the `kv_file`: `lang_txt.load( str )` copies the
text, and `convert_utf16_to_utf8` is called when it starts with the byte order mark. -/
def language.load_text (str : List Char) : List Char :=
  if utf16_le_bom (str.map Char.toNat) then
    to_chars (convert_utf16_to_utf8 (str.map Char.toNat))
  else str

/-- The method `language::load( std::string_view )`, that is `load_impl`: the text is
parsed in a new `kv_file` and `m_tokens` becomes the block `Tokens` of the block `lang`.
The result is what `load` returns and the object after the call. When `parse` fails
`m_tokens` is not assigned. -/
def language.load (str : List Char) (self : language) : Run (Bool × language) :=
  match parse (language.load_text str) with
  | Outcome.returned false m_root => Run.returned (false, ⟨m_root, self.m_tokens⟩)
  | Outcome.returned true m_root =>
    match m_root.find_block "lang".toList with
    | none => Run.returned (false, ⟨m_root, none⟩)
    | some lang =>
      match lang.find_block "Tokens".toList with
      | none => Run.returned (false, ⟨m_root, none⟩)
      | some m_tokens => Run.returned (true, ⟨m_root, some m_tokens⟩)
  | Outcome.bad_variant_access => Run.bad_variant_access
  | Outcome.undefined => Run.undefined
  | Outcome.out_of_fuel => Run.out_of_fuel

/-- The members of `items_game`: the root of `m_kv_file` and the pointer `m_block` into it,
`none` for `nullptr`. -/
structure items_game where
  m_kv_file : key_value
  m_block : Option Ptr

/-- The method `items_game::load( std::string_view )`: `m_kv_file.load( str )` copies and
parses the text, `m_block` becomes the block `items_game` of the root, and the prefabs are
flattened in place, each chain followed for at most `fuel` prefabs. The result is what
`load` returns and the object after the call. -/
def items_game.load (fuel : Nat) (str : List Char) (self : items_game) :
    Run (Bool × items_game) :=
  match kv_file.parse str self.m_kv_file with
  | Outcome.returned false m_root => Run.returned (false, ⟨m_root, self.m_block⟩)
  | Outcome.returned true m_root =>
    match m_root.find_block "items_game".toList with
    | none => Run.returned (false, ⟨m_root, none⟩)
    | some m_block =>
      (items_game.flatten_item_prefabs fuel m_block).bind (fun m_block1 =>
        Run.returned (true, ⟨m_root.modify_at ["items_game".toList] (fun _ => m_block1),
          some ["items_game".toList]⟩))
  | Outcome.bad_variant_access => Run.bad_variant_access
  | Outcome.undefined => Run.undefined
  | Outcome.out_of_fuel => Run.out_of_fuel

/-! ## Vocabulary of the statements -/

/-- The bytes that `skip_whitespace` passes. -/
def is_whitespace (c : Char) : Bool := c = ' ' ∨ c = '\r' ∨ c = '\t' ∨ c = '\n'

/-- Whether the scan of `string()`, started after the byte `prev`, passes all of `s` and
stops at a quote placed after it: `s` has no NUL, no quote other than after a backslash, and
no backslash at its end. -/
def quotable_from : Char → Str → Bool
  | prev, [] => prev ≠ '\\'
  | prev, c :: t => !(decide ((prev ≠ '\\' ∧ c = '"') ∨ c = NUL)) && quotable_from c t

/-- The strings that `string()` reads back from between two quotes. -/
def quotable (s : Str) : Bool := quotable_from '"' s

/-- No two stored keys are equal for `case_insensitive_equal`, as in every
`std::unordered_map`. -/
def kv_map_t.distinct : kv_map_t → Bool
  | kv_map_t.nil => true
  | kv_map_t.cons k _ t => (t.find k).isNone && kv_map_t.distinct t

mutual
/-- The shape of the nodes that `parse` builds: a scalar value is `quotable`, the map of a
block is `kv_map_t.wf`. -/
def key_value.wf : key_value → Bool
  | key_value.value _ v => quotable v
  | key_value.block _ m => kv_map_t.wf m
/-- The shape of the maps that `parse` builds: every pair is stored under the `m_key` of its
node, that key is `quotable`, and no two keys are equal for `case_insensitive_equal`. -/
def kv_map_t.wf : kv_map_t → Bool
  | kv_map_t.nil => true
  | kv_map_t.cons key kv t =>
    decide (kv.key = key) && quotable key && key_value.wf kv && (t.find key).isNone
      && kv_map_t.wf t
end

/-- The same pairs, enumerated in another order, in the map and in the maps of its blocks.
The order in which `std::unordered_map` enumerates its pairs is unspecified. -/
inductive kv_map_t.reordered : kv_map_t → kv_map_t → Prop where
  | nil : kv_map_t.reordered kv_map_t.nil kv_map_t.nil
  | scalar (key k v : Str) {t t1 : kv_map_t} : kv_map_t.reordered t t1 →
      kv_map_t.reordered (kv_map_t.cons key (key_value.value k v) t)
        (kv_map_t.cons key (key_value.value k v) t1)
  | block (key k : Str) {m m1 t t1 : kv_map_t} : kv_map_t.reordered m m1 →
      kv_map_t.reordered t t1 →
      kv_map_t.reordered (kv_map_t.cons key (key_value.block k m) t)
        (kv_map_t.cons key (key_value.block k m1) t1)
  | swap (k1 : Str) (v1 : key_value) (k2 : Str) (v2 : key_value) (t : kv_map_t) :
      kv_map_t.reordered (kv_map_t.cons k1 v1 (kv_map_t.cons k2 v2 t))
        (kv_map_t.cons k2 v2 (kv_map_t.cons k1 v1 t))
  | trans {a b c : kv_map_t} : kv_map_t.reordered a b → kv_map_t.reordered b c →
      kv_map_t.reordered a c

/-- The same node, up to the order in which the maps enumerate their pairs: the same keys in
every block, the same nesting and the same scalar values. -/
def key_value.reordered : key_value → key_value → Prop
  | key_value.value k v, key_value.value k1 v1 => k = k1 ∧ v = v1
  | key_value.block k m, key_value.block k1 m1 => k = k1 ∧ kv_map_t.reordered m m1
  | _, _ => False

/-- Every node of `a` is still in `b`, at the same place: a scalar with the same key and
value, a block as a block with the same key. -/
def key_value.preserved_in (a b : key_value) : Prop :=
  ∀ p : Ptr,
    (∀ k v, a.deref p = some (key_value.value k v) → b.deref p = some (key_value.value k v)) ∧
    (∀ k m, a.deref p = some (key_value.block k m) →
      ∃ m1, b.deref p = some (key_value.block k m1))

/-- The state after `n` iterations of the loop of `parse`, when all of them go on. -/
def parse_steps : Nat → parse_state → Option parse_state
  | 0, st => some st
  | n + 1, st =>
    match parse_iter st with
    | Step.next st1 => parse_steps n st1
    | Step.done _ => none

mutual
/-- Depth-first search for `key` in the node at `p`: the map of the block itself first, then
its child blocks, the one enumerated last first, each with all its descendants before the
next. -/
def depth_first : Ptr → key_value → Str → Option (Ptr × key_value)
  | _, key_value.value _ _, _ => none
  | p, key_value.block _ m, key =>
    match m.find key with
    | some kv => some (p ++ [key], kv)
    | none => depth_first_children p m key
/-- Depth-first search in the child blocks of a map, from the last pair to the first. -/
def depth_first_children : Ptr → kv_map_t → Str → Option (Ptr × key_value)
  | _, kv_map_t.nil, _ => none
  | p, kv_map_t.cons k v t, key =>
    match depth_first_children p t key with
    | some r => some r
    | none => depth_first (p ++ [k]) v key
end

/-- The result of `find_recursive` for the result of a search. -/
def Lookup.ofOption : Option (Ptr × key_value) → Lookup
  | some (p, kv) => Lookup.found p kv
  | none => Lookup.not_found

mutual
/-- No two keys of a map are equal for `case_insensitive_equal`, in the node and in every
block below it, as in every `std::unordered_map`. -/
def key_value.unique : key_value → Bool
  | key_value.value _ _ => true
  | key_value.block _ m => kv_map_t.unique m
/-- No two keys of a map are equal for `case_insensitive_equal`, in the map and below. -/
def kv_map_t.unique : kv_map_t → Bool
  | kv_map_t.nil => true
  | kv_map_t.cons k v t => (t.find k).isNone && key_value.unique v && kv_map_t.unique t
end

mutual
/-- Every pair is stored under the `m_key` of its node, in the node and below. -/
def key_value.keyed : key_value → Bool
  | key_value.value _ _ => true
  | key_value.block _ m => kv_map_t.keyed m
/-- Every pair is stored under the `m_key` of its node, in the map and below. -/
def kv_map_t.keyed : kv_map_t → Bool
  | kv_map_t.nil => true
  | kv_map_t.cons k v t => decide (v.key = k) && key_value.keyed v && kv_map_t.keyed t
end

/-- A file system that holds one file. -/
def one_file (path : Str) (content : List Nat) : Str → Option (List Nat) :=
  fun p => if p = path then some content else none

/-- The bytes of a string literal. -/
def to_bytes (s : String) : List Nat := s.toList.map Char.toNat

/-- A leaf of a directory tree: the file name, the fields of its record and its preload
bytes (whose number is the record's `preload_bytes`). -/
structure vpk_leaf where
  name : List Nat
  crc : Nat
  archive_index : Nat
  entry_offset : Nat
  entry_length : Nat
  terminator : Nat
  preload : List Nat
deriving DecidableEq

/-- The two bytes of a little-endian `u16`. -/
def put16 (n : Nat) : List Nat := [n % 256, n / 256 % 256]

/-- The four bytes of a little-endian `u32`. -/
def put32 (n : Nat) : List Nat := [n % 256, n / 256 % 256, n / 65536 % 256, n / 16777216 % 256]

/-- The bytes of a leaf: the null-terminated file name, the 18-byte record (`crc`,
`preload_bytes`, `archive_index`, `entry_offset`, `entry_length`, `terminator`), then the
preload bytes. -/
def encode_leaf (l : vpk_leaf) : List Nat :=
  l.name ++ [0] ++ (put32 l.crc ++ put16 l.preload.length ++ put16 l.archive_index
    ++ put32 l.entry_offset ++ put32 l.entry_length ++ put16 l.terminator) ++ l.preload

/-- The bytes of the leaves of one path, closed by an empty string. -/
def encode_names : List vpk_leaf → List Nat
  | [] => [0]
  | l :: ls => encode_leaf l ++ encode_names ls

/-- The bytes of the paths of one extension, each a null-terminated path and its leaves,
closed by an empty string. -/
def encode_paths : List (List Nat × List vpk_leaf) → List Nat
  | [] => [0]
  | (path, ls) :: ps => path ++ [0] ++ encode_names ls ++ encode_paths ps

/-- The bytes of a directory tree: each extension null-terminated and followed by its paths,
closed by an empty string. -/
def encode_tree : List (List Nat × List (List Nat × List vpk_leaf)) → List Nat
  | [] => [0]
  | (ext, ps) :: es => ext ++ [0] ++ encode_paths ps ++ encode_tree es

/-- The 28 bytes of a version 2 header with the given tree size and other section sizes. -/
def encode_header (tree_size s4 s5 s6 s7 : Nat) : List Nat :=
  put32 0x55aa1234 ++ put32 2 ++ put32 tree_size ++ put32 s4 ++ put32 s5 ++ put32 s6 ++ put32 s7

/-- The virtual path `path/filename.extension` of a leaf. -/
def virtual_path (ext path : List Nat) (l : vpk_leaf) : Str :=
  to_chars path ++ ['/'] ++ to_chars l.name ++ ['.'] ++ to_chars ext

/-- The pair that a leaf contributes to the map. -/
def leaf_entry (m_pak_path : Str) (ext path : List Nat) (l : vpk_leaf) : Str × vpk_entry_t :=
  (virtual_path ext path l, ⟨m_pak_path, virtual_path ext path l, l.archive_index,
    l.entry_offset, l.entry_length, l.preload, l.entry_length == 0⟩)

/-- The pairs of the leaves of a path, in order. -/
def names_entries (m_pak_path : Str) (ext path : List Nat) (ls : List vpk_leaf) : file_map_t :=
  ls.map (leaf_entry m_pak_path ext path)

/-- The pairs of the leaves of an extension, in order. -/
def paths_entries (m_pak_path : Str) (ext : List Nat) :
    List (List Nat × List vpk_leaf) → file_map_t
  | [] => []
  | (path, ls) :: ps => names_entries m_pak_path ext path ls ++ paths_entries m_pak_path ext ps

/-- The pairs of the leaves of a tree, in order. -/
def tree_entries (m_pak_path : Str) :
    List (List Nat × List (List Nat × List vpk_leaf)) → file_map_t
  | [] => []
  | (ext, ps) :: es => paths_entries m_pak_path ext ps ++ tree_entries m_pak_path es

/-- The bytes of a directory file that holds a version 2 header and the tree, with no other
section. -/
def vpk_image (t : List (List Nat × List (List Nat × List vpk_leaf))) : List Nat :=
  encode_header (encode_tree t).length 0 0 0 0 ++ encode_tree t

/-- A string of the tree: not empty and without a NUL byte. -/
def wf_name (s : List Nat) : Bool := s ≠ [] && s.all (fun b => b ≠ 0)

/-- A leaf whose fields fit their widths. -/
def wf_leaf (l : vpk_leaf) : Bool :=
  wf_name l.name && decide (l.crc < 2 ^ 32) && decide (l.archive_index < 2 ^ 16)
    && decide (l.entry_offset < 2 ^ 32) && decide (l.entry_length < 2 ^ 32)
    && decide (l.terminator < 2 ^ 16) && decide (l.preload.length < 2 ^ 16)

/-- A well-formed tree: its strings are not empty and have no NUL, its fields fit. -/
def wf_tree (t : List (List Nat × List (List Nat × List vpk_leaf))) : Bool :=
  t.all (fun e => wf_name e.1 && e.2.all (fun p => wf_name p.1 && p.2.all wf_leaf))

/-- The keys of a map are pairwise different for `case_insensitive_equal`. -/
def file_map_t.distinct : file_map_t → Bool
  | [] => true
  | (k, _) :: t => (file_map_t.find t k).isNone && file_map_t.distinct t

/-- A scalar pair `"k" "v"` of a map. -/
def kv_scalar (k v : String) : Str × key_value :=
  (k.toList, key_value.value k.toList v.toList)

/-- A block pair `"k" { children }` of a map. -/
def kv_block (k : String) (children : List (Str × key_value)) : Str × key_value :=
  (k.toList, key_value.block k.toList (kv_map_t.ofList children))

/-- The root node with the given children. -/
def kv_root (children : List (Str × key_value)) : key_value :=
  key_value.block "root".toList (kv_map_t.ofList children)

/-- The key with one leading `#` removed, if it has one. -/
def strip_hash : Str → Str
  | '#' :: t => t
  | key => key

/-- The text of a scalar node that a lookup found, the empty text otherwise. -/
def text_of : Option key_value → Str
  | some (key_value.value _ v) => v
  | _ => []

/-- A language whose token table is the block `Tokens` of the block `lang`, as `load` sets
it up, with the given pairs in the table. -/
def language_of (tokens : List (Str × key_value)) : language :=
  ⟨key_value.block "root".toList (kv_map_t.ofList [("lang".toList,
      key_value.block "lang".toList (kv_map_t.ofList [("Tokens".toList,
        key_value.block "Tokens".toList (kv_map_t.ofList tokens))]))]),
    some (key_value.block "Tokens".toList (kv_map_t.ofList tokens))⟩

/-- The block node `"k" { children }`. -/
def kv_node (k : String) (children : List (Str × key_value)) : key_value :=
  key_value.block k.toList (kv_map_t.ofList children)

/-- The chain of prefabs that starts with the lookup of `name` in `prefabs`, at most `n` of
them: each name that is looked up, after `fix_prefab_value`, with the block that
`find_block` returns for it. The chain ends at a name without a block and after a block
without a scalar `prefab`. -/
def prefab_chain (prefabs : key_value) : Nat → Str → List (Str × key_value)
  | 0, _ => []
  | n + 1, name =>
    match prefabs.find_block name with
    | none => []
    | some b =>
      (name, b) ::
        match b.find_value "prefab".toList with
        | some (key_value.value _ value) => prefab_chain prefabs n (fix_prefab_value value)
        | _ => []

/-- The fields of the given prefab blocks, merged into `temp_kv` block after block, each
block once. -/
def flatten_blocks : key_value → List key_value → Run key_value
  | temp_kv, [] => Run.returned temp_kv
  | temp_kv, b :: bs =>
    match b.map with
    | none => Run.bad_variant_access
    | some m => (flatten_fields temp_kv m).bind (fun temp1 => flatten_blocks temp1 bs)

/-- Following the `prefab` fields from `name` never comes back to a prefab block: no two
names of the chain are equal for `case_insensitive_equal`, so no two of them find the same
block. -/
def acyclic_from (prefabs : key_value) (name : Str) : Prop :=
  ∀ n, ((prefab_chain prefabs n name).map Prod.fst).Pairwise
    (fun a b => case_insensitive_equal a b = false)

/-- The number of pairs in the node that `prefabs` points to. -/
def prefab_count : Option key_value → Nat
  | some (key_value.block _ m) => m.keys.length
  | _ => 0

mutual
/-- Whether a key equal to `key` is stored in the map of the node or in a block below it. -/
def key_value.has_key : key_value → Str → Bool
  | key_value.value _ _, _ => false
  | key_value.block _ m, key => (m.find key).isSome || kv_map_t.has_key_below m key
/-- Whether a key equal to `key` is stored in one of the blocks of the map or below. -/
def kv_map_t.has_key_below : kv_map_t → Str → Bool
  | kv_map_t.nil, _ => false
  | kv_map_t.cons _ v t, key => key_value.has_key v key || kv_map_t.has_key_below t key
end

/-- The keys of the fields of a node, the keys of its own map. -/
def key_value.fields : key_value → List Str
  | key_value.value _ _ => []
  | key_value.block _ m => m.keys

/-- Whether a key equal to `key` is stored below the top level of the node, in a block of
its map or deeper. -/
def key_value.nested_key : key_value → Str → Bool
  | key_value.value _ _, _ => false
  | key_value.block _ m, key => m.has_key_below key

/-- The field keys of the prefab blocks are top-level keys only: none of them is stored
below the top level of the item or of one of the prefab blocks. The recursive search of
`flatten_item_prefabs` for such a key then ends in the map of the scratch block itself. -/
def flat (item : key_value) (blocks : List key_value) : Prop :=
  ∀ b ∈ blocks, ∀ k ∈ b.fields,
    item.nested_key k = false ∧ ∀ b1 ∈ blocks, b1.nested_key k = false

/-- The node `n` is the node `v` up to children gained: a scalar is the same scalar, a block
is a block with the same `m_key` in which every child of `v` is found unchanged. -/
def key_value.grown : key_value → key_value → Prop
  | key_value.value a c, n => n = key_value.value a c
  | key_value.block a m, n =>
    ∃ m1, n = key_value.block a m1 ∧ ∀ c cn, m.find c = some cn → m1.find c = some cn

/-- The scalar with its value replaced by `w`; a block is left as it is. -/
def set_value (w : Str) : key_value → key_value
  | key_value.value k _ => key_value.value k w
  | key_value.block a m => key_value.block a m

/-- The node with the value of its scalar `prefab` replaced by `w`; a node without a scalar
`prefab` is left as it is. -/
def with_prefab (w : Str) : key_value → key_value
  | key_value.value a b => key_value.value a b
  | key_value.block bk bm => key_value.block bk (bm.update "prefab".toList (set_value w))

/-- A code unit of the high-surrogate range `D800..DBFF`. -/
def is_high_surrogate (u : Nat) : Bool := decide (0xD800 ≤ u) && decide (u ≤ 0xDBFF)

/-- A code unit of the low-surrogate range `DC00..DFFF`. -/
def is_low_surrogate (u : Nat) : Bool := decide (0xDC00 ≤ u) && decide (u ≤ 0xDFFF)

/-- Well-formed UTF-16: 16-bit code units in which every high surrogate is immediately
followed by a low surrogate and no low surrogate stands elsewhere. -/
def well_formed_utf16 : List Nat → Bool
  | [] => true
  | [u] => decide (u < 0x10000) && !is_high_surrogate u && !is_low_surrogate u
  | h :: l :: t =>
    if is_high_surrogate h then is_low_surrogate l && well_formed_utf16 t
    else decide (h < 0x10000) && !is_low_surrogate h && well_formed_utf16 (l :: t)

/-- The code points that a well-formed sequence of UTF-16 code units stands for. -/
def utf16_code_points : List Nat → List Nat
  | [] => []
  | [u] => [u]
  | h :: l :: t =>
    if is_high_surrogate h then
      (0x10000 + (h - 0xD800) * 1024 + (l - 0xDC00)) :: utf16_code_points t
    else h :: utf16_code_points (l :: t)

/-- The bytes of a sequence of 16-bit code units, each unit low byte first. -/
def utf16le_bytes : List Nat → List Nat
  | [] => []
  | u :: t => u % 256 :: u / 256 :: utf16le_bytes t

/-- The standard UTF-8 encoding of one code point, in arithmetic form. -/
def utf8_encode (cp : Nat) : List Nat :=
  if cp < 0x80 then [cp]
  else if cp < 0x800 then [0xC0 + cp / 64, 0x80 + cp % 64]
  else if cp < 0x10000 then [0xE0 + cp / 4096, 0x80 + cp / 64 % 64, 0x80 + cp % 64]
  else [0xF0 + cp / 262144, 0x80 + cp / 4096 % 64, 0x80 + cp / 64 % 64, 0x80 + cp % 64]

/-- The standard UTF-8 encoding of a sequence of code points. -/
def utf8_string : List Nat → List Nat
  | [] => []
  | cp :: t => utf8_encode cp ++ utf8_string t

/-! # Properties -/

/-! ## Characters and keys -/

theorem char_le_iff (a b : Char) : a ≤ b ↔ a.toNat ≤ b.toNat := by
  rw [Char.le_def]
  exact UInt32.le_def

theorem toNat_ofNat_small (n : Nat) (h : n < 0xd800) : (Char.ofNat n).toNat = n := by
  have hv : n.isValidChar := Or.inl h
  simp only [Char.ofNat, dif_pos hv, Char.ofNatAux, Char.toNat]
  show (UInt32.ofNat' n _).toNat = n
  rfl

theorem tolower_idem (c : Char) : tolower (tolower c) = tolower c := by
  unfold tolower
  by_cases h : 'A' ≤ c ∧ c ≤ 'Z'
  · rw [if_pos h]
    rw [char_le_iff, char_le_iff] at h
    have h1 : ('A' : Char).toNat = 65 := rfl
    have h2 : ('Z' : Char).toNat = 90 := rfl
    rw [h1, h2] at h
    have h3 := toNat_ofNat_small (c.toNat + 32) (by omega)
    rw [if_neg]
    rw [char_le_iff, char_le_iff, h3, h1, h2]
    omega
  · rw [if_neg h, if_neg h]

theorem tolower_toupper (c : Char) : tolower (toupper c) = tolower c := by
  unfold toupper
  by_cases h : 'a' ≤ c ∧ c ≤ 'z'
  · rw [if_pos h]
    rw [char_le_iff, char_le_iff] at h
    have h1 : ('a' : Char).toNat = 97 := rfl
    have h2 : ('z' : Char).toNat = 122 := rfl
    have h4 : ('A' : Char).toNat = 65 := rfl
    have h5 : ('Z' : Char).toNat = 90 := rfl
    rw [h1, h2] at h
    have h3 := toNat_ofNat_small (c.toNat - 32) (by omega)
    unfold tolower
    rw [if_pos, if_neg, h3]
    · have : c.toNat - 32 + 32 = c.toNat := by omega
      rw [this, Char.ofNat_toNat]
    · rw [char_le_iff, char_le_iff, h4, h5]; omega
    · rw [char_le_iff, char_le_iff, h3, h4, h5]; omega
  · rw [if_neg h]

theorem case_insensitive_equal_iff (a b : Str) :
    case_insensitive_equal a b = true ↔ a.map tolower = b.map tolower := by
  induction a generalizing b with
  | nil => cases b <;> simp [case_insensitive_equal]
  | cons x xs ih =>
    cases b with
    | nil => simp [case_insensitive_equal]
    | cons y ys =>
      simp only [case_insensitive_equal, List.map_cons, List.cons.injEq]
      by_cases hxy : tolower x = tolower y
      · simp [hxy, ih]
      · simp [hxy]

theorem kv_map_induction {P : kv_map_t → Prop} (hnil : P kv_map_t.nil)
    (hcons : ∀ k v t, P t → P (kv_map_t.cons k v t)) : ∀ m, P m
  | kv_map_t.nil => hnil
  | kv_map_t.cons k v t => hcons k v t (kv_map_induction hnil hcons t)

theorem key_value_induction {P : key_value → Prop} {Q : kv_map_t → Prop}
    (hv : ∀ k v, P (key_value.value k v)) (hb : ∀ k m, Q m → P (key_value.block k m))
    (hnil : Q kv_map_t.nil) (hcons : ∀ k v t, P v → Q t → Q (kv_map_t.cons k v t)) :
    (∀ kv, P kv) ∧ (∀ m, Q m) :=
  ⟨fun kv => @key_value.rec P Q hv hb hnil hcons kv,
   fun m => @kv_map_t.rec P Q hv hb hnil hcons m⟩

/-! ## Termination of the parse loop -/

theorem skip_whitespace_length (cur : List Char) :
    (skip_whitespace cur).length ≤ cur.length := by
  induction cur with
  | nil => simp [skip_whitespace]
  | cons c t ih =>
    simp only [skip_whitespace]
    split
    · simp only [List.length_cons]; omega
    · exact Nat.le_refl _

theorem string_loop_length (prev : Char) (cur : List Char) :
    (string_loop prev cur).2.length ≤ cur.length := by
  induction cur generalizing prev with
  | nil => simp [string_loop]
  | cons c t ih =>
    simp only [string_loop]
    split
    · exact Nat.le_refl _
    · simp only [List.length_cons]
      have := ih c
      omega

theorem advance_length (cur : List Char) : (advance cur).length ≤ cur.length := by
  cases cur <;> simp [advance]

theorem advance_length_lt (cur : List Char) (h : is_end cur = false) :
    (advance cur).length < cur.length := by
  cases cur with
  | nil => simp [is_end, peek] at h
  | cons c t => simp [advance]

theorem string_length {cur : List Char} {s : Str} {rest : List Char}
    (h : string cur = some (s, rest)) : rest.length < cur.length := by
  unfold string at h
  simp only at h
  split at h
  · cases h
  · rename_i hend
    split at h
    · injection h with h
      injection h with h1 h2
      subst h2
      have h3 := advance_length_lt _ (by simpa using hend)
      have h4 := string_loop_length (peek cur) (advance cur)
      have h5 := advance_length cur
      omega
    · cases h

theorem skip_conditional_length {cur rest : List Char}
    (h : skip_conditional cur = some rest) : rest.length ≤ cur.length := by
  induction cur with
  | nil => simp [skip_conditional] at h
  | cons c t ih =>
    simp only [skip_conditional] at h
    split at h
    · injection h with h; subst h; exact Nat.le_refl _
    · have := ih h
      simp only [List.length_cons]; omega

theorem skip_comment_length (cur : List Char) : (skip_comment cur).length ≤ cur.length := by
  induction cur with
  | nil => simp [skip_comment]
  | cons c t ih =>
    simp only [skip_comment]
    split
    · exact Nat.le_refl _
    · simp only [List.length_cons]; omega

theorem skip_comment_length_lt (cur : List Char) (h : peek cur = '/') :
    (skip_comment cur).length < cur.length := by
  cases cur with
  | nil => simp [peek, NUL] at h
  | cons c t =>
    simp only [peek] at h
    subst h
    have := skip_comment_length t
    simp only [skip_comment, NUL]
    rw [if_neg (by decide)]
    simp only [List.length_cons]; omega

theorem parse_value_progress {key : Str} {cur : List Char} {root : key_value}
    {scope : List Ptr} {st : parse_state} (h : parse_value key cur root scope = Step.next st) :
    st.m_current.length < cur.length := by
  unfold parse_value at h
  split at h
  · cases h
  · rename_i value cur1 hs
    split at h
    · cases h
    · rename_i cur2 hc
      unfold emplace_value at h
      split at h
      · cases h
      · split at h
        · cases h
        · cases h
        · injection h with h
          subst h
          have := string_length hs
          have := skip_conditional_length hc
          simp only
          omega

theorem parse_block_progress {key : Str} {cur : List Char} {root : key_value}
    {scope : List Ptr} {st : parse_state} (h : parse_block key cur root scope = Step.next st) :
    st.m_current.length ≤ cur.length := by
  unfold parse_block at h
  have := advance_length cur
  split at h
  · cases h
  · split at h
    · cases h
    · cases h
    · split at h <;> (injection h with h; subst h; simpa using this)

theorem parse_iter_progress {st st1 : parse_state} (h : parse_iter st = Step.next st1) :
    st1.m_current.length < st.m_current.length := by
  unfold parse_iter at h
  simp only at h
  have hw := skip_whitespace_length st.m_current
  split at h
  · cases h
  · rename_i hend
    split at h
    · split at h
      · cases h
      · rename_i key cur1 hs
        have h1 := string_length hs
        have h2 := skip_whitespace_length cur1
        split at h
        · have := parse_value_progress h; omega
        · split at h
          · have := parse_block_progress h; omega
          · injection h with h; subst h; simp only; omega
    · split at h
      · rename_i hc
        injection h with h; subst h
        have := skip_comment_length_lt _ hc.1
        simp only; omega
      · split at h
        · split at h
          · cases h
          · injection h with h; subst h
            have := advance_length_lt _ (by simpa using hend)
            simp only; omega
        · cases h

theorem parse_iter_not_fuel (st : parse_state) :
    parse_iter st ≠ Step.done Outcome.out_of_fuel := by
  unfold parse_iter parse_value emplace_value parse_block
  intro h
  simp only at h
  repeat' split at h
  all_goals cases h

theorem parse_loop_fuel (n : Nat) : ∀ (st : parse_state) (m : Nat),
    st.m_current.length < n → st.m_current.length < m →
    parse_loop n st = parse_loop m st ∧ parse_loop n st ≠ Outcome.out_of_fuel := by
  induction n with
  | zero => intro st m h; omega
  | succ n ih =>
    intro st m hn hm
    cases m with
    | zero => omega
    | succ m =>
      simp only [parse_loop]
      cases hstep : parse_iter st with
      | done o =>
        simp only
        refine ⟨trivial, ?_⟩
        intro ho
        exact parse_iter_not_fuel st (ho ▸ hstep)
      | next st1 =>
        have hp := parse_iter_progress hstep
        exact ih st1 m (by omega) (by omega)

theorem parse_from_next {st st1 : parse_state} (h : parse_iter st = Step.next st1) :
    parse_from st = parse_from st1 := by
  have hp := parse_iter_progress h
  unfold parse_from
  rw [parse_loop, h]
  exact (parse_loop_fuel _ st1 _ (by omega) (by omega)).1

theorem parse_from_done {st : parse_state} {o : Outcome} (h : parse_iter st = Step.done o) :
    parse_from st = o := by
  unfold parse_from
  rw [parse_loop, h]

/-! ## The map -/

theorem case_insensitive_equal_refl (a : Str) : case_insensitive_equal a a = true := by
  rw [case_insensitive_equal_iff]

theorem case_insensitive_equal_symm (a b : Str) :
    case_insensitive_equal a b = case_insensitive_equal b a := by
  rw [Bool.eq_iff_iff, case_insensitive_equal_iff, case_insensitive_equal_iff]
  exact eq_comm

theorem case_insensitive_equal_congr {a b : Str} (h : case_insensitive_equal a b = true)
    (c : Str) : case_insensitive_equal c a = case_insensitive_equal c b := by
  rw [case_insensitive_equal_iff] at h
  rw [Bool.eq_iff_iff, case_insensitive_equal_iff, case_insensitive_equal_iff, h]

namespace kv_map_t

theorem find_congr (m : kv_map_t) {a b : Str} (h : case_insensitive_equal a b = true) :
    m.find a = m.find b := by
  induction m using kv_map_induction with
  | hnil => rfl
  | hcons k v t ih => simp only [find, case_insensitive_equal_congr h k, ih]

theorem find_update_same (m : kv_map_t) {seg k : Str} (f : key_value → key_value)
    (h : case_insensitive_equal seg k = true) :
    (m.update seg f).find k = (m.find k).map f := by
  induction m using kv_map_induction with
  | hnil => rfl
  | hcons k1 v t ih =>
    simp only [update, find, ← case_insensitive_equal_congr h k1]
    by_cases hk : case_insensitive_equal k1 seg = true
    · simp [hk, find, ← case_insensitive_equal_congr h k1]
    · simp [hk, find, ← case_insensitive_equal_congr h k1, ih]

theorem find_update_other (m : kv_map_t) {seg k : Str} (f : key_value → key_value)
    (h : case_insensitive_equal seg k = false) :
    (m.update seg f).find k = m.find k := by
  induction m using kv_map_induction with
  | hnil => rfl
  | hcons k1 v t ih =>
    simp only [update, find]
    by_cases hk : case_insensitive_equal k1 seg = true
    · have : case_insensitive_equal k1 k = false := by
        rw [case_insensitive_equal_symm k1 k, case_insensitive_equal_congr hk k,
          case_insensitive_equal_symm k seg]
        exact h
      simp [hk, find, this]
    · simp [hk, find, ih]

theorem update_update (m : kv_map_t) (seg : Str) (f g : key_value → key_value) :
    (m.update seg f).update seg g = m.update seg (fun c => g (f c)) := by
  induction m using kv_map_induction with
  | hnil => rfl
  | hcons k1 v t ih =>
    by_cases hk : case_insensitive_equal k1 seg = true
    · simp [update, hk]
    · simp [update, hk, ih]

theorem update_congr (m : kv_map_t) (seg : Str) (f g : key_value → key_value)
    (h : ∀ c, m.find seg = some c → f c = g c) : m.update seg f = m.update seg g := by
  induction m using kv_map_induction with
  | hnil => rfl
  | hcons k1 v t ih =>
    by_cases hk : case_insensitive_equal k1 seg = true
    · simp only [update, hk, if_true]
      rw [h v (by simp [find, hk])]
    · simp only [update, hk]
      rw [ih (fun c hc => h c (by simpa [find, hk] using hc))]
      rfl

theorem update_of_find_none (m : kv_map_t) (seg : Str) (f : key_value → key_value)
    (h : m.find seg = none) : m.update seg f = m := by
  induction m using kv_map_induction with
  | hnil => rfl
  | hcons k1 v t ih =>
    by_cases hk : case_insensitive_equal k1 seg = true
    · simp [find, hk] at h
    · simp only [find, hk] at h
      simp [update, hk, ih h]

theorem try_emplace_of_find_none (m : kv_map_t) (key : Str) (kv : key_value)
    (h : m.find key = none) : m.try_emplace key kv = m.append (cons key kv nil) := by
  induction m using kv_map_induction with
  | hnil => rfl
  | hcons k1 v t ih =>
    by_cases hk : case_insensitive_equal k1 key = true
    · simp [find, hk] at h
    · simp only [find, hk] at h
      simp [try_emplace, append, hk, ih h]

theorem try_emplace_of_find_some (m : kv_map_t) (key : Str) (kv : key_value)
    {c : key_value} (h : m.find key = some c) : m.try_emplace key kv = m := by
  induction m using kv_map_induction with
  | hnil => simp [find] at h
  | hcons k1 v t ih =>
    by_cases hk : case_insensitive_equal k1 key = true
    · simp [try_emplace, hk]
    · simp only [find, hk] at h
      simp [try_emplace, hk, ih h]

theorem find_append (m n : kv_map_t) (k : Str) :
    (m.append n).find k = (m.find k).orElse (fun _ => n.find k) := by
  induction m using kv_map_induction with
  | hnil => rfl
  | hcons k1 v t ih =>
    by_cases hk : case_insensitive_equal k1 k = true
    · simp [append, find, hk]
    · simp [append, find, hk, ih]

theorem find_try_emplace_of_some (m : kv_map_t) (key : Str) (kv : key_value) {k : Str}
    {c : key_value} (h : m.find k = some c) : (m.try_emplace key kv).find k = some c := by
  cases hf : m.find key with
  | some x => rw [try_emplace_of_find_some m key kv hf, h]
  | none => rw [try_emplace_of_find_none m key kv hf, find_append, h]; rfl

theorem find_try_emplace_self (m : kv_map_t) (key : Str) (kv : key_value)
    (h : m.find key = none) : (m.try_emplace key kv).find key = some kv := by
  rw [try_emplace_of_find_none m key kv h, find_append, h]
  simp [find, case_insensitive_equal_refl]

theorem append_nil (m : kv_map_t) : m.append nil = m := by
  induction m using kv_map_induction with
  | hnil => rfl
  | hcons k1 v t ih => simp [append, ih]

theorem append_assoc (a b c : kv_map_t) : (a.append b).append c = a.append (b.append c) := by
  induction a using kv_map_induction with
  | hnil => rfl
  | hcons k1 v t ih => simp [append, ih]

theorem update_append_last (m : kv_map_t) (key : Str) (kv : key_value)
    (f : key_value → key_value) (h : m.find key = none) :
    (m.append (cons key kv nil)).update key f = m.append (cons key (f kv) nil) := by
  induction m using kv_map_induction with
  | hnil => simp [append, update, case_insensitive_equal_refl]
  | hcons k1 v t ih =>
    by_cases hk : case_insensitive_equal k1 key = true
    · simp [find, hk] at h
    · simp only [find, hk] at h
      simp [append, update, hk, ih h]

end kv_map_t

/-! ## Pointers into the tree -/

namespace key_value

theorem deref_modify_at (root : key_value) (p : Ptr) (f : key_value → key_value) :
    (root.modify_at p f).deref p = (root.deref p).map f := by
  induction p generalizing root with
  | nil => simp [modify_at, deref]
  | cons seg p ih =>
    cases root with
    | value k v => simp [modify_at, deref]
    | block k m =>
      simp only [modify_at, deref]
      rw [kv_map_t.find_update_same m _ (case_insensitive_equal_refl seg)]
      cases m.find seg with
      | none => rfl
      | some c => simp [ih]

theorem modify_at_modify_at (root : key_value) (p : Ptr) (f g : key_value → key_value) :
    (root.modify_at p f).modify_at p g = root.modify_at p (fun c => g (f c)) := by
  induction p generalizing root with
  | nil => simp [modify_at]
  | cons seg p ih =>
    cases root with
    | value k v => simp [modify_at]
    | block k m =>
      simp only [modify_at, kv_map_t.update_update, ih]

theorem modify_at_congr (root : key_value) (p : Ptr) (f g : key_value → key_value)
    (h : ∀ b, root.deref p = some b → f b = g b) : root.modify_at p f = root.modify_at p g := by
  induction p generalizing root with
  | nil => simpa [modify_at, deref] using h
  | cons seg p ih =>
    cases root with
    | value k v => simp [modify_at]
    | block k m =>
      simp only [modify_at]
      rw [kv_map_t.update_congr]
      intro c hc
      apply ih
      intro b hb
      apply h
      simp [deref, hc, hb]

theorem deref_append (root : key_value) (p q : Ptr) :
    root.deref (p ++ q) = (root.deref p).bind (fun b => b.deref q) := by
  induction p generalizing root with
  | nil => simp [deref]
  | cons seg p ih =>
    cases root with
    | value k v => simp [deref]
    | block k m =>
      simp only [List.cons_append, deref]
      cases m.find seg with
      | none => rfl
      | some c => simp [ih]

theorem modify_at_append (root : key_value) (p q : Ptr) (f : key_value → key_value) :
    root.modify_at (p ++ q) f = root.modify_at p (fun b => b.modify_at q f) := by
  induction p generalizing root with
  | nil => simp [modify_at]
  | cons seg p ih =>
    cases root with
    | value k v => simp [modify_at]
    | block k m =>
      simp only [List.cons_append, modify_at]
      congr 1
      apply kv_map_t.update_congr
      intro c _
      exact ih c

end key_value

/-! ## The scanner on well-formed tokens -/

theorem skip_whitespace_append (ws cur : List Char) (h : ws.all is_whitespace = true) :
    skip_whitespace (ws ++ cur) = skip_whitespace cur := by
  induction ws with
  | nil => rfl
  | cons c t ih =>
    simp only [List.all_cons, Bool.and_eq_true] at h
    have hc : c = ' ' ∨ c = '\r' ∨ c = '\t' ∨ c = '\n' := by simpa [is_whitespace] using h.1
    simp only [List.cons_append, skip_whitespace, if_pos hc]
    exact ih h.2

theorem skip_whitespace_of_not (c : Char) (t : List Char) (h : is_whitespace c = false) :
    skip_whitespace (c :: t) = c :: t := by
  have hc : ¬ (c = ' ' ∨ c = '\r' ∨ c = '\t' ∨ c = '\n') := by simpa [is_whitespace] using h
  simp only [skip_whitespace, if_neg hc]

theorem string_loop_quotable (prev : Char) (s : Str) (rest : List Char)
    (h : quotable_from prev s = true) :
    string_loop prev (s ++ '"' :: rest) = (s, '"' :: rest) := by
  induction s generalizing prev with
  | nil =>
    have hp : prev ≠ '\\' := by simpa [quotable_from] using h
    simp [string_loop, hp]
  | cons c t ih =>
    simp only [quotable_from, Bool.and_eq_true, Bool.not_eq_true', decide_eq_false_iff_not] at h
    have e := ih c h.2
    rw [List.cons_append, string_loop, if_neg h.1, e]

theorem string_quoted (s : Str) (rest : List Char) (h : quotable s = true) :
    string (quoted s ++ rest) = some (s, rest) := by
  have e : quoted s ++ rest = '"' :: (s ++ '"' :: rest) := by simp [quoted]
  have hl := string_loop_quotable '"' s rest h
  rw [e]
  unfold string
  simp only [peek, advance]
  rw [hl]
  simp [is_end, peek, NUL, advance]

theorem skip_conditional_append (r rest : List Char) (h : '\n' ∉ r) :
    skip_conditional (r ++ '\n' :: rest) = some ('\n' :: rest) := by
  induction r with
  | nil => simp [skip_conditional]
  | cons c t ih =>
    simp only [List.mem_cons, not_or] at h
    have hc : ¬ c = '\n' := fun e => h.1 e.symm
    simp only [List.cons_append, skip_conditional, if_neg hc]
    exact ih h.2

theorem string_loop_spec (prev : Char) (cur : List Char) :
    cur = (string_loop prev cur).1 ++ (string_loop prev cur).2 ∧
    (peek (string_loop prev cur).2 = '"' → is_end (string_loop prev cur).2 = false →
      quotable_from prev (string_loop prev cur).1 = true) := by
  induction cur generalizing prev with
  | nil => simp [string_loop, peek, NUL, is_end]
  | cons c t ih =>
    simp only [string_loop]
    split
    · rename_i hstop
      refine ⟨by simp, ?_⟩
      intro hq _
      simp only [peek] at hq
      subst hq
      rcases hstop with hstop | hstop
      · simpa [quotable_from] using hstop.1
      · exact absurd hstop (by decide)
    · rename_i hgo
      refine ⟨by simpa using (ih c).1, ?_⟩
      intro hq he
      simp only [quotable_from, Bool.and_eq_true, Bool.not_eq_true', decide_eq_false_iff_not]
      exact ⟨hgo, (ih c).2 hq he⟩

theorem string_some {cur : List Char} {s : Str} {rest : List Char}
    (h : string cur = some (s, rest)) (hq : peek cur = '"') :
    cur = quoted s ++ rest ∧ quotable s = true := by
  unfold string at h
  simp only at h
  split at h
  · cases h
  · rename_i hend
    split at h
    · rename_i hpk
      injection h with h
      injection h with h1 h2
      have hspec := string_loop_spec (peek cur) (advance cur)
      cases cur with
      | nil => simp [peek, NUL] at hq
      | cons c t =>
        simp only [peek] at hq
        subst hq
        simp only [peek, advance] at hspec h1 h2 hpk hend
        rw [h1] at hspec
        refine ⟨?_, ?_⟩
        · generalize hr : (string_loop '"' t).2 = r at *
          cases r with
          | nil => simp [is_end, peek] at hend
          | cons d r =>
            simp only [peek] at hpk
            subst hpk
            simp only [advance] at h2
            subst h2
            simp [quoted, hspec.1]
        · exact hspec.2 hpk (by simpa using hend)
    · cases h

/-! ## One iteration on each kind of entry -/

theorem skip_whitespace_quoted (ws : List Char) (s : Str) (rest : List Char)
    (h : ws.all is_whitespace = true) :
    skip_whitespace (ws ++ quoted s ++ rest) = quoted s ++ rest := by
  rw [List.append_assoc, skip_whitespace_append _ _ h]
  exact skip_whitespace_of_not _ _ (by decide)

theorem parse_iter_skip (ws cur : List Char) (root : key_value) (scope : List Ptr)
    (h : ws.all is_whitespace = true) :
    parse_iter ⟨ws ++ cur, root, scope⟩ = parse_iter ⟨cur, root, scope⟩ := by
  unfold parse_iter
  simp only [skip_whitespace_append _ _ h]

theorem parse_from_skip (ws cur : List Char) (root : key_value) (scope : List Ptr)
    (h : ws.all is_whitespace = true) :
    parse_from ⟨ws ++ cur, root, scope⟩ = parse_from ⟨cur, root, scope⟩ := by
  have e := parse_iter_skip ws cur root scope h
  cases hs : parse_iter ⟨cur, root, scope⟩ with
  | done o => rw [parse_from_done hs, parse_from_done (e.trans hs)]
  | next st1 => rw [parse_from_next hs, parse_from_next (e.trans hs)]

theorem parse_iter_scalar (ws ws1 r rest : List Char) (k v : Str) (root : key_value)
    (scope : List Ptr) (hws : ws.all is_whitespace = true) (hws1 : ws1.all is_whitespace = true)
    (hk : quotable k = true) (hv : quotable v = true) (hr : '\n' ∉ r) :
    parse_iter ⟨ws ++ quoted k ++ (ws1 ++ quoted v ++ (r ++ '\n' :: rest)), root, scope⟩ =
      emplace_value k v ('\n' :: rest) root scope := by
  unfold parse_iter
  simp only [skip_whitespace_quoted _ _ _ hws, string_quoted _ _ hk,
    skip_whitespace_quoted _ _ _ hws1]
  have h1 : ∀ (s : Str) (t : List Char), is_end (quoted s ++ t) = false := by
    intro s t; simp [quoted, is_end, peek, NUL]
  have h2 : ∀ (s : Str) (t : List Char), peek (quoted s ++ t) = '"' := by
    intro s t; simp [quoted, peek]
  simp only [h1, h2, Bool.false_eq_true, if_false, if_true]
  unfold parse_value
  simp only [string_quoted _ _ hv, skip_conditional_append _ _ hr]

theorem parse_iter_open (ws ws1 rest : List Char) (k : Str) (root : key_value)
    (scope : List Ptr) (hws : ws.all is_whitespace = true) (hws1 : ws1.all is_whitespace = true)
    (hk : quotable k = true) :
    parse_iter ⟨ws ++ quoted k ++ (ws1 ++ '{' :: rest), root, scope⟩ =
      parse_block k ('{' :: rest) root scope := by
  unfold parse_iter
  have h1 : ∀ (s : Str) (t : List Char), is_end (quoted s ++ t) = false := by
    intro s t; simp [quoted, is_end, peek, NUL]
  have h2 : ∀ (s : Str) (t : List Char), peek (quoted s ++ t) = '"' := by
    intro s t; simp [quoted, peek]
  have h3 : skip_whitespace (ws1 ++ '{' :: rest) = '{' :: rest := by
    rw [skip_whitespace_append _ _ hws1]
    exact skip_whitespace_of_not _ _ (by decide)
  simp only [skip_whitespace_quoted _ _ _ hws, string_quoted _ _ hk, h1, h2, h3,
    Bool.false_eq_true, if_false, if_true]
  simp [peek]

theorem parse_iter_close (ws rest : List Char) (root : key_value) (scope : List Ptr)
    (hws : ws.all is_whitespace = true) :
    parse_iter ⟨ws ++ '}' :: rest, root, scope⟩ =
      match scope with
      | [] => Step.done Outcome.undefined
      | _ :: scope1 => Step.next ⟨rest, root, scope1⟩ := by
  rw [parse_iter_skip _ _ _ _ hws]
  unfold parse_iter
  have h3 : skip_whitespace ('}' :: rest) = '}' :: rest :=
    skip_whitespace_of_not _ _ (by decide)
  simp only [h3]
  cases scope <;> simp [is_end, peek, NUL, advance]

theorem skip_whitespace_all (ws : List Char) (h : ws.all is_whitespace = true) :
    skip_whitespace ws = [] := by
  have := skip_whitespace_append ws [] h
  simpa [skip_whitespace] using this

theorem parse_iter_end (ws : List Char) (root : key_value) (scope : List Ptr)
    (hws : ws.all is_whitespace = true) :
    parse_iter ⟨ws, root, scope⟩ = Step.done (Outcome.returned true root) := by
  unfold parse_iter
  simp [skip_whitespace_all ws hws, is_end, peek]

/-! ## Case-insensitive lookup -/

theorem case_insensitive_hash_loop_congr (a b : Str) (h : a.map tolower = b.map tolower)
    (hash : Nat) : case_insensitive_hash_loop hash a = case_insensitive_hash_loop hash b := by
  induction a generalizing b hash with
  | nil =>
    cases b with
    | nil => rfl
    | cons y ys => simp at h
  | cons x xs ih =>
    cases b with
    | nil => simp at h
    | cons y ys =>
      simp only [List.map_cons, List.cons.injEq] at h
      simp only [case_insensitive_hash_loop, h.1]
      exact ih ys h.2 _

theorem kv_map_t.find_of_mem (m : kv_map_t) (hd : m.distinct = true) (K : Str) (n : key_value)
    (hK : (K, n) ∈ m.toList) : m.find K = some n := by
  induction m using kv_map_induction with
  | hnil => simp [kv_map_t.toList] at hK
  | hcons k v t ih =>
    simp only [kv_map_t.distinct, Bool.and_eq_true, Option.isNone_iff_eq_none] at hd
    simp only [kv_map_t.toList, List.mem_cons, Prod.mk.injEq] at hK
    rcases hK with ⟨rfl, rfl⟩ | hK
    · simp [kv_map_t.find, case_insensitive_equal_refl]
    · have hKt := ih hd.2 hK
      by_cases hk : case_insensitive_equal k K = true
      · rw [kv_map_t.find_congr t hk, hKt] at hd
        exact absurd hd.1 (by simp)
      · simp [kv_map_t.find, hk, hKt]

theorem map_tolower_toupper (K : Str) : (K.map toupper).map tolower = K.map tolower := by
  simp [List.map_map, Function.comp_def, tolower_toupper]

theorem map_tolower_tolower (K : Str) : (K.map tolower).map tolower = K.map tolower := by
  simp [List.map_map, Function.comp_def, tolower_idem]

/-- C3: lookups are case-insensitive. Two keys that are equal after ASCII lower-casing have
the same hash and give the same result of `find` on every node; and for a pair `(K, n)`
stored in a block, `find(K)`, `find(upper(K))` and `find(lower(K))` all return `n`. -/
theorem find_case_insensitive (b : key_value) (k1 k2 : Str) (bk : Str) (m : kv_map_t)
    (K : Str) (n : key_value) (h12 : k1.map tolower = k2.map tolower)
    (hd : m.distinct = true) (hK : (K, n) ∈ m.toList) :
    b.find k1 = b.find k2 ∧ case_insensitive_hash k1 = case_insensitive_hash k2 ∧
    (key_value.block bk m).find K = some n ∧
    (key_value.block bk m).find (K.map toupper) = some n ∧
    (key_value.block bk m).find (K.map tolower) = some n := by
  have hf := kv_map_t.find_of_mem m hd K n hK
  refine ⟨?_, case_insensitive_hash_loop_congr k1 k2 h12 _, hf, ?_, ?_⟩
  · cases b with
    | value k v => rfl
    | block k m1 =>
      exact kv_map_t.find_congr m1 ((case_insensitive_equal_iff k1 k2).2 h12)
  · rw [← hf]
    exact kv_map_t.find_congr m ((case_insensitive_equal_iff _ _).2 (map_tolower_toupper K))
  · rw [← hf]
    exact kv_map_t.find_congr m ((case_insensitive_equal_iff _ _).2 (map_tolower_tolower K))

/-- C3 at `"Key" "1"`, `"other" "2"`: `KEY` and `key` find the scalar stored under `Key`. -/
theorem find_case_insensitive_witness :
    "KEY".toList.map tolower = "key".toList.map tolower ∧
    (kv_map_t.ofList [kv_scalar "Key" "1", kv_scalar "other" "2"]).distinct = true ∧
    kv_scalar "Key" "1" ∈ (kv_map_t.ofList [kv_scalar "Key" "1", kv_scalar "other" "2"]).toList ∧
    (kv_root [kv_scalar "Key" "1", kv_scalar "other" "2"]).find "KEY".toList =
      some (key_value.value "Key".toList "1".toList) ∧
    (kv_root [kv_scalar "Key" "1", kv_scalar "other" "2"]).find "key".toList =
      some (key_value.value "Key".toList "1".toList) :=
  have h := find_case_insensitive (kv_root [kv_scalar "Key" "1", kv_scalar "other" "2"])
    "KEY".toList "key".toList "root".toList
    (kv_map_t.ofList [kv_scalar "Key" "1", kv_scalar "other" "2"])
    "Key".toList (key_value.value "Key".toList "1".toList) (by decide) (by decide)
    (by simp [kv_map_t.toList, kv_map_t.ofList, kv_scalar])
  ⟨by decide, by decide, by simp [kv_map_t.toList, kv_map_t.ofList, kv_scalar], h.2.2.2.1,
    h.2.2.2.2⟩

/-! ## Braces and the end of the buffer -/

/-- C4, as the code behaves: a closing brace met while the scope stack holds only the root is
accepted. -/
theorem close_without_open_counterexample :
    parse "\x7d".toList = Outcome.returned true (kv_root []) ∧
    parse "\"a\" \"1\"\n\x7d\n".toList = Outcome.returned true (kv_root [kv_scalar "a" "1"]) ∧
    ¬ ∃ r, parse "\x7d".toList = Outcome.returned false r := by
  have h : parse "\x7d".toList = Outcome.returned true (kv_root []) := rfl
  refine ⟨h, rfl, ?_⟩
  rintro ⟨r, hr⟩
  rw [h] at hr
  cases hr

/-- C4 amended: a closing brace at an entry position, met while the scope stack holds only
one pointer (the root), is not a failure: the iteration pops that pointer and goes on after
the brace, the tree untouched; when only whitespace follows, `parse` returns success with
the tree built so far. -/
theorem close_without_open (ws rest : List Char) (root : key_value) (p : Ptr)
    (hws : ws.all is_whitespace = true) :
    parse_iter ⟨ws ++ '}' :: rest, root, [p]⟩ = Step.next ⟨rest, root, []⟩ ∧
    (rest.all is_whitespace = true →
      parse_from ⟨ws ++ '}' :: rest, root, [p]⟩ = Outcome.returned true root) := by
  have h := parse_iter_close ws rest root [p] hws
  refine ⟨h, fun hrest => ?_⟩
  rw [parse_from_next h]
  exact parse_from_done (parse_iter_end rest root [] hrest)

/-- C4 amended, at the text of a brace on a line of its own after one entry. -/
theorem close_without_open_witness :
    "\n".toList.all is_whitespace = true ∧
    parse_iter ⟨"\n".toList ++ '}' :: "\n".toList, kv_root [kv_scalar "a" "1"], [[]]⟩ =
      Step.next ⟨"\n".toList, kv_root [kv_scalar "a" "1"], []⟩ ∧
    parse_from ⟨"\n".toList ++ '}' :: "\n".toList, kv_root [kv_scalar "a" "1"], [[]]⟩ =
      Outcome.returned true (kv_root [kv_scalar "a" "1"]) :=
  have h := close_without_open "\n".toList "\n".toList (kv_root [kv_scalar "a" "1"]) []
    (by decide)
  ⟨by decide, h.1, h.2 (by decide)⟩

/-- C5, as the code behaves: the end of the buffer with a block still open is a success. -/
theorem end_with_open_blocks_counterexample :
    parse "\"a\"\n\x7b\n\"b\" \"1\"\n".toList =
      Outcome.returned true (kv_root [kv_block "a" [kv_scalar "b" "1"]]) ∧
    ¬ ∃ r, parse "\"a\"\n\x7b\n\"b\" \"1\"\n".toList = Outcome.returned false r := by
  have h : parse "\"a\"\n\x7b\n\"b\" \"1\"\n".toList =
      Outcome.returned true (kv_root [kv_block "a" [kv_scalar "b" "1"]]) := rfl
  refine ⟨h, ?_⟩
  rintro ⟨r, hr⟩
  rw [h] at hr
  cases hr

/-- C5 amended: when the end of the buffer is reached (only whitespace is left), `parse`
returns success with the tree as built, however many blocks are still open on the scope
stack. -/
theorem end_with_open_blocks (ws : List Char) (root : key_value) (scope : List Ptr)
    (hws : ws.all is_whitespace = true) :
    parse_from ⟨ws, root, scope⟩ = Outcome.returned true root :=
  parse_from_done (parse_iter_end ws root scope hws)

/-- C5 amended, with two blocks open at the end of the buffer. -/
theorem end_with_open_blocks_witness :
    " \n".toList.all is_whitespace = true ∧
    parse_from ⟨" \n".toList, kv_root [kv_block "a" [kv_block "b" []]],
      [["a".toList, "b".toList], ["a".toList], []]⟩ =
      Outcome.returned true (kv_root [kv_block "a" [kv_block "b" []]]) :=
  ⟨by decide, end_with_open_blocks " \n".toList _ _ (by decide)⟩

/-! ## Failures of `parse` -/

/-- C6, at the failing input: after the entry `"a" "1"`, an unterminated key string makes
`parse` return `false` with `a` still in the tree; only the unexpected-character branch
clears the root. -/
theorem unterminated_string_keeps_tree :
    parse "\"a\" \"1\"\n\"b".toList = Outcome.returned false (kv_root [kv_scalar "a" "1"]) ∧
    parse "\"a\" \"1\"\n\"b\" \"2".toList =
      Outcome.returned false (kv_root [kv_scalar "a" "1"]) ∧
    parse "\"a\" \"1\"\nb".toList = Outcome.returned false (kv_root []) :=
  ⟨rfl, rfl, rfl⟩

/-- C7, at the failing inputs: a scalar entry that ends the buffer without a newline makes
the rest-of-line loop read past the terminating NUL; an entry inside a block opened under
the name of an existing scalar calls `map()` on that scalar, which throws; an entry after a
surplus closing brace takes the top of an empty scope stack. -/
theorem parse_not_safe :
    parse "\"a\" \"1\"".toList = Outcome.undefined ∧
    parse "\"a\" \"1\"\n\"a\" \x7b \"b\" \"2\"\n".toList = Outcome.bad_variant_access ∧
    parse "\x7d\n\"a\" \"1\"\n".toList = Outcome.undefined ∧
    parse "\x7d\n\x7d\n".toList = Outcome.undefined :=
  ⟨rfl, rfl, rfl, rfl⟩

/-! ## The rest of a scalar entry's line -/

/-- C10: the rest of the line after a scalar entry is discarded. From every state of the
parse loop (tree and scope stack), a scalar entry `"k" "v"` followed by any bytes `r`
without a newline and then a newline gives the same iteration, and the same result of
`parse`, as the entry followed at once by the newline. -/
theorem rest_of_line_discarded (ws ws1 r rest : List Char) (k v : Str) (root : key_value)
    (scope : List Ptr) (hws : ws.all is_whitespace = true)
    (hws1 : ws1.all is_whitespace = true) (hk : quotable k = true) (hv : quotable v = true)
    (hr : '\n' ∉ r) :
    parse_iter ⟨ws ++ quoted k ++ (ws1 ++ quoted v ++ (r ++ '\n' :: rest)), root, scope⟩ =
      parse_iter ⟨ws ++ quoted k ++ (ws1 ++ quoted v ++ '\n' :: rest), root, scope⟩ ∧
    parse_from ⟨ws ++ quoted k ++ (ws1 ++ quoted v ++ (r ++ '\n' :: rest)), root, scope⟩ =
      parse_from ⟨ws ++ quoted k ++ (ws1 ++ quoted v ++ '\n' :: rest), root, scope⟩ ∧
    kv_file.parse (ws ++ quoted k ++ (ws1 ++ quoted v ++ (r ++ '\n' :: rest))) root =
      kv_file.parse (ws ++ quoted k ++ (ws1 ++ quoted v ++ '\n' :: rest)) root := by
  have key : ∀ (root1 : key_value) (scope1 : List Ptr),
      parse_iter ⟨ws ++ quoted k ++ (ws1 ++ quoted v ++ (r ++ '\n' :: rest)), root1, scope1⟩ =
        parse_iter ⟨ws ++ quoted k ++ (ws1 ++ quoted v ++ '\n' :: rest), root1, scope1⟩ := by
    intro root1 scope1
    have h1 := parse_iter_scalar ws ws1 r rest k v root1 scope1 hws hws1 hk hv hr
    have h2 := parse_iter_scalar ws ws1 [] rest k v root1 scope1 hws hws1 hk hv (by simp)
    rw [h1]
    simpa using h2.symm
  have run : ∀ (root1 : key_value) (scope1 : List Ptr),
      parse_from ⟨ws ++ quoted k ++ (ws1 ++ quoted v ++ (r ++ '\n' :: rest)), root1, scope1⟩ =
        parse_from ⟨ws ++ quoted k ++ (ws1 ++ quoted v ++ '\n' :: rest), root1, scope1⟩ := by
    intro root1 scope1
    have e := key root1 scope1
    cases hs : parse_iter
        ⟨ws ++ quoted k ++ (ws1 ++ quoted v ++ '\n' :: rest), root1, scope1⟩ with
    | done o => rw [parse_from_done hs, parse_from_done (e.trans hs)]
    | next st1 => rw [parse_from_next hs, parse_from_next (e.trans hs)]
  exact ⟨key root scope, run root scope, run _ _⟩

/-- C10 at `"k" "v" [$WIN32] } // x` and a following entry. -/
theorem rest_of_line_discarded_witness :
    "\t".toList.all is_whitespace = true ∧ " ".toList.all is_whitespace = true ∧
    quotable "k".toList = true ∧ quotable "v".toList = true ∧
    '\n' ∉ " [$WIN32] \x7d // x".toList ∧
    parse "\t\"k\" \"v\" [$WIN32] \x7d // x\n\"b\" \"2\"\n".toList =
      parse "\t\"k\" \"v\"\n\"b\" \"2\"\n".toList ∧
    parse "\t\"k\" \"v\"\n\"b\" \"2\"\n".toList =
      Outcome.returned true (kv_root [kv_scalar "k" "v", kv_scalar "b" "2"]) :=
  ⟨by decide, by decide, by decide, by decide, by decide,
    (rest_of_line_discarded "\t".toList " ".toList " [$WIN32] \x7d // x".toList
      "\"b\" \"2\"\n".toList "k".toList "v".toList m_root_init [[]]
      (by decide) (by decide) (by decide) (by decide) (by decide)).2.2,
    rfl⟩

/-! ## A closing brace on the line of a scalar entry -/

/-- C9, as the code behaves: the brace after `"b" "1"` on the same line is discarded with the
rest of that line, block `a` stays open and the entry of the next line becomes its child. -/
theorem brace_after_entry_counterexample :
    parse "\"a\" \x7b \"b\" \"1\" \x7d\n\"c\" \"2\"\n".toList =
      Outcome.returned true (kv_root [kv_block "a" [kv_scalar "b" "1", kv_scalar "c" "2"]]) ∧
    (kv_root [kv_block "a" [kv_scalar "b" "1", kv_scalar "c" "2"]]).find "c".toList = none :=
  ⟨rfl, rfl⟩

/-- C9 amended: a closing brace met at an entry position closes the innermost open block
(the iteration pops the scope stack and leaves the tree untouched); a closing brace that
follows a scalar entry on the same line belongs to the discarded rest of that line, so the
iteration stores the scalar and goes on at the newline with the scope stack unchanged. -/
theorem brace_closes_at_entry_position (ws ws1 r1 r2 rest : List Char) (k v bk : Str)
    (m : kv_map_t) (root : key_value) (p : Ptr) (scope : List Ptr)
    (hws : ws.all is_whitespace = true) (hws1 : ws1.all is_whitespace = true)
    (hk : quotable k = true) (hv : quotable v = true) (hr1 : '\n' ∉ r1) (hr2 : '\n' ∉ r2)
    (hp : root.deref p = some (key_value.block bk m)) :
    parse_iter ⟨ws ++ '}' :: rest, root, p :: scope⟩ = Step.next ⟨rest, root, scope⟩ ∧
    parse_iter ⟨ws ++ quoted k ++ (ws1 ++ quoted v ++ ((r1 ++ '}' :: r2) ++ '\n' :: rest)),
        root, p :: scope⟩ =
      Step.next ⟨'\n' :: rest,
        root.modify_at p (fun b => b.emplace k (key_value.value k v)), p :: scope⟩ := by
  refine ⟨parse_iter_close ws rest root (p :: scope) hws, ?_⟩
  have hr : '\n' ∉ r1 ++ '}' :: r2 := by
    simp only [List.mem_append, List.mem_cons, not_or]
    exact ⟨hr1, by decide, hr2⟩
  rw [parse_iter_scalar ws ws1 _ rest k v root (p :: scope) hws hws1 hk hv hr]
  simp only [emplace_value, hp]

/-- C9 amended, inside the open block `a`: a brace at an entry position closes `a`; the brace
after `"b" "1"` does not. -/
theorem brace_closes_at_entry_position_witness :
    " ".toList.all is_whitespace = true ∧ quotable "b".toList = true ∧
    quotable "1".toList = true ∧ '\n' ∉ " ".toList ∧ '\n' ∉ "".toList ∧
    (kv_root [kv_block "a" []]).deref ["a".toList] =
      some (key_value.block "a".toList kv_map_t.nil) ∧
    parse_iter ⟨" \x7d\"c\" \"2\"\n".toList, kv_root [kv_block "a" []],
        [["a".toList], []]⟩ =
      Step.next ⟨"\"c\" \"2\"\n".toList, kv_root [kv_block "a" []], [[]]⟩ ∧
    parse_iter ⟨" \"b\" \"1\" \x7d\n\"c\" \"2\"\n".toList, kv_root [kv_block "a" []],
        [["a".toList], []]⟩ =
      Step.next ⟨"\n\"c\" \"2\"\n".toList, kv_root [kv_block "a" [kv_scalar "b" "1"]],
        [["a".toList], []]⟩ :=
  have h := brace_closes_at_entry_position " ".toList " ".toList " ".toList "".toList
    "\"c\" \"2\"\n".toList "b".toList "1".toList "a".toList kv_map_t.nil
    (kv_root [kv_block "a" []]) ["a".toList] [[]]
    (by decide) (by decide) (by decide) (by decide) (by decide) (by decide) rfl
  ⟨by decide, by decide, by decide, by decide, by decide, rfl, h.1, h.2⟩

/-! ## The shape of the trees that `parse` builds -/

namespace kv_map_t

theorem wf_cons (key : Str) (kv : key_value) (t : kv_map_t) :
    (cons key kv t).wf = true ↔
      kv.key = key ∧ quotable key = true ∧ kv.wf = true ∧ t.find key = none ∧ t.wf = true := by
  rw [kv_map_t.wf]
  simp only [Bool.and_eq_true, decide_eq_true_eq, Option.isNone_iff_eq_none]
  tauto

theorem find_update_eq_none (m : kv_map_t) (seg k : Str) (f : key_value → key_value) :
    (m.update seg f).find k = none ↔ m.find k = none := by
  by_cases h : case_insensitive_equal seg k = true
  · rw [find_update_same m f h]
    cases m.find k <;> simp
  · rw [find_update_other m f (by simpa using h)]

theorem wf_try_emplace (m : kv_map_t) (key : Str) (kv : key_value) (hm : m.wf = true)
    (hk : quotable key = true) (hkv : kv.wf = true) (hkey : kv.key = key) :
    (m.try_emplace key kv).wf = true := by
  induction m using kv_map_induction with
  | hnil =>
    rw [try_emplace, wf_cons]
    exact ⟨hkey, hk, hkv, rfl, rfl⟩
  | hcons k1 v t ih =>
    rw [try_emplace]
    split
    · exact hm
    · rename_i hne
      rw [wf_cons] at hm ⊢
      obtain ⟨h1, h2, h3, h4, h5⟩ := hm
      refine ⟨h1, h2, h3, ?_, ih h5⟩
      cases hf : t.find key with
      | some c => rw [try_emplace_of_find_some t key kv hf]; exact h4
      | none =>
        rw [try_emplace_of_find_none t key kv hf, find_append, h4]
        have : case_insensitive_equal key k1 = false := by
          rw [case_insensitive_equal_symm]; simpa using hne
        simp [find, this]

theorem wf_update (m : kv_map_t) (seg : Str) (f : key_value → key_value) (hm : m.wf = true)
    (hf : ∀ c, c.wf = true → (f c).wf = true ∧ (f c).key = c.key) :
    (m.update seg f).wf = true := by
  induction m using kv_map_induction with
  | hnil => rfl
  | hcons k1 v t ih =>
    rw [wf_cons] at hm
    obtain ⟨h1, h2, h3, h4, h5⟩ := hm
    rw [update]
    split
    · rw [wf_cons]
      exact ⟨(hf v h3).2.trans h1, h2, (hf v h3).1, h4, h5⟩
    · rw [wf_cons]
      exact ⟨h1, h2, h3, (find_update_eq_none t seg k1 f).2 h4, ih h5⟩

end kv_map_t

namespace key_value

theorem wf_emplace (b : key_value) (key : Str) (kv : key_value) (hb : b.wf = true)
    (hk : quotable key = true) (hkv : kv.wf = true) (hkey : kv.key = key) :
    (b.emplace key kv).wf = true ∧ (b.emplace key kv).key = b.key := by
  cases b with
  | value k v => exact ⟨hb, rfl⟩
  | block k m =>
    refine ⟨?_, rfl⟩
    rw [emplace, key_value.wf]
    rw [key_value.wf] at hb
    exact kv_map_t.wf_try_emplace m key kv hb hk hkv hkey

theorem wf_modify_at (root : key_value) (p : Ptr) (f : key_value → key_value)
    (hroot : root.wf = true)
    (hf : ∀ c, c.wf = true → (f c).wf = true ∧ (f c).key = c.key) :
    (root.modify_at p f).wf = true ∧ (root.modify_at p f).key = root.key := by
  induction p generalizing root with
  | nil => cases root <;> exact hf _ hroot
  | cons seg p ih =>
    cases root with
    | value k v => exact ⟨hroot, rfl⟩
    | block k m =>
      refine ⟨?_, rfl⟩
      rw [modify_at, key_value.wf]
      rw [key_value.wf] at hroot
      exact kv_map_t.wf_update m seg _ hroot (fun c hc => ih c hc)

theorem wf_clear (root : key_value) (hroot : root.wf = true) :
    root.clear.wf = true ∧ root.clear.key = root.key := by
  cases root with
  | value k v => exact ⟨hroot, rfl⟩
  | block k m => exact ⟨rfl, rfl⟩

end key_value

theorem emplace_value_wf {key value : Str} {cur : List Char} {root : key_value}
    {scope : List Ptr} (hroot : root.wf = true) (hk : quotable key = true)
    (hv : quotable value = true) :
    (∀ st1, emplace_value key value cur root scope = Step.next st1 →
      st1.m_root.wf = true ∧ st1.m_root.key = root.key) ∧
    (∀ b r, emplace_value key value cur root scope = Step.done (Outcome.returned b r) →
      r.wf = true ∧ r.key = root.key) := by
  unfold emplace_value
  refine ⟨fun st1 h => ?_, fun b r h => ?_⟩
  · split at h
    · cases h
    · split at h
      · cases h
      · cases h
      · injection h with h
        subst h
        exact key_value.wf_modify_at root _ _ hroot
          (fun c hc => key_value.wf_emplace c key _ hc hk hv rfl)
  · split at h
    · cases h
    · split at h <;> cases h

theorem parse_value_wf {key : Str} {cur : List Char} {root : key_value}
    {scope : List Ptr} (hroot : root.wf = true) (hk : quotable key = true)
    (hq : peek cur = '"') :
    (∀ st1, parse_value key cur root scope = Step.next st1 →
      st1.m_root.wf = true ∧ st1.m_root.key = root.key) ∧
    (∀ b r, parse_value key cur root scope = Step.done (Outcome.returned b r) →
      r.wf = true ∧ r.key = root.key) := by
  unfold parse_value
  cases hs : string cur with
  | none =>
    refine ⟨fun st1 h => (by cases h), fun b r h => ?_⟩
    simp only at h
    injection h with h
    injection h with h1 h2
    subst h2
    exact ⟨hroot, rfl⟩
  | some res =>
    obtain ⟨value, cur1⟩ := res
    have hv := (string_some hs hq).2
    simp only
    cases skip_conditional cur1 with
    | none => exact ⟨fun st1 h => (by cases h), fun b r h => by cases h⟩
    | some cur2 => exact emplace_value_wf hroot hk hv

theorem parse_block_wf {key : Str} {cur : List Char} {root : key_value}
    {scope : List Ptr} (hroot : root.wf = true) (hk : quotable key = true) :
    (∀ st1, parse_block key cur root scope = Step.next st1 →
      st1.m_root.wf = true ∧ st1.m_root.key = root.key) ∧
    (∀ b r, parse_block key cur root scope = Step.done (Outcome.returned b r) →
      r.wf = true ∧ r.key = root.key) := by
  unfold parse_block
  refine ⟨fun st1 h => ?_, fun b r h => ?_⟩
  · split at h
    · cases h
    · split at h
      · cases h
      · cases h
      · split at h
        · injection h with h
          subst h
          exact ⟨hroot, rfl⟩
        · injection h with h
          subst h
          exact key_value.wf_modify_at root _ _ hroot
            (fun c hc => key_value.wf_emplace c key _ hc hk rfl rfl)
  · split at h
    · cases h
    · split at h
      · cases h
      · cases h
      · split at h <;> cases h

theorem parse_iter_wf {st : parse_state} (hroot : st.m_root.wf = true) :
    (∀ st1, parse_iter st = Step.next st1 →
      st1.m_root.wf = true ∧ st1.m_root.key = st.m_root.key) ∧
    (∀ b r, parse_iter st = Step.done (Outcome.returned b r) →
      r.wf = true ∧ r.key = st.m_root.key) := by
  unfold parse_iter
  simp only
  split
  · refine ⟨fun st1 h => (by cases h), fun b r h => ?_⟩
    injection h with h
    injection h with h1 h2
    subst h2
    exact ⟨hroot, rfl⟩
  · split
    · rename_i hq
      cases hs : string (skip_whitespace st.m_current) with
      | none =>
        refine ⟨fun st1 h => (by cases h), fun b r h => ?_⟩
        simp only at h
        injection h with h
        injection h with h1 h2
        subst h2
        exact ⟨hroot, rfl⟩
      | some res =>
        obtain ⟨key, cur1⟩ := res
        have hk := (string_some hs hq).2
        simp only
        split
        · rename_i hq2
          exact parse_value_wf hroot hk hq2
        · split
          · exact parse_block_wf hroot hk
          · refine ⟨fun st1 h => ?_, fun b r h => by cases h⟩
            injection h with h
            subst h
            exact ⟨hroot, rfl⟩
    · split
      · refine ⟨fun st1 h => ?_, fun b r h => by cases h⟩
        injection h with h
        subst h
        exact ⟨hroot, rfl⟩
      · split
        · split
          · exact ⟨fun st1 h => (by cases h), fun b r h => by cases h⟩
          · refine ⟨fun st1 h => ?_, fun b r h => by cases h⟩
            injection h with h
            subst h
            exact ⟨hroot, rfl⟩
        · refine ⟨fun st1 h => (by cases h), fun b r h => ?_⟩
          injection h with h
          injection h with h1 h2
          subst h2
          exact key_value.wf_clear _ hroot

theorem parse_loop_wf (n : Nat) : ∀ (st : parse_state) (b : Bool) (r : key_value),
    st.m_root.wf = true → parse_loop n st = Outcome.returned b r →
    r.wf = true ∧ r.key = st.m_root.key := by
  induction n with
  | zero => intro st b r _ h; cases h
  | succ n ih =>
    intro st b r hroot h
    rw [parse_loop] at h
    cases hs : parse_iter st with
    | done o =>
      rw [hs] at h
      simp only at h
      subst h
      exact (parse_iter_wf hroot).2 b r hs
    | next st1 =>
      rw [hs] at h
      simp only at h
      have h1 := (parse_iter_wf hroot).1 st1 hs
      have h2 := ih st1 b r h1.1 h
      exact ⟨h2.1, h2.2.trans h1.2⟩

/-! ## Reading back what `write_block` wrote -/

theorem kv_map_t.find_eq_none_iff (m : kv_map_t) (k : Str) :
    m.find k = none ↔ ∀ k2, k2 ∈ m.keys → case_insensitive_equal k2 k = false := by
  induction m using kv_map_induction with
  | hnil => simp [kv_map_t.find, kv_map_t.keys]
  | hcons k1 v t ih =>
    by_cases h : case_insensitive_equal k1 k = true
    · simp [kv_map_t.find, kv_map_t.keys, h]
    · simp [kv_map_t.find, kv_map_t.keys, h, ih]

theorem replicate_tab_whitespace (d : Nat) :
    (List.replicate d '\t').all is_whitespace = true := by
  induction d with
  | zero => rfl
  | succ d ih =>
    rw [List.replicate_succ, List.all_cons, ih]
    rfl

/-- Reading a scalar line of `write_block` inside the block at `p`. -/
theorem parse_from_scalar_line (d : Nat) (k v : Str) (rest : List Char) (root : key_value)
    (p : Ptr) (sc : List Ptr) (bk : Str) (c0 : kv_map_t) (hk : quotable k = true)
    (hv : quotable v = true) (hp : root.deref p = some (key_value.block bk c0))
    (hnew : c0.find k = none) :
    parse_from ⟨List.replicate d '\t' ++ quoted k ++ [' '] ++ quoted v ++ ['\n'] ++ rest,
        root, p :: sc⟩ =
      parse_from ⟨rest, root.modify_at p (fun _ => key_value.block bk
        (c0.append (kv_map_t.cons k (key_value.value k v) kv_map_t.nil))), p :: sc⟩ := by
  have e : List.replicate d '\t' ++ quoted k ++ [' '] ++ quoted v ++ ['\n'] ++ rest =
      List.replicate d '\t' ++ quoted k ++ ([' '] ++ quoted v ++ ([] ++ '\n' :: rest)) := by
    simp [List.append_assoc]
  have h := parse_iter_scalar (List.replicate d '\t') [' '] [] rest k v root (p :: sc)
    (replicate_tab_whitespace d) (by decide) hk hv (by simp)
  have hstep : emplace_value k v ('\n' :: rest) root (p :: sc) = Step.next ⟨'\n' :: rest,
      root.modify_at p (fun b => b.emplace k (key_value.value k v)), p :: sc⟩ := by
    simp only [emplace_value, hp]
  rw [e, parse_from_next (h.trans hstep)]
  have e2 : ('\n' :: rest) = ['\n'] ++ rest := rfl
  rw [e2, parse_from_skip _ _ _ _ (by decide)]
  congr 2
  apply key_value.modify_at_congr
  intro b hb
  rw [hp] at hb
  injection hb with hb
  subst hb
  simp only [key_value.emplace, kv_map_t.try_emplace_of_find_none c0 k _ hnew]

/-- Reading the header of a block of `write_block` inside the block at `p`. -/
theorem parse_from_block_header (d : Nat) (k : Str) (rest : List Char) (root : key_value)
    (p : Ptr) (sc : List Ptr) (bk : Str) (c0 : kv_map_t) (hk : quotable k = true)
    (hp : root.deref p = some (key_value.block bk c0)) (hnew : c0.find k = none) :
    parse_from ⟨List.replicate d '\t' ++ quoted k ++ ['\n'] ++ List.replicate d '\t'
        ++ ['{', '\n'] ++ rest, root, p :: sc⟩ =
      parse_from ⟨rest, root.modify_at p (fun _ => key_value.block bk
        (c0.append (kv_map_t.cons k (key_value.block k kv_map_t.nil) kv_map_t.nil))),
        (p ++ [k]) :: p :: sc⟩ := by
  have e : List.replicate d '\t' ++ quoted k ++ ['\n'] ++ List.replicate d '\t'
        ++ ['{', '\n'] ++ rest =
      List.replicate d '\t' ++ quoted k ++ (('\n' :: List.replicate d '\t') ++
        '{' :: ('\n' :: rest)) := by
    simp [List.append_assoc]
  have hws1 : ('\n' :: List.replicate d '\t').all is_whitespace = true := by
    rw [List.all_cons, replicate_tab_whitespace]; rfl
  have h := parse_iter_open (List.replicate d '\t') ('\n' :: List.replicate d '\t')
    ('\n' :: rest) k root (p :: sc) (replicate_tab_whitespace d) hws1 hk
  have hstep : parse_block k ('{' :: ('\n' :: rest)) root (p :: sc) = Step.next ⟨'\n' :: rest,
      root.modify_at p (fun b => b.emplace k (key_value.block k kv_map_t.nil)),
      (p ++ [k]) :: p :: sc⟩ := by
    simp only [parse_block, hp, hnew, advance]
  rw [e, parse_from_next (h.trans hstep)]
  have e2 : ('\n' :: rest) = ['\n'] ++ rest := rfl
  rw [e2, parse_from_skip _ _ _ _ (by decide)]
  congr 2
  apply key_value.modify_at_congr
  intro b hb
  rw [hp] at hb
  injection hb with hb
  subst hb
  simp only [key_value.emplace, kv_map_t.try_emplace_of_find_none c0 k _ hnew]

/-- Reading the closing line of a block of `write_block`. -/
theorem parse_from_block_footer (d : Nat) (rest : List Char) (root : key_value)
    (q : Ptr) (sc : List Ptr) :
    parse_from ⟨List.replicate d '\t' ++ ['}', '\n'] ++ rest, root, q :: sc⟩ =
      parse_from ⟨rest, root, sc⟩ := by
  have e : List.replicate d '\t' ++ ['}', '\n'] ++ rest =
      List.replicate d '\t' ++ '}' :: ('\n' :: rest) := by simp [List.append_assoc]
  rw [e, parse_from_next (parse_iter_close _ _ root (q :: sc) (replicate_tab_whitespace d))]
  have e2 : ('\n' :: rest) = ['\n'] ++ rest := rfl
  rw [e2, parse_from_skip _ _ _ _ (by decide)]

theorem kv_map_t.update_id (m : kv_map_t) (seg : Str) : m.update seg (fun c => c) = m := by
  induction m using kv_map_induction with
  | hnil => rfl
  | hcons k1 v t iht => simp [kv_map_t.update, iht]

theorem key_value.modify_at_id (r : key_value) (q : Ptr) : r.modify_at q (fun b => b) = r := by
  induction q generalizing r with
  | nil => cases r <;> rfl
  | cons seg q ih =>
    cases r with
    | value k v => rfl
    | block k m =>
      rw [key_value.modify_at]
      have : (fun c => key_value.modify_at c q (fun b => b)) = fun c => c := funext (ih ·)
      rw [this, kv_map_t.update_id]

/-- Filling the fresh block stored last under `k` in the block at `p`. -/
theorem key_value.modify_at_child (root : key_value) (p : Ptr) (bk k : Str) (c0 : kv_map_t)
    (x y : key_value) (hnew : c0.find k = none) :
    (root.modify_at p (fun _ => key_value.block bk
        (c0.append (kv_map_t.cons k x kv_map_t.nil)))).modify_at (p ++ [k]) (fun _ => y) =
      root.modify_at p (fun _ => key_value.block bk
        (c0.append (kv_map_t.cons k y kv_map_t.nil))) := by
  rw [key_value.modify_at_append, key_value.modify_at_modify_at]
  apply key_value.modify_at_congr
  intro b _
  simp only [key_value.modify_at, kv_map_t.update_append_last c0 k x _ hnew]

theorem reparse_map :
    (∀ kv : key_value, ∀ k m, kv = key_value.block k m → m.wf = true →
      ∀ (d : Nat) (root : key_value) (p : Ptr) (sc : List Ptr) (rest : List Char) (bk : Str)
        (c0 : kv_map_t), root.deref p = some (key_value.block bk c0) →
        (∀ k2, k2 ∈ m.keys → c0.find k2 = none) →
        parse_from ⟨write_map m d ++ rest, root, p :: sc⟩ =
          parse_from ⟨rest, root.modify_at p (fun _ => key_value.block bk (c0.append m)),
            p :: sc⟩) ∧
    (∀ m : kv_map_t, m.wf = true →
      ∀ (d : Nat) (root : key_value) (p : Ptr) (sc : List Ptr) (rest : List Char) (bk : Str)
        (c0 : kv_map_t), root.deref p = some (key_value.block bk c0) →
        (∀ k2, k2 ∈ m.keys → c0.find k2 = none) →
        parse_from ⟨write_map m d ++ rest, root, p :: sc⟩ =
          parse_from ⟨rest, root.modify_at p (fun _ => key_value.block bk (c0.append m)),
            p :: sc⟩) := by
  apply key_value_induction
  · intro k v k1 m h
    cases h
  · intro k m ih k1 m1 h
    injection h with h1 h2
    subst h2
    exact ih
  · intro _ d root p sc rest bk c0 hp _
    rw [kv_map_t.append_nil]
    have : root.modify_at p (fun _ => key_value.block bk c0) = root.modify_at p (fun b => b) :=
      key_value.modify_at_congr root p _ _ (fun b hb => by rw [hp] at hb; injection hb)
    rw [this, key_value.modify_at_id]
    rfl
  · intro key kv t ihkv iht hwf d root p sc rest bk c0 hp hdisj
    rw [kv_map_t.wf_cons] at hwf
    obtain ⟨hkey, hq, hkvwf, htk, htwf⟩ := hwf
    have hnew : c0.find key = none := hdisj key (by simp [kv_map_t.keys])
    have hdisj_t : ∀ (x : key_value) (k2 : Str), k2 ∈ t.keys →
        (c0.append (kv_map_t.cons key x kv_map_t.nil)).find k2 = none := by
      intro x k2 hk2
      rw [kv_map_t.find_append, hdisj k2 (by simp [kv_map_t.keys, hk2])]
      have h1 := (kv_map_t.find_eq_none_iff t key).1 htk k2 hk2
      rw [case_insensitive_equal_symm] at h1
      simp [kv_map_t.find, h1]
    cases kv with
    | value k1 v =>
      simp only [key_value.key] at hkey
      subst hkey
      rw [key_value.wf] at hkvwf
      rw [write_map]
      rw [List.append_assoc, parse_from_scalar_line d k1 v _ root p sc bk c0 hq hkvwf hp hnew]
      rw [iht htwf d _ p sc rest bk _ (by rw [key_value.deref_modify_at, hp]; rfl)
        (hdisj_t _), key_value.modify_at_modify_at, kv_map_t.append_assoc]
      rfl
    | block k1 m1 =>
      simp only [key_value.key] at hkey
      subst hkey
      rw [key_value.wf] at hkvwf
      rw [write_map, write_block]
      have e : List.replicate d '\t' ++ quoted k1 ++ ['\n'] ++ List.replicate d '\t'
            ++ ['{', '\n'] ++ write_map m1 (d + 1) ++ List.replicate d '\t' ++ ['}', '\n']
            ++ write_map t d ++ rest =
          List.replicate d '\t' ++ quoted k1 ++ ['\n'] ++ List.replicate d '\t'
            ++ ['{', '\n'] ++ (write_map m1 (d + 1) ++ (List.replicate d '\t' ++ ['}', '\n']
            ++ (write_map t d ++ rest))) := by
        simp only [List.append_assoc]
      rw [e, parse_from_block_header d k1 _ root p sc bk c0 hq hp hnew]
      rw [ihkv k1 m1 rfl hkvwf (d + 1) _ (p ++ [k1]) (p :: sc) _ k1 kv_map_t.nil
        (by
          rw [key_value.deref_append, key_value.deref_modify_at, hp]
          simp [key_value.deref, kv_map_t.find_append, hnew, kv_map_t.find,
            case_insensitive_equal_refl])
        (fun _ _ => rfl)]
      rw [parse_from_block_footer, key_value.modify_at_child root p bk k1 c0 _ _ hnew]
      rw [iht htwf d _ p sc rest bk _ (by rw [key_value.deref_modify_at, hp]; rfl)
        (hdisj_t _), key_value.modify_at_modify_at, kv_map_t.append_assoc]
      rfl

/-! ## What an iteration does to the tree -/

theorem parse_iter_root (st : parse_state) :
    (∀ st1, parse_iter st = Step.next st1 →
      st1.m_root = st.m_root ∨
      ∃ (p : Ptr) (key : Str) (n : key_value),
        st1.m_root = st.m_root.modify_at p (fun b => b.emplace key n)) ∧
    (∀ b r, parse_iter st = Step.done (Outcome.returned b r) →
      r = st.m_root ∨ (b = false ∧ r = st.m_root.clear)) := by
  unfold parse_iter parse_value emplace_value parse_block
  simp only
  refine ⟨fun st1 h => ?_, fun b r h => ?_⟩
  · repeat' split at h
    all_goals first
      | (cases h; done)
      | (cases h; exact Or.inl rfl)
      | (cases h; exact Or.inr ⟨_, _, _, rfl⟩)
  · repeat' split at h
    all_goals first
      | (cases h; done)
      | (cases h; exact Or.inl rfl)
      | (cases h; exact Or.inr ⟨rfl, rfl⟩)

namespace key_value

theorem type_emplace (b : key_value) (key : Str) (n : key_value) :
    (b.emplace key n).type = b.type := by
  cases b <;> rfl

theorem type_modify_at (root : key_value) (p : Ptr) (f : key_value → key_value)
    (hf : ∀ c, (f c).type = c.type) : (root.modify_at p f).type = root.type := by
  cases p with
  | nil => cases root <;> exact hf _
  | cons seg p => cases root <;> rfl

theorem type_clear (root : key_value) : root.clear.type = root.type := by
  cases root <;> rfl

end key_value

theorem parse_loop_type (n : Nat) : ∀ (st : parse_state) (b : Bool) (r : key_value),
    parse_loop n st = Outcome.returned b r → r.type = st.m_root.type := by
  induction n with
  | zero => intro st b r h; cases h
  | succ n ih =>
    intro st b r h
    rw [parse_loop] at h
    cases hs : parse_iter st with
    | done o =>
      rw [hs] at h
      simp only at h
      subst h
      rcases (parse_iter_root st).2 b r hs with h1 | ⟨_, h1⟩
      · rw [h1]
      · rw [h1, key_value.type_clear]
    | next st1 =>
      rw [hs] at h
      simp only at h
      rw [ih st1 b r h]
      rcases (parse_iter_root st).1 st1 hs with h1 | ⟨p, key, n1, h1⟩
      · rw [h1]
      · rw [h1, key_value.type_modify_at _ _ _ (fun c => key_value.type_emplace c key n1)]

/-! ## Round trip -/

/-- Every tree that `parse` leaves is the root block, with a map of the shape `kv_map_t.wf`. -/
theorem parse_returns_wf (text : List Char) (b : Bool) (t : key_value)
    (h : parse text = Outcome.returned b t) :
    ∃ m, t = key_value.block "root".toList m ∧ m.wf = true := by
  have h1 := parse_loop_wf _ ⟨text, m_root_init.clear, [[]]⟩ b t rfl h
  have h2 := parse_loop_type _ ⟨text, m_root_init.clear, [[]]⟩ b t h
  cases t with
  | value k v => cases h2
  | block k m =>
    refine ⟨m, ?_, h1.1⟩
    have : k = "root".toList := h1.2
    rw [this]

/-- Reading back the text written for a map of the shape `kv_map_t.wf`. -/
theorem parse_write_map (m : kv_map_t) (hm : m.wf = true) :
    parse (write_map m 0) = Outcome.returned true (key_value.block "root".toList m) := by
  have e : write_map m 0 = write_map m 0 ++ [] := by simp
  have h := reparse_map.2 m hm 0 (key_value.block "root".toList kv_map_t.nil) [] [] []
    "root".toList kv_map_t.nil rfl (fun _ _ => rfl)
  unfold parse kv_file.parse
  rw [e]
  exact h.trans (parse_from_done (parse_iter_end [] _ _ rfl))

/-! ## Nodes are never removed or overwritten while `parse` goes on -/

namespace key_value

theorem preserved_in_refl (a : key_value) : a.preserved_in a :=
  fun _ => ⟨fun _ _ h => h, fun _ m h => ⟨m, h⟩⟩

theorem preserved_in_trans {a b c : key_value} (hab : a.preserved_in b)
    (hbc : b.preserved_in c) : a.preserved_in c := by
  intro p
  refine ⟨fun k v h => (hbc p).1 k v ((hab p).1 k v h), fun k m h => ?_⟩
  obtain ⟨m1, h1⟩ := (hab p).2 k m h
  exact (hbc p).2 k m1 h1

theorem deref_cons_block (k : Str) (m : kv_map_t) (seg : Str) (p : Ptr) :
    (block k m).deref (seg :: p) = (m.find seg).bind (fun c => c.deref p) := by
  rw [deref]
  cases m.find seg <;> rfl

theorem preserved_in_emplace (c : key_value) (key : Str) (n : key_value) :
    c.preserved_in (c.emplace key n) := by
  cases c with
  | value k v => exact preserved_in_refl _
  | block k m =>
    intro p
    cases p with
    | nil =>
      refine ⟨fun k1 v1 h => ?_, fun k1 m1 h => ?_⟩
      · simp [deref] at h
      · simp only [deref, Option.some.injEq, block.injEq] at h
        exact ⟨_, by rw [emplace, deref, h.1]⟩
    | cons seg p =>
      rw [emplace, deref_cons_block, deref_cons_block]
      cases hf : m.find seg with
      | none =>
        exact ⟨fun k1 v1 h => by simp at h, fun k1 m1 h => by simp at h⟩
      | some c1 =>
        rw [kv_map_t.find_try_emplace_of_some m key n hf]
        exact ⟨fun _ _ h => h, fun _ m1 h => ⟨m1, h⟩⟩

theorem preserved_in_modify_at (root : key_value) (q : Ptr) (f : key_value → key_value)
    (hf : ∀ c : key_value, c.preserved_in (f c)) : root.preserved_in (root.modify_at q f) := by
  induction q generalizing root with
  | nil => cases root <;> exact hf _
  | cons seg q ih =>
    cases root with
    | value k v => exact preserved_in_refl _
    | block k m =>
      intro p
      cases p with
      | nil =>
        refine ⟨fun k1 v1 h => ?_, fun k1 m1 h => ?_⟩
        · simp [deref] at h
        · simp only [deref, Option.some.injEq, block.injEq] at h
          exact ⟨_, by rw [modify_at, deref, h.1]⟩
      | cons s p =>
        rw [modify_at, deref_cons_block, deref_cons_block]
        by_cases hs : case_insensitive_equal seg s = true
        · rw [kv_map_t.find_update_same m _ hs]
          cases hfm : m.find s with
          | none => exact ⟨fun k1 v1 h => by simp at h, fun k1 m1 h => by simp at h⟩
          | some c1 => exact ih c1 p
        · rw [kv_map_t.find_update_other m _ (by simpa using hs)]
          exact ⟨fun _ _ h => h, fun _ m1 h => ⟨m1, h⟩⟩

theorem deref_nil (root : key_value) : root.deref [] = some root := by
  cases root <;> rfl

theorem deref_child (root : key_value) (p : Ptr) (k : Str) (x : key_value) :
    root.deref (p ++ [k]) = some x ↔
      ∃ bk m, root.deref p = some (block bk m) ∧ m.find k = some x := by
  rw [deref_append]
  cases root.deref p with
  | none => simp
  | some b =>
    cases b with
    | value k1 v1 => simp [deref]
    | block k1 m1 =>
      rw [Option.some_bind, deref_cons_block]
      constructor
      · intro h
        cases hfk : m1.find k with
        | none => rw [hfk] at h; simp at h
        | some c =>
          rw [hfk, Option.some_bind, deref_nil] at h
          exact ⟨k1, m1, rfl, hfk.trans h⟩
      · rintro ⟨bk, m, h1, h2⟩
        injection h1 with h1
        injection h1 with ha hb
        subst hb
        rw [h2, Option.some_bind, deref_nil]

end key_value

theorem parse_iter_preserved {st st1 : parse_state} (h : parse_iter st = Step.next st1) :
    st.m_root.preserved_in st1.m_root := by
  rcases (parse_iter_root st).1 st1 h with h1 | ⟨p, key, n, h1⟩
  · rw [h1]; exact key_value.preserved_in_refl _
  · rw [h1]
    exact key_value.preserved_in_modify_at _ _ _
      (fun c => key_value.preserved_in_emplace c key n)

theorem parse_steps_preserved (n : Nat) : ∀ (st st1 : parse_state),
    parse_steps n st = some st1 → st.m_root.preserved_in st1.m_root := by
  induction n with
  | zero =>
    intro st st1 h
    simp only [parse_steps, Option.some.injEq] at h
    subst h
    exact key_value.preserved_in_refl _
  | succ n ih =>
    intro st st1 h
    rw [parse_steps] at h
    cases hs : parse_iter st with
    | done o => rw [hs] at h; cases h
    | next st2 =>
      rw [hs] at h
      exact key_value.preserved_in_trans (parse_iter_preserved hs) (ih st2 st1 h)

theorem parse_steps_parse_from (n : Nat) : ∀ (st st1 : parse_state),
    parse_steps n st = some st1 → parse_from st = parse_from st1 := by
  induction n with
  | zero =>
    intro st st1 h
    simp only [parse_steps, Option.some.injEq] at h
    subst h
    rfl
  | succ n ih =>
    intro st st1 h
    rw [parse_steps] at h
    cases hs : parse_iter st with
    | done o => rw [hs] at h; cases h
    | next st2 =>
      rw [hs] at h
      rw [parse_from_next hs]
      exact ih st2 st1 h

theorem parse_loop_preserved (n : Nat) : ∀ (st : parse_state) (r : key_value),
    parse_loop n st = Outcome.returned true r → st.m_root.preserved_in r := by
  induction n with
  | zero => intro st r h; cases h
  | succ n ih =>
    intro st r h
    rw [parse_loop] at h
    cases hs : parse_iter st with
    | done o =>
      rw [hs] at h
      simp only at h
      subst h
      rcases (parse_iter_root st).2 true r hs with h1 | ⟨h1, _⟩
      · rw [h1]; exact key_value.preserved_in_refl _
      · cases h1
    | next st2 =>
      rw [hs] at h
      exact key_value.preserved_in_trans (parse_iter_preserved hs) (ih st2 r h)

/-! ## Duplicate scalars -/

/-- C1: first write wins. A scalar entry `"k" "v"` is read in the block at `p`, which has no
node of that name; after any number of further iterations a scalar entry `"k2" "v2"` with
`k2` equal to `k` up to case is read in the same block. Then the later entry leaves the tree
as it is, and in the tree of a successful `parse` the lookup of `k` and of `k2` in that
block gives the scalar of the first entry. -/
theorem first_write_wins (ws ws1 r1 mid ws2 ws3 r2 rest : List Char) (k v k2 v2 bk : Str)
    (m : kv_map_t) (root root2 final : key_value) (p : Ptr) (scope scope2 : List Ptr)
    (j : Nat)
    (hws : ws.all is_whitespace = true) (hws1 : ws1.all is_whitespace = true)
    (hws2 : ws2.all is_whitespace = true) (hws3 : ws3.all is_whitespace = true)
    (hk : quotable k = true) (hv : quotable v = true)
    (hk2 : quotable k2 = true) (hv2 : quotable v2 = true)
    (hr1 : '\n' ∉ r1) (hr2 : '\n' ∉ r2)
    (heq : case_insensitive_equal k k2 = true)
    (hp : root.deref p = some (key_value.block bk m)) (hnew : m.find k = none)
    (hmid : parse_steps j ⟨'\n' :: mid,
        root.modify_at p (fun b => b.emplace k (key_value.value k v)), p :: scope⟩ =
      some ⟨ws2 ++ quoted k2 ++ (ws3 ++ quoted v2 ++ (r2 ++ '\n' :: rest)), root2,
        p :: scope2⟩)
    (hfin : parse_from ⟨ws ++ quoted k ++ (ws1 ++ quoted v ++ (r1 ++ '\n' :: mid)), root,
        p :: scope⟩ = Outcome.returned true final) :
    parse_iter ⟨ws2 ++ quoted k2 ++ (ws3 ++ quoted v2 ++ (r2 ++ '\n' :: rest)), root2,
        p :: scope2⟩ = Step.next ⟨'\n' :: rest, root2, p :: scope2⟩ ∧
    ∃ bk1 m1, final.deref p = some (key_value.block bk1 m1) ∧
      (key_value.block bk1 m1).find k = some (key_value.value k v) ∧
      (key_value.block bk1 m1).find k2 = some (key_value.value k v) := by
  -- the first entry
  have h1 := parse_iter_scalar ws ws1 r1 mid k v root (p :: scope) hws hws1 hk hv hr1
  have hstep : emplace_value k v ('\n' :: mid) root (p :: scope) = Step.next ⟨'\n' :: mid,
      root.modify_at p (fun b => b.emplace k (key_value.value k v)), p :: scope⟩ := by
    simp only [emplace_value, hp]
  have hstored : (root.modify_at p (fun b => b.emplace k (key_value.value k v))).deref
      (p ++ [k]) = some (key_value.value k v) := by
    rw [key_value.deref_child]
    refine ⟨bk, m.try_emplace k (key_value.value k v), ?_, ?_⟩
    · rw [key_value.deref_modify_at, hp]; rfl
    · exact kv_map_t.find_try_emplace_self m k _ hnew
  -- the tree when the second entry is read
  have hpres2 := parse_steps_preserved j _ _ hmid
  have h2 := (hpres2 (p ++ [k])).1 k v hstored
  obtain ⟨bk2, m2, hp2, hf2⟩ := (key_value.deref_child root2 p k _).1 h2
  have hf2' : m2.find k2 = some (key_value.value k v) := by
    rw [← kv_map_t.find_congr m2 heq]; exact hf2
  refine ⟨?_, ?_⟩
  · rw [parse_iter_scalar ws2 ws3 r2 rest k2 v2 root2 (p :: scope2) hws2 hws3 hk2 hv2 hr2]
    simp only [emplace_value, hp2]
    have : root2.modify_at p (fun b => b.emplace k2 (key_value.value k2 v2)) =
        root2.modify_at p (fun b => b) := by
      apply key_value.modify_at_congr
      intro b hb
      rw [hp2] at hb
      injection hb with hb
      subst hb
      rw [key_value.emplace, kv_map_t.try_emplace_of_find_some m2 k2 _ hf2']
    rw [this, key_value.modify_at_id]
  · -- the final tree
    rw [parse_from_next (h1.trans hstep)] at hfin
    have hpres := parse_loop_preserved _ _ _ hfin
    have h3 := (hpres (p ++ [k])).1 k v hstored
    obtain ⟨bk3, m3, hp3, hf3⟩ := (key_value.deref_child final p k _).1 h3
    refine ⟨bk3, m3, hp3, hf3, ?_⟩
    show m3.find k2 = _
    rw [← kv_map_t.find_congr m3 heq]; exact hf3

/-- C1 at `"x" "1"`, `"y" "3"`, `"X" "2"`, each on its own line. -/
theorem first_write_wins_witness :
    case_insensitive_equal "x".toList "X".toList = true ∧
    parse "\"x\" \"1\"\n\"y\" \"3\"\n\"X\" \"2\"\n".toList =
      Outcome.returned true (kv_root [kv_scalar "x" "1", kv_scalar "y" "3"]) ∧
    parse_iter ⟨"\n\"X\" \"2\"\n".toList, kv_root [kv_scalar "x" "1", kv_scalar "y" "3"],
        [[]]⟩ =
      Step.next ⟨"\n".toList, kv_root [kv_scalar "x" "1", kv_scalar "y" "3"], [[]]⟩ ∧
    ∃ bk1 m1, (kv_root [kv_scalar "x" "1", kv_scalar "y" "3"]).deref [] =
        some (key_value.block bk1 m1) ∧
      (key_value.block bk1 m1).find "x".toList =
        some (key_value.value "x".toList "1".toList) ∧
      (key_value.block bk1 m1).find "X".toList =
        some (key_value.value "x".toList "1".toList) :=
  have h := first_write_wins [] " ".toList [] "\"y\" \"3\"\n\"X\" \"2\"\n".toList
    "\n".toList " ".toList [] [] "x".toList "1".toList "X".toList "2".toList "root".toList
    kv_map_t.nil (kv_root []) (kv_root [kv_scalar "x" "1", kv_scalar "y" "3"])
    (kv_root [kv_scalar "x" "1", kv_scalar "y" "3"]) [] [] [] 1
    (by decide) (by decide) (by decide) (by decide) (by decide) (by decide) (by decide)
    (by decide) (by decide) (by decide) (by decide) rfl rfl rfl rfl
  ⟨by decide, rfl, h.1, h.2⟩

/-! ## Duplicate blocks -/

theorem kv_map_t.update_key_congr (m : kv_map_t) {a b : Str}
    (h : case_insensitive_equal a b = true) (f : key_value → key_value) :
    m.update a f = m.update b f := by
  induction m using kv_map_induction with
  | hnil => rfl
  | hcons k v t ih => simp only [kv_map_t.update, case_insensitive_equal_congr h k, ih]

theorem key_value.modify_at_last_congr (root : key_value) (p : Ptr) {a b : Str}
    (h : case_insensitive_equal a b = true) (f : key_value → key_value) :
    root.modify_at (p ++ [a]) f = root.modify_at (p ++ [b]) f := by
  rw [key_value.modify_at_append, key_value.modify_at_append]
  apply key_value.modify_at_congr
  intro c _
  cases c with
  | value k v => rfl
  | block k m => simp only [key_value.modify_at, kv_map_t.update_key_congr m h]

theorem key_value.deref_last_congr (root : key_value) (p : Ptr) {a b : Str}
    (h : case_insensitive_equal a b = true) :
    root.deref (p ++ [a]) = root.deref (p ++ [b]) := by
  rw [key_value.deref_append, key_value.deref_append]
  cases root.deref p with
  | none => rfl
  | some c =>
    cases c with
    | value k v => rfl
    | block k m =>
      simp only [Option.some_bind, key_value.deref_cons_block, kv_map_t.find_congr m h]

/-- C2, as the code behaves on the example of the claim: the closing brace of the first
occurrence follows the scalar `"b" "1"` on its line and is discarded with the rest of that
line, so block `a` is still open when the second `"a"` is read. The second occurrence becomes
a block `a` inside the first one, and `c` is not a child of the top-level block `a`. With the
two occurrences on one line the second one is discarded with the rest of the line. -/
theorem duplicate_block_one_line_counterexample :
    parse "\"a\" \x7b \"b\" \"1\" \x7d\n\"a\" \x7b \"c\" \"2\" \x7d\n".toList =
      Outcome.returned true
        (kv_root [kv_block "a" [kv_scalar "b" "1", kv_block "a" [kv_scalar "c" "2"]]]) ∧
    (kv_root [kv_block "a" [kv_scalar "b" "1", kv_block "a" [kv_scalar "c" "2"]]]).deref
      ["a".toList, "c".toList] = none ∧
    (kv_root [kv_block "a" [kv_scalar "b" "1", kv_block "a" [kv_scalar "c" "2"]]]).deref
      ["a".toList, "a".toList, "c".toList] = some (key_value.value "c".toList "2".toList) ∧
    parse "\"a\" \x7b \"b\" \"1\" \x7d \"a\" \x7b \"c\" \"2\" \x7d\n".toList =
      Outcome.returned true (kv_root [kv_block "a" [kv_scalar "b" "1"]]) :=
  ⟨rfl, rfl, rfl, rfl⟩

/-- C2 amended: duplicate blocks merge when the second opening is read with the parent on
top of the scope stack. A block `"a" {` is opened in the block at `p`, which has no node of
that name; after any number of further iterations a block `"a2" {` with `a2` equal to `a` up
to case is read with the same block at `p` on top. Then the second opening leaves the tree
as it is (no sibling is created) and pushes on the scope stack a pointer to the node of the
first opening, which keeps the key `a` and the children stored so far; every node of that
tree is still there when `parse` succeeds. For two occurrences laid out as `write_block`
does (every brace on a line of its own), with well-formed children `m1` and `m2` that share
no key, the result is the one block `a` holding `m1` followed by `m2`. -/
theorem duplicate_block_merges (ws ws1 mid ws2 ws3 rest rest4 : List Char) (a a2 bk : Str)
    (m m1 m2 : kv_map_t) (root root2 : key_value) (p : Ptr) (scope scope2 : List Ptr)
    (j d : Nat)
    (hws : ws.all is_whitespace = true) (hws1 : ws1.all is_whitespace = true)
    (hws2 : ws2.all is_whitespace = true) (hws3 : ws3.all is_whitespace = true)
    (ha : quotable a = true) (ha2 : quotable a2 = true)
    (heq : case_insensitive_equal a a2 = true)
    (hp : root.deref p = some (key_value.block bk m)) (hnew : m.find a = none)
    (hmid : parse_steps j ⟨mid,
        root.modify_at p (fun b => b.emplace a (key_value.block a kv_map_t.nil)),
        (p ++ [a]) :: p :: scope⟩ =
      some ⟨ws2 ++ quoted a2 ++ (ws3 ++ '{' :: rest), root2, p :: scope2⟩)
    (hm1 : m1.wf = true) (hm2 : m2.wf = true)
    (hdisj : ∀ k, k ∈ m2.keys → m1.find k = none) :
    parse_iter ⟨ws ++ quoted a ++ (ws1 ++ '{' :: mid), root, p :: scope⟩ =
      Step.next ⟨mid, root.modify_at p (fun b => b.emplace a (key_value.block a kv_map_t.nil)),
        (p ++ [a]) :: p :: scope⟩ ∧
    (∃ ma, root2.deref (p ++ [a]) = some (key_value.block a ma) ∧
      root2.deref (p ++ [a2]) = some (key_value.block a ma) ∧
      parse_iter ⟨ws2 ++ quoted a2 ++ (ws3 ++ '{' :: rest), root2, p :: scope2⟩ =
        Step.next ⟨rest, root2, (p ++ [a2]) :: p :: scope2⟩) ∧
    (∀ final, parse_from ⟨ws2 ++ quoted a2 ++ (ws3 ++ '{' :: rest), root2, p :: scope2⟩ =
        Outcome.returned true final → root2.preserved_in final) ∧
    parse_from ⟨write_map (kv_map_t.cons a (key_value.block a m1) kv_map_t.nil) d ++
        (write_map (kv_map_t.cons a2 (key_value.block a2 m2) kv_map_t.nil) d ++ rest4),
        root, p :: scope⟩ =
      parse_from ⟨rest4, root.modify_at p (fun _ => key_value.block bk
        (m.append (kv_map_t.cons a (key_value.block a (m1.append m2)) kv_map_t.nil))),
        p :: scope⟩ := by
  refine ⟨?_, ?_, ?_, ?_⟩
  · rw [parse_iter_open ws ws1 mid a root (p :: scope) hws hws1 ha]
    simp only [parse_block, hp, hnew, advance]
  · -- the node of the first opening is still a block named `a` when the second is read
    have hstored : (root.modify_at p
        (fun b => b.emplace a (key_value.block a kv_map_t.nil))).deref (p ++ [a]) =
        some (key_value.block a kv_map_t.nil) := by
      rw [key_value.deref_child]
      refine ⟨bk, m.try_emplace a (key_value.block a kv_map_t.nil), ?_, ?_⟩
      · rw [key_value.deref_modify_at, hp]; rfl
      · exact kv_map_t.find_try_emplace_self m a _ hnew
    obtain ⟨ma, hma⟩ := ((parse_steps_preserved j _ _ hmid) (p ++ [a])).2 a _ hstored
    refine ⟨ma, hma, (key_value.deref_last_congr root2 p heq) ▸ hma, ?_⟩
    obtain ⟨bk2, mp, hp2, hf2⟩ := (key_value.deref_child root2 p a _).1 hma
    rw [parse_iter_open ws2 ws3 rest a2 root2 (p :: scope2) hws2 hws3 ha2]
    have hf2' : mp.find a2 = some (key_value.block a ma) := by
      rw [← kv_map_t.find_congr mp heq]; exact hf2
    simp only [parse_block, hp2, hf2', advance]
  · intro final hfin
    exact parse_loop_preserved _ _ _ hfin
  · -- the first occurrence
    have hwf1 : (kv_map_t.cons a (key_value.block a m1) kv_map_t.nil).wf = true := by
      rw [kv_map_t.wf_cons]
      exact ⟨rfl, ha, hm1, rfl, rfl⟩
    rw [reparse_map.2 _ hwf1 d root p scope _ bk m hp
      (by intro k2 hk2; simp only [kv_map_t.keys, List.mem_singleton] at hk2; rw [hk2]; exact hnew)]
    -- the header of the second occurrence
    have hp1 : (root.modify_at p (fun _ => key_value.block bk
        (m.append (kv_map_t.cons a (key_value.block a m1) kv_map_t.nil)))).deref p =
        some (key_value.block bk
          (m.append (kv_map_t.cons a (key_value.block a m1) kv_map_t.nil))) := by
      rw [key_value.deref_modify_at, hp]; rfl
    have hfa : (m.append (kv_map_t.cons a (key_value.block a m1) kv_map_t.nil)).find a2 =
        some (key_value.block a m1) := by
      rw [← kv_map_t.find_congr _ heq, kv_map_t.find_append, hnew]
      simp [kv_map_t.find, case_insensitive_equal_refl]
    have e : write_map (kv_map_t.cons a2 (key_value.block a2 m2) kv_map_t.nil) d ++ rest4 =
        List.replicate d '\t' ++ quoted a2 ++ (('\n' :: List.replicate d '\t') ++
          '{' :: ('\n' :: (write_map m2 (d + 1) ++
            (List.replicate d '\t' ++ ['}', '\n'] ++ rest4)))) := by
      simp [write_map, write_block, List.append_assoc]
    have hws5 : ('\n' :: List.replicate d '\t').all is_whitespace = true := by
      rw [List.all_cons, replicate_tab_whitespace]; rfl
    have hopen := parse_iter_open (List.replicate d '\t') ('\n' :: List.replicate d '\t')
      ('\n' :: (write_map m2 (d + 1) ++ (List.replicate d '\t' ++ ['}', '\n'] ++ rest4)))
      a2 (root.modify_at p (fun _ => key_value.block bk
        (m.append (kv_map_t.cons a (key_value.block a m1) kv_map_t.nil)))) (p :: scope)
      (replicate_tab_whitespace d) hws5 ha2
    have hstep : parse_block a2 ('{' :: ('\n' :: (write_map m2 (d + 1) ++
          (List.replicate d '\t' ++ ['}', '\n'] ++ rest4))))
        (root.modify_at p (fun _ => key_value.block bk
          (m.append (kv_map_t.cons a (key_value.block a m1) kv_map_t.nil)))) (p :: scope) =
        Step.next ⟨'\n' :: (write_map m2 (d + 1) ++
          (List.replicate d '\t' ++ ['}', '\n'] ++ rest4)),
          root.modify_at p (fun _ => key_value.block bk
            (m.append (kv_map_t.cons a (key_value.block a m1) kv_map_t.nil))),
          (p ++ [a2]) :: p :: scope⟩ := by
      simp only [parse_block, hp1, hfa, advance]
    rw [e, parse_from_next (hopen.trans hstep)]
    have e2 : ∀ t : List Char, ('\n' :: t) = ['\n'] ++ t := fun _ => rfl
    rw [e2, parse_from_skip _ _ _ _ (by decide)]
    -- the children of the second occurrence
    have hp2 : (root.modify_at p (fun _ => key_value.block bk
        (m.append (kv_map_t.cons a (key_value.block a m1) kv_map_t.nil)))).deref (p ++ [a2]) =
        some (key_value.block a m1) := by
      rw [key_value.deref_child]
      exact ⟨_, _, hp1, hfa⟩
    rw [reparse_map.2 m2 hm2 (d + 1) _ (p ++ [a2]) (p :: scope) _ a m1 hp2 hdisj]
    rw [parse_from_block_footer]
    rw [← key_value.modify_at_last_congr _ p heq,
      key_value.modify_at_child root p bk a m _ _ hnew]

/-- C2 amended at `"a" { "b" "1" }` followed by `"A" { "c" "2" }`, every brace at an entry
position. -/
theorem duplicate_block_merges_witness :
    case_insensitive_equal "a".toList "A".toList = true ∧
    parse "\"a\"\n\x7b\n\"b\" \"1\"\n\x7d\n\"A\" \x7b\n\"c\" \"2\"\n\x7d\n".toList =
      Outcome.returned true (kv_root [kv_block "a" [kv_scalar "b" "1", kv_scalar "c" "2"]]) ∧
    parse_iter ⟨"\n\"A\" \x7b\n\"c\" \"2\"\n\x7d\n".toList,
        kv_root [kv_block "a" [kv_scalar "b" "1"]], [[]]⟩ =
      Step.next ⟨"\n\"c\" \"2\"\n\x7d\n".toList, kv_root [kv_block "a" [kv_scalar "b" "1"]],
        [["A".toList], []]⟩ ∧
    parse_from ⟨"\"a\"\n\x7b\n\t\"b\" \"1\"\n\x7d\n\"A\"\n\x7b\n\t\"c\" \"2\"\n\x7d\n".toList,
        kv_root [], [[]]⟩ =
      parse_from ⟨[], kv_root [kv_block "a" [kv_scalar "b" "1", kv_scalar "c" "2"]], [[]]⟩ :=
  have h := duplicate_block_merges [] "\n".toList
    "\n\"b\" \"1\"\n\x7d\n\"A\" \x7b\n\"c\" \"2\"\n\x7d\n".toList "\n".toList " ".toList
    "\n\"c\" \"2\"\n\x7d\n".toList [] "a".toList "A".toList "root".toList kv_map_t.nil
    (kv_map_t.ofList [kv_scalar "b" "1"]) (kv_map_t.ofList [kv_scalar "c" "2"])
    (kv_root []) (kv_root [kv_block "a" [kv_scalar "b" "1"]]) [] [] [] 2 0
    (by decide) (by decide) (by decide) (by decide) (by decide) (by decide) (by decide)
    rfl rfl rfl (by decide) (by decide)
    (by
      intro k hk
      simp only [kv_map_t.keys, kv_map_t.ofList, kv_scalar, List.mem_singleton] at hk
      subst hk
      rfl)
  ⟨by decide, rfl, h.2.1.choose_spec.2.2, h.2.2.2⟩

/-! ## The bound on the iterations is never reached -/

theorem parse_from_not_fuel (st : parse_state) : parse_from st ≠ Outcome.out_of_fuel :=
  (parse_loop_fuel _ st _ (Nat.lt_succ_self _) (Nat.lt_succ_self _)).2

/-! ## Round trip, in any order of enumeration -/

theorem kv_map_t.reordered_find_none {a b : kv_map_t} (h : a.reordered b) (k : Str) :
    a.find k = none ↔ b.find k = none := by
  induction h with
  | nil => rfl
  | scalar key k1 v _ ih =>
    simp only [kv_map_t.find]
    split
    · simp
    · exact ih
  | block key k1 _ _ _ ih =>
    simp only [kv_map_t.find]
    split
    · simp
    · exact ih
  | swap k1 v1 k2 v2 t =>
    simp only [kv_map_t.find]
    by_cases h1 : case_insensitive_equal k1 k = true <;>
      by_cases h2 : case_insensitive_equal k2 k = true <;> simp [h1, h2]
  | trans _ _ ih1 ih2 => exact ih1.trans ih2

theorem kv_map_t.reordered_wf {a b : kv_map_t} (h : a.reordered b) (ha : a.wf = true) :
    b.wf = true := by
  induction h with
  | nil => rfl
  | scalar key k1 v ht ih =>
    rw [kv_map_t.wf_cons] at ha ⊢
    exact ⟨ha.1, ha.2.1, ha.2.2.1, (kv_map_t.reordered_find_none ht key).1 ha.2.2.2.1,
      ih ha.2.2.2.2⟩
  | block key k1 hm ht ihm iht =>
    rw [kv_map_t.wf_cons] at ha ⊢
    refine ⟨ha.1, ha.2.1, ?_, (kv_map_t.reordered_find_none ht key).1 ha.2.2.2.1,
      iht ha.2.2.2.2⟩
    have h3 := ha.2.2.1
    rw [key_value.wf] at h3 ⊢
    exact ihm h3
  | swap k1 v1 k2 v2 t =>
    rw [kv_map_t.wf_cons, kv_map_t.wf_cons] at ha
    obtain ⟨a1, a2, a3, a4, b1, b2, b3, b4, b5⟩ := ha
    rw [kv_map_t.wf_cons, kv_map_t.wf_cons]
    have hne : case_insensitive_equal k2 k1 = false := by
      by_cases h : case_insensitive_equal k2 k1 = true
      · simp [kv_map_t.find, h] at a4
      · simpa using h
    have ht1 : t.find k1 = none := by simpa [kv_map_t.find, hne] using a4
    have hne2 : case_insensitive_equal k1 k2 = false := by
      rw [case_insensitive_equal_symm]; exact hne
    exact ⟨b1, b2, b3, by simp [kv_map_t.find, hne2, b4], a1, a2, a3, ht1, b5⟩
  | trans _ _ ih1 ih2 => exact ih2 (ih1 ha)

theorem kv_map_t.reordered_refl (m : kv_map_t) : m.reordered m := by
  have h := @key_value_induction
    (fun kv => ∀ k m, kv = key_value.block k m → kv_map_t.reordered m m)
    (fun m => kv_map_t.reordered m m)
    (fun _ _ _ _ h => by cases h)
    (fun _ _ hm _ _ h => by cases h; exact hm)
    kv_map_t.reordered.nil
    (fun k v t hv ht => by
      cases v with
      | value k1 v1 => exact kv_map_t.reordered.scalar k k1 v1 ht
      | block k1 m1 => exact kv_map_t.reordered.block k k1 (hv k1 m1 rfl) ht)
  exact h.2 m

theorem key_value.reordered_self (t : key_value) : t.reordered t := by
  cases t with
  | value k v => exact ⟨rfl, rfl⟩
  | block k m => exact ⟨rfl, kv_map_t.reordered_refl m⟩

/-- C8: round trip. Let `t` be the tree of a successful `parse` and `t1` the same tree with
the pairs of every map taken in the order in which the container enumerates them (any
order). Then `parse` of the text that `write` produces for `t1` succeeds and yields `t1`:
a tree with the same keys in every block, the same nesting and the same scalar values as
`t`. With the pairs in insertion order, `parse` of `write` of `t` yields `t` itself. -/
theorem round_trip (text : List Char) (t t1 : key_value)
    (h : parse text = Outcome.returned true t) (hr : t.reordered t1) :
    parse (kv_file.write t1) = Outcome.returned true t1 ∧
    parse (kv_file.write t) = Outcome.returned true t := by
  obtain ⟨m, rfl, hm⟩ := parse_returns_wf text true t h
  refine ⟨?_, parse_write_map m hm⟩
  cases t1 with
  | value k v => exact absurd hr (by simp [key_value.reordered])
  | block k m1 =>
    obtain ⟨hk, hmm⟩ := hr
    subst hk
    exact parse_write_map m1 (kv_map_t.reordered_wf hmm hm)

/-- C8 at a text with a comment, a conditional tag, a nested block and a duplicate key, the
two pairs of the root written in the other order. -/
theorem round_trip_witness :
    parse "// c\n\"a\"\n\x7b\n\"b\" \"1\" [$WIN32]\n\"B\" \"2\"\n\"n\" \x7b\n\x7d\n\x7d\n\"x\" \"y\"\n".toList =
      Outcome.returned true (kv_root [kv_block "a" [kv_scalar "b" "1", kv_block "n" []],
        kv_scalar "x" "y"]) ∧
    (kv_root [kv_block "a" [kv_scalar "b" "1", kv_block "n" []], kv_scalar "x" "y"]).reordered
      (kv_root [kv_scalar "x" "y", kv_block "a" [kv_scalar "b" "1", kv_block "n" []]]) ∧
    kv_file.write (kv_root [kv_scalar "x" "y",
        kv_block "a" [kv_scalar "b" "1", kv_block "n" []]]) =
      "\"x\" \"y\"\n\"a\"\n\x7b\n\t\"b\" \"1\"\n\t\"n\"\n\t\x7b\n\t\x7d\n\x7d\n".toList ∧
    parse (kv_file.write (kv_root [kv_scalar "x" "y",
        kv_block "a" [kv_scalar "b" "1", kv_block "n" []]])) =
      Outcome.returned true (kv_root [kv_scalar "x" "y",
        kv_block "a" [kv_scalar "b" "1", kv_block "n" []]]) ∧
    parse (kv_file.write (kv_root [kv_block "a" [kv_scalar "b" "1", kv_block "n" []],
        kv_scalar "x" "y"])) =
      Outcome.returned true (kv_root [kv_block "a" [kv_scalar "b" "1", kv_block "n" []],
        kv_scalar "x" "y"]) :=
  have hr : (kv_root [kv_block "a" [kv_scalar "b" "1", kv_block "n" []],
      kv_scalar "x" "y"]).reordered
      (kv_root [kv_scalar "x" "y", kv_block "a" [kv_scalar "b" "1", kv_block "n" []]]) :=
    ⟨rfl, kv_map_t.reordered.swap _ _ _ _ _⟩
  have h := round_trip
    "// c\n\"a\"\n\x7b\n\"b\" \"1\" [$WIN32]\n\"B\" \"2\"\n\"n\" \x7b\n\x7d\n\x7d\n\"x\" \"y\"\n".toList
    _ _ rfl hr
  ⟨rfl, hr, rfl, h.1, h.2⟩

/-! ## Line comments -/

theorem skip_comment_append (c rest : List Char) (hn : '\n' ∉ c) (hz : NUL ∉ c) :
    skip_comment (c ++ '\n' :: rest) = '\n' :: rest := by
  induction c with
  | nil => simp [skip_comment]
  | cons x t ih =>
    simp only [List.mem_cons, not_or] at hn hz
    have h1 : ¬ (x = '\n' ∨ x = NUL) := by
      rintro (h | h)
      · exact hn.1 h.symm
      · exact hz.1 h.symm
    simp only [List.cons_append, skip_comment, if_neg h1]
    exact ih hn.2 hz.2

/-- A comment that starts at an entry position is passed: the loop goes on at the newline
that ends it, the tree and the scope stack untouched. -/
theorem parse_from_comment (ws c rest : List Char) (root : key_value) (scope : List Ptr)
    (hws : ws.all is_whitespace = true) (hn : '\n' ∉ c) (hz : NUL ∉ c) :
    parse_from ⟨ws ++ '/' :: '/' :: (c ++ '\n' :: rest), root, scope⟩ =
      parse_from ⟨rest, root, scope⟩ := by
  have h : parse_iter ⟨ws ++ '/' :: '/' :: (c ++ '\n' :: rest), root, scope⟩ =
      Step.next ⟨'\n' :: rest, root, scope⟩ := by
    rw [parse_iter_skip _ _ _ _ hws]
    unfold parse_iter
    have h3 : skip_whitespace ('/' :: '/' :: (c ++ '\n' :: rest)) =
        '/' :: '/' :: (c ++ '\n' :: rest) := skip_whitespace_of_not _ _ (by decide)
    have h4 : skip_comment ('/' :: '/' :: (c ++ '\n' :: rest)) = '\n' :: rest := by
      have := skip_comment_append ('/' :: '/' :: c) rest
        (by simp only [List.mem_cons, not_or]; exact ⟨by decide, by decide, hn⟩)
        (by simp only [List.mem_cons, not_or]; exact ⟨by decide, by decide, hz⟩)
      simpa using this
    simp only [h3, h4]
    simp [is_end, peek, peek_next, advance, NUL]
  rw [parse_from_next h]
  exact parse_from_skip ['\n'] rest root scope (by decide)

/-- C11, at the failing inputs: a comment between a block name and its brace, or between a
key and its value, is not passed. The key is dropped, the comment is then read at an entry
position, and what follows is read as a new entry: the brace is an unexpected character and
`parse` fails, the value is taken for a key and the scalar is lost. Without the comment
both texts parse to the expected tree. -/
theorem comment_after_key_not_ignored :
    parse "\"a\" // c\n\x7b\n\"b\" \"1\"\n\x7d\n".toList = Outcome.returned false (kv_root []) ∧
    parse "\"a\"\n\x7b\n\"b\" \"1\"\n\x7d\n".toList =
      Outcome.returned true (kv_root [kv_block "a" [kv_scalar "b" "1"]]) ∧
    parse "\"k\" // c\n\"v\"\n".toList = Outcome.returned true (kv_root []) ∧
    parse "\"k\"\n\"v\"\n".toList = Outcome.returned true (kv_root [kv_scalar "k" "v"]) :=
  ⟨rfl, rfl, rfl, rfl⟩

/-! ## Quoted strings -/

theorem quotable_from_iff (prev : Char) (s : Str) :
    quotable_from prev s = true ↔
      NUL ∉ s ∧ (prev :: s).getLast? ≠ some '\\' ∧
      ∀ i, i < s.length → s[i]? = some '"' → (prev :: s)[i]? = some '\\' := by
  induction s generalizing prev with
  | nil => simp [quotable_from]
  | cons c t ih =>
    rw [quotable_from, Bool.and_eq_true, ih c]
    simp only [Bool.not_eq_true', decide_eq_false_iff_not, List.mem_cons, not_or]
    have hlast : (prev :: c :: t).getLast? = (c :: t).getLast? := by
      simp [List.getLast?_cons_cons]
    rw [hlast]
    constructor
    · rintro ⟨⟨h1, h2⟩, h3, h4, h5⟩
      refine ⟨⟨fun e => h2 e.symm, h3⟩, h4, ?_⟩
      intro i hi hq
      cases i with
      | zero =>
        simp only [List.getElem?_cons_zero, Option.some.injEq] at hq ⊢
        by_contra hp
        exact h1 ⟨hp, hq⟩
      | succ i =>
        simp only [List.getElem?_cons_succ] at hq ⊢
        exact h5 i (by simpa using hi) hq
    · rintro ⟨⟨h2, h3⟩, h4, h5⟩
      refine ⟨⟨?_, fun e => h2 e.symm⟩, h3, h4, ?_⟩
      · rintro ⟨hp, hq⟩
        have := h5 0 (by simp) (by simp [hq])
        simp only [List.getElem?_cons_zero, Option.some.injEq] at this
        exact hp this
      · intro i hi hq
        have := h5 (i + 1) (by simpa using hi) (by simpa using hq)
        simpa using this

/-- C12: quoted-string scanning. Called on an opening quote, `string()` returns the slice
`s` and the position after its closing quote exactly when the bytes after the opening quote
are `s`, a quote, and the rest, where `s` has no NUL (the end of the buffer is not met
first), the closing quote is not immediately preceded by a backslash, and every quote inside
`s` is immediately preceded by a backslash: the closing quote is the first one that is not.
The slice is returned as it stands in the buffer, backslashes and line breaks included. The
scan fails exactly when the bytes do not have this form. -/
theorem string_scanning (body : List Char) :
    (∀ (s : Str) (rest : List Char), string ('"' :: body) = some (s, rest) ↔
      body = s ++ '"' :: rest ∧ NUL ∉ s ∧ ('"' :: s).getLast? ≠ some '\\' ∧
      ∀ i, i < s.length → s[i]? = some '"' → ('"' :: s)[i]? = some '\\') ∧
    (string ('"' :: body) = none ↔
      ¬ ∃ (s : Str) (rest : List Char),
        body = s ++ '"' :: rest ∧ NUL ∉ s ∧ ('"' :: s).getLast? ≠ some '\\' ∧
        ∀ i, i < s.length → s[i]? = some '"' → ('"' :: s)[i]? = some '\\') := by
  have key : ∀ (s : Str) (rest : List Char), string ('"' :: body) = some (s, rest) ↔
      body = s ++ '"' :: rest ∧ NUL ∉ s ∧ ('"' :: s).getLast? ≠ some '\\' ∧
      ∀ i, i < s.length → s[i]? = some '"' → ('"' :: s)[i]? = some '\\' := by
    intro s rest
    rw [← quotable_from_iff]
    constructor
    · intro h
      have h1 := string_some h rfl
      refine ⟨?_, h1.2⟩
      have h2 := h1.1
      simp only [quoted, List.cons_append, List.cons.injEq, true_and, List.append_assoc,
        List.singleton_append] at h2
      exact h2
    · rintro ⟨h1, h2⟩
      have := string_quoted s rest h2
      rw [h1]
      simpa [quoted] using this
  refine ⟨key, ?_⟩
  constructor
  · rintro h ⟨s, rest, h1⟩
    rw [(key s rest).2 h1] at h
    cases h
  · intro h
    cases hs : string ('"' :: body) with
    | none => rfl
    | some r =>
      obtain ⟨s, rest⟩ := r
      exact absurd ⟨s, rest, (key s rest).1 hs⟩ h

/-- C12 at a string with an escaped quote, a backslash pair and a line break, and at a
string that is not closed before the end of the buffer. -/
theorem string_scanning_examples :
    string "\"a\\\"b\\\\c\nd\" rest".toList = some ("a\\\"b\\\\c\nd".toList, " rest".toList) ∧
    string "\"a\\\" rest".toList = none :=
  ⟨rfl, rfl⟩

/-! ## Unexpected characters -/

/-- C13: an unexpected leading character is a hard failure. When, at an entry position, the
first byte after the whitespace is not the end of the buffer, not a quote, not a closing
brace and not the start of `//`, the iteration clears the root and `parse` returns failure:
the root has no children. -/
theorem unexpected_character_fails (ws rest : List Char) (c : Char) (bk : Str) (m : kv_map_t)
    (scope : List Ptr) (hws : ws.all is_whitespace = true) (hc : is_whitespace c = false)
    (hz : c ≠ NUL) (hq : c ≠ '"') (hb : c ≠ '}') (hcm : ¬ (c = '/' ∧ peek rest = '/')) :
    parse_iter ⟨ws ++ c :: rest, key_value.block bk m, scope⟩ =
      Step.done (Outcome.returned false (key_value.block bk kv_map_t.nil)) ∧
    parse_from ⟨ws ++ c :: rest, key_value.block bk m, scope⟩ =
      Outcome.returned false (key_value.block bk kv_map_t.nil) ∧
    (∀ k, (key_value.block bk kv_map_t.nil).find k = none) ∧
    parse (ws ++ c :: rest) = Outcome.returned false (kv_root []) := by
  have h : ∀ (bk1 : Str) (m1 : kv_map_t) (sc : List Ptr),
      parse_iter ⟨ws ++ c :: rest, key_value.block bk1 m1, sc⟩ =
        Step.done (Outcome.returned false (key_value.block bk1 kv_map_t.nil)) := by
    intro bk1 m1 sc
    rw [parse_iter_skip _ _ _ _ hws]
    unfold parse_iter
    simp only [skip_whitespace_of_not c rest hc]
    simp [is_end, peek, peek_next, advance, hz, hq, hb, key_value.clear]
    intro hc1 hc2
    exact hcm ⟨hc1, hc2⟩
  exact ⟨h bk m scope, parse_from_done (h bk m scope), fun _ => rfl,
    parse_from_done (h _ _ _)⟩

/-- C13 at `"a" "1"`, then a line that starts with a letter. -/
theorem unexpected_character_fails_witness :
    "\n ".toList.all is_whitespace = true ∧ is_whitespace 'x' = false ∧
    parse_from ⟨"\n x \"b\" \"2\"\n".toList, kv_root [kv_scalar "a" "1"], [[]]⟩ =
      Outcome.returned false (kv_root []) ∧
    parse "\"a\" \"1\"\n x \"b\" \"2\"\n".toList = Outcome.returned false (kv_root []) :=
  ⟨by decide, by decide,
    (unexpected_character_fails "\n ".toList " \"b\" \"2\"\n".toList 'x' "root".toList
      (kv_map_t.ofList [kv_scalar "a" "1"]) [[]] (by decide) (by decide) (by decide)
      (by decide) (by decide) (by decide)).2.1,
    rfl⟩

/-! ## The loop of `find_recursive` is a depth-first search -/

theorem depth_first_block (p : Ptr) (b1 b2 : Str) (m : kv_map_t) (key : Str) :
    depth_first p (key_value.block b1 m) key = depth_first p (key_value.block b2 m) key := by
  rw [depth_first, depth_first]

theorem findSome_push_blocks (key : Str) (p : Ptr) (m : kv_map_t) :
    ∀ stack : List (Ptr × kv_map_t),
    (push_blocks p m stack).findSome? (fun pm => depth_first pm.1 (key_value.block [] pm.2) key) =
      (depth_first_children p m key).orElse (fun _ =>
        stack.findSome? (fun pm => depth_first pm.1 (key_value.block [] pm.2) key)) := by
  induction m using kv_map_induction with
  | hnil => intro stack; simp [push_blocks, depth_first_children]
  | hcons k v t ih =>
    intro stack
    cases v with
    | value k1 v1 =>
      rw [push_blocks, ih, depth_first_children]
      cases depth_first_children p t key with
      | some r => rfl
      | none => simp [depth_first]
    | block k1 m1 =>
      rw [push_blocks, ih, depth_first_children]
      cases depth_first_children p t key with
      | some r => rfl
      | none =>
        simp only [Option.orElse, List.findSome?_cons]
        rw [depth_first_block (p ++ [k]) k1 [] m1 key]
        cases depth_first (p ++ [k]) (key_value.block [] m1) key <;> rfl

theorem weight_push_blocks (p : Ptr) (m : kv_map_t) :
    ∀ stack : List (Ptr × kv_map_t),
    ((push_blocks p m stack).map (fun pm => pm.2.blocks + 1)).sum =
      m.blocks + (stack.map (fun pm => pm.2.blocks + 1)).sum := by
  induction m using kv_map_induction with
  | hnil => intro stack; simp [push_blocks, kv_map_t.blocks]
  | hcons k v t ih =>
    intro stack
    cases v with
    | value k1 v1 =>
      rw [push_blocks, ih, kv_map_t.blocks, key_value.blocks]
      omega
    | block k1 m1 =>
      rw [push_blocks, ih, kv_map_t.blocks, key_value.blocks]
      simp only [List.map_cons, List.sum_cons]
      omega

theorem find_recursive_loop_eq (key : Str) (fuel : Nat) :
    ∀ stack : List (Ptr × kv_map_t),
    (stack.map (fun pm => pm.2.blocks + 1)).sum < fuel →
    find_recursive_loop fuel stack key = Lookup.ofOption
      (stack.findSome? (fun pm => depth_first pm.1 (key_value.block [] pm.2) key)) := by
  induction fuel with
  | zero => intro stack h; omega
  | succ fuel ih =>
    intro stack h
    cases stack with
    | nil => rfl
    | cons pm stack =>
      obtain ⟨p, m⟩ := pm
      rw [find_recursive_loop, List.findSome?_cons, depth_first]
      cases hf : m.find key with
      | some kv => rfl
      | none =>
        simp only
        rw [ih _ (by
          rw [weight_push_blocks]
          simp only [List.map_cons, List.sum_cons] at h
          omega), findSome_push_blocks]
        cases depth_first_children p m key <;> rfl

/-- The method `find_recursive` on a block is the depth-first search of `depth_first`; the
bound on the iterations is never reached. -/
theorem find_recursive_eq (bk : Str) (m : kv_map_t) (key : Str) :
    (key_value.block bk m).find_recursive key =
      Lookup.ofOption (depth_first [] (key_value.block bk m) key) := by
  rw [key_value.find_recursive, find_recursive_loop_eq key _ _ (by simp),
    depth_first_block [] bk [] m key]
  simp only [List.findSome?_cons, List.findSome?_nil]
  cases depth_first [] (key_value.block [] m) key <;> rfl

theorem find_recursive_total (bk : Str) (m : kv_map_t) (key : Str) :
    (key_value.block bk m).find_recursive key ≠ Lookup.out_of_fuel ∧
    (key_value.block bk m).find_recursive key ≠ Lookup.bad_variant_access := by
  rw [find_recursive_eq]
  cases depth_first [] (key_value.block bk m) key with
  | none => exact ⟨by simp [Lookup.ofOption], by simp [Lookup.ofOption]⟩
  | some r => exact ⟨by simp [Lookup.ofOption], by simp [Lookup.ofOption]⟩

/-! ## Recursive lookup -/

/-- C14, as the code behaves: the scalar `k` at depth 3 is returned although a scalar `k`
lies at depth 2, under whichever of the blocks `x` and `y` is enumerated first. -/
theorem find_recursive_breadth_first_counterexample :
    (kv_root [kv_block "x" [kv_scalar "k" "shallow"],
        kv_block "y" [kv_block "z" [kv_scalar "k" "deep"]]]).find_recursive "k".toList =
      Lookup.found ["y".toList, "z".toList, "k".toList]
        (key_value.value "k".toList "deep".toList) ∧
    (kv_root [kv_block "x" [kv_scalar "k" "shallow"],
        kv_block "y" [kv_block "z" [kv_scalar "k" "deep"]]]).deref ["x".toList, "k".toList] =
      some (key_value.value "k".toList "shallow".toList) ∧
    (kv_root [kv_block "y" [kv_scalar "k" "shallow"],
        kv_block "x" [kv_block "z" [kv_scalar "k" "deep"]]]).find_recursive "k".toList =
      Lookup.found ["x".toList, "z".toList, "k".toList]
        (key_value.value "k".toList "deep".toList) ∧
    (kv_root [kv_block "y" [kv_scalar "k" "shallow"],
        kv_block "x" [kv_block "z" [kv_scalar "k" "deep"]]]).deref ["y".toList, "k".toList] =
      some (key_value.value "k".toList "shallow".toList) :=
  ⟨rfl, rfl, rfl, rfl⟩

/-- C14 amended: recursive lookup is depth-first. `find_recursive(k)` on a block searches
the map of the block itself first, so a direct child with key `k` is always returned; failing
that it searches the child blocks with a stack, the block enumerated last first and each
block with all its descendants before the block enumerated before it, and returns the first
match in that order (`depth_first`). -/
theorem find_recursive_depth_first (bk : Str) (m : kv_map_t) (key : Str) :
    (key_value.block bk m).find_recursive key =
      Lookup.ofOption (depth_first [] (key_value.block bk m) key) ∧
    ∀ n, (key_value.block bk m).find key = some n →
      (key_value.block bk m).find_recursive key = Lookup.found [key] n := by
  refine ⟨find_recursive_eq bk m key, fun n hn => ?_⟩
  rw [find_recursive_eq, depth_first]
  have : m.find key = some n := hn
  rw [this]
  rfl

theorem kv_map_t.unique_distinct (m : kv_map_t) (h : m.unique = true) : m.distinct = true := by
  induction m using kv_map_induction with
  | hnil => rfl
  | hcons k v t ih =>
    rw [kv_map_t.unique, Bool.and_eq_true, Bool.and_eq_true] at h
    rw [kv_map_t.distinct, Bool.and_eq_true]
    exact ⟨h.1.1, ih h.2⟩

theorem kv_map_t.unique_of_mem (m : kv_map_t) (h : m.unique = true) (k : Str) (v : key_value)
    (hm : (k, v) ∈ m.toList) : v.unique = true := by
  induction m using kv_map_induction with
  | hnil => simp [kv_map_t.toList] at hm
  | hcons k1 v1 t ih =>
    rw [kv_map_t.unique, Bool.and_eq_true, Bool.and_eq_true] at h
    simp only [kv_map_t.toList, List.mem_cons, Prod.mk.injEq] at hm
    rcases hm with ⟨_, rfl⟩ | hm
    · exact h.1.2
    · exact ih h.2 hm

theorem kv_map_t.mem_of_find (m : kv_map_t) (s : Str) (c : key_value)
    (h : m.find s = some c) :
    ∃ k, (k, c) ∈ m.toList ∧ case_insensitive_equal k s = true := by
  induction m using kv_map_induction with
  | hnil => simp [kv_map_t.find] at h
  | hcons k1 v1 t ih =>
    rw [kv_map_t.find] at h
    split at h
    · rename_i hk
      injection h with h
      subst h
      exact ⟨k1, by simp [kv_map_t.toList], hk⟩
    · obtain ⟨k, hk1, hk2⟩ := ih h
      exact ⟨k, by simp [kv_map_t.toList, hk1], hk2⟩

/-- A match of `depth_first` is stored under `key` in a block below the node. -/
theorem depth_first_sound :
    (∀ kv : key_value, ∀ (p : Ptr) (key : Str) (r : Ptr × key_value), kv.unique = true →
      depth_first p kv key = some r →
      ∃ q : Ptr, r.1 = p ++ q ++ [key] ∧ kv.deref (q ++ [key]) = some r.2) ∧
    (∀ m : kv_map_t, ∀ (p : Ptr) (key : Str) (r : Ptr × key_value), m.unique = true →
      depth_first_children p m key = some r →
      ∃ (k : Str) (v : key_value) (q : Ptr), (k, v) ∈ m.toList ∧
        r.1 = p ++ [k] ++ q ++ [key] ∧ v.deref (q ++ [key]) = some r.2) := by
  apply key_value_induction
  · intro k v p key r _ h
    simp [depth_first] at h
  · intro k m ih p key r hu h
    rw [key_value.unique] at hu
    rw [depth_first] at h
    cases hf : m.find key with
    | some kv =>
      rw [hf] at h
      simp only [Option.some.injEq] at h
      subst h
      refine ⟨[], by simp, ?_⟩
      simp [key_value.deref_cons_block, hf, key_value.deref_nil]
    | none =>
      rw [hf] at h
      obtain ⟨k1, v, q, hmem, hr, hd⟩ := ih p key r hu h
      refine ⟨k1 :: q, by simp [hr], ?_⟩
      have := kv_map_t.find_of_mem m (kv_map_t.unique_distinct m hu) k1 v hmem
      simp only [List.cons_append, key_value.deref_cons_block, this, Option.some_bind]
      exact hd
  · intro p key r _ h
    simp [depth_first_children] at h
  · intro k v t ihv iht p key r hu h
    rw [kv_map_t.unique, Bool.and_eq_true, Bool.and_eq_true] at hu
    rw [depth_first_children] at h
    cases hc : depth_first_children p t key with
    | some r1 =>
      rw [hc] at h
      simp only [Option.some.injEq] at h
      subst h
      obtain ⟨k1, v1, q, hmem, hr, hd⟩ := iht p key r1 hu.2 hc
      exact ⟨k1, v1, q, by simp [kv_map_t.toList, hmem], hr, hd⟩
    | none =>
      rw [hc] at h
      obtain ⟨q, hr, hd⟩ := ihv (p ++ [k]) key r hu.1.2 h
      exact ⟨k, v, q, by simp [kv_map_t.toList], hr, hd⟩

/-- Without a match of `depth_first`, no block below the node has a child under `key`. -/
theorem depth_first_complete :
    (∀ kv : key_value, ∀ (p : Ptr) (key : Str), depth_first p kv key = none →
      ∀ (q : Ptr) (bk1 : Str) (m1 : kv_map_t), kv.deref q = some (key_value.block bk1 m1) →
        m1.find key = none) ∧
    (∀ m : kv_map_t, ∀ (p : Ptr) (key : Str), depth_first_children p m key = none →
      ∀ (k : Str) (v : key_value), (k, v) ∈ m.toList →
        ∀ (q : Ptr) (bk1 : Str) (m1 : kv_map_t), v.deref q = some (key_value.block bk1 m1) →
          m1.find key = none) := by
  apply key_value_induction
  · intro k v p key _ q bk1 m1 h
    cases q with
    | nil => simp [key_value.deref] at h
    | cons s q => simp [key_value.deref] at h
  · intro k m ih p key h q bk1 m1 hd
    rw [depth_first] at h
    cases hf : m.find key with
    | some kv => rw [hf] at h; cases h
    | none =>
      rw [hf] at h
      cases q with
      | nil =>
        rw [key_value.deref_nil] at hd
        injection hd with hd
        injection hd with h1 h2
        subst h2
        exact hf
      | cons s q =>
        rw [key_value.deref_cons_block] at hd
        cases hs : m.find s with
        | none => rw [hs] at hd; cases hd
        | some c =>
          rw [hs, Option.some_bind] at hd
          obtain ⟨k1, hmem, _⟩ := kv_map_t.mem_of_find m s c hs
          exact ih p key h k1 c hmem q bk1 m1 hd
  · intro p key _ k v hmem
    simp [kv_map_t.toList] at hmem
  · intro k v t ihv iht p key h k1 v1 hmem q bk1 m1 hd
    rw [depth_first_children] at h
    cases hc : depth_first_children p t key with
    | some r1 => rw [hc] at h; cases h
    | none =>
      rw [hc] at h
      simp only [kv_map_t.toList, List.mem_cons, Prod.mk.injEq] at hmem
      rcases hmem with ⟨rfl, rfl⟩ | hmem
      · exact ihv (p ++ [k1]) key h q bk1 m1 hd
      · exact iht p key hc k1 v1 hmem q bk1 m1 hd

theorem kv_map_t.keyed_find (m : kv_map_t) (hk : m.keyed = true) (key : Str) (n : key_value)
    (h : m.find key = some n) :
    case_insensitive_equal n.key key = true ∧ n.keyed = true := by
  induction m using kv_map_induction with
  | hnil => simp [kv_map_t.find] at h
  | hcons k1 v1 t ih =>
    rw [kv_map_t.keyed, Bool.and_eq_true, Bool.and_eq_true, decide_eq_true_eq] at hk
    rw [kv_map_t.find] at h
    split at h
    · rename_i hc
      injection h with h
      subst h
      exact ⟨by rw [hk.1.1]; exact hc, hk.1.2⟩
    · exact ih hk.2 h

theorem key_value.keyed_deref (kv : key_value) (q : Ptr) (b : key_value)
    (hk : kv.keyed = true) (h : kv.deref q = some b) : b.keyed = true := by
  induction q generalizing kv with
  | nil =>
    rw [key_value.deref_nil] at h
    injection h with h
    subst h
    exact hk
  | cons s q ih =>
    cases kv with
    | value k v => simp [key_value.deref] at h
    | block k m =>
      rw [key_value.deref_cons_block] at h
      cases hs : m.find s with
      | none => rw [hs] at h; cases h
      | some c =>
        rw [hs, Option.some_bind] at h
        rw [key_value.keyed] at hk
        exact ih c (kv_map_t.keyed_find m hk s c hs).2 h

/-- C15: recursive lookup is complete and sound. On a block whose maps have distinct keys
and store every node under its own key, `find_recursive(k)` returns a node or "not found";
it returns "not found" exactly when no block of the subtree, the node itself included, has a
child under a key equal to `k` up to case; a returned pointer designates a node that is
stored under `k` and whose key equals `k` up to case; and when `k` is a direct child of the
node, the result is the node that `find(k)` returns. -/
theorem find_recursive_sound_complete (bk : Str) (m : kv_map_t) (key : Str)
    (hu : m.unique = true) (hk : m.keyed = true) :
    ((∃ p n, (key_value.block bk m).find_recursive key = Lookup.found p n) ∨
      (key_value.block bk m).find_recursive key = Lookup.not_found) ∧
    ((key_value.block bk m).find_recursive key = Lookup.not_found ↔
      ∀ (q : Ptr) (bk1 : Str) (m1 : kv_map_t),
        (key_value.block bk m).deref q = some (key_value.block bk1 m1) →
        m1.find key = none) ∧
    (∀ p n, (key_value.block bk m).find_recursive key = Lookup.found p n →
      (key_value.block bk m).deref p = some n ∧ (∃ q, p = q ++ [key]) ∧
      case_insensitive_equal n.key key = true) ∧
    (∀ n, (key_value.block bk m).find key = some n →
      (key_value.block bk m).find_recursive key = Lookup.found [key] n) := by
  have sound : ∀ p n, (key_value.block bk m).find_recursive key = Lookup.found p n →
      ∃ q, p = q ++ [key] ∧ (key_value.block bk m).deref (q ++ [key]) = some n := by
    intro p n h
    rw [find_recursive_eq] at h
    cases hd : depth_first [] (key_value.block bk m) key with
    | none => rw [hd] at h; cases h
    | some r =>
      rw [hd] at h
      obtain ⟨p1, n1⟩ := r
      simp only [Lookup.ofOption, Lookup.found.injEq] at h
      obtain ⟨rfl, rfl⟩ := h
      obtain ⟨q, hq1, hq2⟩ := depth_first_sound.1 (key_value.block bk m) [] key (p1, n1) hu hd
      exact ⟨q, by simpa using hq1, hq2⟩
  refine ⟨?_, ?_, ?_, ?_⟩
  · rw [find_recursive_eq]
    cases depth_first [] (key_value.block bk m) key with
    | none => exact Or.inr rfl
    | some r => exact Or.inl ⟨r.1, r.2, rfl⟩
  · constructor
    · intro h q bk1 m1 hq
      rw [find_recursive_eq] at h
      cases hd : depth_first [] (key_value.block bk m) key with
      | none => exact depth_first_complete.1 (key_value.block bk m) [] key hd q bk1 m1 hq
      | some r => rw [hd] at h; cases h
    · intro h
      rcases (show (∃ p n, (key_value.block bk m).find_recursive key = Lookup.found p n) ∨
          (key_value.block bk m).find_recursive key = Lookup.not_found from by
        rw [find_recursive_eq]
        cases depth_first [] (key_value.block bk m) key with
        | none => exact Or.inr rfl
        | some r => exact Or.inl ⟨r.1, r.2, rfl⟩) with ⟨p, n, hf⟩ | hnf
      · obtain ⟨q, _, hq⟩ := sound p n hf
        obtain ⟨bk1, m1, h1, h2⟩ := (key_value.deref_child _ q key n).1 hq
        rw [h _ _ _ h1] at h2
        cases h2
      · exact hnf
  · intro p n h
    obtain ⟨q, hp, hq⟩ := sound p n h
    refine ⟨hp ▸ hq, ⟨q, hp⟩, ?_⟩
    obtain ⟨bk1, m1, h1, h2⟩ := (key_value.deref_child _ q key n).1 hq
    have hb := key_value.keyed_deref _ q _ (show (key_value.block bk m).keyed = true from hk) h1
    rw [key_value.keyed] at hb
    exact (kv_map_t.keyed_find m1 hb key n h2).1
  · intro n hn
    rw [find_recursive_eq, depth_first]
    have : m.find key = some n := hn
    rw [this]
    rfl

/-- C15 at a tree with `K` two blocks down, looked up as `k`, and at a key that is nowhere. -/
theorem find_recursive_sound_complete_witness :
    (kv_map_t.ofList [kv_scalar "a" "1",
      kv_block "x" [kv_block "z" [kv_scalar "K" "deep"]]]).unique = true ∧
    (kv_map_t.ofList [kv_scalar "a" "1",
      kv_block "x" [kv_block "z" [kv_scalar "K" "deep"]]]).keyed = true ∧
    (kv_root [kv_scalar "a" "1",
      kv_block "x" [kv_block "z" [kv_scalar "K" "deep"]]]).find_recursive "k".toList =
      Lookup.found ["x".toList, "z".toList, "k".toList]
        (key_value.value "K".toList "deep".toList) ∧
    (kv_root [kv_scalar "a" "1",
      kv_block "x" [kv_block "z" [kv_scalar "K" "deep"]]]).deref
        ["x".toList, "z".toList, "k".toList] = some (key_value.value "K".toList "deep".toList) ∧
    case_insensitive_equal (key_value.value "K".toList "deep".toList).key "k".toList = true ∧
    (kv_root [kv_scalar "a" "1",
      kv_block "x" [kv_block "z" [kv_scalar "K" "deep"]]]).find_recursive "A".toList =
      Lookup.found ["A".toList] (key_value.value "a".toList "1".toList) :=
  have h := find_recursive_sound_complete "root".toList (kv_map_t.ofList [kv_scalar "a" "1",
      kv_block "x" [kv_block "z" [kv_scalar "K" "deep"]]]) "k".toList (by decide) (by decide)
  have h2 := find_recursive_sound_complete "root".toList (kv_map_t.ofList [kv_scalar "a" "1",
      kv_block "x" [kv_block "z" [kv_scalar "K" "deep"]]]) "A".toList (by decide) (by decide)
  ⟨by decide, by decide, rfl, (h.2.2.1 _ _ rfl).1, (h.2.2.1 _ _ rfl).2.2, h2.2.2.2 _ rfl⟩

/-! ## Termination of the loops of `load` -/

theorem strlen_some {l : List Nat} {n : Nat} (h : strlen l = some n) : n < l.length := by
  induction l generalizing n with
  | nil => simp [strlen] at h
  | cons b t ih =>
    rw [strlen] at h
    split at h
    · injection h with h
      subst h
      simp
    · cases hs : strlen t with
      | none => rw [hs] at h; cases h
      | some k =>
        rw [hs] at h
        simp only [Option.map_some', Option.some.injEq] at h
        subst h
        have := ih hs
        simp only [List.length_cons]
        omega

theorem read_string_some {buf : List Nat} {i i1 : Nat} {s : List Nat}
    (h : read_string buf i = some (s, i1)) : i < buf.length ∧ i < i1 := by
  unfold read_string at h
  cases hs : strlen (buf.drop i) with
  | none => rw [hs] at h; cases h
  | some n =>
    rw [hs] at h
    simp only [Option.some.injEq, Prod.mk.injEq] at h
    have := strlen_some hs
    rw [List.length_drop] at this
    exact ⟨by omega, by omega⟩

theorem load_entry_progress {buf : List Nat} {pak : Str} {ext path name : List Nat} {i : Nat}
    {files : file_map_t} {st1 : load_state}
    (h : load_entry buf pak ext path name i files = LoadStep.next st1) : i < st1.i := by
  unfold load_entry at h
  simp only at h
  split at h
  · cases h
    simp only
    omega
  · split at h
    · cases h
    · split at h
      · split at h
        · cases h
          simp only
          omega
        · cases h
      · cases h
        simp only
        omega

theorem load_step_progress {buf : List Nat} {tree_end : Nat} {pak : Str} {st st1 : load_state}
    (h : load_step buf tree_end pak st = LoadStep.next st1) :
    st.i < buf.length ∧ st.i < st1.i := by
  unfold load_step at h
  split at h
  · split at h
    · split at h
      · cases h
      · rename_i hr
        have := read_string_some hr
        split at h <;> (cases h; exact this)
    · cases h
  · split at h
    · cases h
    · rename_i hr
      have := read_string_some hr
      split at h <;> (cases h; exact this)
  · split at h
    · cases h
    · rename_i hr
      have := read_string_some hr
      split at h
      · cases h; exact this
      · have := load_entry_progress h
        exact ⟨by omega, by omega⟩

theorem load_entry_not_fuel (buf : List Nat) (pak : Str) (ext path name : List Nat) (i : Nat)
    (files : file_map_t) :
    load_entry buf pak ext path name i files ≠ LoadStep.done LoopOutcome.out_of_fuel := by
  unfold load_entry
  intro h
  simp only at h
  repeat' split at h
  all_goals cases h

theorem load_step_not_fuel (buf : List Nat) (tree_end : Nat) (pak : Str) (st : load_state) :
    load_step buf tree_end pak st ≠ LoadStep.done LoopOutcome.out_of_fuel := by
  unfold load_step
  intro h
  split at h
  · split at h
    · split at h
      · cases h
      · split at h <;> cases h
    · cases h
  · split at h
    · cases h
    · split at h <;> cases h
  · split at h
    · cases h
    · split at h
      · cases h
      · exact load_entry_not_fuel _ _ _ _ _ _ _ h

theorem load_loop_fuel (buf : List Nat) (tree_end : Nat) (pak : Str) (n : Nat) :
    ∀ (st : load_state) (m : Nat), buf.length - st.i < n → buf.length - st.i < m →
    load_loop buf tree_end pak n st = load_loop buf tree_end pak m st ∧
    load_loop buf tree_end pak n st ≠ LoopOutcome.out_of_fuel := by
  induction n with
  | zero => intro st m h; omega
  | succ n ih =>
    intro st m hn hm
    cases m with
    | zero => omega
    | succ m =>
      simp only [load_loop]
      cases hstep : load_step buf tree_end pak st with
      | done o =>
        refine ⟨rfl, ?_⟩
        intro ho
        simp only at ho
        exact load_step_not_fuel buf tree_end pak st (ho ▸ hstep)
      | next st1 =>
        have hp := load_step_progress hstep
        exact ih st1 m (by omega) (by omega)

theorem load_from_next {buf : List Nat} {tree_end : Nat} {pak : Str} {st st1 : load_state}
    (h : load_step buf tree_end pak st = LoadStep.next st1) :
    load_from buf tree_end pak st = load_from buf tree_end pak st1 := by
  have hp := load_step_progress h
  unfold load_from
  rw [load_loop, h]
  exact (load_loop_fuel buf tree_end pak _ st1 _ (by omega) (by omega)).1

theorem load_from_done {buf : List Nat} {tree_end : Nat} {pak : Str} {st : load_state}
    {o : LoopOutcome} (h : load_step buf tree_end pak st = LoadStep.done o) :
    load_from buf tree_end pak st = o := by
  unfold load_from
  rw [load_loop, h]

theorem load_from_not_fuel (buf : List Nat) (tree_end : Nat) (pak : Str) (st : load_state) :
    load_from buf tree_end pak st ≠ LoopOutcome.out_of_fuel :=
  (load_loop_fuel buf tree_end pak _ st _ (Nat.lt_succ_self _) (Nat.lt_succ_self _)).2

/-! ## The header gate -/

/-- C16: the magic and version gate. When the first two `u32` of the file (little-endian,
the bytes that a short file lacks taken as 0) are not `(0x55AA1234, 2)`, `load` returns
failure and leaves the object as it was: a fresh one holds no entry. When they are, `load`
does not return failure. -/
theorem load_gate (fs : Str → Option (List Nat)) (file : Str) (content : List Nat)
    (self : vpk_file) (hfile : fs file = some content) :
    ((le32 content, le32 (content.drop 4)) ≠ (0x55aa1234, 2) →
      vpk_file.load fs file self = LoadOutcome.returned false self ∧
      vpk_file.load fs file vpk_file.fresh = LoadOutcome.returned false vpk_file.fresh ∧
      vpk_file.fresh.m_files = []) ∧
    ((le32 content, le32 (content.drop 4)) = (0x55aa1234, 2) →
      ∀ r, vpk_file.load fs file self ≠ LoadOutcome.returned false r) := by
  constructor
  · intro h
    have hg : le32 content ≠ 0x55aa1234 ∨ le32 (content.drop 4) ≠ 2 := by
      by_contra hc
      simp only [not_or, not_not] at hc
      exact h (by rw [hc.1, hc.2])
    refine ⟨?_, ?_, rfl⟩
    · unfold vpk_file.load
      rw [hfile]
      simp only [if_pos hg]
    · unfold vpk_file.load
      rw [hfile]
      simp only [if_pos hg]
  · intro h r
    simp only [Prod.mk.injEq] at h
    have hg : ¬ (le32 content ≠ 0x55aa1234 ∨ le32 (content.drop 4) ≠ 2) := by
      simp [h.1, h.2]
    unfold vpk_file.load
    rw [hfile]
    simp only [if_neg hg]
    split <;> simp

/-- C16 at a file whose version is 1 and at a file with the right magic and version and an
empty tree. -/
theorem load_gate_witness :
    one_file "pak01_dir.vpk".toList [0x34, 0x12, 0xaa, 0x55, 1, 0, 0, 0, 1, 0, 0, 0]
      "pak01_dir.vpk".toList = some [0x34, 0x12, 0xaa, 0x55, 1, 0, 0, 0, 1, 0, 0, 0] ∧
    vpk_file.load (one_file "pak01_dir.vpk".toList
        [0x34, 0x12, 0xaa, 0x55, 1, 0, 0, 0, 1, 0, 0, 0]) "pak01_dir.vpk".toList
        vpk_file.fresh = LoadOutcome.returned false vpk_file.fresh ∧
    vpk_file.load (one_file "pak01_dir.vpk".toList (encode_header 1 0 0 0 0 ++ [0]))
        "pak01_dir.vpk".toList vpk_file.fresh =
      LoadOutcome.returned true
        ⟨"pak01_dir.vpk".toList, encode_header 1 0 0 0 0 ++ [0], []⟩ :=
  ⟨rfl, ((load_gate (one_file "pak01_dir.vpk".toList
      [0x34, 0x12, 0xaa, 0x55, 1, 0, 0, 0, 1, 0, 0, 0]) "pak01_dir.vpk".toList
      [0x34, 0x12, 0xaa, 0x55, 1, 0, 0, 0, 1, 0, 0, 0] vpk_file.fresh rfl).1 (by decide)).2.1,
    rfl⟩

/-! ## Archive files -/

theorem find_last_of_loop_append (c : Char) (a b : Str) :
    ∀ (i last : Nat), find_last_of_loop c (a ++ b) i last =
      find_last_of_loop c b (i + a.length) (find_last_of_loop c a i last) := by
  induction a with
  | nil => intro i last; rfl
  | cons x t ih =>
    intro i last
    rw [List.cons_append, find_last_of_loop, ih, find_last_of_loop, List.length_cons]
    congr 1
    omega

theorem find_last_of_dir (S : Str) :
    find_last_of (S ++ "_dir.vpk".toList) '.' = S.length + 4 := by
  unfold find_last_of
  rw [find_last_of_loop_append]
  simp [find_last_of_loop]

/-- C19: archive file naming. For a directory file path `S_dir.vpk`, the archive path of an
entry, which `get_data` opens when the entry is not fully inline, is `S_`, then the decimal
digits of the archive index left-padded with zeros to three digits, then `.vpk`. No index is
treated apart. -/
theorem archive_naming (S : Str) (e : vpk_entry_t) (fs : Str → Option (List Nat))
    (hS : S.length + 4 < 2 ^ 64) (hp : e.m_pak_path = S ++ "_dir.vpk".toList)
    (hfull : e.m_preload_fullfile = false) :
    e.archive_path = S ++ "_".toList ++
      (List.replicate (3 - (Nat.toDigits 10 e.m_archive_index).length) '0' ++
        Nat.toDigits 10 e.m_archive_index) ++ ".vpk".toList ∧
    e.get_data fs = (fs (S ++ "_".toList ++
      (List.replicate (3 - (Nat.toDigits 10 e.m_archive_index).length) '0' ++
        Nat.toDigits 10 e.m_archive_index) ++ ".vpk".toList)).map
      (fun content => e.m_preload_bytes ++ read_at content e.m_data_offset e.m_data_size) := by
  have h1 : e.archive_path = S ++ "_".toList ++
      (List.replicate (3 - (Nat.toDigits 10 e.m_archive_index).length) '0' ++
        Nat.toDigits 10 e.m_archive_index) ++ ".vpk".toList := by
    unfold vpk_entry_t.archive_path format_03
    rw [hp, find_last_of_dir]
    have h2 : (S.length + 4 + 2 ^ 64 - 3) % 2 ^ 64 = S.length + 1 := by
      norm_num at hS ⊢
      omega
    rw [h2]
    have h3 : (S ++ "_dir.vpk".toList).take (S.length + 1) = S ++ "_".toList := by
      rw [List.take_append_eq_append_take]
      simp
    rw [h3]
  refine ⟨h1, ?_⟩
  unfold vpk_entry_t.get_data
  rw [hfull, ← h1]
  simp only [Bool.false_eq_true, if_false]
  cases fs e.archive_path <;> rfl

/-- C19 at `pak01_dir.vpk` with the indexes 3 and 0x7FFF. -/
theorem archive_naming_witness :
    "pak01".toList.length + 4 < 2 ^ 64 ∧
    vpk_entry_t.archive_path ⟨"pak01_dir.vpk".toList, "a/b.c".toList, 3, 0, 5, [], false⟩ =
      "pak01_003.vpk".toList ∧
    vpk_entry_t.archive_path ⟨"pak01_dir.vpk".toList, "a/b.c".toList, 0x7fff, 0, 5, [], false⟩ =
      "pak01_32767.vpk".toList :=
  ⟨by decide,
    (archive_naming "pak01".toList ⟨"pak01_dir.vpk".toList, "a/b.c".toList, 3, 0, 5, [], false⟩
      (fun _ => none) (by decide) rfl rfl).1,
    (archive_naming "pak01".toList
      ⟨"pak01_dir.vpk".toList, "a/b.c".toList, 0x7fff, 0, 5, [], false⟩
      (fun _ => none) (by decide) rfl rfl).1⟩

/-- C20: the result of data retrieval. For an entry whose fully-inline flag is set exactly
when its data length is zero, as `load` sets it: when the data length is zero, `get_data`
returns the preload bytes, whatever the file system holds; otherwise, when the archive file
can be opened and holds at least `m_data_offset + m_data_size` bytes, `get_data` returns the
preload bytes followed by the `m_data_size` bytes of the archive from `m_data_offset` on,
which are `m_preload_bytes.length + m_data_size` bytes. -/
theorem get_data_result (e : vpk_entry_t) (fs : Str → Option (List Nat))
    (content : List Nat) (hflag : e.m_preload_fullfile = decide (e.m_data_size = 0)) :
    (e.m_data_size = 0 → e.get_data fs = some e.m_preload_bytes ∧
      e.get_data (fun _ => none) = some e.m_preload_bytes) ∧
    (e.m_data_size ≠ 0 → fs e.archive_path = some content →
      e.m_data_offset + e.m_data_size ≤ content.length →
      e.get_data fs = some (e.m_preload_bytes ++
        (content.drop e.m_data_offset).take e.m_data_size) ∧
      (e.m_preload_bytes ++ (content.drop e.m_data_offset).take e.m_data_size).length =
        e.m_preload_bytes.length + e.m_data_size) := by
  constructor
  · intro hz
    have : e.m_preload_fullfile = true := by rw [hflag]; simp [hz]
    unfold vpk_entry_t.get_data
    simp [this]
  · intro hz hfile hlen
    have : e.m_preload_fullfile = false := by rw [hflag]; simp [hz]
    have hl : ((content.drop e.m_data_offset).take e.m_data_size).length = e.m_data_size := by
      rw [List.length_take, List.length_drop]
      omega
    refine ⟨?_, by rw [List.length_append, hl]⟩
    unfold vpk_entry_t.get_data read_at
    rw [this, hfile]
    simp [hl]

/-- C20 at an entry with two preload bytes and three bytes at offset 1 of its archive. -/
theorem get_data_result_witness :
    vpk_entry_t.get_data ⟨"pak01_dir.vpk".toList, "a/b.c".toList, 3, 0, 0, [7, 8], true⟩
      (fun _ => none) = some [7, 8] ∧
    vpk_entry_t.get_data ⟨"pak01_dir.vpk".toList, "a/b.c".toList, 3, 1, 3, [7, 8], false⟩
      (one_file "pak01_003.vpk".toList [10, 11, 12, 13, 14]) = some [7, 8, 11, 12, 13] :=
  ⟨((get_data_result ⟨"pak01_dir.vpk".toList, "a/b.c".toList, 3, 0, 0, [7, 8], true⟩
      (fun _ => none) [] rfl).1 rfl).1,
    ((get_data_result ⟨"pak01_dir.vpk".toList, "a/b.c".toList, 3, 1, 3, [7, 8], false⟩
      (one_file "pak01_003.vpk".toList [10, 11, 12, 13, 14]) [10, 11, 12, 13, 14] rfl).2
      (by decide) rfl (by decide)).1⟩

/-! ## Reading a well-formed directory tree -/

theorem le32_put32 (n : Nat) (rest : List Nat) (h : n < 2 ^ 32) : le32 (put32 n ++ rest) = n := by
  simp only [le32, put32, List.cons_append, List.nil_append, List.getD_cons_zero,
    List.getD_cons_succ]
  norm_num at h
  omega

theorem le16_put16 (n : Nat) (rest : List Nat) (h : n < 2 ^ 16) : le16 (put16 n ++ rest) = n := by
  simp only [le16, put16, List.cons_append, List.nil_append, List.getD_cons_zero,
    List.getD_cons_succ]
  norm_num at h
  omega

theorem read_dir_entry_put (crc pl ai eo el tm : Nat) (rest : List Nat) (h1 : crc < 2 ^ 32)
    (h2 : pl < 2 ^ 16) (h3 : ai < 2 ^ 16) (h4 : eo < 2 ^ 32) (h5 : el < 2 ^ 32)
    (h6 : tm < 2 ^ 16) :
    read_dir_entry ((put32 crc ++ put16 pl ++ put16 ai ++ put32 eo ++ put32 el ++ put16 tm)
      ++ rest) = some ⟨crc, pl, ai, eo, el, tm⟩ := by
  have e0 : (put32 crc ++ put16 pl ++ put16 ai ++ put32 eo ++ put32 el ++ put16 tm) ++ rest =
      put32 crc ++ (put16 pl ++ (put16 ai ++ (put32 eo ++ (put32 el ++ (put16 tm ++ rest))))) := by
    simp only [List.append_assoc]
  have d4 : (put32 crc ++ (put16 pl ++ (put16 ai ++ (put32 eo ++ (put32 el ++
      (put16 tm ++ rest)))))).drop 4 =
      put16 pl ++ (put16 ai ++ (put32 eo ++ (put32 el ++ (put16 tm ++ rest)))) := rfl
  have d6 : (put32 crc ++ (put16 pl ++ (put16 ai ++ (put32 eo ++ (put32 el ++
      (put16 tm ++ rest)))))).drop 6 =
      put16 ai ++ (put32 eo ++ (put32 el ++ (put16 tm ++ rest))) := rfl
  have d8 : (put32 crc ++ (put16 pl ++ (put16 ai ++ (put32 eo ++ (put32 el ++
      (put16 tm ++ rest)))))).drop 8 =
      put32 eo ++ (put32 el ++ (put16 tm ++ rest)) := rfl
  have d12 : (put32 crc ++ (put16 pl ++ (put16 ai ++ (put32 eo ++ (put32 el ++
      (put16 tm ++ rest)))))).drop 12 =
      put32 el ++ (put16 tm ++ rest) := rfl
  have d16 : (put32 crc ++ (put16 pl ++ (put16 ai ++ (put32 eo ++ (put32 el ++
      (put16 tm ++ rest)))))).drop 16 =
      put16 tm ++ rest := rfl
  have hl : 18 ≤ (put32 crc ++ (put16 pl ++ (put16 ai ++ (put32 eo ++ (put32 el ++
      (put16 tm ++ rest)))))).length := by
    simp [put32, put16]
  rw [e0, read_dir_entry, if_pos hl, d4, d6, d8, d12, d16, le32_put32 _ _ h1,
    le16_put16 _ _ h2, le16_put16 _ _ h3, le32_put32 _ _ h4, le32_put32 _ _ h5,
    le16_put16 _ _ h6]

theorem strlen_cstr (s rest : List Nat) (h : ∀ b ∈ s, b ≠ 0) :
    strlen (s ++ 0 :: rest) = some s.length := by
  induction s with
  | nil => simp [strlen]
  | cons b t ih =>
    have hb : b ≠ 0 := h b (by simp)
    rw [List.cons_append, strlen, if_neg hb, ih (fun c hc => h c (by simp [hc]))]
    rfl

theorem drop_shift {buf a b : List Nat} {i : Nat} (h : buf.drop i = a ++ b) :
    buf.drop (i + a.length) = b := by
  rw [← List.drop_drop, h, List.drop_left]

theorem drop_bound {buf a b : List Nat} {i : Nat} (h : buf.drop i = a ++ b) (ha : a ≠ []) :
    i + a.length ≤ buf.length := by
  have h1 : (buf.drop i).length = a.length + b.length := by rw [h, List.length_append]
  rw [List.length_drop] at h1
  have h2 : 0 < a.length := List.length_pos.2 ha
  omega

theorem read_string_at {buf s rest : List Nat} {i : Nat} (h : buf.drop i = s ++ 0 :: rest)
    (hs : ∀ b ∈ s, b ≠ 0) : read_string buf i = some (s, i + s.length + 1) := by
  unfold read_string
  rw [h, strlen_cstr s rest hs]
  simp

theorem wf_name_iff (s : List Nat) : wf_name s = true ↔ s ≠ [] ∧ ∀ b ∈ s, b ≠ 0 := by
  simp [wf_name]

namespace file_map_t

theorem find_concat (a b : file_map_t) (k : Str) :
    find (a ++ b) k = (find a k).orElse (fun _ => find b k) := by
  induction a with
  | nil => rfl
  | cons x t ih =>
    obtain ⟨k1, e1⟩ := x
    rw [List.cons_append, find, find]
    split
    · rfl
    · exact ih

theorem find_none_of_distinct (a b : file_map_t) (k : Str) (e : vpk_entry_t)
    (h : distinct (a ++ (k, e) :: b) = true) : find a k = none := by
  induction a with
  | nil => rfl
  | cons x t ih =>
    obtain ⟨k1, e1⟩ := x
    rw [List.cons_append, distinct, Bool.and_eq_true, Option.isNone_iff_eq_none] at h
    rw [find]
    have h1 := h.1
    rw [find_concat] at h1
    have h2 : find ((k, e) :: b) k1 = none := by
      cases hf : find t k1 with
      | none => rw [hf] at h1; exact h1
      | some v => rw [hf] at h1; cases h1
    have h3 : case_insensitive_equal k k1 = false := by
      rw [find] at h2
      split at h2
      · cases h2
      · rename_i hne; simpa using hne
    rw [case_insensitive_equal_symm] at h3
    rw [h3]
    exact ih h.2

theorem distinct_left (a b : file_map_t) (h : distinct (a ++ b) = true) :
    distinct a = true := by
  induction a with
  | nil => rfl
  | cons x t ih =>
    obtain ⟨k1, e1⟩ := x
    rw [List.cons_append, distinct, Bool.and_eq_true, Option.isNone_iff_eq_none] at h
    rw [distinct, Bool.and_eq_true, Option.isNone_iff_eq_none]
    refine ⟨?_, ih h.2⟩
    have h1 := h.1
    rw [find_concat] at h1
    cases hf : find t k1 with
    | none => rfl
    | some v => rw [hf] at h1; cases h1

end file_map_t

theorem encode_leaf_length (l : vpk_leaf) :
    (encode_leaf l).length = l.name.length + 1 + 18 + l.preload.length := by
  simp [encode_leaf, put32, put16]
  omega

/-- Reading one leaf whose virtual path is not in the map yet. -/
theorem load_step_leaf (buf : List Nat) (te : Nat) (pak : Str) (ext path : List Nat)
    (l : vpk_leaf) (rest : List Nat) (i : Nat) (files : file_map_t)
    (hbuf : buf.drop i = encode_leaf l ++ rest) (hl : wf_leaf l = true)
    (hnew : files.find (virtual_path ext path l) = none) :
    load_step buf te pak ⟨i, load_level.name ext path, files⟩ =
      LoadStep.next ⟨i + (encode_leaf l).length, load_level.name ext path,
        files ++ [leaf_entry pak ext path l]⟩ := by
  simp only [wf_leaf, Bool.and_eq_true, decide_eq_true_eq] at hl
  obtain ⟨⟨⟨⟨⟨⟨hn, h1⟩, h3⟩, h4⟩, h5⟩, h6⟩, h2⟩ := hl
  have hname := (wf_name_iff l.name).1 hn
  have hbuf1 : buf.drop i = l.name ++ 0 :: ((put32 l.crc ++ put16 l.preload.length
      ++ put16 l.archive_index ++ put32 l.entry_offset ++ put32 l.entry_length
      ++ put16 l.terminator) ++ (l.preload ++ rest)) := by
    rw [hbuf, encode_leaf]
    simp [List.append_assoc]
  have hrec : buf.drop (i + l.name.length + 1) = (put32 l.crc ++ put16 l.preload.length
      ++ put16 l.archive_index ++ put32 l.entry_offset ++ put32 l.entry_length
      ++ put16 l.terminator) ++ (l.preload ++ rest) := by
    have := drop_shift (a := l.name ++ [0]) (by simpa using hbuf1)
    simpa [Nat.add_assoc] using this
  have hpre : buf.drop (i + l.name.length + 1 + 18) = l.preload ++ rest := by
    have := drop_shift hrec
    simpa [put32, put16] using this
  unfold load_step
  simp only [read_string_at hbuf1 hname.2, hname.1, if_false]
  unfold load_entry
  have hkey : to_chars path ++ ['/'] ++ to_chars l.name ++ ['.'] ++ to_chars ext =
      virtual_path ext path l := rfl
  simp only [hkey, hnew, hrec, read_dir_entry_put _ _ _ _ _ _ _ h1 h2 h3 h4 h5 h6, hpre]
  rw [encode_leaf_length]
  by_cases hz : l.preload.length = 0
  · have hnil : l.preload = [] := List.length_eq_zero.1 hz
    simp [leaf_entry, hnil, Nat.add_assoc]
  · have hne : l.preload ≠ [] := fun e => hz (by rw [e]; rfl)
    have hb := drop_bound hpre hne
    simp only [Nat.add_assoc] at hb
    simp only [ne_eq, hz, not_false_eq_true, if_true, hb, List.take_left, leaf_entry,
      Nat.add_assoc]

/-- Reading the leaves of one path, up to the empty string that closes them. -/
theorem load_from_names (buf : List Nat) (te : Nat) (pak : Str) (ext path : List Nat) :
    ∀ (ls : List vpk_leaf) (rest : List Nat) (i : Nat) (files : file_map_t),
      buf.drop i = encode_names ls ++ rest → (∀ l ∈ ls, wf_leaf l = true) →
      file_map_t.distinct (files ++ names_entries pak ext path ls) = true →
      load_from buf te pak ⟨i, load_level.name ext path, files⟩ =
        load_from buf te pak ⟨i + (encode_names ls).length, load_level.path ext,
          files ++ names_entries pak ext path ls⟩
  | [], rest, i, files, hbuf, _, _ => by
    have h0 : buf.drop i = [] ++ 0 :: rest := by simpa [encode_names] using hbuf
    have hs : load_step buf te pak ⟨i, load_level.name ext path, files⟩ =
        LoadStep.next ⟨i + 1, load_level.path ext, files⟩ := by
      unfold load_step
      simp [read_string_at h0 (by simp)]
    rw [load_from_next hs]
    simp [encode_names, names_entries]
  | l :: ls, rest, i, files, hbuf, hwf, hd => by
    have hbuf1 : buf.drop i = encode_leaf l ++ (encode_names ls ++ rest) := by
      rw [hbuf, encode_names, List.append_assoc]
    have hd1 : file_map_t.distinct (files ++ leaf_entry pak ext path l ::
        names_entries pak ext path ls) = true := by
      simpa [names_entries] using hd
    have hnew : files.find (virtual_path ext path l) = none :=
      file_map_t.find_none_of_distinct files _ _ _ hd1
    have hs := load_step_leaf buf te pak ext path l _ i files hbuf1 (hwf l (by simp)) hnew
    rw [load_from_next hs]
    have ih := load_from_names buf te pak ext path ls rest (i + (encode_leaf l).length)
      (files ++ [leaf_entry pak ext path l]) (drop_shift hbuf1)
      (fun x hx => hwf x (by simp [hx])) (by simpa using hd1)
    rw [ih]
    simp [encode_names, names_entries, Nat.add_assoc]

/-- Reading the paths of one extension, up to the empty string that closes them. -/
theorem load_from_paths (buf : List Nat) (te : Nat) (pak : Str) (ext : List Nat) :
    ∀ (ps : List (List Nat × List vpk_leaf)) (rest : List Nat) (i : Nat) (files : file_map_t),
      buf.drop i = encode_paths ps ++ rest →
      (∀ p ∈ ps, wf_name p.1 = true ∧ ∀ l ∈ p.2, wf_leaf l = true) →
      file_map_t.distinct (files ++ paths_entries pak ext ps) = true →
      load_from buf te pak ⟨i, load_level.path ext, files⟩ =
        load_from buf te pak ⟨i + (encode_paths ps).length, load_level.ext,
          files ++ paths_entries pak ext ps⟩
  | [], rest, i, files, hbuf, _, _ => by
    have h0 : buf.drop i = [] ++ 0 :: rest := by simpa [encode_paths] using hbuf
    have hs : load_step buf te pak ⟨i, load_level.path ext, files⟩ =
        LoadStep.next ⟨i + 1, load_level.ext, files⟩ := by
      unfold load_step
      simp [read_string_at h0 (by simp)]
    rw [load_from_next hs]
    simp [encode_paths, paths_entries]
  | (path, ls) :: ps, rest, i, files, hbuf, hwf, hd => by
    have hp := (wf_name_iff path).1 (hwf (path, ls) (by simp)).1
    have hbuf1 : buf.drop i = path ++ 0 :: (encode_names ls ++ (encode_paths ps ++ rest)) := by
      rw [hbuf, encode_paths]
      simp [List.append_assoc]
    have hs : load_step buf te pak ⟨i, load_level.path ext, files⟩ =
        LoadStep.next ⟨i + path.length + 1, load_level.name ext path, files⟩ := by
      unfold load_step
      simp [read_string_at hbuf1 hp.2, hp.1]
    rw [load_from_next hs]
    have hbuf2 : buf.drop (i + path.length + 1) = encode_names ls ++ (encode_paths ps ++ rest) := by
      have := drop_shift (a := path ++ [0]) (by simpa using hbuf1)
      simpa [Nat.add_assoc] using this
    have hd1 : file_map_t.distinct ((files ++ names_entries pak ext path ls) ++
        paths_entries pak ext ps) = true := by
      simpa [paths_entries] using hd
    rw [load_from_names buf te pak ext path ls _ _ files hbuf2 (hwf (path, ls) (by simp)).2
      (file_map_t.distinct_left _ _ hd1)]
    rw [load_from_paths buf te pak ext ps rest _ _ (drop_shift hbuf2)
      (fun p hp1 => hwf p (by simp [hp1])) hd1]
    have e1 : i + path.length + 1 + (encode_names ls).length + (encode_paths ps).length =
        i + (encode_paths ((path, ls) :: ps)).length := by
      simp [encode_paths]
      omega
    rw [e1]
    simp [paths_entries]

/-- Reading a whole tree that ends exactly at `tree_end`. -/
theorem load_from_tree (buf : List Nat) (te : Nat) (pak : Str) :
    ∀ (t : List (List Nat × List (List Nat × List vpk_leaf))) (rest : List Nat) (i : Nat)
      (files : file_map_t),
      buf.drop i = encode_tree t ++ rest → i + (encode_tree t).length = te →
      wf_tree t = true → file_map_t.distinct (files ++ tree_entries pak t) = true →
      load_from buf te pak ⟨i, load_level.ext, files⟩ =
        LoopOutcome.finished (files ++ tree_entries pak t)
  | [], rest, i, files, hbuf, hte, _, _ => by
    have h0 : buf.drop i = [] ++ 0 :: rest := by simpa [encode_tree] using hbuf
    have hlt : i < te := by simp [encode_tree] at hte; omega
    have hs : load_step buf te pak ⟨i, load_level.ext, files⟩ =
        LoadStep.next ⟨i + 1, load_level.ext, files⟩ := by
      unfold load_step
      simp [read_string_at h0 (by simp), hlt]
    rw [load_from_next hs]
    have hs2 : load_step buf te pak ⟨i + 1, load_level.ext, files⟩ =
        LoadStep.done (LoopOutcome.finished files) := by
      unfold load_step
      have : ¬ (i + 1 < te) := by simp [encode_tree] at hte; omega
      simp [this]
    rw [load_from_done hs2]
    simp [tree_entries]
  | (ext, ps) :: es, rest, i, files, hbuf, hte, hwf, hd => by
    have hwf1 : wf_name ext = true ∧ (∀ p ∈ ps, wf_name p.1 = true ∧ ∀ l ∈ p.2, wf_leaf l = true)
        ∧ wf_tree es = true := by
      simp only [wf_tree, List.all_cons, Bool.and_eq_true, List.all_eq_true] at hwf
      refine ⟨hwf.1.1, fun p hp => ?_, ?_⟩
      · exact hwf.1.2 p hp
      · simp only [wf_tree, List.all_eq_true, Bool.and_eq_true]
        exact hwf.2
    have he := (wf_name_iff ext).1 hwf1.1
    have hbuf1 : buf.drop i = ext ++ 0 :: (encode_paths ps ++ (encode_tree es ++ rest)) := by
      rw [hbuf, encode_tree]
      simp [List.append_assoc]
    have hlt : i < te := by
      simp [encode_tree] at hte
      omega
    have hs : load_step buf te pak ⟨i, load_level.ext, files⟩ =
        LoadStep.next ⟨i + ext.length + 1, load_level.path ext, files⟩ := by
      unfold load_step
      simp [read_string_at hbuf1 he.2, he.1, hlt]
    rw [load_from_next hs]
    have hbuf2 : buf.drop (i + ext.length + 1) = encode_paths ps ++ (encode_tree es ++ rest) := by
      have := drop_shift (a := ext ++ [0]) (by simpa using hbuf1)
      simpa [Nat.add_assoc] using this
    have hd1 : file_map_t.distinct ((files ++ paths_entries pak ext ps) ++
        tree_entries pak es) = true := by
      simpa [tree_entries] using hd
    rw [load_from_paths buf te pak ext ps _ _ files hbuf2 hwf1.2.1
      (file_map_t.distinct_left _ _ hd1)]
    rw [load_from_tree buf te pak es rest _ _ (drop_shift hbuf2)
      (by simp [encode_tree] at hte; omega) hwf1.2.2 hd1]
    simp [tree_entries]

/-! ## Exact decoding of a directory -/

theorem file_map_t.find_ne_none (m : file_map_t) (k key : Str) (e : vpk_entry_t)
    (hm : (k, e) ∈ m) (hc : case_insensitive_equal k key = true) :
    file_map_t.find m key ≠ none := by
  induction m with
  | nil => cases hm
  | cons x t ih =>
    obtain ⟨k1, e1⟩ := x
    rw [file_map_t.find]
    rcases List.mem_cons.1 hm with h | h
    · cases h
      rw [hc]
      simp
    · split
      · simp
      · exact ih h

theorem file_map_t.find_of_distinct (m : file_map_t) (k : Str) (e : vpk_entry_t)
    (hd : file_map_t.distinct m = true) (hm : (k, e) ∈ m) : file_map_t.find m k = some e := by
  induction m with
  | nil => cases hm
  | cons x t ih =>
    obtain ⟨k1, e1⟩ := x
    rw [file_map_t.distinct, Bool.and_eq_true, Option.isNone_iff_eq_none] at hd
    rw [file_map_t.find]
    rcases List.mem_cons.1 hm with h | h
    · cases h
      rw [case_insensitive_equal_refl]
      rfl
    · have hc : case_insensitive_equal k1 k = false := by
        cases hcc : case_insensitive_equal k1 k with
        | false => rfl
        | true =>
          rw [case_insensitive_equal_symm] at hcc
          exact absurd hd.1 (file_map_t.find_ne_none t k k1 e h hcc)
      rw [hc]
      exact ih hd.2 h

theorem mem_tree_entries (pak : Str) (t : List (List Nat × List (List Nat × List vpk_leaf)))
    (ext : List Nat) (ps : List (List Nat × List vpk_leaf)) (path : List Nat)
    (ls : List vpk_leaf) (l : vpk_leaf) (h1 : (ext, ps) ∈ t) (h2 : (path, ls) ∈ ps)
    (h3 : l ∈ ls) : leaf_entry pak ext path l ∈ tree_entries pak t := by
  have hp : ∀ qs : List (List Nat × List vpk_leaf), (path, ls) ∈ qs →
      leaf_entry pak ext path l ∈ paths_entries pak ext qs := by
    intro qs
    induction qs with
    | nil => intro h; cases h
    | cons q qs ih =>
      obtain ⟨p1, l1⟩ := q
      intro h
      rw [paths_entries, List.mem_append]
      rcases List.mem_cons.1 h with h | h
      · cases h
        exact Or.inl (List.mem_map.2 ⟨l, h3, rfl⟩)
      · exact Or.inr (ih h)
  induction t with
  | nil => cases h1
  | cons x t ih =>
    obtain ⟨e1, p1⟩ := x
    rw [tree_entries, List.mem_append]
    rcases List.mem_cons.1 h1 with h | h
    · cases h
      exact Or.inl (hp _ h2)
    · exact Or.inr (ih h)

theorem length_tree_entries (pak : Str) (t : List (List Nat × List (List Nat × List vpk_leaf))) :
    (tree_entries pak t).length = ((t.map (fun e => (e.2.map (fun p => p.2.length)).sum)).sum) := by
  have hp : ∀ (ext : List Nat) (qs : List (List Nat × List vpk_leaf)),
      (paths_entries pak ext qs).length = (qs.map (fun p => p.2.length)).sum := by
    intro ext qs
    induction qs with
    | nil => rfl
    | cons q qs ih =>
      obtain ⟨p1, l1⟩ := q
      rw [paths_entries, List.length_append, ih]
      simp [names_entries]
  induction t with
  | nil => rfl
  | cons x t ih =>
    obtain ⟨e1, p1⟩ := x
    rw [tree_entries, List.length_append, ih, hp]
    simp

/-- The method `find` builds its key from `file.data( )` alone: a view of three bytes at the
start of the C string `cfg/a.txt` finds the entry of `cfg/a.txt`, a view of all nine bytes of
`cfg` followed by other bytes and no NUL reads outside the array, and letters are compared
without regard to case. -/
theorem find_reads_c_string :
    vpk_file.find ⟨[], [], [("cfg/a.txt".toList,
        ⟨[], "cfg/a.txt".toList, 0, 0, 0, [7, 8], true⟩)]⟩ ⟨"cfg/a.txt\x00".toList, 3⟩ =
      FindOutcome.returned (some ⟨[], "cfg/a.txt".toList, 0, 0, 0, [7, 8], true⟩) ∧
    vpk_file.find ⟨[], [], [("cfg/a.txt".toList,
        ⟨[], "cfg/a.txt".toList, 0, 0, 0, [7, 8], true⟩)]⟩ ⟨"cfg/a.txt".toList, 9⟩ =
      FindOutcome.undefined ∧
    vpk_file.find ⟨[], [], [("cfg/a.txt".toList,
        ⟨[], "cfg/a.txt".toList, 0, 0, 0, [7, 8], true⟩)]⟩ ⟨"CFG/A.TXT\x00rest".toList, 9⟩ =
      FindOutcome.returned (some ⟨[], "cfg/a.txt".toList, 0, 0, 0, [7, 8], true⟩) ∧
    vpk_file.find ⟨[], [], [("cfg/a.txt".toList,
        ⟨[], "cfg/a.txt".toList, 0, 0, 0, [7, 8], true⟩)]⟩ ⟨"cfg\x00".toList, 3⟩ =
      FindOutcome.returned none :=
  ⟨rfl, rfl, rfl, rfl⟩

/-- C17, as the code behaves: the leaves `n` and `N` of the path `cfg` and the extension
`txt` have the different virtual paths `cfg/n.txt` and `cfg/N.txt`, the tree is well formed,
and `load` returns `true` with one entry for the two leaves: `file_map_t` compares its keys
without regard to case, the `try_emplace` of `cfg/N.txt` inserts nothing, and the record of
the leaf `N` (archive 2, offset 100, length 20) is in no entry. -/
theorem load_case_variant_leaves_counterexample :
    virtual_path (to_bytes "txt") (to_bytes "cfg") ⟨to_bytes "n", 1, 1, 10, 5, 0xffff, []⟩ ≠
      virtual_path (to_bytes "txt") (to_bytes "cfg") ⟨to_bytes "N", 2, 2, 100, 20, 0xffff, []⟩ ∧
    wf_tree [(to_bytes "txt", [(to_bytes "cfg", [⟨to_bytes "n", 1, 1, 10, 5, 0xffff, []⟩,
      ⟨to_bytes "N", 2, 2, 100, 20, 0xffff, []⟩])])] = true ∧
    vpk_file.load
      (one_file "pak01_dir.vpk".toList
        (vpk_image [(to_bytes "txt", [(to_bytes "cfg", [⟨to_bytes "n", 1, 1, 10, 5, 0xffff, []⟩,
          ⟨to_bytes "N", 2, 2, 100, 20, 0xffff, []⟩])])]))
      "pak01_dir.vpk".toList vpk_file.fresh =
    LoadOutcome.returned true ⟨"pak01_dir.vpk".toList,
      vpk_image [(to_bytes "txt", [(to_bytes "cfg", [⟨to_bytes "n", 1, 1, 10, 5, 0xffff, []⟩,
        ⟨to_bytes "N", 2, 2, 100, 20, 0xffff, []⟩])])],
      [("cfg/n.txt".toList, ⟨"pak01_dir.vpk".toList, "cfg/n.txt".toList, 1, 10, 5, [], false⟩)]⟩ ∧
    vpk_file.find ⟨"pak01_dir.vpk".toList, [],
        [("cfg/n.txt".toList, ⟨"pak01_dir.vpk".toList, "cfg/n.txt".toList, 1, 10, 5, [], false⟩)]⟩
        ⟨"cfg/N.txt\x00".toList, 9⟩ =
      FindOutcome.returned
        (some ⟨"pak01_dir.vpk".toList, "cfg/n.txt".toList, 1, 10, 5, [], false⟩) :=
  ⟨by decide, rfl, rfl, rfl⟩

/-- C17 amended: decoding of a directory is exact. When the file holds a version 2 header
whose tree size is the length of the encoded tree, then the encoding of a well-formed tree
(three levels of null-terminated strings, each level closed by an empty string, each leaf
followed by its 18-byte record and its preload bytes) and then anything, and the virtual
paths of the leaves are pairwise different without regard to case, `load` on a fresh object
returns `true` and the map is the list of the entries of the leaves in order: one entry per
leaf, keyed `path/filename.extension`, holding the record's archive index, entry offset and
entry length, the preload bytes that follow the record, and a flag that is `true` exactly
when the entry length is zero. The method `find`, called with a view at whose start the
virtual path of a leaf stands as a C string, returns the entry of that leaf. -/
theorem load_decodes_tree (fs : Str → Option (List Nat)) (file : Str)
    (t : List (List Nat × List (List Nat × List vpk_leaf))) (s4 s5 s6 s7 : Nat)
    (rest : List Nat) (hwf : wf_tree t = true) (hsize : (encode_tree t).length < 2 ^ 32)
    (hd : file_map_t.distinct (tree_entries file t) = true)
    (hfile : fs file = some (encode_header (encode_tree t).length s4 s5 s6 s7
      ++ encode_tree t ++ rest)) :
    vpk_file.load fs file vpk_file.fresh = LoadOutcome.returned true
      ⟨file, encode_header (encode_tree t).length s4 s5 s6 s7 ++ encode_tree t ++ rest,
        tree_entries file t⟩ ∧
    (tree_entries file t).length = (t.map (fun e => (e.2.map (fun p => p.2.length)).sum)).sum ∧
    ∀ ext ps path ls l, (ext, ps) ∈ t → (path, ls) ∈ ps → l ∈ ls →
      ∀ view : string_view, c_str view.memory = some (virtual_path ext path l) →
        vpk_file.find ⟨file, encode_header (encode_tree t).length s4 s5 s6 s7 ++ encode_tree t
          ++ rest, tree_entries file t⟩ view =
          FindOutcome.returned (some ⟨file, virtual_path ext path l, l.archive_index,
            l.entry_offset, l.entry_length, l.preload, l.entry_length == 0⟩) := by
  refine ⟨?_, length_tree_entries file t, ?_⟩
  · have hc : encode_header (encode_tree t).length s4 s5 s6 s7 ++ encode_tree t ++ rest =
        put32 0x55aa1234 ++ (put32 2 ++ (put32 (encode_tree t).length ++ (put32 s4 ++
          (put32 s5 ++ (put32 s6 ++ (put32 s7 ++ (encode_tree t ++ rest))))))) := by
      simp only [encode_header, List.append_assoc]
    have hsig : le32 (encode_header (encode_tree t).length s4 s5 s6 s7 ++ encode_tree t ++ rest)
        = 0x55aa1234 := by
      rw [hc]
      exact le32_put32 _ _ (by decide)
    have hver : le32 ((encode_header (encode_tree t).length s4 s5 s6 s7 ++ encode_tree t
        ++ rest).drop 4) = 2 := by
      rw [hc]
      exact le32_put32 2 _ (by decide)
    have hts : le32 ((encode_header (encode_tree t).length s4 s5 s6 s7 ++ encode_tree t
        ++ rest).drop 8) = (encode_tree t).length := by
      rw [hc]
      exact le32_put32 _ _ hsize
    have hlen : 28 ≤ (encode_header (encode_tree t).length s4 s5 s6 s7 ++ encode_tree t
        ++ rest).length := by
      rw [hc]
      simp [put32]
    have hdrop : (encode_header (encode_tree t).length s4 s5 s6 s7 ++ encode_tree t
        ++ rest).drop 28 = encode_tree t ++ rest := by
      rw [hc]
      rfl
    unfold vpk_file.load
    simp only [hfile, hsig, hver, hts, hlen, if_true, ne_eq, not_true_eq_false, or_self,
      if_false]
    rw [load_from_tree _ _ file t rest 28 _ hdrop rfl hwf (by simpa [vpk_file.fresh] using hd)]
    simp [vpk_file.fresh]
  · intro ext ps path ls l h1 h2 h3 view hv
    unfold vpk_file.find
    rw [hv]
    exact congrArg FindOutcome.returned
      (file_map_t.find_of_distinct _ _ _ hd (mem_tree_entries file t ext ps path ls l h1 h2 h3))

/-- C17 amended at a tree of two extensions and three leaves, one of them with two preload
bytes and an entry length of zero, and at a lookup of the second leaf. -/
theorem load_decodes_tree_witness :
    vpk_file.load
      (one_file "pak01_dir.vpk".toList
        (encode_header 83 0 0 48 0 ++
          encode_tree [(to_bytes "txt", [(to_bytes "cfg", [⟨to_bytes "a", 1, 0, 0, 0, 0xffff, [7, 8]⟩,
              ⟨to_bytes "b", 2, 3, 100, 20, 0xffff, []⟩])]),
            (to_bytes "vmt", [(to_bytes "mat", [⟨to_bytes "c", 3, 0x7fff, 28, 5, 0xffff, []⟩])])]
          ++ List.replicate 48 0))
      "pak01_dir.vpk".toList vpk_file.fresh =
    LoadOutcome.returned true ⟨"pak01_dir.vpk".toList,
      encode_header 83 0 0 48 0 ++
          encode_tree [(to_bytes "txt", [(to_bytes "cfg", [⟨to_bytes "a", 1, 0, 0, 0, 0xffff, [7, 8]⟩,
              ⟨to_bytes "b", 2, 3, 100, 20, 0xffff, []⟩])]),
            (to_bytes "vmt", [(to_bytes "mat", [⟨to_bytes "c", 3, 0x7fff, 28, 5, 0xffff, []⟩])])]
          ++ List.replicate 48 0,
      [("cfg/a.txt".toList, ⟨"pak01_dir.vpk".toList, "cfg/a.txt".toList, 0, 0, 0, [7, 8], true⟩),
        ("cfg/b.txt".toList, ⟨"pak01_dir.vpk".toList, "cfg/b.txt".toList, 3, 100, 20, [], false⟩),
        ("mat/c.vmt".toList,
          ⟨"pak01_dir.vpk".toList, "mat/c.vmt".toList, 0x7fff, 28, 5, [], false⟩)]⟩ ∧
    vpk_file.find ⟨"pak01_dir.vpk".toList,
      encode_header 83 0 0 48 0 ++
          encode_tree [(to_bytes "txt", [(to_bytes "cfg", [⟨to_bytes "a", 1, 0, 0, 0, 0xffff, [7, 8]⟩,
              ⟨to_bytes "b", 2, 3, 100, 20, 0xffff, []⟩])]),
            (to_bytes "vmt", [(to_bytes "mat", [⟨to_bytes "c", 3, 0x7fff, 28, 5, 0xffff, []⟩])])]
          ++ List.replicate 48 0,
      [("cfg/a.txt".toList, ⟨"pak01_dir.vpk".toList, "cfg/a.txt".toList, 0, 0, 0, [7, 8], true⟩),
        ("cfg/b.txt".toList, ⟨"pak01_dir.vpk".toList, "cfg/b.txt".toList, 3, 100, 20, [], false⟩),
        ("mat/c.vmt".toList,
          ⟨"pak01_dir.vpk".toList, "mat/c.vmt".toList, 0x7fff, 28, 5, [], false⟩)]⟩
      ⟨"cfg/b.txt\x00".toList, 9⟩ =
    FindOutcome.returned
      (some ⟨"pak01_dir.vpk".toList, "cfg/b.txt".toList, 3, 100, 20, [], false⟩) :=
  have h := load_decodes_tree
    (one_file "pak01_dir.vpk".toList
        (encode_header 83 0 0 48 0 ++
          encode_tree [(to_bytes "txt", [(to_bytes "cfg", [⟨to_bytes "a", 1, 0, 0, 0, 0xffff, [7, 8]⟩,
              ⟨to_bytes "b", 2, 3, 100, 20, 0xffff, []⟩])]),
            (to_bytes "vmt", [(to_bytes "mat", [⟨to_bytes "c", 3, 0x7fff, 28, 5, 0xffff, []⟩])])]
          ++ List.replicate 48 0))
    "pak01_dir.vpk".toList
    [(to_bytes "txt", [(to_bytes "cfg", [⟨to_bytes "a", 1, 0, 0, 0, 0xffff, [7, 8]⟩,
        ⟨to_bytes "b", 2, 3, 100, 20, 0xffff, []⟩])]),
      (to_bytes "vmt", [(to_bytes "mat", [⟨to_bytes "c", 3, 0x7fff, 28, 5, 0xffff, []⟩])])]
    0 0 48 0 (List.replicate 48 0) rfl (by decide) rfl rfl
  ⟨h.1, h.2.2 (to_bytes "txt")
    [(to_bytes "cfg", [⟨to_bytes "a", 1, 0, 0, 0, 0xffff, [7, 8]⟩,
      ⟨to_bytes "b", 2, 3, 100, 20, 0xffff, []⟩])]
    (to_bytes "cfg")
    [⟨to_bytes "a", 1, 0, 0, 0, 0xffff, [7, 8]⟩, ⟨to_bytes "b", 2, 3, 100, 20, 0xffff, []⟩]
    ⟨to_bytes "b", 2, 3, 100, 20, 0xffff, []⟩
    (List.mem_cons_self _ _) (List.mem_cons_self _ _)
    (List.mem_cons_of_mem _ (List.mem_cons_self _ _))
    ⟨"cfg/b.txt\x00".toList, 9⟩ rfl⟩

/-! ## Duplicate leaves -/

/-- A leaf whose virtual path is in the map already: the cursor passes the record only, also
when the record announces preload bytes. -/
theorem load_entry_duplicate (buf : List Nat) (pak : Str) (ext path name : List Nat) (i : Nat)
    (files : file_map_t) (e : vpk_entry_t)
    (h : files.find (to_chars path ++ ['/'] ++ to_chars name ++ ['.'] ++ to_chars ext) = some e) :
    load_entry buf pak ext path name i files =
      LoadStep.next ⟨i + 18, load_level.name ext path, files⟩ := by
  unfold load_entry
  simp only [h]

/-- C18, refuted: a later duplicate is dropped, but its preload bytes are not passed, so the
leaves after it are not decoded as usual. The tree holds `p/n.e`, then a leaf `p/N.e` with
the single preload byte `0x41`, then `p/q.e`. The code keeps the first `p/n.e` and then
decodes the last leaf under the key `p/Aq.e`; it finds no `p/q.e`. Loading the tree without
the duplicate gives `p/n.e` and `p/q.e`. When the duplicate has no preload bytes the two
loads agree. -/
theorem duplicate_with_preload_shifts_cursor :
    wf_tree [(to_bytes "e", [(to_bytes "p", [⟨to_bytes "n", 7, 3, 100, 20, 0xffff, []⟩,
      ⟨to_bytes "N", 9, 4, 200, 30, 0xffff, [0x41]⟩,
      ⟨to_bytes "q", 8, 5, 300, 40, 0xffff, []⟩])])] = true ∧
    vpk_file.load (one_file "pak01_dir.vpk".toList
        (vpk_image [(to_bytes "e", [(to_bytes "p", [⟨to_bytes "n", 7, 3, 100, 20, 0xffff, []⟩,
          ⟨to_bytes "N", 9, 4, 200, 30, 0xffff, [0x41]⟩,
          ⟨to_bytes "q", 8, 5, 300, 40, 0xffff, []⟩])])]))
      "pak01_dir.vpk".toList vpk_file.fresh =
    LoadOutcome.returned true ⟨"pak01_dir.vpk".toList,
      vpk_image [(to_bytes "e", [(to_bytes "p", [⟨to_bytes "n", 7, 3, 100, 20, 0xffff, []⟩,
        ⟨to_bytes "N", 9, 4, 200, 30, 0xffff, [0x41]⟩,
        ⟨to_bytes "q", 8, 5, 300, 40, 0xffff, []⟩])])],
      [("p/n.e".toList, ⟨"pak01_dir.vpk".toList, "p/n.e".toList, 3, 100, 20, [], false⟩),
        ("p/Aq.e".toList, ⟨"pak01_dir.vpk".toList, "p/Aq.e".toList, 5, 300, 40, [], false⟩)]⟩ ∧
    file_map_t.find
      [("p/n.e".toList, ⟨"pak01_dir.vpk".toList, "p/n.e".toList, 3, 100, 20, [], false⟩),
        ("p/Aq.e".toList, ⟨"pak01_dir.vpk".toList, "p/Aq.e".toList, 5, 300, 40, [], false⟩)]
      "p/q.e".toList = none ∧
    vpk_file.load (one_file "pak01_dir.vpk".toList
        (vpk_image [(to_bytes "e", [(to_bytes "p", [⟨to_bytes "n", 7, 3, 100, 20, 0xffff, []⟩,
          ⟨to_bytes "q", 8, 5, 300, 40, 0xffff, []⟩])])]))
      "pak01_dir.vpk".toList vpk_file.fresh =
    LoadOutcome.returned true ⟨"pak01_dir.vpk".toList,
      vpk_image [(to_bytes "e", [(to_bytes "p", [⟨to_bytes "n", 7, 3, 100, 20, 0xffff, []⟩,
        ⟨to_bytes "q", 8, 5, 300, 40, 0xffff, []⟩])])],
      [("p/n.e".toList, ⟨"pak01_dir.vpk".toList, "p/n.e".toList, 3, 100, 20, [], false⟩),
        ("p/q.e".toList, ⟨"pak01_dir.vpk".toList, "p/q.e".toList, 5, 300, 40, [], false⟩)]⟩ ∧
    vpk_file.load (one_file "pak01_dir.vpk".toList
        (vpk_image [(to_bytes "e", [(to_bytes "p", [⟨to_bytes "n", 7, 3, 100, 20, 0xffff, []⟩,
          ⟨to_bytes "N", 9, 4, 200, 30, 0xffff, []⟩,
          ⟨to_bytes "q", 8, 5, 300, 40, 0xffff, []⟩])])]))
      "pak01_dir.vpk".toList vpk_file.fresh =
    LoadOutcome.returned true ⟨"pak01_dir.vpk".toList,
      vpk_image [(to_bytes "e", [(to_bytes "p", [⟨to_bytes "n", 7, 3, 100, 20, 0xffff, []⟩,
        ⟨to_bytes "N", 9, 4, 200, 30, 0xffff, []⟩,
        ⟨to_bytes "q", 8, 5, 300, 40, 0xffff, []⟩])])],
      [("p/n.e".toList, ⟨"pak01_dir.vpk".toList, "p/n.e".toList, 3, 100, 20, [], false⟩),
        ("p/q.e".toList, ⟨"pak01_dir.vpk".toList, "p/q.e".toList, 5, 300, 40, [], false⟩)]⟩ :=
  ⟨rfl, rfl, rfl, rfl, rfl⟩

/-! ## Retrieval from a missing or short archive -/

/-- An entry that is not fully inline: `get_data` fails exactly when the archive cannot be
opened. When it can, the result has `m_preload_bytes.length + m_data_size` bytes, whatever
the length of the archive. -/
theorem get_data_none_iff (e : vpk_entry_t) (fs : Str → Option (List Nat))
    (hfull : e.m_preload_fullfile = false) :
    (e.get_data fs = none ↔ fs e.archive_path = none) ∧
    ∀ content, fs e.archive_path = some content →
      e.get_data fs = some (e.m_preload_bytes ++ read_at content e.m_data_offset e.m_data_size) ∧
      (e.m_preload_bytes ++ read_at content e.m_data_offset e.m_data_size).length =
        e.m_preload_bytes.length + e.m_data_size := by
  unfold vpk_entry_t.get_data
  rw [hfull]
  simp only [Bool.false_eq_true, if_false]
  constructor
  · cases fs e.archive_path <;> simp
  · intro content hc
    rw [hc]
    refine ⟨rfl, ?_⟩
    simp only [read_at, List.length_append, List.length_replicate, List.length_take,
      List.length_drop]
    omega

/-- C21, refuted for the short read: the entry of `pak01_dir.vpk` with archive index 3,
offset 1, length 10 and the preload bytes 7, 8. Without the archive `pak01_003.vpk`,
`get_data` fails. With an archive of five bytes, shorter than offset + length,
`get_data` succeeds and returns twelve bytes: the preload bytes, the four bytes that the
archive holds from offset 1 on, and six zeros. With an archive shorter than the offset it
returns the preload bytes and ten zeros. -/
theorem short_read_returns_buffer :
    vpk_entry_t.get_data ⟨"pak01_dir.vpk".toList, "a/b.c".toList, 3, 1, 10, [7, 8], false⟩
      (fun _ => none) = none ∧
    vpk_entry_t.get_data ⟨"pak01_dir.vpk".toList, "a/b.c".toList, 3, 1, 10, [7, 8], false⟩
      (one_file "pak01_003.vpk".toList [10, 11, 12, 13, 14]) =
      some [7, 8, 11, 12, 13, 14, 0, 0, 0, 0, 0, 0] ∧
    vpk_entry_t.get_data ⟨"pak01_dir.vpk".toList, "a/b.c".toList, 3, 9, 10, [7, 8], false⟩
      (one_file "pak01_003.vpk".toList [10, 11, 12, 13, 14]) =
      some [7, 8, 0, 0, 0, 0, 0, 0, 0, 0, 0, 0] :=
  ⟨rfl, rfl, rfl⟩

/-! ## Tokens of a language -/

theorem strip_hash_eq (key : Str) :
    (if key.head? = some '#' then key.drop 1 else key) = strip_hash key := by
  cases key with
  | nil => rfl
  | cons c t =>
    by_cases hc : c = '#'
    · subst hc
      rfl
    · have : strip_hash (c :: t) = c :: t := by
        unfold strip_hash
        split
        · rename_i h
          cases h
          exact absurd rfl hc
        · rfl
      simp [hc, this]

theorem get_token_nullptr_eq (self : language) (tokens : key_value) (key : Str)
    (ht : self.m_tokens = some tokens) (hk : key ≠ []) :
    self.get_token_nullptr key = Run.returned (text_of (tokens.find_value (strip_hash key))) := by
  unfold language.get_token_nullptr
  rw [if_neg hk, ht, strip_hash_eq]
  simp only
  cases hf : tokens.find_value (strip_hash key) with
  | none => rfl
  | some r =>
    unfold key_value.find_value at hf
    split at hf
    · cases hf
      rfl
    · cases hf

theorem get_token_none (self : language) (key : Str) :
    self.get_token key none = self.get_token_nullptr key := by
  unfold language.get_token language.get_token_nullptr
  by_cases hk : key = []
  · rw [if_pos hk, if_pos hk]
  · rw [if_neg hk, if_neg hk]
    cases self.m_tokens with
    | none => rfl
    | some t =>
      simp only
      cases t.find_value (if key.head? = some '#' then key.drop 1 else key) <;> rfl

theorem find_value_eq (kv : key_value) (key : Str) :
    text_of (kv.find_value key) = text_of (kv.find key) := by
  unfold key_value.find_value
  cases kv.find key with
  | none => rfl
  | some n => cases n <;> rfl

/-- C29, refuted at the empty name: in a token table that holds the pair `"" "v"`,
`get_token( "#" )` is `v`, the scalar stored under the empty key, and `get_token( "" )` is
the empty text, so `get_token("#K") = get_token("K")` fails for the empty `K`. -/
theorem get_token_hash_alone_counterexample :
    (language_of [kv_scalar "" "v"]).get_token "#".toList none = Run.returned "v".toList ∧
    (language_of [kv_scalar "" "v"]).get_token "".toList none = Run.returned "".toList :=
  ⟨rfl, rfl⟩

/-- C29 amended: `get_token( key )` without a fallback, on a language whose token table is
`tokens`. The empty key gives the empty text. Any other key gives the text of the scalar that
`find` returns in the table for the key with one leading `#` removed, and the empty text
when `find` returns nothing or a block. Keys that are equal for `case_insensitive_equal`
after the `#` is removed give the same text. For every `K` that is not empty and does not
start with `#`, `get_token( "#K" )` is `get_token( "K" )`. -/
theorem get_token_lookup (self : language) (tokens : key_value)
    (ht : self.m_tokens = some tokens) :
    self.get_token [] none = Run.returned [] ∧
    (∀ key, key ≠ [] →
      self.get_token key none = Run.returned (text_of (tokens.find (strip_hash key)))) ∧
    (∀ key key1, key ≠ [] → key1 ≠ [] →
      case_insensitive_equal (strip_hash key) (strip_hash key1) = true →
      self.get_token key none = self.get_token key1 none) ∧
    (∀ K, K ≠ [] → K.head? ≠ some '#' →
      self.get_token ('#' :: K) none = self.get_token K none) := by
  have h2 : ∀ key, key ≠ [] →
      self.get_token key none = Run.returned (text_of (tokens.find (strip_hash key))) := by
    intro key hk
    rw [get_token_none, get_token_nullptr_eq self tokens key ht hk, find_value_eq]
  refine ⟨rfl, h2, ?_, ?_⟩
  · intro key key1 hk hk1 hc
    rw [h2 key hk, h2 key1 hk1]
    cases tokens with
    | value a b => rfl
    | block a m =>
      simp only [key_value.find]
      rw [kv_map_t.find_congr m hc]
  · intro K hK hh
    rw [h2 _ (List.cons_ne_nil _ _), h2 K hK]
    have : strip_hash K = K := by
      rw [← strip_hash_eq, if_neg hh]
    rw [this]
    rfl

/-- C29 amended, at a table with a scalar `Name` and a block `Only`. -/
theorem get_token_lookup_witness :
    (language_of [kv_scalar "Name" "Nom", kv_block "Only" []]).get_token "#NAME".toList none =
      Run.returned "Nom".toList ∧
    (language_of [kv_scalar "Name" "Nom", kv_block "Only" []]).get_token "#Only".toList none =
      Run.returned [] ∧
    (language_of [kv_scalar "Name" "Nom", kv_block "Only" []]).get_token "#name".toList none =
      (language_of [kv_scalar "Name" "Nom", kv_block "Only" []]).get_token "name".toList none :=
  ⟨(get_token_lookup (language_of [kv_scalar "Name" "Nom", kv_block "Only" []])
      (key_value.block "Tokens".toList
        (kv_map_t.ofList [kv_scalar "Name" "Nom", kv_block "Only" []])) rfl).2.1
      "#NAME".toList (by decide),
    (get_token_lookup (language_of [kv_scalar "Name" "Nom", kv_block "Only" []])
      (key_value.block "Tokens".toList
        (kv_map_t.ofList [kv_scalar "Name" "Nom", kv_block "Only" []])) rfl).2.1
      "#Only".toList (by decide),
    (get_token_lookup (language_of [kv_scalar "Name" "Nom", kv_block "Only" []])
      (key_value.block "Tokens".toList
        (kv_map_t.ofList [kv_scalar "Name" "Nom", kv_block "Only" []])) rfl).2.2.2
      "name".toList (by decide) (by decide)⟩

/-- C30, refuted: the fallback is called with the key after the `#` was cut, not with the
key of the caller. The primary table is empty and the fallback table holds `"#K" "X"`.
`get_token( "##K", fallback )` is the empty text, as is `fallback.get_token( "#K" )`, while
`fallback.get_token( "##K" )` is `X`. In the same way, with `"" "v"` in the fallback table,
`get_token( "#", fallback )` is the empty text and `fallback.get_token( "#" )` is `v`. -/
theorem get_token_fallback_original_key_counterexample :
    (language_of []).get_token "##K".toList (some (language_of [kv_scalar "#K" "X"])) =
      Run.returned [] ∧
    (language_of [kv_scalar "#K" "X"]).get_token "#K".toList none = Run.returned [] ∧
    (language_of [kv_scalar "#K" "X"]).get_token "##K".toList none = Run.returned "X".toList ∧
    (language_of []).get_token "#".toList (some (language_of [kv_scalar "" "v"])) =
      Run.returned [] ∧
    (language_of [kv_scalar "" "v"]).get_token "#".toList none = Run.returned "v".toList :=
  ⟨rfl, rfl, rfl, rfl, rfl⟩

/-- C30 amended: delegation to the fallback with the stripped key. When the key is not empty
and the primary table `tokens` has no scalar under the key with one leading `#` removed,
`get_token( key, fallback )` is `fallback.get_token( key1 )` where `key1` is the key with
that `#` removed. This is `fallback.get_token( key )`, the call with the key of the caller,
whenever the stripped key is not empty and does not start with `#` itself. -/
theorem get_token_fallback (self fallback : language) (tokens : key_value) (key : Str)
    (ht : self.m_tokens = some tokens) (hk : key ≠ [])
    (habsent : tokens.find_value (strip_hash key) = none) :
    self.get_token key (some fallback) = fallback.get_token (strip_hash key) none ∧
    (strip_hash key ≠ [] → (strip_hash key).head? ≠ some '#' →
      self.get_token key (some fallback) = fallback.get_token key none) := by
  have h1 : self.get_token key (some fallback) = fallback.get_token (strip_hash key) none := by
    rw [get_token_none]
    unfold language.get_token
    rw [if_neg hk, ht, strip_hash_eq]
    simp only [habsent]
  refine ⟨h1, fun hne hh => ?_⟩
  rw [h1, get_token_none, get_token_none]
  unfold language.get_token_nullptr
  rw [if_neg hne, if_neg hk, strip_hash_eq, strip_hash_eq]
  have : strip_hash (strip_hash key) = strip_hash key := by
    rw [← strip_hash_eq (strip_hash key), if_neg hh]
  rw [this]

/-- C30 amended, at the key `#Missing`: with `"Missing" "X"` in the fallback table only, the
keys `#Missing` and `Missing` both give `X`; with `"#Missing" "X"` in the fallback table
they both give the empty text. -/
theorem get_token_fallback_witness :
    (language_of []).get_token "#Missing".toList
      (some (language_of [kv_scalar "Missing" "X"])) = Run.returned "X".toList ∧
    (language_of []).get_token "Missing".toList
      (some (language_of [kv_scalar "Missing" "X"])) = Run.returned "X".toList ∧
    (language_of []).get_token "#Missing".toList
      (some (language_of [kv_scalar "#Missing" "X"])) = Run.returned [] ∧
    (language_of []).get_token "Missing".toList
      (some (language_of [kv_scalar "#Missing" "X"])) = Run.returned [] ∧
    (language_of []).get_token "#Missing".toList
      (some (language_of [kv_scalar "Missing" "X"])) =
      (language_of [kv_scalar "Missing" "X"]).get_token "#Missing".toList none :=
  ⟨rfl, rfl, rfl, rfl,
    (get_token_fallback (language_of []) (language_of [kv_scalar "Missing" "X"])
      (key_value.block "Tokens".toList (kv_map_t.ofList [])) "#Missing".toList rfl
      (by decide) rfl).2 (by decide) (by decide)⟩

/-! ## Flattening: what every step keeps -/

theorem Run.bind_eq_returned {α β : Type} (x : Run α) (f : α → Run β) (b : β) :
    x.bind f = Run.returned b ↔ ∃ a, x = Run.returned a ∧ f a = Run.returned b := by
  cases x with
  | returned a => simp [Run.bind]
  | bad_variant_access => simp [Run.bind]
  | undefined => simp [Run.bind]
  | out_of_fuel => simp [Run.bind]

theorem depth_first_ne_nil (key : Str) :
    (∀ kv : key_value, ∀ (p : Ptr) (r : Ptr × key_value),
      depth_first p kv key = some r → r.1 ≠ []) ∧
    (∀ m : kv_map_t, ∀ (p : Ptr) (r : Ptr × key_value),
      depth_first_children p m key = some r → r.1 ≠ []) := by
  apply key_value_induction
  · intro k v p r h
    simp [depth_first] at h
  · intro k m ih p r h
    rw [depth_first] at h
    cases hf : m.find key with
    | some kv =>
      rw [hf] at h
      cases h
      simp
    | none =>
      rw [hf] at h
      exact ih p r h
  · intro p r h
    simp [depth_first_children] at h
  · intro k v t ihv iht p r h
    rw [depth_first_children] at h
    cases hc : depth_first_children p t key with
    | some r1 =>
      rw [hc] at h
      injection h with h
      subst h
      exact iht p _ hc
    | none =>
      rw [hc] at h
      exact ihv _ r h

theorem find_recursive_ne_nil (temp : key_value) (key : Str) (p : Ptr) (n : key_value)
    (h : temp.find_recursive key = Lookup.found p n) : p ≠ [] := by
  cases temp with
  | value a b => simp [key_value.find_recursive] at h
  | block a m =>
    rw [find_recursive_eq] at h
    cases hd : depth_first [] (key_value.block a m) key with
    | none => rw [hd] at h; simp [Lookup.ofOption] at h
    | some r =>
      rw [hd] at h
      obtain ⟨q, n1⟩ := r
      simp only [Lookup.ofOption, Lookup.found.injEq] at h
      have := (depth_first_ne_nil key).1 _ _ _ hd
      rw [← h.1]
      exact this

/-- The three ways in which one field of a prefab changes `temp_kv`. -/
theorem flatten_field_cases (temp : key_value) (k : Str) (v : key_value) (temp1 : key_value)
    (h : flatten_field temp k v = Run.returned temp1) :
    temp1 = temp.emplace k v ∨
    ∃ seg rest rk rm vk vm, temp.find_recursive k = Lookup.found (seg :: rest)
        (key_value.block rk rm) ∧ v = key_value.block vk vm ∧
      temp1 = temp.modify_at (seg :: rest) (fun r =>
        match r with
        | key_value.block rk rm => key_value.block rk (rm.insert_range vm)
        | key_value.value rk rv => key_value.value rk rv) := by
  unfold flatten_field at h
  split at h
  · rename_i p rk rm hf
    cases v with
    | value vk vv => simp [key_value.map] at h
    | block vk vm =>
      simp only [key_value.map, Run.returned.injEq] at h
      have hp := find_recursive_ne_nil temp k p _ hf
      cases p with
      | nil => exact absurd rfl hp
      | cons seg rest => exact Or.inr ⟨seg, rest, rk, rm, vk, vm, hf, rfl, h.symm⟩
  · simp only [Run.returned.injEq] at h
    exact Or.inl h.symm
  · simp only [Run.returned.injEq] at h
    exact Or.inl h.symm
  · cases h
  · cases h

/-- A property of `temp_kv` that every field of a prefab keeps is kept by the loop over the
fields of a prefab block. -/
theorem flatten_fields_invariant (P : key_value → Prop)
    (hstep : ∀ temp k v temp1, P temp → flatten_field temp k v = Run.returned temp1 → P temp1) :
    ∀ (m : kv_map_t) (temp temp1 : key_value), P temp →
      flatten_fields temp m = Run.returned temp1 → P temp1 := by
  intro m
  induction m using kv_map_induction with
  | hnil =>
    intro temp temp1 hP h
    simp only [flatten_fields, Run.returned.injEq] at h
    rw [← h]
    exact hP
  | hcons k v t ih =>
    intro temp temp1 hP h
    rw [flatten_fields, Run.bind_eq_returned] at h
    obtain ⟨a, ha, hb⟩ := h
    exact ih a temp1 (hstep temp k v a hP ha) hb

/-- A property of `temp_kv` that every field of a prefab keeps is kept by the loop over the
chain. -/
theorem flatten_chain_invariant (P : key_value → Prop)
    (hstep : ∀ temp k v temp1, P temp → flatten_field temp k v = Run.returned temp1 → P temp1)
    (prefabs : key_value) :
    ∀ (fuel : Nat) (start : Option key_value) (temp temp1 : key_value), P temp →
      flatten_chain prefabs fuel start temp = Run.returned temp1 → P temp1 := by
  intro fuel
  induction fuel with
  | zero =>
    intro start temp temp1 hP h
    cases start with
    | none =>
      simp only [flatten_chain, Run.returned.injEq] at h
      rw [← h]
      exact hP
    | some b => simp [flatten_chain] at h
  | succ fuel ih =>
    intro start temp temp1 hP h
    cases start with
    | none =>
      simp only [flatten_chain, Run.returned.injEq] at h
      rw [← h]
      exact hP
    | some b =>
      rw [flatten_chain] at h
      cases hm : b.map with
      | none => rw [hm] at h; cases h
      | some m =>
        rw [hm] at h
        simp only at h
        rw [Run.bind_eq_returned] at h
        obtain ⟨a, ha, hb⟩ := h
        have hPa := flatten_fields_invariant P hstep m temp a hP ha
        cases hv : b.find_value "prefab".toList with
        | none =>
          rw [hv] at hb
          simp only [Run.returned.injEq] at hb
          rw [← hb]
          exact hPa
        | some pv =>
          rw [hv] at hb
          simp only at hb
          cases hg : pv.get_value with
          | none => rw [hg] at hb; cases hb
          | some value =>
            rw [hg] at hb
            exact ih _ a temp1 hPa hb

theorem kv_map_t.find_insert_range_of_some (src : kv_map_t) :
    ∀ (dst : kv_map_t) (k : Str) (c : key_value), dst.find k = some c →
      (dst.insert_range src).find k = some c := by
  induction src using kv_map_induction with
  | hnil => intro dst k c h; exact h
  | hcons k1 v t ih =>
    intro dst k c h
    rw [kv_map_t.insert_range]
    exact ih _ k c (kv_map_t.find_try_emplace_of_some dst k1 v h)

/-- A scalar of the map of `temp_kv` is kept by every field of a prefab. -/
theorem flatten_field_keeps_scalar (key a b : Str) (temp : key_value) (k : Str) (v : key_value)
    (temp1 : key_value) (hP : temp.find key = some (key_value.value a b))
    (h : flatten_field temp k v = Run.returned temp1) :
    temp1.find key = some (key_value.value a b) := by
  cases temp with
  | value tk tv => simp [key_value.find] at hP
  | block tk tm =>
    simp only [key_value.find] at hP
    rcases flatten_field_cases _ k v temp1 h with h1 | ⟨seg, rest, rk, rm, vk, vm, _, _, h1⟩
    · rw [h1]
      simp only [key_value.emplace, key_value.find]
      exact kv_map_t.find_try_emplace_of_some tm k v hP
    · rw [h1]
      simp only [key_value.modify_at, key_value.find]
      by_cases hs : case_insensitive_equal seg key = true
      · rw [kv_map_t.find_update_same tm _ hs, hP]
        cases rest <;> rfl
      · rw [kv_map_t.find_update_other tm _ (by simpa using hs), hP]

theorem kv_map_t.find_insert_range_nil (src : kv_map_t) (k : Str) :
    ∀ dst : kv_map_t, (dst.insert_range src).find k =
      (dst.find k).orElse (fun _ => src.find k) := by
  induction src using kv_map_induction with
  | hnil =>
    intro dst
    rw [kv_map_t.insert_range]
    cases dst.find k <;> rfl
  | hcons k1 v t ih =>
    intro dst
    rw [kv_map_t.insert_range, ih]
    cases hd : dst.find k with
    | some c => rw [kv_map_t.find_try_emplace_of_some dst k1 v hd]; rfl
    | none =>
      by_cases hk : case_insensitive_equal k1 k = true
      · have hd1 : dst.find k1 = none := by rw [kv_map_t.find_congr dst hk, hd]
        rw [kv_map_t.try_emplace_of_find_none dst k1 v hd1, kv_map_t.find_append, hd]
        simp [kv_map_t.find, hk]
      · have : (dst.try_emplace k1 v).find k = none := by
          cases hd1 : dst.find k1 with
          | some c => rw [kv_map_t.try_emplace_of_find_some dst k1 v hd1, hd]
          | none =>
            rw [kv_map_t.try_emplace_of_find_none dst k1 v hd1, kv_map_t.find_append, hd]
            simp [kv_map_t.find, hk]
        rw [this]
        simp [kv_map_t.find, hk]

/-- The parts of a call of `flatten_item` that returns, for an item with a scalar `prefab`:
the value of `prefab`, the prefabs, and the map that the chain leaves in `temp_kv`. -/
theorem flatten_item_returned (prefabs : Option key_value) (fuel : Nat) (block block1 : key_value)
    (pv : key_value) (hp : block.find_value "prefab".toList = some pv)
    (h : flatten_item prefabs fuel block = Run.returned block1) :
    ∃ bk bm pf pk value tk tm, block = key_value.block bk bm ∧ prefabs = some pf ∧
      pv = key_value.value pk value ∧
      flatten_chain pf fuel (pf.find_block (fix_prefab_value value))
        (key_value.block "temp_kv".toList (kv_map_t.nil.insert_range bm)) =
          Run.returned (key_value.block tk tm) ∧
      block1 = key_value.block bk tm := by
  unfold flatten_item at h
  rw [hp] at h
  simp only at h
  cases block with
  | value a b => cases h
  | block bk bm =>
    simp only at h
    cases prefabs with
    | none => cases h
    | some pf =>
      simp only at h
      cases pv with
      | block a m => simp [key_value.get_value] at h
      | value pk value =>
        simp only [key_value.get_value] at h
        rw [Run.bind_eq_returned] at h
        obtain ⟨t, ht, hb⟩ := h
        cases t with
        | value a b => simp [key_value.map] at hb
        | block tk tm =>
          simp only [key_value.map, Run.returned.injEq] at hb
          exact ⟨bk, bm, pf, pk, value, tk, tm, rfl, rfl, rfl, ht, hb.symm⟩

theorem flatten_item_no_prefab (prefabs : Option key_value) (fuel : Nat) (block : key_value)
    (hp : block.find_value "prefab".toList = none) :
    flatten_item prefabs fuel block = Run.returned block := by
  unfold flatten_item
  rw [hp]

/-- Every item of the result of the loop over the items is the result of `flatten_item` on
the item stored under the same key. -/
theorem flatten_items_find (prefabs : Option key_value) (fuel : Nat) :
    ∀ (im im1 : kv_map_t), flatten_items prefabs fuel im = Run.returned im1 →
      ∀ key item, im.find key = some item →
        ∃ item1, flatten_item prefabs fuel item = Run.returned item1 ∧
          im1.find key = some item1 := by
  intro im
  induction im using kv_map_induction with
  | hnil =>
    intro im1 _ key item hf
    simp [kv_map_t.find] at hf
  | hcons k v t ih =>
    intro im1 h key item hf
    rw [flatten_items, Run.bind_eq_returned] at h
    obtain ⟨i1, hi1, h⟩ := h
    rw [Run.bind_eq_returned] at h
    obtain ⟨t1, ht1, h⟩ := h
    simp only [Run.returned.injEq] at h
    subst h
    rw [kv_map_t.find] at hf
    rw [kv_map_t.find]
    split at hf
    · rename_i hk
      cases hf
      rw [if_pos hk]
      exact ⟨i1, hi1, rfl⟩
    · rename_i hk
      rw [if_neg hk]
      exact ih t1 ht1 key item hf

/-- The items of the result of `flatten_item_prefabs`. -/
theorem flatten_item_prefabs_items (fuel : Nat) (m_block r items : key_value)
    (h : items_game.flatten_item_prefabs fuel m_block = Run.returned r)
    (hi : m_block.find "items".toList = some items) :
    ∃ ik im im1, items = key_value.block ik im ∧
      flatten_items (m_block.find "prefabs".toList) fuel im = Run.returned im1 ∧
      r.find "items".toList = some (key_value.block ik im1) := by
  unfold items_game.flatten_item_prefabs at h
  rw [hi] at h
  cases items with
  | value a b => cases h
  | block ik im =>
    simp only at h
    rw [Run.bind_eq_returned] at h
    obtain ⟨im1, h1, h2⟩ := h
    simp only [Run.returned.injEq] at h2
    refine ⟨ik, im, im1, rfl, h1, ?_⟩
    cases m_block with
    | value a b => simp [key_value.find] at hi
    | block gk gm =>
      simp only [key_value.find] at hi
      rw [← h2]
      simp only [key_value.modify_at, key_value.find]
      rw [kv_map_t.find_update_same gm _ (case_insensitive_equal_refl _), hi]
      rfl

/-- C22: items without a prefab are untouched. `flatten_item` returns an item without a
scalar `prefab` as it is, whatever the prefabs and the bound on the chain. When
`flatten_item_prefabs` returns, every item under `items` that has no scalar `prefab` is
found under its key in the `items` of the result, the same node as before. -/
theorem item_without_prefab_untouched :
    (∀ (prefabs : Option key_value) (fuel : Nat) (item : key_value),
      item.find_value "prefab".toList = none →
      flatten_item prefabs fuel item = Run.returned item) ∧
    (∀ (fuel : Nat) (m_block r items : key_value) (key : Str) (item : key_value),
      items_game.flatten_item_prefabs fuel m_block = Run.returned r →
      m_block.find "items".toList = some items → items.find key = some item →
      item.find_value "prefab".toList = none →
      ∃ items1, r.find "items".toList = some items1 ∧ items1.find key = some item) := by
  refine ⟨flatten_item_no_prefab, ?_⟩
  intro fuel m_block r items key item h hi hk hp
  obtain ⟨ik, im, im1, rfl, h1, h2⟩ := flatten_item_prefabs_items fuel m_block r items h hi
  simp only [key_value.find] at hk
  obtain ⟨item1, h3, h4⟩ := flatten_items_find _ fuel im im1 h1 key item hk
  rw [flatten_item_no_prefab _ fuel item hp] at h3
  cases h3
  exact ⟨_, h2, h4⟩

/-- C23: an item-level scalar always wins. When `flatten_item` returns, every key under which
the item itself holds a scalar is found in the result with the same scalar, whatever the
prefabs of the chain hold under that key. -/
theorem item_scalar_wins (prefabs : Option key_value) (fuel : Nat) (item item1 : key_value)
    (key : Str) (kv : key_value) (hs : item.find_value key = some kv)
    (h : flatten_item prefabs fuel item = Run.returned item1) :
    item1.find key = some kv ∧ item1.find_value key = some kv := by
  have hkv : ∃ a b, kv = key_value.value a b ∧ item.find key = some (key_value.value a b) := by
    unfold key_value.find_value at hs
    split at hs
    · rename_i a b hf
      cases hs
      exact ⟨a, b, rfl, hf⟩
    · cases hs
  obtain ⟨a, b, rfl, hf⟩ := hkv
  have hfind : item1.find key = some (key_value.value a b) := by
    cases hp : item.find_value "prefab".toList with
    | none =>
      rw [flatten_item_no_prefab _ _ _ hp] at h
      cases h
      exact hf
    | some pv =>
      obtain ⟨bk, bm, pf, pk, value, tk, tm, rfl, rfl, rfl, hc, rfl⟩ :=
        flatten_item_returned prefabs fuel item item1 pv hp h
      simp only [key_value.find] at hf
      have h0 : (key_value.block "temp_kv".toList (kv_map_t.nil.insert_range bm)).find key =
          some (key_value.value a b) := by
        simp only [key_value.find]
        rw [kv_map_t.find_insert_range_nil, hf]
        rfl
      exact flatten_chain_invariant (fun t => t.find key = some (key_value.value a b))
        (fun temp k v temp1 hP hstep => flatten_field_keeps_scalar key a b temp k v temp1 hP hstep)
        pf fuel _ _ (key_value.block tk tm) h0 hc
  refine ⟨hfind, ?_⟩
  unfold key_value.find_value
  rw [hfind]

/-- C22 at an item `1` without a prefab, beside an item `2` that names the prefab `base`. -/
theorem item_without_prefab_untouched_witness :
    flatten_item none 0 (kv_node "1" [kv_scalar "name" "Foo"]) =
      Run.returned (kv_node "1" [kv_scalar "name" "Foo"]) ∧
    items_game.flatten_item_prefabs 1 (kv_node "items_game" [
        kv_block "items" [kv_block "1" [kv_scalar "name" "Foo"],
          kv_block "2" [kv_scalar "prefab" "base"]],
        kv_block "prefabs" [kv_block "base" [kv_scalar "name" "Bar",
          kv_block "tags" [kv_scalar "a" "1"]]]]) =
      Run.returned (kv_node "items_game" [
        kv_block "items" [kv_block "1" [kv_scalar "name" "Foo"],
          kv_block "2" [kv_scalar "prefab" "base", kv_scalar "name" "Bar",
            kv_block "tags" [kv_scalar "a" "1"]]],
        kv_block "prefabs" [kv_block "base" [kv_scalar "name" "Bar",
          kv_block "tags" [kv_scalar "a" "1"]]]]) ∧
    ∃ items1, (kv_node "items_game" [
        kv_block "items" [kv_block "1" [kv_scalar "name" "Foo"],
          kv_block "2" [kv_scalar "prefab" "base", kv_scalar "name" "Bar",
            kv_block "tags" [kv_scalar "a" "1"]]],
        kv_block "prefabs" [kv_block "base" [kv_scalar "name" "Bar",
          kv_block "tags" [kv_scalar "a" "1"]]]]).find "items".toList = some items1 ∧
      items1.find "1".toList = some (kv_node "1" [kv_scalar "name" "Foo"]) :=
  ⟨item_without_prefab_untouched.1 none 0 (kv_node "1" [kv_scalar "name" "Foo"]) rfl, rfl,
    item_without_prefab_untouched.2 1
      (kv_node "items_game" [
        kv_block "items" [kv_block "1" [kv_scalar "name" "Foo"],
          kv_block "2" [kv_scalar "prefab" "base"]],
        kv_block "prefabs" [kv_block "base" [kv_scalar "name" "Bar",
          kv_block "tags" [kv_scalar "a" "1"]]]])
      (kv_node "items_game" [
        kv_block "items" [kv_block "1" [kv_scalar "name" "Foo"],
          kv_block "2" [kv_scalar "prefab" "base", kv_scalar "name" "Bar",
            kv_block "tags" [kv_scalar "a" "1"]]],
        kv_block "prefabs" [kv_block "base" [kv_scalar "name" "Bar",
          kv_block "tags" [kv_scalar "a" "1"]]]])
      (kv_node "items" [kv_block "1" [kv_scalar "name" "Foo"],
          kv_block "2" [kv_scalar "prefab" "base"]])
      "1".toList (kv_node "1" [kv_scalar "name" "Foo"]) rfl rfl rfl rfl⟩

/-- C23 at the item `{ prefab base, name Foo }` with `base = { name Bar, tags { a 1 } }`:
the result keeps `name Foo` and inherits `tags`. -/
theorem item_scalar_wins_witness :
    flatten_item
      (some (kv_node "prefabs" [kv_block "base" [kv_scalar "name" "Bar",
        kv_block "tags" [kv_scalar "a" "1"]]])) 1
      (kv_node "7" [kv_scalar "prefab" "base", kv_scalar "name" "Foo"]) =
      Run.returned (kv_node "7" [kv_scalar "prefab" "base", kv_scalar "name" "Foo",
        kv_block "tags" [kv_scalar "a" "1"]]) ∧
    (kv_node "7" [kv_scalar "prefab" "base", kv_scalar "name" "Foo",
        kv_block "tags" [kv_scalar "a" "1"]]).find "NAME".toList =
      some (key_value.value "name".toList "Foo".toList) :=
  ⟨rfl, (item_scalar_wins
      (some (kv_node "prefabs" [kv_block "base" [kv_scalar "name" "Bar",
        kv_block "tags" [kv_scalar "a" "1"]]])) 1
      (kv_node "7" [kv_scalar "prefab" "base", kv_scalar "name" "Foo"])
      (kv_node "7" [kv_scalar "prefab" "base", kv_scalar "name" "Foo",
        kv_block "tags" [kv_scalar "a" "1"]])
      "NAME".toList (key_value.value "name".toList "Foo".toList) rfl rfl).1⟩

/-! ## The chain of prefabs -/

theorem find_value_some (kv : key_value) (key : Str) (r : key_value)
    (h : kv.find_value key = some r) :
    ∃ a b, r = key_value.value a b ∧ kv.find key = some (key_value.value a b) := by
  unfold key_value.find_value at h
  split at h
  · rename_i a b hf
    cases h
    exact ⟨a, b, rfl, hf⟩
  · cases h

theorem find_block_some (kv : key_value) (key : Str) (r : key_value)
    (h : kv.find_block key = some r) :
    ∃ a m, r = key_value.block a m ∧ kv.find key = some (key_value.block a m) := by
  unfold key_value.find_block at h
  split at h
  · rename_i a m hf
    cases h
    exact ⟨a, m, rfl, hf⟩
  · cases h

theorem flatten_field_not_fuel (temp : key_value) (k : Str) (v : key_value) :
    flatten_field temp k v ≠ Run.out_of_fuel := by
  unfold flatten_field
  cases temp with
  | value a b => simp [key_value.find_recursive]
  | block a m =>
    have ht := (find_recursive_total a m k).1
    split
    · split <;> simp
    · simp
    · simp
    · simp
    · rename_i h
      exact absurd h ht

theorem flatten_fields_not_fuel (m : kv_map_t) :
    ∀ temp : key_value, flatten_fields temp m ≠ Run.out_of_fuel := by
  induction m using kv_map_induction with
  | hnil => intro temp; simp [flatten_fields]
  | hcons k v t ih =>
    intro temp
    rw [flatten_fields]
    cases hf : flatten_field temp k v with
    | returned a => exact ih a
    | bad_variant_access => simp [Run.bind]
    | undefined => simp [Run.bind]
    | out_of_fuel => exact absurd hf (flatten_field_not_fuel temp k v)

theorem flatten_blocks_not_fuel (bs : List key_value) :
    ∀ temp : key_value, flatten_blocks temp bs ≠ Run.out_of_fuel := by
  induction bs with
  | nil => intro temp; simp [flatten_blocks]
  | cons b bs ih =>
    intro temp
    rw [flatten_blocks]
    cases b.map with
    | none => simp
    | some m =>
      simp only
      cases hf : flatten_fields temp m with
      | returned a => exact ih a
      | bad_variant_access => simp [Run.bind]
      | undefined => simp [Run.bind]
      | out_of_fuel => exact absurd hf (flatten_fields_not_fuel m temp)

/-- With a bound that the chain does not reach, the loop over the chain merges the blocks
of the chain one after the other. -/
theorem flatten_chain_eq (prefabs : key_value) :
    ∀ (fuel : Nat) (name : Str) (temp : key_value),
      (prefab_chain prefabs (fuel + 1) name).length ≤ fuel →
      flatten_chain prefabs fuel (prefabs.find_block name) temp =
        flatten_blocks temp ((prefab_chain prefabs fuel name).map Prod.snd) := by
  intro fuel
  induction fuel with
  | zero =>
    intro name temp h
    rw [prefab_chain] at h
    cases hb : prefabs.find_block name with
    | none => rfl
    | some b => rw [hb] at h; simp at h
  | succ fuel ih =>
    intro name temp h
    rw [prefab_chain] at h
    rw [prefab_chain]
    cases hb : prefabs.find_block name with
    | none => rfl
    | some b =>
      rw [hb] at h
      obtain ⟨a, m, rfl, _⟩ := find_block_some prefabs name b hb
      simp only [List.length_cons, Nat.add_le_add_iff_right] at h
      simp only [List.map_cons, flatten_chain, flatten_blocks, key_value.map]
      congr 1
      funext temp1
      cases hv : (key_value.block a m).find_value "prefab".toList with
      | none => rfl
      | some pv =>
        obtain ⟨pk, value, rfl, _⟩ := find_value_some _ _ pv hv
        rw [hv] at h
        simp only [key_value.get_value]
        exact ih _ temp1 h

/-- A chain that ends before the bound is the same with every larger bound. -/
theorem prefab_chain_stable (prefabs : key_value) :
    ∀ (n : Nat) (name : Str), (prefab_chain prefabs (n + 1) name).length ≤ n →
      prefab_chain prefabs (n + 1) name = prefab_chain prefabs n name := by
  intro n
  induction n with
  | zero =>
    intro name h
    rw [prefab_chain] at h ⊢
    cases hb : prefabs.find_block name with
    | none => rfl
    | some b => rw [hb] at h; simp at h
  | succ n ih =>
    intro name h
    rw [prefab_chain] at h
    rw [prefab_chain]
    conv_rhs => rw [prefab_chain]
    cases hb : prefabs.find_block name with
    | none => rfl
    | some b =>
      rw [hb] at h
      simp only [List.length_cons, Nat.add_le_add_iff_right] at h
      simp only
      cases hv : b.find_value "prefab".toList with
      | none => rfl
      | some pv =>
        obtain ⟨pk, value, rfl, _⟩ := find_value_some _ _ pv hv
        rw [hv] at h
        simp only
        rw [ih _ h]

/-- Every name of the chain finds its block in `prefabs`. -/
theorem prefab_chain_mem (prefabs : key_value) :
    ∀ (n : Nat) (name : Str) (x : Str × key_value), x ∈ prefab_chain prefabs n name →
      prefabs.find_block x.1 = some x.2 := by
  intro n
  induction n with
  | zero => intro name x h; simp [prefab_chain] at h
  | succ n ih =>
    intro name x h
    rw [prefab_chain] at h
    cases hb : prefabs.find_block name with
    | none => rw [hb] at h; simp at h
    | some b =>
      rw [hb] at h
      simp only [List.mem_cons] at h
      rcases h with rfl | h
      · exact hb
      · cases hv : b.find_value "prefab".toList with
        | none => rw [hv] at h; simp at h
        | some pv =>
          obtain ⟨pk, value, rfl, _⟩ := find_value_some _ _ pv hv
          rw [hv] at h
          exact ih _ x h

/-- Names that all find a pair of a map and are pairwise different for
`case_insensitive_equal` are not more than the pairs of the map. -/
theorem names_le_keys (m : kv_map_t) (names : List Str)
    (hfind : ∀ name ∈ names, m.find name ≠ none)
    (hpw : names.Pairwise (fun a b => case_insensitive_equal a b = false)) :
    names.length ≤ m.keys.length := by
  have hnodup : (names.map (fun s => s.map tolower)).Nodup := by
    rw [List.nodup_map_iff_inj_on]
    · intro a ha b hb hab
      by_contra hne
      have hci : case_insensitive_equal a b = true := (case_insensitive_equal_iff a b).2 hab
      have hneq : ∀ (l : List Str), l.Pairwise (fun a b => case_insensitive_equal a b = false) →
          a ∈ l → b ∈ l → a ≠ b → False := by
        intro l
        induction l with
        | nil => intro _ h1; cases h1
        | cons x t iht =>
          intro hp h1 h2 hab1
          rw [List.pairwise_cons] at hp
          rcases List.mem_cons.1 h1 with e1 | h3
          · rcases List.mem_cons.1 h2 with e2 | h4
            · exact hab1 (e1.trans e2.symm)
            · have := hp.1 b h4
              rw [← e1, hci] at this
              cases this
          · rcases List.mem_cons.1 h2 with e2 | h4
            · have := hp.1 a h3
              rw [← e2, case_insensitive_equal_symm, hci] at this
              cases this
            · exact iht hp.2 h3 h4 hab1
      exact hneq names hpw ha hb hne
    · exact hpw.imp_of_mem (fun {a b} ha hb hab heq => by
        rw [heq, case_insensitive_equal_refl] at hab
        cases hab)
  have hsub : names.map (fun s => s.map tolower) ⊆ m.keys.map (fun s => s.map tolower) := by
    intro x hx
    obtain ⟨name, hn, rfl⟩ := List.mem_map.1 hx
    have h1 := hfind name hn
    rw [ne_eq, kv_map_t.find_eq_none_iff] at h1
    push_neg at h1
    obtain ⟨k2, hk2, hc⟩ := h1
    simp only [ne_eq, Bool.not_eq_false] at hc
    exact List.mem_map.2 ⟨k2, hk2, (case_insensitive_equal_iff k2 name).1 hc⟩
  have := (List.subperm_of_subset hnodup hsub).length_le
  simpa using this

/-! ## Termination of flattening -/

theorem acyclic_bound (prefabs : key_value) (name : Str) (h : acyclic_from prefabs name)
    (n : Nat) : (prefab_chain prefabs n name).length ≤ prefab_count (some prefabs) := by
  cases prefabs with
  | value a b =>
    cases n with
    | zero => simp [prefab_chain]
    | succ n => simp [prefab_chain, key_value.find_block, key_value.find]
  | block pk pm =>
    have hfind : ∀ nm ∈ (prefab_chain (key_value.block pk pm) n name).map Prod.fst,
        pm.find nm ≠ none := by
      intro nm hnm
      obtain ⟨x, hx, rfl⟩ := List.mem_map.1 hnm
      have hb := prefab_chain_mem _ n name x hx
      obtain ⟨a, m, _, hf⟩ := find_block_some _ _ _ hb
      simp only [key_value.find] at hf
      rw [hf]
      simp
    have := names_le_keys pm _ hfind (h n)
    simpa [prefab_count] using this

theorem prefab_chain_eq_of_le (prefabs : key_value) (name : Str) (N : Nat)
    (hN : ∀ n, (prefab_chain prefabs n name).length ≤ N) :
    ∀ d, prefab_chain prefabs (N + d) name = prefab_chain prefabs N name := by
  intro d
  induction d with
  | zero => rfl
  | succ d ih =>
    rw [← Nat.add_assoc, prefab_chain_stable prefabs (N + d) name
      (le_trans (hN _) (Nat.le_add_right _ _)), ih]

/-- Without a cycle the loop over the chain ends: with every bound from the number of
prefabs on, it merges the blocks of the chain, each once. -/
theorem flatten_chain_acyclic (prefabs : key_value) (name : Str) (temp : key_value)
    (h : acyclic_from prefabs name) (fuel : Nat) (hf : prefab_count (some prefabs) ≤ fuel) :
    flatten_chain prefabs fuel (prefabs.find_block name) temp =
      flatten_blocks temp
        ((prefab_chain prefabs (prefab_count (some prefabs)) name).map Prod.snd) := by
  have hN := acyclic_bound prefabs name h
  rw [flatten_chain_eq prefabs fuel name temp (le_trans (hN _) hf)]
  obtain ⟨d, rfl⟩ := Nat.exists_eq_add_of_le hf
  rw [prefab_chain_eq_of_le prefabs name _ hN d]

theorem Run.bind_congr_not_fuel {α β : Type} (x : Run α) (f : α → Run β)
    (hx : x ≠ Run.out_of_fuel) (hf : ∀ a, f a ≠ Run.out_of_fuel) :
    x.bind f ≠ Run.out_of_fuel := by
  cases x with
  | returned a => exact hf a
  | bad_variant_access => simp [Run.bind]
  | undefined => simp [Run.bind]
  | out_of_fuel => exact absurd rfl hx

/-- An item whose chain has no cycle: `flatten_item` gives the same with every bound from
the number of prefabs on, and the bound is not reached. -/
theorem flatten_item_acyclic (prefabs : Option key_value) (item : key_value)
    (h : ∀ pf pk v, prefabs = some pf →
      item.find_value "prefab".toList = some (key_value.value pk v) →
      acyclic_from pf (fix_prefab_value v))
    (fuel : Nat) (hf : prefab_count prefabs ≤ fuel) :
    flatten_item prefabs fuel item = flatten_item prefabs (prefab_count prefabs) item ∧
    flatten_item prefabs fuel item ≠ Run.out_of_fuel := by
  cases hp : item.find_value "prefab".toList with
  | none =>
    rw [flatten_item_no_prefab _ _ _ hp, flatten_item_no_prefab _ _ _ hp]
    exact ⟨rfl, by simp⟩
  | some pv =>
    obtain ⟨pk, v, rfl, _⟩ := find_value_some _ _ pv hp
    unfold flatten_item
    rw [hp]
    simp only
    cases item with
    | value a b => exact ⟨rfl, by simp⟩
    | block bk bm =>
      simp only
      cases prefabs with
      | none => exact ⟨rfl, by simp⟩
      | some pf =>
        simp only [key_value.get_value]
        have hac := h pf pk v rfl hp
        rw [flatten_chain_acyclic pf _ _ hac fuel hf,
          flatten_chain_acyclic pf _ _ hac _ (le_refl _)]
        refine ⟨rfl, Run.bind_congr_not_fuel _ _ (flatten_blocks_not_fuel _ _) ?_⟩
        intro a
        cases a.map <;> simp

theorem flatten_items_acyclic (prefabs : Option key_value) (fuel : Nat)
    (hf : prefab_count prefabs ≤ fuel) :
    ∀ im : kv_map_t,
      (∀ k item pf pk v, (k, item) ∈ im.toList → prefabs = some pf →
        item.find_value "prefab".toList = some (key_value.value pk v) →
        acyclic_from pf (fix_prefab_value v)) →
      flatten_items prefabs fuel im = flatten_items prefabs (prefab_count prefabs) im ∧
      flatten_items prefabs fuel im ≠ Run.out_of_fuel := by
  intro im
  induction im using kv_map_induction with
  | hnil => intro _; exact ⟨rfl, by simp [flatten_items]⟩
  | hcons k i t ih =>
    intro h
    have hi := flatten_item_acyclic prefabs i
      (fun pf pk v hpf hv => h k i pf pk v (by simp [kv_map_t.toList]) hpf hv) fuel hf
    have ht := ih (fun k1 item pf pk v hm hpf hv =>
      h k1 item pf pk v (by simp [kv_map_t.toList, hm]) hpf hv)
    rw [flatten_items, flatten_items, hi.1, ht.1]
    refine ⟨rfl, ?_⟩
    rw [← hi.1, ← ht.1]
    refine Run.bind_congr_not_fuel _ _ hi.2 (fun a => ?_)
    exact Run.bind_congr_not_fuel _ _ ht.2 (fun b => by simp)

/-- C28: termination of flattening. When no chain that starts at the scalar `prefab` of an
item comes back to a prefab block (`acyclic_from`), `flatten_item_prefabs` ends: with every
bound from the number of prefabs on it gives the same result and the bound is not reached.
The loop over such a chain merges the blocks of the chain one after the other, each once.
Without that hypothesis the call may never return: for an item that names the prefab `loop`,
whose own `prefab` is `loop`, the bound is reached whatever it is. -/
theorem flatten_terminates :
    (∀ (m_block : key_value),
      (∀ ik im pf k item pk v, m_block.find "items".toList = some (key_value.block ik im) →
        m_block.find "prefabs".toList = some pf → (k, item) ∈ im.toList →
        item.find_value "prefab".toList = some (key_value.value pk v) →
        acyclic_from pf (fix_prefab_value v)) →
      ∀ fuel, prefab_count (m_block.find "prefabs".toList) ≤ fuel →
        items_game.flatten_item_prefabs fuel m_block =
          items_game.flatten_item_prefabs (prefab_count (m_block.find "prefabs".toList))
            m_block ∧
        items_game.flatten_item_prefabs fuel m_block ≠ Run.out_of_fuel) ∧
    (∀ (prefabs : key_value) (name : Str) (temp : key_value), acyclic_from prefabs name →
      ∀ fuel, prefab_count (some prefabs) ≤ fuel →
        flatten_chain prefabs fuel (prefabs.find_block name) temp =
          flatten_blocks temp
            ((prefab_chain prefabs (prefab_count (some prefabs)) name).map Prod.snd) ∧
        ((prefab_chain prefabs (prefab_count (some prefabs)) name).map Prod.fst).Pairwise
          (fun a b => case_insensitive_equal a b = false)) ∧
    (∀ fuel, items_game.flatten_item_prefabs fuel (kv_node "items_game" [
        kv_block "items" [kv_block "1" [kv_scalar "prefab" "loop"]],
        kv_block "prefabs" [kv_block "loop" [kv_scalar "prefab" "loop"]]]) =
      Run.out_of_fuel) := by
  refine ⟨?_, ?_, ?_⟩
  · intro m_block h fuel hf
    unfold items_game.flatten_item_prefabs
    cases hi : m_block.find "items".toList with
    | none => exact ⟨rfl, by simp⟩
    | some items =>
      cases items with
      | value a b => exact ⟨rfl, by simp⟩
      | block ik im =>
        simp only
        have := flatten_items_acyclic (m_block.find "prefabs".toList) fuel hf im
          (fun k item pf pk v hm hpf hv => h ik im pf k item pk v hi hpf hm hv)
        rw [this.1]
        refine ⟨rfl, ?_⟩
        rw [← this.1]
        exact Run.bind_congr_not_fuel _ _ this.2 (fun a => by simp)
  · intro prefabs name temp h fuel hf
    exact ⟨flatten_chain_acyclic prefabs name temp h fuel hf, h _⟩
  · have hc : ∀ fuel, flatten_chain (kv_node "prefabs" [kv_block "loop" [kv_scalar "prefab" "loop"]])
        fuel (some (kv_node "loop" [kv_scalar "prefab" "loop"]))
        (kv_node "temp_kv" [kv_scalar "prefab" "loop"]) = Run.out_of_fuel := by
      intro fuel
      induction fuel with
      | zero => rfl
      | succ n ih =>
        have : flatten_chain (kv_node "prefabs" [kv_block "loop" [kv_scalar "prefab" "loop"]])
            (n + 1) (some (kv_node "loop" [kv_scalar "prefab" "loop"]))
            (kv_node "temp_kv" [kv_scalar "prefab" "loop"]) =
          flatten_chain (kv_node "prefabs" [kv_block "loop" [kv_scalar "prefab" "loop"]])
            n (some (kv_node "loop" [kv_scalar "prefab" "loop"]))
            (kv_node "temp_kv" [kv_scalar "prefab" "loop"]) := rfl
        rw [this, ih]
    intro fuel
    have h1 : items_game.flatten_item_prefabs fuel (kv_node "items_game" [
        kv_block "items" [kv_block "1" [kv_scalar "prefab" "loop"]],
        kv_block "prefabs" [kv_block "loop" [kv_scalar "prefab" "loop"]]]) =
        ((((flatten_chain (kv_node "prefabs" [kv_block "loop" [kv_scalar "prefab" "loop"]])
          fuel (some (kv_node "loop" [kv_scalar "prefab" "loop"]))
          (kv_node "temp_kv" [kv_scalar "prefab" "loop"])).bind _).bind _).bind _) := rfl
    rw [h1, hc]
    rfl

/-- C28 at an item whose chain is `base`, then `root`: the result is the same with the bound
2, the number of prefabs, and with the bound 5. -/
theorem flatten_terminates_witness :
    acyclic_from (kv_node "prefabs" [kv_block "base" [kv_scalar "prefab" "valve root",
        kv_scalar "name" "Bar"], kv_block "root" [kv_scalar "kind" "gun"]]) "base".toList ∧
    items_game.flatten_item_prefabs 5 (kv_node "items_game" [
        kv_block "items" [kv_block "1" [kv_scalar "prefab" "base"]],
        kv_block "prefabs" [kv_block "base" [kv_scalar "prefab" "valve root",
          kv_scalar "name" "Bar"], kv_block "root" [kv_scalar "kind" "gun"]]]) =
      items_game.flatten_item_prefabs 2 (kv_node "items_game" [
        kv_block "items" [kv_block "1" [kv_scalar "prefab" "base"]],
        kv_block "prefabs" [kv_block "base" [kv_scalar "prefab" "valve root",
          kv_scalar "name" "Bar"], kv_block "root" [kv_scalar "kind" "gun"]]]) ∧
    items_game.flatten_item_prefabs 2 (kv_node "items_game" [
        kv_block "items" [kv_block "1" [kv_scalar "prefab" "base"]],
        kv_block "prefabs" [kv_block "base" [kv_scalar "prefab" "valve root",
          kv_scalar "name" "Bar"], kv_block "root" [kv_scalar "kind" "gun"]]]) =
      Run.returned (kv_node "items_game" [
        kv_block "items" [kv_block "1" [kv_scalar "prefab" "base", kv_scalar "name" "Bar",
          kv_scalar "kind" "gun"]],
        kv_block "prefabs" [kv_block "base" [kv_scalar "prefab" "valve root",
          kv_scalar "name" "Bar"], kv_block "root" [kv_scalar "kind" "gun"]]]) :=
  have hac : acyclic_from (kv_node "prefabs" [kv_block "base" [kv_scalar "prefab" "valve root",
        kv_scalar "name" "Bar"], kv_block "root" [kv_scalar "kind" "gun"]]) "base".toList :=
    fun n =>
      match n with
      | 0 => by decide
      | 1 => by decide
      | n + 2 => by
        show List.Pairwise _ ["base".toList, "root".toList]
        decide
  ⟨hac,
    (flatten_terminates.1 (kv_node "items_game" [
        kv_block "items" [kv_block "1" [kv_scalar "prefab" "base"]],
        kv_block "prefabs" [kv_block "base" [kv_scalar "prefab" "valve root",
          kv_scalar "name" "Bar"], kv_block "root" [kv_scalar "kind" "gun"]]])
      (fun ik im pf k item pk v h1 h2 h3 h4 => by
        have e1 : (kv_node "items_game" [
            kv_block "items" [kv_block "1" [kv_scalar "prefab" "base"]],
            kv_block "prefabs" [kv_block "base" [kv_scalar "prefab" "valve root",
              kv_scalar "name" "Bar"], kv_block "root" [kv_scalar "kind" "gun"]]]).find
            "items".toList = some (key_value.block "items".toList (kv_map_t.cons "1".toList
              (kv_node "1" [kv_scalar "prefab" "base"]) kv_map_t.nil)) := rfl
        have e2 : (kv_node "items_game" [
            kv_block "items" [kv_block "1" [kv_scalar "prefab" "base"]],
            kv_block "prefabs" [kv_block "base" [kv_scalar "prefab" "valve root",
              kv_scalar "name" "Bar"], kv_block "root" [kv_scalar "kind" "gun"]]]).find
            "prefabs".toList = some (kv_node "prefabs" [kv_block "base" [
              kv_scalar "prefab" "valve root", kv_scalar "name" "Bar"],
              kv_block "root" [kv_scalar "kind" "gun"]]) := rfl
        rw [e1] at h1
        rw [e2] at h2
        cases h1
        cases h2
        simp only [kv_map_t.toList, List.mem_singleton, Prod.mk.injEq] at h3
        obtain ⟨_, rfl⟩ := h3
        have e3 : (kv_node "1" [kv_scalar "prefab" "base"]).find_value "prefab".toList =
            some (key_value.value "prefab".toList "base".toList) := rfl
        rw [e3] at h4
        cases h4
        exact hac)
      5 (by decide)).1,
    rfl⟩

/-! ## Flattening: keys that are stored at the top level only -/

theorem key_value.has_key_block (k : Str) (m : kv_map_t) (key : Str) :
    (key_value.block k m).has_key key = false ↔
      m.find key = none ∧ m.has_key_below key = false := by
  rw [key_value.has_key]
  cases m.find key <;> simp

theorem depth_first_none_of_has_key (key : Str) :
    (∀ kv : key_value, ∀ p : Ptr, kv.has_key key = false → depth_first p kv key = none) ∧
    (∀ m : kv_map_t, ∀ p : Ptr, m.has_key_below key = false →
      depth_first_children p m key = none) := by
  apply key_value_induction
  · intro k v p _
    simp [depth_first]
  · intro k m ih p h
    rw [key_value.has_key_block] at h
    rw [depth_first, h.1]
    exact ih p h.2
  · intro p _
    simp [depth_first_children]
  · intro k v t ihv iht p h
    simp only [kv_map_t.has_key_below, Bool.or_eq_false_iff] at h
    rw [depth_first_children, iht p h.2]
    exact ihv _ h.1

theorem find_recursive_flat (tk : Str) (tm : kv_map_t) (key : Str)
    (h : tm.has_key_below key = false) :
    (key_value.block tk tm).find_recursive key =
      match tm.find key with
      | some kv => Lookup.found [key] kv
      | none => Lookup.not_found := by
  rw [find_recursive_eq, depth_first]
  cases hf : tm.find key with
  | some kv => rfl
  | none =>
    simp only
    rw [(depth_first_none_of_has_key key).2 tm [] h]
    rfl

namespace kv_map_t

theorem has_key_of_find (m : kv_map_t) (k key : Str) (c : key_value)
    (hm : m.has_key_below key = false) (hf : m.find k = some c) : c.has_key key = false := by
  induction m using kv_map_induction with
  | hnil => simp [find] at hf
  | hcons k1 v t ih =>
    simp only [has_key_below, Bool.or_eq_false_iff] at hm
    rw [find] at hf
    split at hf
    · cases hf
      exact hm.1
    · exact ih hm.2 hf

theorem has_key_below_try_emplace (m : kv_map_t) (k : Str) (v : key_value) (key : Str)
    (hm : m.has_key_below key = false) (hv : v.has_key key = false) :
    (m.try_emplace k v).has_key_below key = false := by
  induction m using kv_map_induction with
  | hnil => simp [try_emplace, has_key_below, hv]
  | hcons k1 v1 t ih =>
    simp only [has_key_below, Bool.or_eq_false_iff] at hm
    rw [try_emplace]
    split
    · simp [has_key_below, hm.1, hm.2]
    · simp [has_key_below, hm.1, ih hm.2]

theorem has_key_below_update (m : kv_map_t) (k : Str) (f : key_value → key_value) (key : Str)
    (hm : m.has_key_below key = false)
    (hf : ∀ c, m.find k = some c → (f c).has_key key = false) :
    (m.update k f).has_key_below key = false := by
  induction m using kv_map_induction with
  | hnil => rfl
  | hcons k1 v1 t ih =>
    simp only [has_key_below, Bool.or_eq_false_iff] at hm
    rw [update]
    split
    · rename_i hk
      simp [has_key_below, hm.2, hf v1 (by simp [find, hk])]
    · rename_i hk
      simp only [has_key_below, hm.1, Bool.false_or]
      exact ih hm.2 (fun c hc => hf c (by simpa [find, hk] using hc))

theorem has_key_below_insert_range (src : kv_map_t) (key : Str) :
    ∀ dst : kv_map_t, dst.has_key_below key = false → src.has_key_below key = false →
      (dst.insert_range src).has_key_below key = false := by
  induction src using kv_map_induction with
  | hnil => intro dst hd _; exact hd
  | hcons k v t ih =>
    intro dst hd hs
    simp only [has_key_below, Bool.or_eq_false_iff] at hs
    rw [insert_range]
    exact ih _ (has_key_below_try_emplace dst k v key hd hs.1) hs.2

theorem find_try_emplace_other (m : kv_map_t) (k : Str) (v : key_value) (key : Str)
    (h : case_insensitive_equal k key = false) : (m.try_emplace k v).find key = m.find key := by
  induction m using kv_map_induction with
  | hnil => simp [try_emplace, find, h]
  | hcons k1 v1 t ih =>
    rw [try_emplace]
    split
    · rfl
    · simp only [find, ih]

theorem find_try_emplace_congr (m : kv_map_t) (k : Str) (v : key_value) (key : Str)
    (h : case_insensitive_equal k key = true) (hf : m.find key = none) :
    (m.try_emplace k v).find key = some v := by
  rw [← find_congr _ h] at hf ⊢
  exact find_try_emplace_self m k v hf

end kv_map_t

/-- One field of a prefab whose key is not stored below the top level of `temp_kv`: the
search ends in the map of `temp_kv`. A block found there takes the pairs of the prefab's
block; otherwise the pair is inserted in the map. -/
theorem flatten_field_flat (tk : Str) (tm : kv_map_t) (k : Str) (v temp1 : key_value)
    (hk : tm.has_key_below k = false)
    (h : flatten_field (key_value.block tk tm) k v = Run.returned temp1) :
    (∃ rk rm vk vm, tm.find k = some (key_value.block rk rm) ∧ v = key_value.block vk vm ∧
      temp1 = key_value.block tk
        (tm.update k (fun _ => key_value.block rk (rm.insert_range vm)))) ∨
    ((∀ rk rm, tm.find k ≠ some (key_value.block rk rm)) ∧
      temp1 = key_value.block tk (tm.try_emplace k v)) := by
  unfold flatten_field at h
  rw [find_recursive_flat tk tm k hk] at h
  cases hf : tm.find k with
  | none =>
    rw [hf] at h
    simp only [Run.returned.injEq] at h
    exact Or.inr ⟨by simp, h.symm⟩
  | some n =>
    rw [hf] at h
    cases n with
    | value a c =>
      simp only [Run.returned.injEq] at h
      exact Or.inr ⟨by simp, h.symm⟩
    | block rk rm =>
      simp only at h
      cases v with
      | value a c => simp [key_value.map] at h
      | block vk vm =>
        simp only [key_value.map, Run.returned.injEq] at h
        refine Or.inl ⟨rk, rm, vk, vm, rfl, rfl, ?_⟩
        rw [← h]
        simp only [key_value.modify_at, key_value.block.injEq, true_and]
        apply kv_map_t.update_congr
        intro c hc
        rw [hf] at hc
        cases hc
        rfl

/-- What one field of a prefab does to the lookups in the map of `temp_kv`, when its key is
not stored below the top level. -/
theorem flatten_field_flat_find (tk : Str) (tm : kv_map_t) (k : Str) (v temp1 : key_value)
    (hk : tm.has_key_below k = false)
    (h : flatten_field (key_value.block tk tm) k v = Run.returned temp1) :
    ∃ tm1, temp1 = key_value.block tk tm1 ∧
      (∀ key, case_insensitive_equal k key = false → tm1.find key = tm.find key) ∧
      (∀ key, case_insensitive_equal k key = true → tm.find key = none →
        tm1.find key = some v) ∧
      (∀ key a c, case_insensitive_equal k key = true →
        tm.find key = some (key_value.value a c) → tm1.find key = some (key_value.value a c)) ∧
      (∀ key rk rm, case_insensitive_equal k key = true →
        tm.find key = some (key_value.block rk rm) →
        ∃ vk vm, v = key_value.block vk vm ∧
          tm1.find key = some (key_value.block rk (rm.insert_range vm))) ∧
      (∀ key1, tm.has_key_below key1 = false → v.has_key key1 = false →
        tm1.has_key_below key1 = false) := by
  rcases flatten_field_flat tk tm k v temp1 hk h with
    ⟨rk, rm, vk, vm, hf, rfl, rfl⟩ | ⟨hnb, rfl⟩
  · refine ⟨_, rfl, ?_, ?_, ?_, ?_, ?_⟩
    · intro key hc
      exact kv_map_t.find_update_other tm _ hc
    · intro key hc hn
      rw [← kv_map_t.find_congr tm hc, hf] at hn
      cases hn
    · intro key a c hc hn
      rw [← kv_map_t.find_congr tm hc, hf] at hn
      cases hn
    · intro key rk1 rm1 hc hn
      rw [← kv_map_t.find_congr tm hc, hf] at hn
      cases hn
      refine ⟨vk, vm, rfl, ?_⟩
      rw [kv_map_t.find_update_same tm _ hc, ← kv_map_t.find_congr tm hc, hf]
      rfl
    · intro key1 h1 h2
      apply kv_map_t.has_key_below_update tm k _ key1 h1
      intro c hc
      rw [hf] at hc
      cases hc
      have h3 := kv_map_t.has_key_of_find tm k key1 _ h1 hf
      rw [key_value.has_key_block] at h2 h3 ⊢
      refine ⟨?_, kv_map_t.has_key_below_insert_range vm key1 rm h3.2 h2.2⟩
      rw [kv_map_t.find_insert_range_nil, h3.1, h2.1]
      rfl
  · refine ⟨_, rfl, ?_, ?_, ?_, ?_, ?_⟩
    · intro key hc
      exact kv_map_t.find_try_emplace_other tm k v key hc
    · intro key hc hn
      exact kv_map_t.find_try_emplace_congr tm k v key hc hn
    · intro key a c _ hn
      exact kv_map_t.find_try_emplace_of_some tm k v hn
    · intro key rk rm hc hn
      rw [← kv_map_t.find_congr tm hc] at hn
      exact absurd hn (hnb rk rm)
    · intro key1 h1 h2
      exact kv_map_t.has_key_below_try_emplace tm k v key1 h1 h2

theorem key_value.grown_refl (n : key_value) : n.grown n := by
  cases n with
  | value a c => rfl
  | block a m => exact ⟨m, rfl, fun _ _ h => h⟩

theorem key_value.grown_trans {a b c : key_value} (h1 : a.grown b) (h2 : b.grown c) :
    a.grown c := by
  cases a with
  | value k v =>
    simp only [key_value.grown] at h1
    subst h1
    exact h2
  | block k m =>
    obtain ⟨m1, rfl, hm1⟩ := h1
    obtain ⟨m2, rfl, hm2⟩ := h2
    exact ⟨m2, rfl, fun c cn h => hm2 c cn (hm1 c cn h)⟩

theorem key_value.grown_insert_range (rk : Str) (rm vm : kv_map_t) :
    (key_value.block rk rm).grown (key_value.block rk (rm.insert_range vm)) :=
  ⟨_, rfl, fun c cn h => kv_map_t.find_insert_range_of_some vm rm c cn h⟩

theorem kv_map_t.find_none_of_distinct_cons (k : Str) (v : key_value) (t : kv_map_t) (key : Str)
    (hd : (kv_map_t.cons k v t).distinct = true) (hc : case_insensitive_equal k key = true) :
    t.find key = none := by
  simp only [kv_map_t.distinct, Bool.and_eq_true, Option.isNone_iff_eq_none] at hd
  rw [← kv_map_t.find_congr t hc]
  exact hd.1

/-- The loop over the fields of a prefab block whose keys are in `K`, when no key of `K` is
stored below the top level of `temp_kv` or of the prefab block: what it does to the lookups
in the map of `temp_kv`. -/
theorem flatten_fields_flat (K : Str → Prop) (tk : Str) :
    ∀ (pm tm : kv_map_t) (t1 : key_value),
      (∀ k, K k → tm.has_key_below k = false) →
      (∀ k, K k → pm.has_key_below k = false) →
      (∀ k ∈ pm.keys, K k) →
      flatten_fields (key_value.block tk tm) pm = Run.returned t1 →
      ∃ tm1, t1 = key_value.block tk tm1 ∧ (∀ k, K k → tm1.has_key_below k = false) ∧
        ∀ key,
          (pm.find key = none → tm1.find key = tm.find key) ∧
          (∀ n, tm.find key = some n → ∃ n1, tm1.find key = some n1 ∧ n.grown n1) ∧
          (∀ v, tm.find key = none → pm.find key = some v →
            ∃ n1, tm1.find key = some n1 ∧ v.grown n1) ∧
          (∀ ik im vk vm, tm.find key = some (key_value.block ik im) →
            pm.find key = some (key_value.block vk vm) →
            ∃ m1, tm1.find key = some (key_value.block ik m1) ∧
              (∀ c cn, im.find c = some cn → m1.find c = some cn) ∧
              (∀ c cn, im.find c = none → vm.find c = some cn → m1.find c = some cn)) ∧
          (pm.distinct = true → ∀ v, tm.find key = none → pm.find key = some v →
            tm1.find key = some v) ∧
          (pm.distinct = true → ∀ ik im vk vm, tm.find key = some (key_value.block ik im) →
            pm.find key = some (key_value.block vk vm) →
            tm1.find key = some (key_value.block ik (im.insert_range vm))) := by
  intro pm
  induction pm using kv_map_induction with
  | hnil =>
    intro tm t1 hK _ _ h
    simp only [flatten_fields, Run.returned.injEq] at h
    refine ⟨tm, h.symm, hK, fun key => ⟨fun _ => rfl, fun n hn => ⟨n, hn, n.grown_refl⟩, ?_, ?_, ?_, ?_⟩⟩
    · intro v _ hv
      simp [kv_map_t.find] at hv
    · intro ik im vk vm _ hv
      simp [kv_map_t.find] at hv
    · intro _ v _ hv
      simp [kv_map_t.find] at hv
    · intro _ ik im vk vm _ hv
      simp [kv_map_t.find] at hv
  | hcons k v t ih =>
    intro tm t1 hK hP hkeys h
    rw [flatten_fields, Run.bind_eq_returned] at h
    obtain ⟨a, ha, hrest⟩ := h
    have hKk : K k := hkeys k (by simp [kv_map_t.keys])
    obtain ⟨tm0, rfl, s1, s2, s3, s4, s5⟩ :=
      flatten_field_flat_find tk tm k v a (hK k hKk) ha
    have hv : ∀ k1, K k1 → v.has_key k1 = false ∧ t.has_key_below k1 = false := by
      intro k1 hk1
      have := hP k1 hk1
      simpa [kv_map_t.has_key_below] using this
    have hK0 : ∀ k1, K k1 → tm0.has_key_below k1 = false :=
      fun k1 hk1 => s5 k1 (hK k1 hk1) (hv k1 hk1).1
    obtain ⟨tm1, rfl, hK1, hfind⟩ := ih tm0 t1 hK0 (fun k1 hk1 => (hv k1 hk1).2)
      (fun k1 hk1 => hkeys k1 (by simp [kv_map_t.keys, hk1])) hrest
    refine ⟨tm1, rfl, hK1, fun key => ?_⟩
    obtain ⟨ia, ib, ic, id, ie, ig⟩ := hfind key
    by_cases hc : case_insensitive_equal k key = true
    · have hpm : (kv_map_t.cons k v t).find key = some v := by simp [kv_map_t.find, hc]
      have hgrow : ∀ n, tm.find key = some n → ∃ n0, tm0.find key = some n0 ∧ n.grown n0 := by
        intro n hn
        cases n with
        | value x y => exact ⟨_, s3 key x y hc hn, rfl⟩
        | block rk rm =>
          obtain ⟨vk, vm, _, hf0⟩ := s4 key rk rm hc hn
          exact ⟨_, hf0, key_value.grown_insert_range rk rm vm⟩
      refine ⟨?_, ?_, ?_, ?_, ?_, ?_⟩
      · intro hn
        rw [hpm] at hn
        cases hn
      · intro n hn
        obtain ⟨n0, hn0, hg0⟩ := hgrow n hn
        obtain ⟨n1, hn1, hg1⟩ := ib n0 hn0
        exact ⟨n1, hn1, key_value.grown_trans hg0 hg1⟩
      · intro v1 hn hv1
        rw [hpm] at hv1
        cases hv1
        exact ib v (s2 key hc hn)
      · intro ik im vk vm hn hv1
        rw [hpm] at hv1
        cases hv1
        obtain ⟨vk1, vm1, hveq, hf0⟩ := s4 key ik im hc hn
        cases hveq
        obtain ⟨n1, hn1, m1, rfl, hm1⟩ := ib _ hf0
        refine ⟨m1, hn1, ?_, ?_⟩
        · intro c cn hcn
          exact hm1 c cn (kv_map_t.find_insert_range_of_some vm im c cn hcn)
        · intro c cn hnone hcn
          apply hm1 c cn
          rw [kv_map_t.find_insert_range_nil, hnone, hcn]
          rfl
      · intro hd v1 hn hv1
        rw [hpm] at hv1
        cases hv1
        have ht := kv_map_t.find_none_of_distinct_cons k v t key hd hc
        rw [ia ht]
        exact s2 key hc hn
      · intro hd ik im vk vm hn hv1
        rw [hpm] at hv1
        cases hv1
        have ht := kv_map_t.find_none_of_distinct_cons k _ t key hd hc
        obtain ⟨vk1, vm1, hveq, hf0⟩ := s4 key ik im hc hn
        cases hveq
        rw [ia ht]
        exact hf0
    · have hcf : case_insensitive_equal k key = false := by simpa using hc
      have hpm : (kv_map_t.cons k v t).find key = t.find key := by simp [kv_map_t.find, hcf]
      have h0 : tm0.find key = tm.find key := s1 key hcf
      have hdt : (kv_map_t.cons k v t).distinct = true → t.distinct = true := by
        intro hd
        simp only [kv_map_t.distinct, Bool.and_eq_true] at hd
        exact hd.2
      rw [hpm, ← h0]
      exact ⟨ia, ib, ic, id, fun hd => ie (hdt hd), fun hd => ig (hdt hd)⟩

/-- The blocks of a chain merged one after the other, when their field keys are in `K` and
no key of `K` is stored below the top level of `temp_kv` or of one of the blocks: a key
that no block has is looked up as before, and every node of the map is found grown. -/
theorem flatten_blocks_flat (K : Str → Prop) (tk : Str) :
    ∀ (bs : List key_value) (tm : kv_map_t) (t1 : key_value),
      (∀ k, K k → tm.has_key_below k = false) →
      (∀ b ∈ bs, (∀ k, K k → b.nested_key k = false) ∧ ∀ k ∈ b.fields, K k) →
      flatten_blocks (key_value.block tk tm) bs = Run.returned t1 →
      ∃ tm1, t1 = key_value.block tk tm1 ∧ (∀ k, K k → tm1.has_key_below k = false) ∧
        ∀ key,
          ((∀ b ∈ bs, b.find key = none) → tm1.find key = tm.find key) ∧
          (∀ n, tm.find key = some n → ∃ n1, tm1.find key = some n1 ∧ n.grown n1) := by
  intro bs
  induction bs with
  | nil =>
    intro tm t1 hK _ h
    simp only [flatten_blocks, Run.returned.injEq] at h
    exact ⟨tm, h.symm, hK, fun key => ⟨fun _ => rfl, fun n hn => ⟨n, hn, n.grown_refl⟩⟩⟩
  | cons b bs ih =>
    intro tm t1 hK hbs h
    rw [flatten_blocks] at h
    cases b with
    | value x y => simp [key_value.map] at h
    | block bk pm =>
      simp only [key_value.map] at h
      rw [Run.bind_eq_returned] at h
      obtain ⟨a, ha, hrest⟩ := h
      have hb := hbs (key_value.block bk pm) (by simp)
      obtain ⟨tm0, rfl, hK0, hf0⟩ := flatten_fields_flat K tk pm tm a hK
        (fun k hk => by simpa [key_value.nested_key] using hb.1 k hk)
        (fun k hk => hb.2 k (by simpa [key_value.fields] using hk)) ha
      obtain ⟨tm1, rfl, hK1, hf1⟩ := ih tm0 t1 hK0
        (fun b1 hb1 => hbs b1 (by simp [hb1])) hrest
      refine ⟨tm1, rfl, hK1, fun key => ⟨?_, ?_⟩⟩
      · intro hnone
        rw [(hf1 key).1 (fun b1 hb1 => hnone b1 (by simp [hb1]))]
        exact (hf0 key).1 (by simpa [key_value.find] using hnone (key_value.block bk pm) (by simp))
      · intro n hn
        obtain ⟨n0, hn0, hg0⟩ := (hf0 key).2.1 n hn
        obtain ⟨n1, hn1, hg1⟩ := (hf1 key).2 n0 hn0
        exact ⟨n1, hn1, key_value.grown_trans hg0 hg1⟩

theorem flatten_blocks_append (pre post : List key_value) :
    ∀ temp : key_value, flatten_blocks temp (pre ++ post) =
      (flatten_blocks temp pre).bind (fun t => flatten_blocks t post) := by
  induction pre with
  | nil => intro temp; rfl
  | cons b pre ih =>
    intro temp
    rw [List.cons_append, flatten_blocks, flatten_blocks]
    cases b.map with
    | none => rfl
    | some m =>
      simp only
      cases flatten_fields temp m with
      | returned a => simp only [Run.bind]; exact ih a
      | bad_variant_access => rfl
      | undefined => rfl
      | out_of_fuel => rfl

/-- A loop over the chain that returns has merged the blocks of the chain one after the
other. -/
theorem flatten_chain_returned (prefabs : key_value) :
    ∀ (fuel : Nat) (name : Str) (temp t1 : key_value),
      flatten_chain prefabs fuel (prefabs.find_block name) temp = Run.returned t1 →
      flatten_blocks temp ((prefab_chain prefabs fuel name).map Prod.snd) = Run.returned t1 := by
  intro fuel
  induction fuel with
  | zero =>
    intro name temp t1 h
    cases hb : prefabs.find_block name with
    | none =>
      rw [hb] at h
      simpa [flatten_chain, prefab_chain, flatten_blocks] using h
    | some b =>
      rw [hb] at h
      simp [flatten_chain] at h
  | succ fuel ih =>
    intro name temp t1 h
    rw [prefab_chain]
    cases hb : prefabs.find_block name with
    | none =>
      rw [hb] at h
      simpa [flatten_chain, flatten_blocks] using h
    | some b =>
      rw [hb] at h
      obtain ⟨a, m, rfl, _⟩ := find_block_some prefabs name b hb
      simp only [flatten_chain, key_value.map] at h
      rw [Run.bind_eq_returned] at h
      obtain ⟨t0, ht0, hrest⟩ := h
      simp only [List.map_cons, flatten_blocks, key_value.map]
      rw [Run.bind_eq_returned]
      refine ⟨t0, ht0, ?_⟩
      cases hv : (key_value.block a m).find_value "prefab".toList with
      | none =>
        rw [hv] at hrest
        simpa [flatten_blocks] using hrest
      | some pv =>
        obtain ⟨pk, value, rfl, _⟩ := find_value_some _ _ pv hv
        rw [hv] at hrest
        simp only [key_value.get_value] at hrest
        exact ih _ t0 t1 hrest

/-- A call of `flatten_item` that returns, for an item with the scalar `prefab` of value
`w`: the map of the result is the map that the blocks of the chain, merged one after the
other into a copy of the map of the item, leave in `temp_kv`. -/
theorem flatten_item_blocks (pf : key_value) (fuel : Nat) (item item1 : key_value)
    (pk w : Str) (hp : item.find_value "prefab".toList = some (key_value.value pk w))
    (h : flatten_item (some pf) fuel item = Run.returned item1) :
    ∃ bk bm tk tm, item = key_value.block bk bm ∧ item1 = key_value.block bk tm ∧
      flatten_blocks (key_value.block "temp_kv".toList (kv_map_t.nil.insert_range bm))
        ((prefab_chain pf fuel (fix_prefab_value w)).map Prod.snd) =
          Run.returned (key_value.block tk tm) := by
  obtain ⟨bk, bm, pf1, pk1, value, tk, tm, rfl, hpf, hpv, hc, rfl⟩ :=
    flatten_item_returned (some pf) fuel item item1 _ hp h
  cases hpf
  cases hpv
  exact ⟨bk, bm, tk, tm, rfl, rfl, flatten_chain_returned pf fuel _ _ _ hc⟩

theorem kv_map_t.find_copy (bm : kv_map_t) (key : Str) :
    (kv_map_t.nil.insert_range bm).find key = bm.find key := by
  rw [kv_map_t.find_insert_range_nil]
  rfl

theorem kv_map_t.has_key_below_copy (bm : kv_map_t) (key : Str)
    (h : bm.has_key_below key = false) :
    (kv_map_t.nil.insert_range bm).has_key_below key = false :=
  kv_map_t.has_key_below_insert_range bm key kv_map_t.nil rfl h

/-! ## Flattening: keys that are not yet in the scratch block -/

theorem flatten_field_absent (temp : key_value) (k : Str) (v temp1 : key_value) (key : Str)
    (hn : temp.find key = none) (hc : case_insensitive_equal k key = false)
    (h : flatten_field temp k v = Run.returned temp1) : temp1.find key = none := by
  cases temp with
  | value a b =>
    unfold flatten_field at h
    simp [key_value.find_recursive] at h
  | block tk tm =>
    simp only [key_value.find] at hn
    rcases flatten_field_cases _ k v temp1 h with h1 | ⟨seg, rest, rk, rm, vk, vm, _, _, h1⟩
    · rw [h1]
      simp only [key_value.emplace, key_value.find]
      rw [kv_map_t.find_try_emplace_other tm k v key hc, hn]
    · rw [h1]
      simp only [key_value.modify_at, key_value.find]
      by_cases hs : case_insensitive_equal seg key = true
      · rw [kv_map_t.find_update_same tm _ hs, hn]
        rfl
      · rw [kv_map_t.find_update_other tm _ (by simpa using hs), hn]

theorem flatten_field_inserts_scalar (temp : key_value) (k a c : Str) (temp1 : key_value)
    (key : Str) (hn : temp.find key = none) (hc : case_insensitive_equal k key = true)
    (h : flatten_field temp k (key_value.value a c) = Run.returned temp1) :
    temp1.find key = some (key_value.value a c) := by
  cases temp with
  | value x y =>
    unfold flatten_field at h
    simp [key_value.find_recursive] at h
  | block tk tm =>
    simp only [key_value.find] at hn
    rcases flatten_field_cases _ k _ temp1 h with h1 | ⟨seg, rest, rk, rm, vk, vm, _, hv, _⟩
    · rw [h1]
      simp only [key_value.emplace, key_value.find]
      exact kv_map_t.find_try_emplace_congr tm k _ key hc hn
    · cases hv

theorem kv_map_t.find_cons_none (k : Str) (v : key_value) (t : kv_map_t) (key : Str)
    (h : (kv_map_t.cons k v t).find key = none) :
    case_insensitive_equal k key = false ∧ t.find key = none := by
  rw [kv_map_t.find] at h
  split at h
  · cases h
  · rename_i hc
    exact ⟨by simpa using hc, h⟩

theorem flatten_fields_absent (key : Str) :
    ∀ (pm : kv_map_t) (temp temp1 : key_value), temp.find key = none → pm.find key = none →
      flatten_fields temp pm = Run.returned temp1 → temp1.find key = none := by
  intro pm
  induction pm using kv_map_induction with
  | hnil =>
    intro temp temp1 hn _ h
    simp only [flatten_fields, Run.returned.injEq] at h
    rw [← h]
    exact hn
  | hcons k v t ih =>
    intro temp temp1 hn hp h
    rw [flatten_fields, Run.bind_eq_returned] at h
    obtain ⟨a, ha, hrest⟩ := h
    obtain ⟨hc, ht⟩ := kv_map_t.find_cons_none k v t key hp
    exact ih a temp1 (flatten_field_absent temp k v a key hn hc ha) ht hrest

theorem flatten_fields_inserts_scalar (key a c : Str) :
    ∀ (pm : kv_map_t) (temp temp1 : key_value), temp.find key = none →
      pm.find key = some (key_value.value a c) →
      flatten_fields temp pm = Run.returned temp1 →
      temp1.find key = some (key_value.value a c) := by
  intro pm
  induction pm using kv_map_induction with
  | hnil =>
    intro temp temp1 _ hp _
    simp [kv_map_t.find] at hp
  | hcons k v t ih =>
    intro temp temp1 hn hp h
    rw [flatten_fields, Run.bind_eq_returned] at h
    obtain ⟨t0, ht0, hrest⟩ := h
    by_cases hc : case_insensitive_equal k key = true
    · simp only [kv_map_t.find, hc, if_true, Option.some.injEq] at hp
      subst hp
      have h0 := flatten_field_inserts_scalar temp k a c t0 key hn hc ht0
      exact flatten_fields_invariant (fun x => x.find key = some (key_value.value a c))
        (fun x k1 v1 x1 hP hs => flatten_field_keeps_scalar key a c x k1 v1 x1 hP hs)
        t t0 temp1 h0 hrest
    · have hcf : case_insensitive_equal k key = false := by simpa using hc
      simp only [kv_map_t.find, hcf] at hp
      exact ih t0 temp1 (flatten_field_absent temp k v t0 key hn hcf ht0) (by simpa using hp)
        hrest

/-- A property of `temp_kv` that every field of a prefab keeps is kept by the blocks of a
chain. -/
theorem flatten_blocks_invariant (P : key_value → Prop)
    (hstep : ∀ temp k v temp1, P temp → flatten_field temp k v = Run.returned temp1 → P temp1) :
    ∀ (bs : List key_value) (temp temp1 : key_value), P temp →
      flatten_blocks temp bs = Run.returned temp1 → P temp1 := by
  intro bs
  induction bs with
  | nil =>
    intro temp temp1 hP h
    simp only [flatten_blocks, Run.returned.injEq] at h
    rw [← h]
    exact hP
  | cons b bs ih =>
    intro temp temp1 hP h
    rw [flatten_blocks] at h
    cases hm : b.map with
    | none => rw [hm] at h; cases h
    | some m =>
      rw [hm] at h
      simp only at h
      rw [Run.bind_eq_returned] at h
      obtain ⟨a, ha, hrest⟩ := h
      exact ih a temp1 (flatten_fields_invariant P hstep m temp a hP ha) hrest

theorem flatten_blocks_absent (key : Str) :
    ∀ (bs : List key_value) (temp temp1 : key_value), temp.find key = none →
      (∀ b ∈ bs, b.find key = none) →
      flatten_blocks temp bs = Run.returned temp1 → temp1.find key = none := by
  intro bs
  induction bs with
  | nil =>
    intro temp temp1 hn _ h
    simp only [flatten_blocks, Run.returned.injEq] at h
    rw [← h]
    exact hn
  | cons b bs ih =>
    intro temp temp1 hn hb h
    rw [flatten_blocks] at h
    cases b with
    | value x y => simp [key_value.map] at h
    | block bk pm =>
      simp only [key_value.map] at h
      rw [Run.bind_eq_returned] at h
      obtain ⟨a, ha, hrest⟩ := h
      have hpm : pm.find key = none := by
        simpa [key_value.find] using hb (key_value.block bk pm) (by simp)
      exact ih a temp1 (flatten_fields_absent key pm temp a hn hpm ha)
        (fun b1 hb1 => hb b1 (by simp [hb1])) hrest

/-- The scalar that the nearest block of the chain holds under a key that `temp_kv` does not
have is the node of the result under that key. -/
theorem flatten_blocks_nearest_scalar (key a c : Str) (pre : List key_value) (b : key_value)
    (post : List key_value) (temp temp1 : key_value) (hn : temp.find key = none)
    (hpre : ∀ q ∈ pre, q.find key = none) (hb : b.find key = some (key_value.value a c))
    (h : flatten_blocks temp (pre ++ b :: post) = Run.returned temp1) :
    temp1.find key = some (key_value.value a c) := by
  rw [flatten_blocks_append, Run.bind_eq_returned] at h
  obtain ⟨t0, ht0, h⟩ := h
  have h0 := flatten_blocks_absent key pre temp t0 hn hpre ht0
  rw [flatten_blocks] at h
  cases b with
  | value x y => simp [key_value.map] at h
  | block bk pm =>
    simp only [key_value.map] at h
    rw [Run.bind_eq_returned] at h
    obtain ⟨t2, ht2, h⟩ := h
    simp only [key_value.find] at hb
    have h2 := flatten_fields_inserts_scalar key a c pm t0 t2 h0 hb ht2
    exact flatten_blocks_invariant (fun x => x.find key = some (key_value.value a c))
      (fun x k1 v1 x1 hP hs => flatten_field_keeps_scalar key a c x k1 v1 x1 hP hs)
      post t2 temp1 h2 h

/-- The block that the nearest block of the chain holds under a key that `temp_kv` does not
have is found grown in the result, when the field keys of the chain are stored at the top
level only. -/
theorem flatten_blocks_nearest (K : Str → Prop) (tk : Str) (key : Str) (pre : List key_value)
    (b : key_value) (post : List key_value) (tm : kv_map_t) (temp1 v : key_value)
    (hK : ∀ k, K k → tm.has_key_below k = false)
    (hbs : ∀ q ∈ pre ++ b :: post, (∀ k, K k → q.nested_key k = false) ∧ ∀ k ∈ q.fields, K k)
    (hn : tm.find key = none) (hpre : ∀ q ∈ pre, q.find key = none) (hb : b.find key = some v)
    (h : flatten_blocks (key_value.block tk tm) (pre ++ b :: post) = Run.returned temp1) :
    ∃ n, temp1.find key = some n ∧ v.grown n := by
  rw [flatten_blocks_append, Run.bind_eq_returned] at h
  obtain ⟨t0, ht0, h⟩ := h
  obtain ⟨tm0, rfl, hK0, hf0⟩ := flatten_blocks_flat K tk pre tm t0 hK
    (fun q hq => hbs q (by simp [hq])) ht0
  have h0 : tm0.find key = none := by rw [(hf0 key).1 hpre, hn]
  rw [flatten_blocks] at h
  cases b with
  | value x y => simp [key_value.map] at h
  | block bk pm =>
    simp only [key_value.map] at h
    rw [Run.bind_eq_returned] at h
    obtain ⟨t2, ht2, h⟩ := h
    have hbb := hbs (key_value.block bk pm) (by simp)
    obtain ⟨tm2, rfl, hK2, hf2⟩ := flatten_fields_flat K tk pm tm0 t2 hK0
      (fun k hk => by simpa [key_value.nested_key] using hbb.1 k hk)
      (fun k hk => hbb.2 k (by simpa [key_value.fields] using hk)) ht2
    simp only [key_value.find] at hb
    obtain ⟨n2, hn2, hg2⟩ := (hf2 key).2.2.1 v h0 hb
    obtain ⟨tm3, rfl, _, hf3⟩ := flatten_blocks_flat K tk post tm2 temp1 hK2
      (fun q hq => hbs q (by simp [hq])) h
    obtain ⟨n3, hn3, hg3⟩ := (hf3 key).2 n2 hn2
    exact ⟨n3, by simpa [key_value.find] using hn3, key_value.grown_trans hg2 hg3⟩

/-- The hypotheses of the lemmas on `K` for the set of the field keys of a flat chain. -/
theorem flat_context (bk : Str) (bm : kv_map_t) (blocks : List key_value)
    (hflat : flat (key_value.block bk bm) blocks) :
    (∀ k, (∃ b ∈ blocks, k ∈ b.fields) →
      (kv_map_t.nil.insert_range bm).has_key_below k = false) ∧
    (∀ q ∈ blocks, (∀ k, (∃ b ∈ blocks, k ∈ b.fields) → q.nested_key k = false) ∧
      ∀ k ∈ q.fields, ∃ b ∈ blocks, k ∈ b.fields) := by
  constructor
  · rintro k ⟨b, hb, hk⟩
    exact kv_map_t.has_key_below_copy bm k (by simpa [key_value.nested_key] using (hflat b hb k hk).1)
  · intro q hq
    refine ⟨?_, fun k hk => ⟨q, hq, hk⟩⟩
    rintro k ⟨b, hb, hk⟩
    exact (hflat b hb k hk).2 q hq

/-! ## Inheritance from the chain of prefabs -/

/-- C24, as the code behaves: the field `tags` of the prefab `base` is not a key of the item
`{ prefab base, box { tags { x 9 } } }`, but the recursive search finds the block `tags`
inside `box`, which takes the child `a`; the result has no field `tags`. -/
theorem nested_block_captures_field_counterexample :
    flatten_item (some (kv_node "prefabs" [kv_block "base" [kv_block "tags" [kv_scalar "a" "1"]]]))
      1 (kv_node "1" [kv_scalar "prefab" "base", kv_block "box" [kv_block "tags" [kv_scalar "x" "9"]]]) =
      Run.returned (kv_node "1" [kv_scalar "prefab" "base",
        kv_block "box" [kv_block "tags" [kv_scalar "x" "9", kv_scalar "a" "1"]]]) ∧
    (kv_node "1" [kv_scalar "prefab" "base", kv_block "box" [kv_block "tags" [kv_scalar "x" "9"]]]).find
      "tags".toList = none ∧
    (kv_node "1" [kv_scalar "prefab" "base",
        kv_block "box" [kv_block "tags" [kv_scalar "x" "9", kv_scalar "a" "1"]]]).find
      "tags".toList = none :=
  ⟨rfl, rfl, rfl⟩

/-- C24 amended: inheritance of absent fields. The item has the scalar `prefab` of value
`w`, the chain that starts at `fix_prefab_value w` is `P` followed by `rest`, the result is
`item1`, and `P` holds the node `v` under a key `k` that the map of the item does not have.
A scalar `v` is the node of `item1` under `k`. When the field keys of the chain are stored at
the top level only (`flat`), `item1` has under `k` the node `v` grown: a block with the same
`m_key` in which every child of `v` is found unchanged. When moreover the keys of `P` are
pairwise different and no farther block of the chain has `k`, the node of `item1` under `k`
is `v`. -/
theorem inherit_absent_field (pf : key_value) (fuel : Nat) (item item1 : key_value)
    (pk w : Str) (P : key_value) (rest : List key_value) (k : Str) (v : key_value)
    (hp : item.find_value "prefab".toList = some (key_value.value pk w))
    (h : flatten_item (some pf) fuel item = Run.returned item1)
    (hchain : (prefab_chain pf fuel (fix_prefab_value w)).map Prod.snd = P :: rest)
    (hk : item.find k = none) (hv : P.find k = some v) :
    (∀ a c, v = key_value.value a c → item1.find k = some v) ∧
    (flat item (P :: rest) → ∃ n, item1.find k = some n ∧ v.grown n) ∧
    (flat item (P :: rest) → (∀ bk pm, P = key_value.block bk pm → pm.distinct = true) →
      (∀ b ∈ rest, b.find k = none) → item1.find k = some v) := by
  obtain ⟨bk, bm, tk, tm, rfl, rfl, hb⟩ := flatten_item_blocks pf fuel item item1 pk w hp h
  rw [hchain] at hb
  simp only [key_value.find] at hk ⊢
  have h0 : (kv_map_t.nil.insert_range bm).find k = none := by rw [kv_map_t.find_copy, hk]
  refine ⟨?_, ?_, ?_⟩
  · intro a c hvc
    subst hvc
    have := flatten_blocks_nearest_scalar k a c [] P rest _ _ (by simpa [key_value.find] using h0)
      (by simp) hv hb
    simpa [key_value.find] using this
  · intro hflat
    obtain ⟨hK, hbs⟩ := flat_context bk bm (P :: rest) hflat
    obtain ⟨n, hn, hg⟩ := flatten_blocks_nearest _ "temp_kv".toList k [] P rest _ _ v hK hbs h0
      (by simp) hv hb
    exact ⟨n, by simpa [key_value.find] using hn, hg⟩
  · intro hflat hd hrest
    obtain ⟨hK, hbs⟩ := flat_context bk bm (P :: rest) hflat
    rw [flatten_blocks] at hb
    cases P with
    | value x y => simp [key_value.map] at hb
    | block pbk pm =>
      simp only [key_value.map] at hb
      rw [Run.bind_eq_returned] at hb
      obtain ⟨t0, ht0, hb⟩ := hb
      have hP := hbs (key_value.block pbk pm) (by simp)
      obtain ⟨tm0, rfl, hK0, hf0⟩ := flatten_fields_flat _ "temp_kv".toList pm _ t0 hK
        (fun k1 hk1 => by simpa [key_value.nested_key] using hP.1 k1 hk1)
        (fun k1 hk1 => hP.2 k1 (by simpa [key_value.fields] using hk1)) ht0
      simp only [key_value.find] at hv
      have h1 := (hf0 k).2.2.2.2.1 (hd pbk pm rfl) v h0 hv
      obtain ⟨tm1, htm1, _, hf1⟩ := flatten_blocks_flat _ "temp_kv".toList rest tm0 _ hK0
        (fun q hq => hbs q (by simp [hq])) hb
      cases htm1
      rw [(hf1 k).1 hrest, h1]

/-- C24 amended, at the item `{ prefab base }` with `base = { name Bar, tags { a 1 } }`: the
result has the fields `name` and `tags` of `base`. -/
theorem inherit_absent_field_witness :
    flatten_item
      (some (kv_node "prefabs" [kv_block "base" [kv_scalar "name" "Bar",
        kv_block "tags" [kv_scalar "a" "1"]]])) 1
      (kv_node "7" [kv_scalar "prefab" "base"]) =
      Run.returned (kv_node "7" [kv_scalar "prefab" "base", kv_scalar "name" "Bar",
        kv_block "tags" [kv_scalar "a" "1"]]) ∧
    (kv_node "7" [kv_scalar "prefab" "base", kv_scalar "name" "Bar",
        kv_block "tags" [kv_scalar "a" "1"]]).find "name".toList =
      some (key_value.value "name".toList "Bar".toList) ∧
    (kv_node "7" [kv_scalar "prefab" "base", kv_scalar "name" "Bar",
        kv_block "tags" [kv_scalar "a" "1"]]).find "tags".toList =
      some (kv_node "tags" [kv_scalar "a" "1"]) :=
  ⟨rfl,
    (inherit_absent_field
      (kv_node "prefabs" [kv_block "base" [kv_scalar "name" "Bar",
        kv_block "tags" [kv_scalar "a" "1"]]]) 1
      (kv_node "7" [kv_scalar "prefab" "base"])
      (kv_node "7" [kv_scalar "prefab" "base", kv_scalar "name" "Bar",
        kv_block "tags" [kv_scalar "a" "1"]])
      "prefab".toList "base".toList
      (kv_node "base" [kv_scalar "name" "Bar", kv_block "tags" [kv_scalar "a" "1"]]) []
      "name".toList (key_value.value "name".toList "Bar".toList) rfl rfl rfl rfl rfl).1
      "name".toList "Bar".toList rfl,
    (inherit_absent_field
      (kv_node "prefabs" [kv_block "base" [kv_scalar "name" "Bar",
        kv_block "tags" [kv_scalar "a" "1"]]]) 1
      (kv_node "7" [kv_scalar "prefab" "base"])
      (kv_node "7" [kv_scalar "prefab" "base", kv_scalar "name" "Bar",
        kv_block "tags" [kv_scalar "a" "1"]])
      "prefab".toList "base".toList
      (kv_node "base" [kv_scalar "name" "Bar", kv_block "tags" [kv_scalar "a" "1"]]) []
      "tags".toList (kv_node "tags" [kv_scalar "a" "1"]) rfl rfl rfl rfl rfl).2.2
      (by unfold flat; decide) (fun bk pm hb => by cases hb; rfl) (by simp)⟩

/-- C25, as the code behaves: `tags` is a block in the item and in the prefab `base`, which
also has a field `sub`. The recursive search for `sub` finds the child `sub` of the item's
block `tags`, which takes the child `y`: the child `sub` of the item's block is changed, by
a merge below the first level. -/
theorem merge_below_first_level_counterexample :
    flatten_item
      (some (kv_node "prefabs" [kv_block "base" [kv_block "tags" [kv_scalar "b" "2"],
        kv_block "sub" [kv_scalar "y" "3"]]])) 1
      (kv_node "1" [kv_scalar "prefab" "base",
        kv_block "tags" [kv_block "sub" [kv_scalar "x" "1"]]]) =
      Run.returned (kv_node "1" [kv_scalar "prefab" "base",
        kv_block "tags" [kv_block "sub" [kv_scalar "x" "1", kv_scalar "y" "3"],
          kv_scalar "b" "2"]]) ∧
    (kv_node "tags" [kv_block "sub" [kv_scalar "x" "1"]]).find "sub".toList =
      some (kv_node "sub" [kv_scalar "x" "1"]) ∧
    (kv_node "tags" [kv_block "sub" [kv_scalar "x" "1", kv_scalar "y" "3"],
        kv_scalar "b" "2"]).find "sub".toList =
      some (kv_node "sub" [kv_scalar "x" "1", kv_scalar "y" "3"]) :=
  ⟨rfl, rfl, rfl⟩

/-- C25 amended: one-level merge of a block field. The item has the scalar `prefab` of value
`w`, the chain that starts at `fix_prefab_value w` is `P` followed by `rest`, its field keys
are stored at the top level only (`flat`), and the key `k` is a block `im` in the item and a
block `vm` in `P`. Then `item1` has under `k` a block with the `m_key` of the item's block,
in which every child of `im` is found unchanged (a child that is a block in both is the
item's) and every child of `vm` whose key `im` does not have is found. When moreover the
keys of `P` are pairwise different and no farther block of the chain has `k`, the map of that
block is `im` with the pairs of `vm` inserted: a key is looked up in `im` first and, when
`im` does not have it, in `vm`. -/
theorem block_field_merges_one_level (pf : key_value) (fuel : Nat) (item item1 : key_value)
    (pk w : Str) (P : key_value) (rest : List key_value) (k ik vk : Str) (im vm : kv_map_t)
    (hp : item.find_value "prefab".toList = some (key_value.value pk w))
    (h : flatten_item (some pf) fuel item = Run.returned item1)
    (hchain : (prefab_chain pf fuel (fix_prefab_value w)).map Prod.snd = P :: rest)
    (hflat : flat item (P :: rest))
    (hi : item.find k = some (key_value.block ik im))
    (hv : P.find k = some (key_value.block vk vm)) :
    (∃ m1, item1.find k = some (key_value.block ik m1) ∧
      (∀ c cn, im.find c = some cn → m1.find c = some cn) ∧
      (∀ c cn, im.find c = none → vm.find c = some cn → m1.find c = some cn)) ∧
    ((∀ bk pm, P = key_value.block bk pm → pm.distinct = true) →
      (∀ b ∈ rest, b.find k = none) →
      item1.find k = some (key_value.block ik (im.insert_range vm)) ∧
      ∀ c, (im.insert_range vm).find c = (im.find c).orElse (fun _ => vm.find c)) := by
  obtain ⟨bk, bm, tk, tm, rfl, rfl, hb⟩ := flatten_item_blocks pf fuel item item1 pk w hp h
  rw [hchain] at hb
  simp only [key_value.find] at hi ⊢
  have h0 : (kv_map_t.nil.insert_range bm).find k = some (key_value.block ik im) := by
    rw [kv_map_t.find_copy, hi]
  obtain ⟨hK, hbs⟩ := flat_context bk bm (P :: rest) hflat
  rw [flatten_blocks] at hb
  cases P with
  | value x y => simp [key_value.map] at hb
  | block pbk pm =>
    simp only [key_value.map] at hb
    rw [Run.bind_eq_returned] at hb
    obtain ⟨t0, ht0, hb⟩ := hb
    have hP := hbs (key_value.block pbk pm) (by simp)
    obtain ⟨tm0, rfl, hK0, hf0⟩ := flatten_fields_flat _ "temp_kv".toList pm _ t0 hK
      (fun k1 hk1 => by simpa [key_value.nested_key] using hP.1 k1 hk1)
      (fun k1 hk1 => hP.2 k1 (by simpa [key_value.fields] using hk1)) ht0
    simp only [key_value.find] at hv
    obtain ⟨tm1, htm1, _, hf1⟩ := flatten_blocks_flat _ "temp_kv".toList rest tm0 _ hK0
      (fun q hq => hbs q (by simp [hq])) hb
    cases htm1
    constructor
    · obtain ⟨m0, hm0, hc1, hc2⟩ := (hf0 k).2.2.2.1 ik im vk vm h0 hv
      obtain ⟨n1, hn1, m1, rfl, hm1⟩ := (hf1 k).2 _ hm0
      exact ⟨m1, hn1, fun c cn hc => hm1 c cn (hc1 c cn hc),
        fun c cn hn hc => hm1 c cn (hc2 c cn hn hc)⟩
    · intro hd hrest
      have h1 := (hf0 k).2.2.2.2.2 (hd pbk pm rfl) ik im vk vm h0 hv
      exact ⟨by rw [(hf1 k).1 hrest, h1], fun c => kv_map_t.find_insert_range_nil vm c im⟩

/-- C25 amended, at the item `{ prefab base, tags { a 1, s { x 1 } } }` with
`base = { tags { a 2, b 3, s { y 4 } } }`: the block `tags` of the result keeps `a 1` and
the item's `s`, and gains `b 3`. -/
theorem block_field_merges_one_level_witness :
    flatten_item
      (some (kv_node "prefabs" [kv_block "base" [kv_block "tags" [kv_scalar "a" "2",
        kv_scalar "b" "3", kv_block "s" [kv_scalar "y" "4"]]]])) 1
      (kv_node "7" [kv_scalar "prefab" "base",
        kv_block "tags" [kv_scalar "a" "1", kv_block "s" [kv_scalar "x" "1"]]]) =
      Run.returned (kv_node "7" [kv_scalar "prefab" "base",
        kv_block "tags" [kv_scalar "a" "1", kv_block "s" [kv_scalar "x" "1"],
          kv_scalar "b" "3"]]) ∧
    (kv_node "7" [kv_scalar "prefab" "base",
        kv_block "tags" [kv_scalar "a" "1", kv_block "s" [kv_scalar "x" "1"],
          kv_scalar "b" "3"]]).find "tags".toList =
      some (kv_node "tags" [kv_scalar "a" "1", kv_block "s" [kv_scalar "x" "1"],
          kv_scalar "b" "3"]) :=
  ⟨rfl,
    ((block_field_merges_one_level
      (kv_node "prefabs" [kv_block "base" [kv_block "tags" [kv_scalar "a" "2",
        kv_scalar "b" "3", kv_block "s" [kv_scalar "y" "4"]]]]) 1
      (kv_node "7" [kv_scalar "prefab" "base",
        kv_block "tags" [kv_scalar "a" "1", kv_block "s" [kv_scalar "x" "1"]]])
      (kv_node "7" [kv_scalar "prefab" "base",
        kv_block "tags" [kv_scalar "a" "1", kv_block "s" [kv_scalar "x" "1"],
          kv_scalar "b" "3"]])
      "prefab".toList "base".toList
      (kv_node "base" [kv_block "tags" [kv_scalar "a" "2",
        kv_scalar "b" "3", kv_block "s" [kv_scalar "y" "4"]]]) []
      "tags".toList "tags".toList "tags".toList
      (kv_map_t.ofList [kv_scalar "a" "1", kv_block "s" [kv_scalar "x" "1"]])
      (kv_map_t.ofList [kv_scalar "a" "2", kv_scalar "b" "3", kv_block "s" [kv_scalar "y" "4"]])
      rfl rfl rfl (by unfold flat; decide) rfl rfl).2
      (fun bk pm hb => by cases hb; rfl) (by simp)).1⟩

/-- C26, as the code behaves: the chain of the item is `p1`, then `p2`. The field `k` of
`p2` is in no nearer element of the chain, but the recursive search finds the block `k`
inside the field `a` inherited from `p1`: the result has no field `k`, and the node `a`
taken from the nearer prefab `p1` is changed by the farther prefab `p2`. -/
theorem farther_prefab_changes_nearer_counterexample :
    flatten_item
      (some (kv_node "prefabs" [
        kv_block "p1" [kv_scalar "prefab" "p2", kv_block "a" [kv_block "k" [kv_scalar "x" "1"]]],
        kv_block "p2" [kv_block "k" [kv_scalar "x" "2", kv_scalar "y" "3"]]])) 2
      (kv_node "1" [kv_scalar "prefab" "p1"]) =
      Run.returned (kv_node "1" [kv_scalar "prefab" "p1",
        kv_block "a" [kv_block "k" [kv_scalar "x" "1", kv_scalar "y" "3"]]]) ∧
    (kv_node "1" [kv_scalar "prefab" "p1",
        kv_block "a" [kv_block "k" [kv_scalar "x" "1", kv_scalar "y" "3"]]]).find
      "k".toList = none ∧
    (kv_node "p1" [kv_scalar "prefab" "p2",
        kv_block "a" [kv_block "k" [kv_scalar "x" "1"]]]).find "a".toList =
      some (kv_node "a" [kv_block "k" [kv_scalar "x" "1"]]) :=
  ⟨rfl, rfl, rfl⟩

/-- C26 amended: precedence along the chain. The item has the scalar `prefab` of value `w`,
the result is `item1`, and the chain that starts at `fix_prefab_value w` is `pre`, then `b`,
then `post`. For a node that the item itself holds: a scalar is the node of `item1` under its
key, and with field keys stored at the top level only (`flat`) a block is found grown, every
child unchanged. For a key `k` that neither the item nor a block of `pre` has and under
which `b` holds `v`, the nearest node: a scalar `v` is the node of `item1` under `k`, and
with `flat` a block `v` is found grown in `item1` under `k`, every child unchanged. No node
of a farther block replaces it. -/
theorem chain_precedence (pf : key_value) (fuel : Nat) (item item1 : key_value)
    (pk w : Str) (pre : List key_value) (b : key_value) (post : List key_value)
    (hp : item.find_value "prefab".toList = some (key_value.value pk w))
    (h : flatten_item (some pf) fuel item = Run.returned item1)
    (hchain : (prefab_chain pf fuel (fix_prefab_value w)).map Prod.snd = pre ++ b :: post) :
    (∀ key n, item.find key = some n →
      (∀ a c, n = key_value.value a c → item1.find key = some n) ∧
      (flat item (pre ++ b :: post) → ∃ n1, item1.find key = some n1 ∧ n.grown n1)) ∧
    (∀ k v, item.find k = none → (∀ q ∈ pre, q.find k = none) → b.find k = some v →
      (∀ a c, v = key_value.value a c → item1.find k = some v) ∧
      (flat item (pre ++ b :: post) → ∃ n1, item1.find k = some n1 ∧ v.grown n1)) := by
  obtain ⟨bk, bm, tk, tm, rfl, rfl, hb⟩ := flatten_item_blocks pf fuel item item1 pk w hp h
  rw [hchain] at hb
  simp only [key_value.find]
  constructor
  · intro key n hn
    have h0 : (kv_map_t.nil.insert_range bm).find key = some n := by
      rw [kv_map_t.find_copy, hn]
    constructor
    · intro a c hac
      subst hac
      have := flatten_blocks_invariant (fun x => x.find key = some (key_value.value a c))
        (fun x k1 v1 x1 hP hs => flatten_field_keeps_scalar key a c x k1 v1 x1 hP hs)
        _ _ _ (by simpa [key_value.find] using h0) hb
      simpa [key_value.find] using this
    · intro hflat
      obtain ⟨hK, hbs⟩ := flat_context bk bm _ hflat
      obtain ⟨tm1, htm1, _, hf1⟩ := flatten_blocks_flat _ "temp_kv".toList _ _ _ hK hbs hb
      cases htm1
      exact (hf1 key).2 n h0
  · intro k v hk hpre hv
    have h0 : (kv_map_t.nil.insert_range bm).find k = none := by rw [kv_map_t.find_copy, hk]
    constructor
    · intro a c hac
      subst hac
      have := flatten_blocks_nearest_scalar k a c pre b post _ _
        (by simpa [key_value.find] using h0) hpre hv hb
      simpa [key_value.find] using this
    · intro hflat
      obtain ⟨hK, hbs⟩ := flat_context bk bm _ hflat
      obtain ⟨n, hn, hg⟩ := flatten_blocks_nearest _ "temp_kv".toList k pre b post _ _ v hK hbs
        h0 hpre hv hb
      exact ⟨n, by simpa [key_value.find] using hn, hg⟩

/-- C26 amended, at the chain `p1`, then `p2`, of the item `{ prefab p1, name Foo }`: `kind`
comes from `p1`, the nearer of the two prefabs that have it, and `slot` from `p2`. -/
theorem chain_precedence_witness :
    flatten_item
      (some (kv_node "prefabs" [
        kv_block "p1" [kv_scalar "prefab" "p2", kv_scalar "kind" "near", kv_scalar "name" "N1"],
        kv_block "p2" [kv_scalar "kind" "far", kv_scalar "slot" "s2", kv_scalar "name" "N2"]])) 2
      (kv_node "1" [kv_scalar "prefab" "p1", kv_scalar "name" "Foo"]) =
      Run.returned (kv_node "1" [kv_scalar "prefab" "p1", kv_scalar "name" "Foo",
        kv_scalar "kind" "near", kv_scalar "slot" "s2"]) ∧
    (kv_node "1" [kv_scalar "prefab" "p1", kv_scalar "name" "Foo",
        kv_scalar "kind" "near", kv_scalar "slot" "s2"]).find "slot".toList =
      some (key_value.value "slot".toList "s2".toList) ∧
    (kv_node "1" [kv_scalar "prefab" "p1", kv_scalar "name" "Foo",
        kv_scalar "kind" "near", kv_scalar "slot" "s2"]).find "kind".toList =
      some (key_value.value "kind".toList "near".toList) :=
  ⟨rfl,
    ((chain_precedence
      (kv_node "prefabs" [
        kv_block "p1" [kv_scalar "prefab" "p2", kv_scalar "kind" "near", kv_scalar "name" "N1"],
        kv_block "p2" [kv_scalar "kind" "far", kv_scalar "slot" "s2", kv_scalar "name" "N2"]]) 2
      (kv_node "1" [kv_scalar "prefab" "p1", kv_scalar "name" "Foo"])
      (kv_node "1" [kv_scalar "prefab" "p1", kv_scalar "name" "Foo",
        kv_scalar "kind" "near", kv_scalar "slot" "s2"])
      "prefab".toList "p1".toList
      [kv_node "p1" [kv_scalar "prefab" "p2", kv_scalar "kind" "near", kv_scalar "name" "N1"]]
      (kv_node "p2" [kv_scalar "kind" "far", kv_scalar "slot" "s2", kv_scalar "name" "N2"]) []
      rfl rfl rfl).2 "slot".toList (key_value.value "slot".toList "s2".toList) rfl
        (fun q hq => by rw [List.mem_singleton] at hq; subst hq; rfl) rfl).1 "slot".toList "s2".toList rfl,
    ((chain_precedence
      (kv_node "prefabs" [
        kv_block "p1" [kv_scalar "prefab" "p2", kv_scalar "kind" "near", kv_scalar "name" "N1"],
        kv_block "p2" [kv_scalar "kind" "far", kv_scalar "slot" "s2", kv_scalar "name" "N2"]]) 2
      (kv_node "1" [kv_scalar "prefab" "p1", kv_scalar "name" "Foo"])
      (kv_node "1" [kv_scalar "prefab" "p1", kv_scalar "name" "Foo",
        kv_scalar "kind" "near", kv_scalar "slot" "s2"])
      "prefab".toList "p1".toList []
      (kv_node "p1" [kv_scalar "prefab" "p2", kv_scalar "kind" "near", kv_scalar "name" "N1"])
      [kv_node "p2" [kv_scalar "kind" "far", kv_scalar "slot" "s2", kv_scalar "name" "N2"]]
      rfl rfl rfl).2 "kind".toList (key_value.value "kind".toList "near".toList) rfl
        (by simp) rfl).1 "kind".toList "near".toList rfl⟩

/-! ## The value of `prefab` counts through `fix_prefab_value` only -/

theorem Run.bind_congr {α β : Type} (x : Run α) (f g : α → Run β)
    (h : ∀ a, x = Run.returned a → f a = g a) : x.bind f = x.bind g := by
  cases x with
  | returned a => exact h a rfl
  | bad_variant_access => rfl
  | undefined => rfl
  | out_of_fuel => rfl

theorem Run.bind_assoc {α β γ : Type} (x : Run α) (f : α → Run β) (g : β → Run γ) :
    (x.bind f).bind g = x.bind (fun a => (f a).bind g) := by
  cases x <;> rfl

theorem Run.bind_returned {α : Type} (x : Run α) : x.bind Run.returned = x := by
  cases x <;> rfl

theorem set_value_set_value (w w1 : Str) (c : key_value) :
    set_value w (set_value w1 c) = set_value w c := by
  cases c <;> rfl

theorem with_prefab_with_prefab (w w1 : Str) (n : key_value) :
    with_prefab w (with_prefab w1 n) = with_prefab w n := by
  cases n with
  | value a b => rfl
  | block bk bm =>
    simp only [with_prefab, kv_map_t.update_update, set_value_set_value]

theorem depth_first_set_value (w : Str) (P key : Str) :
    ∀ (m : kv_map_t) (p : Ptr),
      depth_first_children p (m.update P (set_value w)) key = depth_first_children p m key := by
  intro m
  induction m using kv_map_induction with
  | hnil => intro p; rfl
  | hcons k v t ih =>
    intro p
    rw [kv_map_t.update]
    split
    · rw [depth_first_children, depth_first_children]
      cases v <;> rfl
    · rw [depth_first_children, depth_first_children, ih]

namespace kv_map_t

theorem find_update (m : kv_map_t) (P k : Str) (f : key_value → key_value) :
    (m.update P f).find k =
      if case_insensitive_equal P k then (m.find k).map f else m.find k := by
  by_cases h : case_insensitive_equal P k = true
  · rw [if_pos h, find_update_same m f h]
  · rw [if_neg h, find_update_other m f (by simpa using h)]

theorem update_append_left (m n : kv_map_t) (P : Str) (f : key_value → key_value)
    (c : key_value) (h : m.find P = some c) :
    (m.append n).update P f = (m.update P f).append n := by
  induction m using kv_map_induction with
  | hnil => simp [find] at h
  | hcons k v t ih =>
    rw [find] at h
    split at h
    · rename_i hk
      simp [append, update, hk]
    · rename_i hk
      simp [append, update, hk, ih h]

theorem try_emplace_update (m : kv_map_t) (P k : Str) (f : key_value → key_value)
    (v c : key_value) (h : m.find P = some c) :
    (m.update P f).try_emplace k v = (m.try_emplace k v).update P f := by
  cases hk : m.find k with
  | some x =>
    have h1 : (m.update P f).find k ≠ none := by
      rw [find_update, hk]
      split <;> simp
    cases h2 : (m.update P f).find k with
    | none => exact absurd h2 h1
    | some y =>
      rw [try_emplace_of_find_some _ k v h2, try_emplace_of_find_some m k v hk]
  | none =>
    have h2 : (m.update P f).find k = none := by
      rw [find_update, hk]
      split <;> rfl
    rw [try_emplace_of_find_none _ k v h2, try_emplace_of_find_none m k v hk,
      update_append_left m _ P f c h]

theorem update_comm (m : kv_map_t) (a b : Str) (f g : key_value → key_value)
    (h : case_insensitive_equal a b = true → ∀ c, m.find a = some c → f (g c) = g (f c)) :
    (m.update a f).update b g = (m.update b g).update a f := by
  induction m using kv_map_induction with
  | hnil => rfl
  | hcons k v t ih =>
    by_cases ha : case_insensitive_equal k a = true
    · by_cases hb : case_insensitive_equal k b = true
      · have hab : case_insensitive_equal a b = true := by
          rw [case_insensitive_equal_symm a b, ← case_insensitive_equal_congr ha b,
            case_insensitive_equal_symm]
          exact hb
        have := h hab v (by simp [find, ha])
        simp [update, ha, hb, this]
      · simp [update, ha, hb]
    · by_cases hb : case_insensitive_equal k b = true
      · simp [update, ha, hb]
      · simp only [update, ha, hb]
        rw [ih (fun hab c hc => h hab c (by simpa [find, ha] using hc))]
        rfl

theorem insert_range_update_of_some (src : kv_map_t) (P : Str) (f : key_value → key_value) :
    ∀ (dst : kv_map_t) (c : key_value), dst.find P = some c →
      (dst.insert_range src).update P f = (dst.update P f).insert_range src := by
  induction src using kv_map_induction with
  | hnil => intro dst c _; rfl
  | hcons k v t ih =>
    intro dst c h
    rw [insert_range, insert_range, ih _ c (find_try_emplace_of_some dst k v h),
      try_emplace_update dst P k f v c h]

theorem insert_range_of_some (src : kv_map_t) (P : Str) (f : key_value → key_value) :
    ∀ (dst : kv_map_t) (c : key_value), dst.find P = some c →
      dst.insert_range (src.update P f) = dst.insert_range src := by
  induction src using kv_map_induction with
  | hnil => intro dst c _; rfl
  | hcons k v t ih =>
    intro dst c h
    rw [update]
    split
    · rename_i hk
      have hk1 : dst.find k = some c := by rw [find_congr dst hk, h]
      rw [insert_range, insert_range, try_emplace_of_find_some dst k _ hk1,
        try_emplace_of_find_some dst k _ hk1]
    · rw [insert_range, insert_range, ih _ c (find_try_emplace_of_some dst k v h)]

theorem insert_range_update (src : kv_map_t) (P : Str) (f : key_value → key_value) :
    ∀ dst : kv_map_t, dst.find P = none →
      dst.insert_range (src.update P f) = (dst.insert_range src).update P f := by
  induction src using kv_map_induction with
  | hnil =>
    intro dst h
    rw [update, insert_range, update_of_find_none dst P f h]
  | hcons k v t ih =>
    intro dst h
    rw [update]
    split
    · rename_i hk
      have hk1 : dst.find k = none := by rw [find_congr dst hk, h]
      have hP : (dst.append (cons k v nil)).find P = some v := by
        rw [find_append, h]
        simp [find, hk]
      rw [insert_range, insert_range, try_emplace_of_find_none dst k _ hk1,
        try_emplace_of_find_none dst k _ hk1,
        insert_range_update_of_some t P f _ v hP,
        update_key_congr _ (case_insensitive_equal_symm k P ▸ hk) f,
        update_append_last dst k v f hk1]
    · rename_i hk
      rw [insert_range, insert_range]
      apply ih
      rw [find_try_emplace_other dst k v P (by simpa using hk), h]

end kv_map_t

theorem with_prefab_find (w : Str) (temp : key_value) (pk w0 : Str)
    (hI : temp.find "prefab".toList = some (key_value.value pk w0)) :
    (with_prefab w temp).find "prefab".toList = some (key_value.value pk w) := by
  cases temp with
  | value a b => simp [key_value.find] at hI
  | block tk tm =>
    simp only [key_value.find] at hI
    simp only [with_prefab, key_value.find]
    rw [kv_map_t.find_update_same tm _ (case_insensitive_equal_refl _), hI]
    rfl

/-- One field of a prefab, merged with another value of the scalar `prefab` of `temp_kv`:
the same, with that value. -/
theorem flatten_field_with_prefab (w : Str) (temp : key_value) (pk w0 : Str) (k : Str)
    (v : key_value) (hI : temp.find "prefab".toList = some (key_value.value pk w0)) :
    flatten_field (with_prefab w temp) k v =
      (flatten_field temp k v).bind (fun r => Run.returned (with_prefab w r)) := by
  cases temp with
  | value a b => simp [key_value.find] at hI
  | block tk tm =>
    simp only [key_value.find] at hI
    by_cases hc : case_insensitive_equal "prefab".toList k = true
    · have hk : tm.find k = some (key_value.value pk w0) := by
        rw [← kv_map_t.find_congr tm hc, hI]
      have hk1 : (tm.update "prefab".toList (set_value w)).find k =
          some (key_value.value pk w) := by
        rw [kv_map_t.find_update_same tm _ hc, hk]
        rfl
      have e1 : (key_value.block tk tm).find_recursive k =
          Lookup.found [k] (key_value.value pk w0) := by
        rw [find_recursive_eq, depth_first, hk]
        rfl
      have e2 : (key_value.block tk (tm.update "prefab".toList (set_value w))).find_recursive k =
          Lookup.found [k] (key_value.value pk w) := by
        rw [find_recursive_eq, depth_first, hk1]
        rfl
      unfold flatten_field
      simp only [with_prefab, e1, e2, key_value.emplace, Run.bind]
      rw [kv_map_t.try_emplace_of_find_some _ k v hk1, kv_map_t.try_emplace_of_find_some _ k v hk]
    · have hcf : case_insensitive_equal "prefab".toList k = false := by simpa using hc
      have e : (key_value.block tk (tm.update "prefab".toList (set_value w))).find_recursive k =
          (key_value.block tk tm).find_recursive k := by
        rw [find_recursive_eq, find_recursive_eq, depth_first, depth_first,
          kv_map_t.find_update_other tm _ hcf, depth_first_set_value]
      have hemp : (key_value.block tk (tm.update "prefab".toList (set_value w))).emplace k v =
          with_prefab w ((key_value.block tk tm).emplace k v) := by
        simp only [key_value.emplace, with_prefab]
        rw [kv_map_t.try_emplace_update tm _ k _ v _ hI]
      unfold flatten_field
      simp only [with_prefab]
      rw [e]
      cases hr : (key_value.block tk tm).find_recursive k with
      | not_found =>
        simp only [Run.bind, hemp]
        rfl
      | bad_variant_access => rfl
      | out_of_fuel => rfl
      | found p n =>
        cases n with
        | value a c =>
          simp only [Run.bind, hemp]
          rfl
        | block rk rm =>
          simp only
          cases v with
          | value a c => rfl
          | block vk vm =>
            simp only [key_value.map, Run.bind, Run.returned.injEq]
            have hp := find_recursive_ne_nil _ k p _ hr
            cases p with
            | nil => exact absurd rfl hp
            | cons seg rest =>
              simp only [key_value.modify_at, with_prefab, key_value.block.injEq, true_and]
              apply kv_map_t.update_comm
              intro hab c hcf1
              rw [hI] at hcf1
              cases hcf1
              cases rest <;> rfl

/-- The fields of a prefab block, merged with another value of the scalar `prefab` of
`temp_kv`. -/
theorem flatten_fields_with_prefab (w : Str) :
    ∀ (pm : kv_map_t) (temp : key_value) (pk w0 : Str),
      temp.find "prefab".toList = some (key_value.value pk w0) →
      flatten_fields (with_prefab w temp) pm =
        (flatten_fields temp pm).bind (fun r => Run.returned (with_prefab w r)) := by
  intro pm
  induction pm using kv_map_induction with
  | hnil => intro temp pk w0 _; rfl
  | hcons k v t ih =>
    intro temp pk w0 hI
    rw [flatten_fields, flatten_fields, flatten_field_with_prefab w temp pk w0 k v hI,
      Run.bind_assoc, Run.bind_assoc]
    apply Run.bind_congr
    intro a ha
    simp only [Run.bind]
    exact ih a pk w0 (flatten_field_keeps_scalar _ pk w0 temp k v a hI ha)

/-- The loop over the chain, with another value of the scalar `prefab` of `temp_kv`. -/
theorem flatten_chain_with_prefab (w : Str) (prefabs : key_value) :
    ∀ (fuel : Nat) (start : Option key_value) (temp : key_value) (pk w0 : Str),
      temp.find "prefab".toList = some (key_value.value pk w0) →
      flatten_chain prefabs fuel start (with_prefab w temp) =
        (flatten_chain prefabs fuel start temp).bind (fun r => Run.returned (with_prefab w r)) := by
  intro fuel
  induction fuel with
  | zero =>
    intro start temp pk w0 _
    cases start <;> rfl
  | succ fuel ih =>
    intro start temp pk w0 hI
    cases start with
    | none => rfl
    | some b =>
      rw [flatten_chain, flatten_chain]
      cases b.map with
      | none => rfl
      | some m =>
        simp only
        rw [flatten_fields_with_prefab w m temp pk w0 hI, Run.bind_assoc, Run.bind_assoc]
        apply Run.bind_congr
        intro a ha
        simp only [Run.bind]
        have hIa := flatten_fields_invariant
          (fun x => x.find "prefab".toList = some (key_value.value pk w0))
          (fun x k1 v1 x1 hP hs => flatten_field_keeps_scalar _ pk w0 x k1 v1 x1 hP hs)
          m temp a hI ha
        cases b.find_value "prefab".toList with
        | none => rfl
        | some pv =>
          simp only
          cases pv.get_value with
          | none => rfl
          | some value => exact ih _ a pk w0 hIa

theorem with_prefab_of_no_scalar (w : Str) (item : key_value)
    (h : item.find_value "prefab".toList = none) : with_prefab w item = item := by
  cases item with
  | value a b => rfl
  | block bk bm =>
    simp only [with_prefab, key_value.block.injEq, true_and]
    cases hf : bm.find "prefab".toList with
    | none => exact kv_map_t.update_of_find_none bm _ _ hf
    | some c =>
      cases c with
      | value a b =>
        unfold key_value.find_value at h
        simp only [key_value.find, hf] at h
        cases h
      | block a m =>
        rw [kv_map_t.update_congr bm _ (set_value w) (fun c => c), kv_map_t.update_id]
        intro c hc
        rw [hf] at hc
        cases hc
        rfl

/-- An item flattened with the value `w` of its scalar `prefab`, and with another value `w1`
that `fix_prefab_value` sends to the same name: the same outcome, and the same result but
for the value of `prefab`. -/
theorem flatten_item_with_prefab (prefabs : Option key_value) (fuel : Nat) (item : key_value)
    (w w1 : Str) (hfix : fix_prefab_value w = fix_prefab_value w1) :
    flatten_item prefabs fuel (with_prefab w item) =
      (flatten_item prefabs fuel (with_prefab w1 item)).bind
        (fun r => Run.returned (with_prefab w r)) := by
  cases hp : item.find_value "prefab".toList with
  | none =>
    rw [with_prefab_of_no_scalar w item hp, with_prefab_of_no_scalar w1 item hp,
      flatten_item_no_prefab _ _ _ hp]
    simp only [Run.bind, with_prefab_of_no_scalar w item hp]
  | some pv =>
    obtain ⟨pk, w0, rfl, hf⟩ := find_value_some _ _ pv hp
    cases item with
    | value a b => simp [key_value.find] at hf
    | block bk bm =>
      simp only [key_value.find] at hf
      have hfv : ∀ x, (with_prefab x (key_value.block bk bm)).find_value "prefab".toList =
          some (key_value.value pk x) := by
        intro x
        have := with_prefab_find x (key_value.block bk bm) pk w0 (by simpa [key_value.find] using hf)
        unfold key_value.find_value
        rw [this]
      have hcopy : ∀ x, kv_map_t.nil.insert_range (bm.update "prefab".toList (set_value x)) =
          (kv_map_t.nil.insert_range bm).update "prefab".toList (set_value x) :=
        fun x => kv_map_t.insert_range_update bm _ _ kv_map_t.nil rfl
      have htemp : ∀ x, key_value.block "temp_kv".toList
          (kv_map_t.nil.insert_range (bm.update "prefab".toList (set_value x))) =
          with_prefab x (key_value.block "temp_kv".toList (kv_map_t.nil.insert_range bm)) := by
        intro x
        rw [hcopy x]
        rfl
      have hI : (key_value.block "temp_kv".toList (kv_map_t.nil.insert_range bm)).find
          "prefab".toList = some (key_value.value pk w0) := by
        simp only [key_value.find]
        rw [kv_map_t.find_copy, hf]
      unfold flatten_item
      rw [hfv w, hfv w1]
      simp only [with_prefab]
      cases prefabs with
      | none => rfl
      | some pf =>
        simp only [key_value.get_value]
        rw [htemp w, htemp w1, ← with_prefab_with_prefab w w1, hfix,
          flatten_chain_with_prefab w pf fuel _ _ pk w1 (with_prefab_find w1 _ pk w0 hI),
          Run.bind_assoc, Run.bind_assoc]
        apply Run.bind_congr
        intro a _
        cases a with
        | value x y => rfl
        | block tk tm => rfl

/-- The field `prefab` of a prefab block leaves a `temp_kv` that has a scalar `prefab` as it
is, whatever its value. -/
theorem flatten_field_prefab (temp : key_value) (pk w0 k a c : Str)
    (hI : temp.find "prefab".toList = some (key_value.value pk w0))
    (hc : case_insensitive_equal k "prefab".toList = true) :
    flatten_field temp k (key_value.value a c) = Run.returned temp := by
  cases temp with
  | value x y => simp [key_value.find] at hI
  | block tk tm =>
    simp only [key_value.find] at hI
    have hk : tm.find k = some (key_value.value pk w0) := by
      rw [kv_map_t.find_congr tm hc, hI]
    have e1 : (key_value.block tk tm).find_recursive k =
        Lookup.found [k] (key_value.value pk w0) := by
      rw [find_recursive_eq, depth_first, hk]
      rfl
    unfold flatten_field
    simp only [e1, key_value.emplace]
    rw [kv_map_t.try_emplace_of_find_some _ k _ hk]

theorem flatten_fields_set_value (x : Str) :
    ∀ (m : kv_map_t) (temp : key_value) (pk w0 : Str),
      temp.find "prefab".toList = some (key_value.value pk w0) →
      flatten_fields temp (m.update "prefab".toList (set_value x)) = flatten_fields temp m := by
  intro m
  induction m using kv_map_induction with
  | hnil => intro temp pk w0 _; rfl
  | hcons k v t ih =>
    intro temp pk w0 hI
    rw [kv_map_t.update]
    split
    · rename_i hk
      cases v with
      | block a mm => rfl
      | value a c =>
        rw [flatten_fields, flatten_fields]
        simp only [set_value]
        rw [flatten_field_prefab temp pk w0 k a x hI hk,
          flatten_field_prefab temp pk w0 k a c hI hk]
    · rw [flatten_fields, flatten_fields]
      apply Run.bind_congr
      intro a ha
      exact ih a pk w0 (flatten_field_keeps_scalar _ pk w0 temp k v a hI ha)

theorem find_block_update (pfk : Str) (pfm : kv_map_t) (bname name : Str) (x : Str) :
    (key_value.block pfk (pfm.update bname (with_prefab x))).find_block name =
      if case_insensitive_equal bname name then
        ((key_value.block pfk pfm).find_block name).map (with_prefab x)
      else (key_value.block pfk pfm).find_block name := by
  unfold key_value.find_block
  simp only [key_value.find]
  by_cases hc : case_insensitive_equal bname name = true
  · rw [kv_map_t.find_update_same pfm _ hc, if_pos hc]
    cases pfm.find name with
    | none => rfl
    | some n => cases n <;> rfl
  · rw [kv_map_t.find_update_other pfm _ (by simpa using hc), if_neg hc]

/-- The loop over the chain in two `prefabs` nodes that differ in the value of the scalar
`prefab` of one prefab block, when `fix_prefab_value` sends both values to the same name. -/
theorem flatten_chain_prefab_value (pfk : Str) (pfm : kv_map_t) (bname w w1 : Str)
    (hfix : fix_prefab_value w = fix_prefab_value w1) :
    ∀ (fuel : Nat) (B : Option key_value) (temp : key_value) (pk w0 : Str),
      temp.find "prefab".toList = some (key_value.value pk w0) →
      flatten_chain (key_value.block pfk (pfm.update bname (with_prefab w))) fuel
          (B.map (with_prefab w)) temp =
        flatten_chain (key_value.block pfk (pfm.update bname (with_prefab w1))) fuel
          (B.map (with_prefab w1)) temp ∧
      flatten_chain (key_value.block pfk (pfm.update bname (with_prefab w))) fuel B temp =
        flatten_chain (key_value.block pfk (pfm.update bname (with_prefab w1))) fuel B temp := by
  intro fuel
  induction fuel with
  | zero =>
    intro B temp pk w0 _
    cases B <;> exact ⟨rfl, rfl⟩
  | succ fuel ih =>
    intro B temp pk w0 hI
    have hnext : ∀ (name : Str) (a : key_value),
        a.find "prefab".toList = some (key_value.value pk w0) →
        flatten_chain (key_value.block pfk (pfm.update bname (with_prefab w))) fuel
          ((key_value.block pfk (pfm.update bname (with_prefab w))).find_block name) a =
        flatten_chain (key_value.block pfk (pfm.update bname (with_prefab w1))) fuel
          ((key_value.block pfk (pfm.update bname (with_prefab w1))).find_block name) a := by
      intro name a ha
      rw [find_block_update, find_block_update]
      split
      · exact (ih _ a pk w0 ha).1
      · exact (ih _ a pk w0 ha).2
    have hkeep : ∀ (m : kv_map_t) (a : key_value), flatten_fields temp m = Run.returned a →
        a.find "prefab".toList = some (key_value.value pk w0) :=
      fun m a ha => flatten_fields_invariant
        (fun x => x.find "prefab".toList = some (key_value.value pk w0))
        (fun x k1 v1 x1 hP hs => flatten_field_keeps_scalar _ pk w0 x k1 v1 x1 hP hs)
        m temp a hI ha
    cases B with
    | none => exact ⟨rfl, rfl⟩
    | some b =>
      constructor
      · cases b with
        | value x y => rfl
        | block a m =>
          simp only [Option.map, with_prefab, flatten_chain, key_value.map]
          rw [flatten_fields_set_value w m temp pk w0 hI,
            flatten_fields_set_value w1 m temp pk w0 hI]
          apply Run.bind_congr
          intro t1 ht1
          have hfv : ∀ x, (key_value.block a (m.update "prefab".toList (set_value x))).find_value
              "prefab".toList = ((key_value.block a m).find_value "prefab".toList).map
                (set_value x) := by
            intro x
            unfold key_value.find_value
            simp only [key_value.find]
            rw [kv_map_t.find_update_same m _ (case_insensitive_equal_refl _)]
            cases m.find "prefab".toList with
            | none => rfl
            | some n => cases n <;> rfl
          rw [hfv w, hfv w1]
          cases hv : (key_value.block a m).find_value "prefab".toList with
          | none => rfl
          | some pv =>
            obtain ⟨k0, v0, rfl, _⟩ := find_value_some _ _ pv hv
            simp only [Option.map, set_value, key_value.get_value]
            rw [hfix]
            exact hnext _ t1 (hkeep m t1 ht1)
      · rw [flatten_chain, flatten_chain]
        cases hm : b.map with
        | none => rfl
        | some m =>
          simp only
          apply Run.bind_congr
          intro t1 ht1
          cases b.find_value "prefab".toList with
          | none => rfl
          | some pv =>
            simp only
            cases pv.get_value with
            | none => rfl
            | some value => exact hnext _ t1 (hkeep m t1 ht1)

/-- Every item is flattened alike with two `prefabs` nodes that differ in the value of the
scalar `prefab` of one prefab block, when `fix_prefab_value` sends both values to the same
name. -/
theorem flatten_item_prefab_value (pfk : Str) (pfm : kv_map_t) (bname w w1 : Str)
    (hfix : fix_prefab_value w = fix_prefab_value w1) (fuel : Nat) (item : key_value) :
    flatten_item (some (key_value.block pfk (pfm.update bname (with_prefab w)))) fuel item =
      flatten_item (some (key_value.block pfk (pfm.update bname (with_prefab w1)))) fuel item := by
  cases hp : item.find_value "prefab".toList with
  | none => rw [flatten_item_no_prefab _ _ _ hp, flatten_item_no_prefab _ _ _ hp]
  | some pv =>
    obtain ⟨pk, w0, rfl, hf⟩ := find_value_some _ _ pv hp
    cases item with
    | value a b => simp [key_value.find] at hf
    | block bk bm =>
      simp only [key_value.find] at hf
      have hI : (key_value.block "temp_kv".toList (kv_map_t.nil.insert_range bm)).find
          "prefab".toList = some (key_value.value pk w0) := by
        simp only [key_value.find]
        rw [kv_map_t.find_copy, hf]
      unfold flatten_item
      rw [hp]
      simp only [key_value.get_value]
      rw [find_block_update, find_block_update]
      split
      · rw [(flatten_chain_prefab_value pfk pfm bname w w1 hfix fuel _ _ pk w0 hI).1]
      · rw [(flatten_chain_prefab_value pfk pfm bname w w1 hfix fuel _ _ pk w0 hI).2]

theorem fix_prefab_value_valve (X : Str) : fix_prefab_value ("valve ".toList ++ X) = X := by
  unfold fix_prefab_value
  have : "valve ".toList.isPrefixOf ("valve ".toList ++ X) = true := by
    simp [List.isPrefixOf]
  rw [if_pos this]
  rfl

theorem fix_prefab_value_other (v : Str) (h : "valve ".toList.isPrefixOf v = false) :
    fix_prefab_value v = v := by
  unfold fix_prefab_value
  rw [h]
  rfl

/-- C27, as the code behaves: one prefix `valve ` is removed, once. With prefab blocks named
`valve Y` and `Y`, the item that declares `valve valve Y` is flattened with the block
`valve Y`, and the item that declares `valve Y` with the block `Y`: an item declaring
`valve X` is not flattened as if it declared `X` when `X` starts with `valve ` itself. -/
theorem double_prefix_counterexample :
    flatten_item
      (some (kv_node "prefabs" [kv_block "valve Y" [kv_scalar "kind" "a"],
        kv_block "Y" [kv_scalar "kind" "b"]])) 1
      (kv_node "1" [kv_scalar "prefab" "valve valve Y"]) =
      Run.returned (kv_node "1" [kv_scalar "prefab" "valve valve Y", kv_scalar "kind" "a"]) ∧
    flatten_item
      (some (kv_node "prefabs" [kv_block "valve Y" [kv_scalar "kind" "a"],
        kv_block "Y" [kv_scalar "kind" "b"]])) 1
      (kv_node "1" [kv_scalar "prefab" "valve Y"]) =
      Run.returned (kv_node "1" [kv_scalar "prefab" "valve Y", kv_scalar "kind" "b"]) :=
  ⟨rfl, rfl⟩

/-- C27 amended: the prefix of a prefab name. `fix_prefab_value` removes the six characters
`valve ` from a value that starts with them and leaves every other value as it is. The
value of a scalar `prefab` counts through `fix_prefab_value` only: an item flattened with
the value `w` gives the outcome, and but for the stored value of `prefab` the result, of the
item flattened with any `w1` that `fix_prefab_value` sends to the same name; and every item
is flattened alike when the value `w` of the scalar `prefab` of a prefab block is replaced
by such a `w1`. So `valve X` in an item or a prefab flattens as `X` for every `X` that does
not start with `valve ` itself. -/
theorem prefab_prefix_removed :
    (∀ X : Str, fix_prefab_value ("valve ".toList ++ X) = X) ∧
    (∀ v : Str, "valve ".toList.isPrefixOf v = false → fix_prefab_value v = v) ∧
    (∀ (prefabs : Option key_value) (fuel : Nat) (item : key_value) (w w1 : Str),
      fix_prefab_value w = fix_prefab_value w1 →
      flatten_item prefabs fuel (with_prefab w item) =
        (flatten_item prefabs fuel (with_prefab w1 item)).bind
          (fun r => Run.returned (with_prefab w r))) ∧
    (∀ (pfk : Str) (pfm : kv_map_t) (bname w w1 : Str) (fuel : Nat) (item : key_value),
      fix_prefab_value w = fix_prefab_value w1 →
      flatten_item (some (key_value.block pfk (pfm.update bname (with_prefab w)))) fuel item =
        flatten_item (some (key_value.block pfk (pfm.update bname (with_prefab w1)))) fuel
          item) ∧
    (∀ (prefabs : Option key_value) (fuel : Nat) (item : key_value) (X : Str),
      "valve ".toList.isPrefixOf X = false →
      flatten_item prefabs fuel (with_prefab ("valve ".toList ++ X) item) =
        (flatten_item prefabs fuel (with_prefab X item)).bind
          (fun r => Run.returned (with_prefab ("valve ".toList ++ X) r))) ∧
    (∀ (pfk : Str) (pfm : kv_map_t) (bname X : Str) (fuel : Nat) (item : key_value),
      "valve ".toList.isPrefixOf X = false →
      flatten_item (some (key_value.block pfk
          (pfm.update bname (with_prefab ("valve ".toList ++ X))))) fuel item =
        flatten_item (some (key_value.block pfk (pfm.update bname (with_prefab X)))) fuel
          item) := by
  refine ⟨fix_prefab_value_valve, fix_prefab_value_other, ?_, ?_, ?_, ?_⟩
  · intro prefabs fuel item w w1 h
    exact flatten_item_with_prefab prefabs fuel item w w1 h
  · intro pfk pfm bname w w1 fuel item h
    exact flatten_item_prefab_value pfk pfm bname w w1 h fuel item
  · intro prefabs fuel item X hX
    exact flatten_item_with_prefab prefabs fuel item _ _
      (by rw [fix_prefab_value_valve, fix_prefab_value_other X hX])
  · intro pfk pfm bname X fuel item hX
    exact flatten_item_prefab_value pfk pfm bname _ _
      (by rw [fix_prefab_value_valve, fix_prefab_value_other X hX]) fuel item

/-- C27 amended, at the item `{ prefab "valve base" }` and at the prefab `base` with
`prefab "valve root"`: both flatten as with `base` and `root`. -/
theorem prefab_prefix_removed_witness :
    flatten_item
      (some (kv_node "prefabs" [kv_block "base" [kv_scalar "prefab" "valve root",
        kv_scalar "name" "Bar"], kv_block "root" [kv_scalar "kind" "gun"]])) 2
      (kv_node "1" [kv_scalar "prefab" "valve base"]) =
      Run.returned (kv_node "1" [kv_scalar "prefab" "valve base", kv_scalar "name" "Bar",
        kv_scalar "kind" "gun"]) ∧
    flatten_item
      (some (kv_node "prefabs" [kv_block "base" [kv_scalar "prefab" "root",
        kv_scalar "name" "Bar"], kv_block "root" [kv_scalar "kind" "gun"]])) 2
      (kv_node "1" [kv_scalar "prefab" "base"]) =
      Run.returned (kv_node "1" [kv_scalar "prefab" "base", kv_scalar "name" "Bar",
        kv_scalar "kind" "gun"]) ∧
    flatten_item
      (some (kv_node "prefabs" [kv_block "base" [kv_scalar "prefab" "valve root",
        kv_scalar "name" "Bar"], kv_block "root" [kv_scalar "kind" "gun"]])) 2
      (with_prefab ("valve ".toList ++ "base".toList) (kv_node "1" [kv_scalar "prefab" "?"])) =
      (flatten_item
        (some (kv_node "prefabs" [kv_block "base" [kv_scalar "prefab" "valve root",
          kv_scalar "name" "Bar"], kv_block "root" [kv_scalar "kind" "gun"]])) 2
        (with_prefab "base".toList (kv_node "1" [kv_scalar "prefab" "?"]))).bind
        (fun r => Run.returned (with_prefab ("valve ".toList ++ "base".toList) r)) :=
  ⟨rfl, rfl,
    prefab_prefix_removed.2.2.2.2.1
      (some (kv_node "prefabs" [kv_block "base" [kv_scalar "prefab" "valve root",
        kv_scalar "name" "Bar"], kv_block "root" [kv_scalar "kind" "gun"]])) 2
      (kv_node "1" [kv_scalar "prefab" "?"]) "base".toList (by decide)⟩

/-! ## A scalar entry at the end of the buffer -/

theorem skip_conditional_none (r : List Char) (h : '\n' ∉ r) : skip_conditional r = none := by
  induction r with
  | nil => rfl
  | cons c t ih =>
    simp only [List.mem_cons, not_or] at h
    have hc : ¬ c = '\n' := fun e => h.1 e.symm
    rw [skip_conditional, if_neg hc]
    exact ih h.2

/-- A scalar entry with no newline between its value and the end of the buffer: the
rest-of-line loop leaves the buffer, from every state of the parse loop. -/
theorem parse_iter_scalar_at_end (ws ws1 r : List Char) (k v : Str) (root : key_value)
    (scope : List Ptr) (hws : ws.all is_whitespace = true) (hws1 : ws1.all is_whitespace = true)
    (hk : quotable k = true) (hv : quotable v = true) (hr : '\n' ∉ r) :
    parse_iter ⟨ws ++ quoted k ++ (ws1 ++ quoted v ++ r), root, scope⟩ =
      Step.done Outcome.undefined ∧
    parse_from ⟨ws ++ quoted k ++ (ws1 ++ quoted v ++ r), root, scope⟩ = Outcome.undefined := by
  have h : parse_iter ⟨ws ++ quoted k ++ (ws1 ++ quoted v ++ r), root, scope⟩ =
      Step.done Outcome.undefined := by
    unfold parse_iter
    simp only [skip_whitespace_quoted _ _ _ hws, string_quoted _ _ hk,
      skip_whitespace_quoted _ _ _ hws1]
    have h1 : ∀ (s : Str) (t : List Char), is_end (quoted s ++ t) = false := by
      intro s t; simp [quoted, is_end, peek, NUL]
    have h2 : ∀ (s : Str) (t : List Char), peek (quoted s ++ t) = '"' := by
      intro s t; simp [quoted, peek]
    simp only [h1, h2, Bool.false_eq_true, if_false, if_true]
    unfold parse_value
    simp only [string_quoted _ _ hv, skip_conditional_none _ hr]
  exact ⟨h, parse_from_done h⟩

/-- C32, at the failing inputs: a scalar entry that is the last thing in the buffer, with no
newline after its value. The loop `while ( peek( ) != '\n' ) advance( )` has no end test and
reads past the terminating NUL, before the pair is inserted: `parse` does not stop at the
end of the buffer. This holds for the entry alone, after another entry, in an open block and
with spaces after the value. With a newline after the value `parse` returns `true` and the
tree holds `k = v`. -/
theorem scalar_at_end_of_buffer :
    parse "\"k\" \"v\"".toList = Outcome.undefined ∧
    parse "\"a\" \"1\"\n\"k\" \"v\"".toList = Outcome.undefined ∧
    parse "\"b\"\n\x7b\n\"k\" \"v\"".toList = Outcome.undefined ∧
    parse "\"k\" \"v\"  ".toList = Outcome.undefined ∧
    parse "\"k\" \"v\"\n".toList = Outcome.returned true (kv_root [kv_scalar "k" "v"]) :=
  ⟨rfl, rfl, rfl, rfl, rfl⟩

/-! ## A block of the item against a scalar of the prefab -/

/-- A scalar field of a prefab whose key `find_recursive` finds as a block in `temp_kv`:
`v.map( )` is called on the scalar and throws. -/
theorem flatten_field_scalar_on_block (temp : key_value) (k a c : Str) (p : Ptr)
    (rk : Str) (rm : kv_map_t)
    (h : temp.find_recursive k = Lookup.found p (key_value.block rk rm)) :
    flatten_field temp k (key_value.value a c) = Run.bad_variant_access := by
  unfold flatten_field
  rw [h]
  rfl

/-- C34, at the failing inputs: the key `tags` is a block in the item and a scalar in the
prefab `base`. The search finds the block, and `result->map( ).insert( v.map( ).begin( ),
v.map( ).end( ) )` asks the scalar `v` for its map: `std::bad_variant_access` leaves
`flatten_item_prefabs`, with the block at the top level of the item and with the block
nested in the item. Without the conflict the call returns. -/
theorem block_against_scalar_throws :
    flatten_item (some (kv_node "prefabs" [kv_block "base" [kv_scalar "tags" "y"]])) 1
      (kv_node "1" [kv_scalar "prefab" "base", kv_block "tags" [kv_scalar "x" "1"]]) =
      Run.bad_variant_access ∧
    flatten_item (some (kv_node "prefabs" [kv_block "base" [kv_scalar "tags" "y"]])) 1
      (kv_node "1" [kv_scalar "prefab" "base",
        kv_block "box" [kv_block "tags" [kv_scalar "x" "1"]]]) = Run.bad_variant_access ∧
    (∀ fuel, items_game.flatten_item_prefabs (fuel + 1) (kv_node "items_game" [
        kv_block "items" [kv_block "1" [kv_scalar "prefab" "base",
          kv_block "tags" [kv_scalar "x" "1"]]],
        kv_block "prefabs" [kv_block "base" [kv_scalar "tags" "y"]]]) =
      Run.bad_variant_access) ∧
    flatten_item (some (kv_node "prefabs" [kv_block "base" [kv_scalar "tags" "y"]])) 1
      (kv_node "1" [kv_scalar "prefab" "base", kv_scalar "tags" "x"]) =
      Run.returned (kv_node "1" [kv_scalar "prefab" "base", kv_scalar "tags" "x"]) := by
  exact ⟨rfl, rfl, fun _ => rfl, rfl⟩

/-! ## Loading without the required subtree -/

theorem find_block_none_of_no_block (kv : key_value) (key : Str)
    (h : ∀ k m, kv.find key ≠ some (key_value.block k m)) : kv.find_block key = none := by
  unfold key_value.find_block
  split
  · rename_i k m hf
    exact absurd hf (h k m)
  · rfl

/-- C31: a missing required subtree is a load failure. When `parse` succeeds on the text
and the root has no block `items_game` (no such key, or a scalar of that name),
`items_game::load` returns `false` and `m_block` is `nullptr`. When `parse` succeeds on the
text of a language and the root has no block `lang`, or its block `lang` has no block
`Tokens` (no such key, or a scalar), `language::load` returns `false` and `m_tokens` is
`nullptr`. -/
theorem missing_subtree_fails :
    (∀ (fuel : Nat) (str : List Char) (self : items_game) (m_root : key_value),
      kv_file.parse str self.m_kv_file = Outcome.returned true m_root →
      (∀ k m, m_root.find "items_game".toList ≠ some (key_value.block k m)) →
      items_game.load fuel str self = Run.returned (false, ⟨m_root, none⟩)) ∧
    (∀ (str : List Char) (self : language) (m_root : key_value),
      parse (language.load_text str) = Outcome.returned true m_root →
      ((∀ k m, m_root.find "lang".toList ≠ some (key_value.block k m)) ∨
        ∃ lang, m_root.find_block "lang".toList = some lang ∧
          ∀ k m, lang.find "Tokens".toList ≠ some (key_value.block k m)) →
      language.load str self = Run.returned (false, ⟨m_root, none⟩)) := by
  constructor
  · intro fuel str self m_root hp hb
    unfold items_game.load
    rw [hp]
    simp only [find_block_none_of_no_block m_root _ hb]
  · intro str self m_root hp hb
    unfold language.load
    rw [hp]
    rcases hb with hb | ⟨lang, hl, hb⟩
    · simp only [find_block_none_of_no_block m_root _ hb]
    · simp only [hl, find_block_none_of_no_block lang _ hb]

/-- C31 at a text with the scalar `items_game`, at a text with the block `items` only, at a
language text without `lang` and at one whose `lang` has the scalar `Tokens`. -/
theorem missing_subtree_fails_witness :
    items_game.load 1 "\"items_game\" \"x\"\n".toList ⟨m_root_init, none⟩ =
      Run.returned (false, ⟨kv_root [kv_scalar "items_game" "x"], none⟩) ∧
    items_game.load 1 "\"items\"\n\x7b\n\x7d\n".toList ⟨m_root_init, none⟩ =
      Run.returned (false, ⟨kv_root [kv_block "items" []], none⟩) ∧
    language.load "\"Tokens\"\n\x7b\n\x7d\n".toList ⟨m_root_init, none⟩ =
      Run.returned (false, ⟨kv_root [kv_block "Tokens" []], none⟩) ∧
    language.load "\"lang\"\n\x7b\n\"Tokens\" \"x\"\n\x7d\n".toList ⟨m_root_init, none⟩ =
      Run.returned (false, ⟨kv_root [kv_block "lang" [kv_scalar "Tokens" "x"]], none⟩) ∧
    language.load "\"lang\"\n\x7b\n\"Tokens\"\n\x7b\n\"K\" \"v\"\n\x7d\n\x7d\n".toList
        ⟨m_root_init, none⟩ =
      Run.returned (true, ⟨kv_root [kv_block "lang" [kv_block "Tokens" [kv_scalar "K" "v"]]],
        some (kv_node "Tokens" [kv_scalar "K" "v"])⟩) :=
  ⟨missing_subtree_fails.1 1 "\"items_game\" \"x\"\n".toList ⟨m_root_init, none⟩
      (kv_root [kv_scalar "items_game" "x"]) rfl (fun k m h => by cases h),
    missing_subtree_fails.1 1 "\"items\"\n\x7b\n\x7d\n".toList ⟨m_root_init, none⟩
      (kv_root [kv_block "items" []]) rfl (fun k m h => by cases h),
    missing_subtree_fails.2 "\"Tokens\"\n\x7b\n\x7d\n".toList ⟨m_root_init, none⟩
      (kv_root [kv_block "Tokens" []]) rfl (Or.inl (fun k m h => by cases h)),
    missing_subtree_fails.2 "\"lang\"\n\x7b\n\"Tokens\" \"x\"\n\x7d\n".toList ⟨m_root_init, none⟩
      (kv_root [kv_block "lang" [kv_scalar "Tokens" "x"]]) rfl
      (Or.inr ⟨kv_node "lang" [kv_scalar "Tokens" "x"], rfl, fun k m h => by cases h⟩),
    rfl⟩

/-! ## Loading an item container without `items` or `prefabs` -/

/-- C33, at the failing inputs: the text has a block `items_game` and `parse` succeeds.
Without a node `items`, the loop over the items starts with `map( )` of a `nullptr`; with a
scalar `items` that `map( )` throws; without a node `prefabs`, `prefabs->find_block` is
called on a `nullptr` for the first item that has a scalar `prefab`. In none of these cases
does `load` return. Without `prefabs` and without an item that has a `prefab`, `load`
returns `true`. -/
theorem load_with_missing_sections :
    (∀ fuel, items_game.load fuel "\"items_game\"\n\x7b\n\x7d\n".toList ⟨m_root_init, none⟩ =
      Run.undefined) ∧
    (∀ fuel, items_game.load fuel
      "\"items_game\"\n\x7b\n\"prefabs\"\n\x7b\n\x7d\n\x7d\n".toList ⟨m_root_init, none⟩ =
      Run.undefined) ∧
    (∀ fuel, items_game.load fuel
      "\"items_game\"\n\x7b\n\"items\" \"x\"\n\x7d\n".toList ⟨m_root_init, none⟩ =
      Run.bad_variant_access) ∧
    (∀ fuel, items_game.load fuel
      "\"items_game\"\n\x7b\n\"items\"\n\x7b\n\"1\"\n\x7b\n\"prefab\" \"base\"\n\x7d\n\x7d\n\x7d\n".toList
      ⟨m_root_init, none⟩ = Run.undefined) ∧
    (∀ fuel, items_game.load fuel
      "\"items_game\"\n\x7b\n\"items\"\n\x7b\n\"1\"\n\x7b\n\"name\" \"Foo\"\n\x7d\n\x7d\n\x7d\n".toList
      ⟨m_root_init, none⟩ =
      Run.returned (true, ⟨kv_root [kv_block "items_game" [kv_block "items" [
        kv_block "1" [kv_scalar "name" "Foo"]]]], some ["items_game".toList]⟩)) :=
  ⟨fun _ => rfl, fun _ => rfl, fun _ => rfl, fun _ => rfl, fun _ => rfl⟩

/-! ## The frame of flattening -/

theorem flatten_field_keeps_key (key : Str) (temp : key_value) (k : Str) (v temp1 : key_value)
    (hP : ∃ n, temp.find key = some n)
    (h : flatten_field temp k v = Run.returned temp1) : ∃ n, temp1.find key = some n := by
  obtain ⟨n, hn⟩ := hP
  cases temp with
  | value a b => simp [key_value.find] at hn
  | block tk tm =>
    simp only [key_value.find] at hn
    rcases flatten_field_cases _ k v temp1 h with h1 | ⟨seg, rest, rk, rm, vk, vm, _, _, h1⟩
    · rw [h1]
      simp only [key_value.emplace, key_value.find]
      exact ⟨n, kv_map_t.find_try_emplace_of_some tm k v hn⟩
    · rw [h1]
      simp only [key_value.modify_at, key_value.find]
      rw [kv_map_t.find_update, hn]
      split
      · exact ⟨_, rfl⟩
      · exact ⟨_, rfl⟩

/-- What `flatten_item` keeps of an item: its key, every top-level key, and every top-level
scalar. -/
theorem flatten_item_keeps (prefabs : Option key_value) (fuel : Nat) (item item1 : key_value)
    (h : flatten_item prefabs fuel item = Run.returned item1) :
    item1.key = item.key ∧
    (∀ k n, item.find k = some n → ∃ n1, item1.find k = some n1) ∧
    (∀ k a c, item.find k = some (key_value.value a c) →
      item1.find k = some (key_value.value a c)) := by
  cases hp : item.find_value "prefab".toList with
  | none =>
    rw [flatten_item_no_prefab _ _ _ hp] at h
    cases h
    exact ⟨rfl, fun k n hn => ⟨n, hn⟩, fun k a c hn => hn⟩
  | some pv =>
    obtain ⟨bk, bm, pf, pk, value, tk, tm, rfl, rfl, rfl, hc, rfl⟩ :=
      flatten_item_returned prefabs fuel item item1 pv hp h
    refine ⟨rfl, ?_, ?_⟩
    · intro k n hn
      simp only [key_value.find] at hn
      have h0 : ∃ n1, (key_value.block "temp_kv".toList (kv_map_t.nil.insert_range bm)).find k =
          some n1 := ⟨n, by simp only [key_value.find]; rw [kv_map_t.find_copy, hn]⟩
      exact flatten_chain_invariant (fun t => ∃ n1, t.find k = some n1)
        (fun temp k1 v1 temp1 hP hs => flatten_field_keeps_key k temp k1 v1 temp1 hP hs)
        pf fuel _ _ (key_value.block tk tm) h0 hc
    · intro k a c hn
      simp only [key_value.find] at hn
      have h0 : (key_value.block "temp_kv".toList (kv_map_t.nil.insert_range bm)).find k =
          some (key_value.value a c) := by
        simp only [key_value.find]
        rw [kv_map_t.find_copy, hn]
      exact flatten_chain_invariant (fun t => t.find k = some (key_value.value a c))
        (fun temp k1 v1 temp1 hP hs => flatten_field_keeps_scalar k a c temp k1 v1 temp1 hP hs)
        pf fuel _ _ (key_value.block tk tm) h0 hc

theorem flatten_items_keys (prefabs : Option key_value) (fuel : Nat) :
    ∀ (im im1 : kv_map_t), flatten_items prefabs fuel im = Run.returned im1 →
      im1.keys = im.keys := by
  intro im
  induction im using kv_map_induction with
  | hnil =>
    intro im1 h
    simp only [flatten_items, Run.returned.injEq] at h
    rw [← h]
  | hcons k v t ih =>
    intro im1 h
    rw [flatten_items, Run.bind_eq_returned] at h
    obtain ⟨i1, _, h⟩ := h
    rw [Run.bind_eq_returned] at h
    obtain ⟨t1, ht1, h⟩ := h
    simp only [Run.returned.injEq] at h
    subst h
    simp only [kv_map_t.keys, ih t1 ht1]

/-- C35: the frame of flattening. When `flatten_item_prefabs` returns `r` for the node
`m_block`: `r` has the key of `m_block`; every lookup of a key other than `items` finds in
`r` the node that it finds in `m_block`, so the node `prefabs`, with every prefab block, is
unchanged; the node `items` is a block with the same `m_key` and the same keys in the same
order; and under each key the item found in `r` has the `m_key` of the item found in
`m_block`, holds a node under every key of that item, `prefab` among them, and holds its
scalars unchanged. -/
theorem flatten_frame (fuel : Nat) (m_block r : key_value)
    (h : items_game.flatten_item_prefabs fuel m_block = Run.returned r) :
    r.key = m_block.key ∧
    (∀ key, case_insensitive_equal "items".toList key = false → r.find key = m_block.find key) ∧
    r.find "prefabs".toList = m_block.find "prefabs".toList ∧
    ∃ ik im im1, m_block.find "items".toList = some (key_value.block ik im) ∧
      r.find "items".toList = some (key_value.block ik im1) ∧ im1.keys = im.keys ∧
      ∀ key item, im.find key = some item →
        ∃ item1, im1.find key = some item1 ∧ item1.key = item.key ∧
          (∀ k n, item.find k = some n → ∃ n1, item1.find k = some n1) ∧
          (∀ k a c, item.find k = some (key_value.value a c) →
            item1.find k = some (key_value.value a c)) := by
  have hother : r.key = m_block.key ∧
      ∀ key, case_insensitive_equal "items".toList key = false →
        r.find key = m_block.find key := by
    unfold items_game.flatten_item_prefabs at h
    cases hi : m_block.find "items".toList with
    | none => rw [hi] at h; cases h
    | some items =>
      rw [hi] at h
      cases items with
      | value a b => cases h
      | block ik im =>
        simp only at h
        rw [Run.bind_eq_returned] at h
        obtain ⟨im1, _, h2⟩ := h
        simp only [Run.returned.injEq] at h2
        cases m_block with
        | value a b => simp [key_value.find] at hi
        | block gk gm =>
          rw [← h2]
          refine ⟨rfl, fun key hc => ?_⟩
          simp only [key_value.modify_at, key_value.find]
          exact kv_map_t.find_update_other gm _ hc
  refine ⟨hother.1, hother.2, hother.2 _ (by decide), ?_⟩
  cases hi : m_block.find "items".toList with
  | none =>
    unfold items_game.flatten_item_prefabs at h
    rw [hi] at h
    cases h
  | some items =>
    obtain ⟨ik, im, im1, rfl, h1, h2⟩ := flatten_item_prefabs_items fuel m_block r items h hi
    refine ⟨ik, im, im1, rfl, h2, flatten_items_keys _ fuel im im1 h1, ?_⟩
    intro key item hk
    obtain ⟨item1, h3, h4⟩ := flatten_items_find _ fuel im im1 h1 key item hk
    obtain ⟨k1, k2, k3⟩ := flatten_item_keeps _ fuel item item1 h3
    exact ⟨item1, h4, k1, k2, k3⟩

/-- C35 at a container with a section `colors`, two prefabs and two items. -/
theorem flatten_frame_witness :
    items_game.flatten_item_prefabs 2 (kv_node "items_game" [
        kv_block "colors" [kv_block "c1" [kv_scalar "hex_color" "#fff"]],
        kv_block "items" [kv_block "1" [kv_scalar "name" "Foo"],
          kv_block "2" [kv_scalar "prefab" "base", kv_block "tags" [kv_scalar "x" "1"]]],
        kv_block "prefabs" [kv_block "base" [kv_scalar "prefab" "root", kv_scalar "name" "Bar",
          kv_block "tags" [kv_scalar "a" "1"]], kv_block "root" [kv_scalar "kind" "gun"]]]) =
      Run.returned (kv_node "items_game" [
        kv_block "colors" [kv_block "c1" [kv_scalar "hex_color" "#fff"]],
        kv_block "items" [kv_block "1" [kv_scalar "name" "Foo"],
          kv_block "2" [kv_scalar "prefab" "base",
            kv_block "tags" [kv_scalar "x" "1", kv_scalar "a" "1"], kv_scalar "name" "Bar",
            kv_scalar "kind" "gun"]],
        kv_block "prefabs" [kv_block "base" [kv_scalar "prefab" "root", kv_scalar "name" "Bar",
          kv_block "tags" [kv_scalar "a" "1"]], kv_block "root" [kv_scalar "kind" "gun"]]]) ∧
    (kv_node "items_game" [
        kv_block "colors" [kv_block "c1" [kv_scalar "hex_color" "#fff"]],
        kv_block "items" [kv_block "1" [kv_scalar "name" "Foo"],
          kv_block "2" [kv_scalar "prefab" "base",
            kv_block "tags" [kv_scalar "x" "1", kv_scalar "a" "1"], kv_scalar "name" "Bar",
            kv_scalar "kind" "gun"]],
        kv_block "prefabs" [kv_block "base" [kv_scalar "prefab" "root", kv_scalar "name" "Bar",
          kv_block "tags" [kv_scalar "a" "1"]], kv_block "root" [kv_scalar "kind" "gun"]]]).find
      "prefabs".toList =
    (kv_node "items_game" [
        kv_block "colors" [kv_block "c1" [kv_scalar "hex_color" "#fff"]],
        kv_block "items" [kv_block "1" [kv_scalar "name" "Foo"],
          kv_block "2" [kv_scalar "prefab" "base", kv_block "tags" [kv_scalar "x" "1"]]],
        kv_block "prefabs" [kv_block "base" [kv_scalar "prefab" "root", kv_scalar "name" "Bar",
          kv_block "tags" [kv_scalar "a" "1"]], kv_block "root" [kv_scalar "kind" "gun"]]]).find
      "prefabs".toList :=
  ⟨rfl,
    (flatten_frame 2
      (kv_node "items_game" [
        kv_block "colors" [kv_block "c1" [kv_scalar "hex_color" "#fff"]],
        kv_block "items" [kv_block "1" [kv_scalar "name" "Foo"],
          kv_block "2" [kv_scalar "prefab" "base", kv_block "tags" [kv_scalar "x" "1"]]],
        kv_block "prefabs" [kv_block "base" [kv_scalar "prefab" "root", kv_scalar "name" "Bar",
          kv_block "tags" [kv_scalar "a" "1"]], kv_block "root" [kv_scalar "kind" "gun"]]])
      (kv_node "items_game" [
        kv_block "colors" [kv_block "c1" [kv_scalar "hex_color" "#fff"]],
        kv_block "items" [kv_block "1" [kv_scalar "name" "Foo"],
          kv_block "2" [kv_scalar "prefab" "base",
            kv_block "tags" [kv_scalar "x" "1", kv_scalar "a" "1"], kv_scalar "name" "Bar",
            kv_scalar "kind" "gun"]],
        kv_block "prefabs" [kv_block "base" [kv_scalar "prefab" "root", kv_scalar "name" "Bar",
          kv_block "tags" [kv_scalar "a" "1"]], kv_block "root" [kv_scalar "kind" "gun"]]])
      rfl).2.2.1⟩

/-! ## Transcoding UTF-16 to UTF-8 -/

theorem or_0x80 : ∀ y, y < 64 → 0x80 ||| y = 0x80 + y := by decide

theorem or_0xC0 : ∀ y, y < 32 → 0xC0 ||| y = 0xC0 + y := by decide

theorem or_0xE0 : ∀ y, y < 16 → 0xE0 ||| y = 0xE0 + y := by decide

theorem or_0xF0 : ∀ y, y < 8 → 0xF0 ||| y = 0xF0 + y := by decide

theorem and_0x3F (c : Nat) : c &&& 0x3F = c % 64 := Nat.and_pow_two_sub_one_eq_mod c 6

theorem and_0x1F (c : Nat) : c &&& 0x1F = c % 32 := Nat.and_pow_two_sub_one_eq_mod c 5

theorem and_0xF (c : Nat) : c &&& 0xF = c % 16 := Nat.and_pow_two_sub_one_eq_mod c 4

theorem and_0x7 (c : Nat) : c &&& 0x7 = c % 8 := Nat.and_pow_two_sub_one_eq_mod c 3

theorem and_0x3FF (c : Nat) : c &&& 0x3FF = c % 1024 := Nat.and_pow_two_sub_one_eq_mod c 10

set_option maxRecDepth 100000 in
theorem high_surrogate_mask : ∀ a, a < 1024 → (0xD800 + a) &&& 0xFC00 = 0xD800 := by decide

set_option maxRecDepth 100000 in
theorem low_surrogate_mask : ∀ a, a < 1024 → (0xDC00 + a) &&& 0xFC00 = 0xDC00 := by decide

theorem high_surrogate_bits (h : Nat) (hh : is_high_surrogate h = true) :
    h &&& 0xFC00 = 0xD800 ∧ h &&& 0x3FF = h - 0xD800 := by
  simp only [is_high_surrogate, Bool.and_eq_true, decide_eq_true_eq] at hh
  have e : 0xD800 + (h - 0xD800) = h := by omega
  refine ⟨?_, ?_⟩
  · have := high_surrogate_mask (h - 0xD800) (by omega)
    rw [e] at this
    exact this
  · rw [and_0x3FF]
    omega

theorem low_surrogate_bits (l : Nat) (hl : is_low_surrogate l = true) :
    l &&& 0xFC00 = 0xDC00 ∧ l &&& 0x3FF = l - 0xDC00 := by
  simp only [is_low_surrogate, Bool.and_eq_true, decide_eq_true_eq] at hl
  have e : 0xDC00 + (l - 0xDC00) = l := by omega
  refine ⟨?_, ?_⟩
  · have := low_surrogate_mask (l - 0xDC00) (by omega)
    rw [e] at this
    exact this
  · rw [and_0x3FF]
    omega

/-- On a code point up to `10FFFF` the bytes pushed by `convert_utf32_to_utf8` are the
standard UTF-8 encoding. -/
theorem utf8_push_eq (c : Nat) (h : c < 0x110000) : utf8_push c = utf8_encode c := by
  unfold utf8_push utf8_encode
  simp only [Nat.shiftRight_eq_div_pow, and_0x3F, and_0x1F, and_0xF, and_0x7]
  by_cases h1 : c ≤ 0x7F
  · rw [if_pos h1, if_pos (show c < 0x80 by omega), Nat.mod_eq_of_lt (by omega)]
  · rw [if_neg h1, if_neg (show ¬c < 0x80 by omega)]
    by_cases h2 : c ≤ 0x7FF
    · rw [if_pos h2, if_pos (show c < 0x800 by omega), or_0xC0 _ (Nat.mod_lt _ (by decide)),
        or_0x80 _ (Nat.mod_lt _ (by decide))]
      congr 1
      · omega
      · congr 1
        omega
    · rw [if_neg h2, if_neg (show ¬c < 0x800 by omega)]
      by_cases h3 : c ≤ 0xFFFF
      · rw [if_pos h3, if_pos (show c < 0x10000 by omega),
          or_0xE0 _ (Nat.mod_lt _ (by decide)),
          or_0x80 (c / 2 ^ 6 % 64) (Nat.mod_lt _ (by decide)),
          or_0x80 (c % 64) (Nat.mod_lt _ (by decide))]
        congr 1
        · omega
        · congr 1
          · omega
          · congr 1
            omega
      · rw [if_neg h3, if_neg (show ¬c < 0x10000 by omega),
          if_pos (show c ≤ 0x10FFFF by omega),
          or_0xF0 _ (Nat.mod_lt _ (by decide)),
          or_0x80 (c / 2 ^ 12 % 64) (Nat.mod_lt _ (by decide)),
          or_0x80 (c / 2 ^ 6 % 64) (Nat.mod_lt _ (by decide)),
          or_0x80 (c % 64) (Nat.mod_lt _ (by decide))]
        congr 1
        · omega
        · congr 1
          · omega
          · congr 1
            · omega
            · congr 1
              omega

theorem convert_utf32_to_utf8_eq :
    ∀ cps : List Nat, (∀ c ∈ cps, c < 0x110000) → convert_utf32_to_utf8 cps = utf8_string cps
  | [], _ => rfl
  | c :: t, h => by
    rw [convert_utf32_to_utf8, utf8_string, utf8_push_eq c (h c (List.mem_cons_self _ _)),
      convert_utf32_to_utf8_eq t (fun d hd => h d (List.mem_cons_of_mem _ hd))]

theorem u16_units_bytes : ∀ us : List Nat, u16_units (utf16le_bytes us) = us
  | [] => rfl
  | u :: t => by
    rw [utf16le_bytes, u16_units, u16_units_bytes t, Nat.mod_add_div]

theorem utf16le_bytes_length : ∀ us : List Nat, (utf16le_bytes us).length = 2 * us.length
  | [] => rfl
  | u :: t => by
    simp only [utf16le_bytes, List.length_cons, utf16le_bytes_length t]
    omega

/-- On well-formed code units the surrogate loop of `convert_utf16_to_utf32` produces the
code points, each up to `10FFFF`, whatever the state it starts in. -/
theorem convert_utf16_to_utf32_loop_eq : ∀ (n : Nat) (us : List Nat) (high : Nat),
    us.length ≤ n → well_formed_utf16 us = true →
      convert_utf16_to_utf32_loop high us = utf16_code_points us ∧
      ∀ c ∈ utf16_code_points us, c < 0x110000 := by
  intro n
  induction n with
  | zero =>
    intro us high hl _
    cases us with
    | nil => exact ⟨rfl, fun c hc => by simp [utf16_code_points] at hc⟩
    | cons u t => simp at hl
  | succ n ih =>
    intro us high hl hw
    match us, hl, hw with
    | [], _, _ => exact ⟨rfl, fun c hc => by simp [utf16_code_points] at hc⟩
    | [u], _, hw =>
      simp only [well_formed_utf16, is_high_surrogate, is_low_surrogate, Bool.and_eq_true,
        Bool.not_eq_true', decide_eq_true_eq, Bool.and_eq_false_iff, decide_eq_false_iff_not]
        at hw
      have hu : u < 0xD800 ∨ u > 0xDFFF := by omega
      refine ⟨?_, ?_⟩
      · rw [convert_utf16_to_utf32_loop, if_pos hu]
        rfl
      · intro c hc
        simp only [utf16_code_points, List.mem_singleton] at hc
        omega
    | h :: l :: t, hl, hw =>
      simp only [List.length_cons] at hl
      rw [well_formed_utf16] at hw
      rw [utf16_code_points]
      by_cases hh : is_high_surrogate h = true
      · rw [if_pos hh] at hw
        rw [if_pos hh]
        simp only [Bool.and_eq_true] at hw
        obtain ⟨hlow, hwt⟩ := hw
        obtain ⟨hb1, hb2⟩ := high_surrogate_bits h hh
        obtain ⟨lb1, lb2⟩ := low_surrogate_bits l hlow
        simp only [is_high_surrogate, is_low_surrogate, Bool.and_eq_true,
          decide_eq_true_eq] at hh hlow
        obtain ⟨e1, e2⟩ := ih t 0 (by omega) hwt
        refine ⟨?_, ?_⟩
        · rw [convert_utf16_to_utf32_loop, if_neg (show ¬(h < 0xD800 ∨ h > 0xDFFF) by omega),
            if_pos hb1, convert_utf16_to_utf32_loop,
            if_neg (show ¬(l < 0xD800 ∨ l > 0xDFFF) by omega),
            if_neg (show ¬(l &&& 0xFC00 = 0xD800) by rw [lb1]; omega),
            if_pos (show h ≠ 0 by omega), if_pos lb1, e1, hb2, lb2, Nat.shiftLeft_eq]
          have e : (h - 0xD800) * 2 ^ 10 + (l - 0xDC00) + 0x10000 =
              0x10000 + (h - 0xD800) * 1024 + (l - 0xDC00) := by omega
          rw [e]
        · intro c hc
          rcases List.mem_cons.1 hc with hc | hc
          · rw [hc]
            omega
          · exact e2 c hc
      · rw [if_neg hh] at hw
        rw [if_neg hh]
        simp only [Bool.and_eq_true, Bool.not_eq_true', decide_eq_true_eq] at hw
        obtain ⟨⟨h16, hnl⟩, hwt⟩ := hw
        simp only [is_high_surrogate, is_low_surrogate, Bool.and_eq_true, decide_eq_true_eq,
          Bool.and_eq_false_iff, decide_eq_false_iff_not, not_and] at hh hnl
        have hu : h < 0xD800 ∨ h > 0xDFFF := by omega
        obtain ⟨e1, e2⟩ := ih (l :: t) high (by simp only [List.length_cons]; omega) hwt
        refine ⟨?_, ?_⟩
        · rw [convert_utf16_to_utf32_loop, if_pos hu, e1]
        · intro c hc
          rcases List.mem_cons.1 hc with rfl | hc
          · omega
          · exact e2 c hc

theorem utf16_le_bom_mark (rest : List Nat) : utf16_le_bom (0xFF :: 0xFE :: rest) = true := by
  unfold utf16_le_bom
  rw [Bool.and_eq_true, decide_eq_true_eq, decide_eq_true_eq]
  refine ⟨?_, ?_⟩
  · simp only [List.length_cons]
    omega
  · simp only [le16, List.getD_cons_zero, List.getD_cons_succ]

/-- After the byte order mark the view of `convert_utf16_to_utf8` holds every code unit. -/
theorem convert_utf16_to_utf8_units (us : List Nat) :
    convert_utf16_to_utf8 (0xFF :: 0xFE :: utf16le_bytes us) =
      convert_utf32_to_utf8 (convert_utf16_to_utf32 us) := by
  unfold convert_utf16_to_utf8
  rw [utf16_le_bom_mark, if_pos rfl]
  have e : ((0xFF :: 0xFE :: utf16le_bytes us).length - 2) / 2 = us.length := by
    simp only [List.length_cons, utf16le_bytes_length]
    omega
  rw [e]
  show convert_utf32_to_utf8 (convert_utf16_to_utf32
    ((u16_units (utf16le_bytes us)).take us.length)) = _
  rw [u16_units_bytes, List.take_length]

theorem utf16_ascii : ∀ us : List Nat, (∀ u ∈ us, u < 0x80) →
    well_formed_utf16 us = true ∧ utf8_string (utf16_code_points us) = us
  | [], _ => ⟨rfl, rfl⟩
  | [u], h => by
    have hu := h u (List.mem_singleton.2 rfl)
    refine ⟨?_, ?_⟩
    · simp only [well_formed_utf16, is_high_surrogate, is_low_surrogate, Bool.and_eq_true,
        Bool.not_eq_true', decide_eq_true_eq, Bool.and_eq_false_iff, decide_eq_false_iff_not]
      omega
    · simp only [utf16_code_points, utf8_string, utf8_encode, if_pos hu, List.append_nil]
  | u :: l :: t, h => by
    have hu := h u (List.mem_cons_self _ _)
    obtain ⟨e1, e2⟩ := utf16_ascii (l :: t) (fun d hd => h d (List.mem_cons_of_mem _ hd))
    have hh : is_high_surrogate u = false := by
      simp only [is_high_surrogate, Bool.and_eq_false_iff, decide_eq_false_iff_not]
      omega
    have hlw : is_low_surrogate u = false := by
      simp only [is_low_surrogate, Bool.and_eq_false_iff, decide_eq_false_iff_not]
      omega
    refine ⟨?_, ?_⟩
    · rw [well_formed_utf16, hh, hlw, e1]
      simp
      omega
    · rw [utf16_code_points, hh]
      simp only [Bool.false_eq_true, if_false, utf8_string, e2, utf8_encode, if_pos hu]
      rfl

/-- C36: transcoding UTF-16 to UTF-8. For every well-formed sequence `us` of UTF-16 code
units, on the buffer made of the byte order mark `FF FE` and the code units low byte first,
`utf16_le_bom` holds and `convert_utf16_to_utf8` produces the standard UTF-8 encoding of
the code points of `us`, in order and without the mark; when every code unit is below
`0x80` the bytes produced are the code units themselves, one byte each. -/
theorem utf16_transcoding (us : List Nat) :
    (well_formed_utf16 us = true →
      utf16_le_bom (0xFF :: 0xFE :: utf16le_bytes us) = true ∧
      convert_utf16_to_utf8 (0xFF :: 0xFE :: utf16le_bytes us) =
        utf8_string (utf16_code_points us)) ∧
    ((∀ u ∈ us, u < 0x80) → convert_utf16_to_utf8 (0xFF :: 0xFE :: utf16le_bytes us) = us) := by
  have main : well_formed_utf16 us = true →
      convert_utf16_to_utf8 (0xFF :: 0xFE :: utf16le_bytes us) =
        utf8_string (utf16_code_points us) := by
    intro hw
    obtain ⟨e1, e2⟩ := convert_utf16_to_utf32_loop_eq us.length us 0 (Nat.le_refl _) hw
    rw [convert_utf16_to_utf8_units, convert_utf16_to_utf32, e1,
      convert_utf32_to_utf8_eq _ e2]
  refine ⟨fun hw => ⟨utf16_le_bom_mark _, main hw⟩, fun ha => ?_⟩
  obtain ⟨e1, e2⟩ := utf16_ascii us ha
  rw [main e1, e2]

/-- C36 at the text `Aé€` followed by U+1F600, and at the text `Hi`. -/
theorem utf16_transcoding_witness :
    well_formed_utf16 [0x41, 0xE9, 0x20AC, 0xD83D, 0xDE00] = true ∧
    convert_utf16_to_utf8
      [0xFF, 0xFE, 0x41, 0x00, 0xE9, 0x00, 0xAC, 0x20, 0x3D, 0xD8, 0x00, 0xDE] =
      [0x41, 0xC3, 0xA9, 0xE2, 0x82, 0xAC, 0xF0, 0x9F, 0x98, 0x80] ∧
    convert_utf16_to_utf8 [0xFF, 0xFE, 0x48, 0x00, 0x69, 0x00] = [0x48, 0x69] :=
  ⟨by decide,
    ((utf16_transcoding [0x41, 0xE9, 0x20AC, 0xD83D, 0xDE00]).1 (by decide)).2,
    (utf16_transcoding [0x48, 0x69]).2 (by decide)⟩

end valve
